import Mathlib

/-!
# Game of the Amazons: rules engine, move generator, search and loader

A shallow embedding of `src/chessboard.h`, `src/chessboard.cpp`, of the move
generator, the search, the endgame solver, the constructor and `makeNextMove`
of `src/bot.cpp`, and of the reading of the grid in `src/savegame.cpp`.

Conventions of the embedding:

* C++ `int` values are `Int`; every quantity stays within a few units of the
  board size, so machine overflow does not arise.
* `Chessboard::Board` (`std::array<std::array<Cell, 8>, 8>`) is a function of
  the two indices.  Only the cells with both indices in `[0, 8)` exist in the
  program.  In the mutators of `Chessboard` a read that the source does not
  guard is made with `readCell`, and an index out of range there is a fault,
  modelled by the result `none`.  The queries (`pathValid`, `canMove`,
  `getMoveRange`, `getTerritoryArea`) guard their accesses themselves or are
  called with on-board squares only; they read the board function directly.
* A `while`/`for` loop is a structurally recursive function over a fuel
  argument.  The path loops and the flood fill return `none` when the fuel runs
  out, so that a result `some _` always comes from a loop that has left
  through its own exit test.  The counting loops of `getMoveRange` return
  their counter; `countWhile_exit` shows that with the fuel they are given the
  exit test has failed at the returned count.
* Qt signals are recorded, in emission order, in the field `signals`.  The
  slot that a bot connects to `gameOver` runs inside the call that emits the
  signal (`Bot.deliver`); the timers that a bot starts are the events
  `Event.timer`, which may come at any moment.
* The values of `Bot::evalSandbox` are `double` in the source.  The search only
  compares and copies them; they are rationals here, the arithmetic of the
  evaluation is exact, and `std::pow` is a parameter of its definition.
-/

namespace Amazons

/-! ## Data model (`chessboard.h`) -/

/-- The enum `Chessboard::Cell`. -/
inductive Cell where
  | Empty
  | Block
  | White
  | Black
  deriving DecidableEq, Repr

/-- The enum `Chessboard::TurnState`. -/
inductive TurnState where
  | WhiteMove
  | WhiteShoot
  | BlackMove
  | BlackShoot
  deriving DecidableEq, Repr

/-- The enum `Chessboard::Winner`. -/
inductive Winner where
  | White
  | Black
  | Tie
  deriving DecidableEq, Repr

/-- The struct `Move`: start, target and shoot square, each `(row, col)`. -/
structure Move where
  startPos : Int × Int := (-1, -1)
  targetPos : Int × Int := (-1, -1)
  shootPos : Int × Int := (-1, -1)
  deriving DecidableEq, Repr

/-- The struct `MoveRange`. -/
structure MoveRange where
  up : Int := 0
  down : Int := 0
  left : Int := 0
  right : Int := 0
  upLeft : Int := 0
  upRight : Int := 0
  downLeft : Int := 0
  downRight : Int := 0
  territoryArea : Int := -1
  deriving DecidableEq, Repr

/-- The method `MoveRange::getTotalMoves`. -/
def MoveRange.getTotalMoves (m : MoveRange) : Int :=
  m.up + m.down + m.left + m.right + m.upLeft + m.upRight + m.downLeft + m.downRight

/-- The method `MoveRange::canMove`. -/
def MoveRange.canMove (m : MoveRange) : Bool :=
  decide (m.getTotalMoves > 0)

/-- The method `MoveRange::inClosedRegion`. -/
def MoveRange.inClosedRegion (m : MoveRange) : Bool :=
  decide (m.territoryArea ≥ 0)

/-- The type `Chessboard::Board`, indexed `board row col`. -/
abbrev Board := Int → Int → Cell

/-- Both indices are valid indices of the 8×8 array. -/
def inBoard (r c : Int) : Prop := 0 ≤ r ∧ r < 8 ∧ 0 ≤ c ∧ c < 8

instance (r c : Int) : Decidable (inBoard r c) := by
  unfold inBoard; infer_instance

/-- The assignment `board[row][col] = v`. -/
def setCell (b : Board) (row col : Int) (v : Cell) : Board :=
  fun i j => if i = row ∧ j = col then v else b i j

/-- An unguarded read `board[row][col]`: `none` when an index is out of range. -/
def readCell (b : Board) (row col : Int) : Option Cell :=
  if inBoard row col then some (b row col) else none

/-- The board given by its rows, every cell outside the listed ones `Empty`. -/
def boardOf (rows : List (List Cell)) : Board :=
  fun r c =>
    if 0 ≤ r ∧ 0 ≤ c then (rows.getD r.toNat []).getD c.toNat Cell.Empty else Cell.Empty

/-- The signals of `Chessboard` that the rules engine emits. -/
inductive Signal where
  | moveMade (move : Move) (isWhite : Bool)
  | gameOver (winner : Winner)
  deriving DecidableEq, Repr

/-- The fields of `Chessboard` that the rules engine reads or writes, and the
signals emitted so far. -/
structure Chessboard where
  m_board : Board
  m_selected : Int × Int
  m_turnState : TurnState
  m_history : List Move
  m_autoCheckGameOver : Bool
  m_currentMove : Move
  m_gameOver : Bool
  signals : List Signal

/-! ## `Chessboard::pathValid` -/

/-- The horizontal loop of `pathValid`:
`for (i = startCol + step; i != endCol; i += step) if (board[startRow][i] != Empty) return false;`
started at `i`.  `some true`: the loop ended without returning. -/
def rowLoop (b : Board) (startRow step endCol : Int) : Nat → Int → Option Bool
  | 0, _ => none
  | fuel + 1, i =>
    if i ≠ endCol then
      if b startRow i ≠ Cell.Empty then some false
      else rowLoop b startRow step endCol fuel (i + step)
    else some true

/-- The vertical loop of `pathValid`:
`for (i = startRow + step; i != endRow; i += step) if (board[i][startCol] != Empty) return false;`. -/
def colLoop (b : Board) (startCol step endRow : Int) : Nat → Int → Option Bool
  | 0, _ => none
  | fuel + 1, i =>
    if i ≠ endRow then
      if b i startCol ≠ Cell.Empty then some false
      else colLoop b startCol step endRow fuel (i + step)
    else some true

/-- The diagonal loop of `pathValid`:
`while (r != endRow || c != endCol) { if (board[r][c] != Empty) return false; r += stepRow; c += stepCol; }`. -/
def diagLoop (b : Board) (stepRow stepCol endRow endCol : Int) : Nat → Int → Int → Option Bool
  | 0, _, _ => none
  | fuel + 1, r, c =>
    if r ≠ endRow ∨ c ≠ endCol then
      if b r c ≠ Cell.Empty then some false
      else diagLoop b stepRow stepCol endRow endCol fuel (r + stepRow) (c + stepCol)
    else some true

/-- The method `Chessboard::pathValid`.  Each loop gets 8 units of fuel. -/
def pathValid (b : Board) (startRow startCol endRow endCol : Int) : Option Bool :=
  if startRow < 0 ∨ startRow ≥ 8 ∨ startCol < 0 ∨ startCol ≥ 8
      ∨ endRow < 0 ∨ endRow ≥ 8 ∨ endCol < 0 ∨ endCol ≥ 8 then
    some false
  else if b endRow endCol ≠ Cell.Empty then
    some false
  else
    let diffRow := endRow - startRow
    let diffCol := endCol - startCol
    if diffRow = 0 ∧ diffCol ≠ 0 then
      let step : Int := if diffCol > 0 then 1 else -1
      rowLoop b startRow step endCol 8 (startCol + step)
    else if diffRow ≠ 0 ∧ diffCol = 0 then
      let step : Int := if diffRow > 0 then 1 else -1
      colLoop b startCol step endRow 8 (startRow + step)
    else if (diffRow = diffCol ∧ diffRow ≠ 0) ∨ (diffRow = -diffCol ∧ diffRow ≠ 0) then
      let stepRow : Int := if diffRow > 0 then 1 else -1
      let stepCol : Int := if diffCol > 0 then 1 else -1
      diagLoop b stepRow stepCol endRow endCol 8 (startRow + stepRow) (startCol + stepCol)
    else some false

/-! ## `Chessboard::canMove`, `Chessboard::checkGameOver` -/

/-- The method `Chessboard::canMove`. -/
def canMove (b : Board) (row col : Int) : Bool :=
  if row < 0 ∨ row ≥ 8 ∨ col < 0 ∨ col ≥ 8 then false
  else if row > 0 ∧ b (row - 1) col = Cell.Empty then true
  else if row < 7 ∧ b (row + 1) col = Cell.Empty then true
  else if col > 0 ∧ b row (col - 1) = Cell.Empty then true
  else if col < 7 ∧ b row (col + 1) = Cell.Empty then true
  else if row > 0 ∧ col > 0 ∧ b (row - 1) (col - 1) = Cell.Empty then true
  else if row > 0 ∧ col < 7 ∧ b (row - 1) (col + 1) = Cell.Empty then true
  else if row < 7 ∧ col > 0 ∧ b (row + 1) (col - 1) = Cell.Empty then true
  else if row < 7 ∧ col < 7 ∧ b (row + 1) (col + 1) = Cell.Empty then true
  else false

/-- The inner loop `for (c ...)` of `checkGameOver` on row `r`, over the
remaining columns; the state is `(whiteCanMove, blackCanMove)`. -/
def scanRow (b : Board) (r : Int) : List Int → Bool × Bool → Bool × Bool
  | [], wb => wb
  | c :: cs, (whiteCanMove, blackCanMove) =>
    if b r c = Cell.White then
      if canMove b r c then
        if blackCanMove then (true, blackCanMove)
        else scanRow b r cs (true, blackCanMove)
      else scanRow b r cs (whiteCanMove, blackCanMove)
    else if b r c = Cell.Black then
      if canMove b r c then
        if whiteCanMove then (whiteCanMove, true)
        else scanRow b r cs (whiteCanMove, true)
      else scanRow b r cs (whiteCanMove, blackCanMove)
    else scanRow b r cs (whiteCanMove, blackCanMove)

/-- The indices `0, 1, ..., 7` of a `for (int i = 0; i < 8; i++)` loop. -/
def indices : List Int := [0, 1, 2, 3, 4, 5, 6, 7]

/-- The outer loop `for (r ...)` of `checkGameOver` over the remaining rows. -/
def scanRows (b : Board) : List Int → Bool × Bool → Bool × Bool
  | [], wb => wb
  | r :: rs, wb =>
    let wb1 := scanRow b r indices wb
    if wb1.1 && wb1.2 then wb1 else scanRows b rs wb1

/-- The method `Chessboard::onGameOver`. -/
def onGameOver (s : Chessboard) (winner : Winner) : Chessboard :=
  { s with m_gameOver := true, signals := s.signals ++ [Signal.gameOver winner] }

/-- The method `Chessboard::checkGameOver`. -/
def checkGameOver (s : Chessboard) : Bool × Chessboard :=
  if s.m_gameOver then (true, s)
  else
    let wb := scanRows s.m_board indices (false, false)
    let whiteCanMove := wb.1
    let blackCanMove := wb.2
    let s1 :=
      if !whiteCanMove && !blackCanMove then onGameOver s Winner.Tie
      else if !whiteCanMove then onGameOver s Winner.Black
      else if !blackCanMove then onGameOver s Winner.White
      else s
    (!(whiteCanMove && blackCanMove), s1)

/-! ## Selection, relocation, shooting, `makeMove`, `reset` -/

/-- The method `Chessboard::tryToClearSelected`. -/
def tryToClearSelected (s : Chessboard) : Bool × Chessboard :=
  if s.m_turnState = TurnState.WhiteMove ∨ s.m_turnState = TurnState.BlackMove then
    (true, { s with m_selected := (-1, -1) })
  else (false, s)

/-- The method `Chessboard::tryToSelect`. -/
def tryToSelect (s : Chessboard) (row col : Int) : Bool × Chessboard :=
  if row < 0 ∨ row ≥ 8 ∨ col < 0 ∨ col ≥ 8 then (false, s)
  else if (s.m_turnState = TurnState.WhiteMove ∧ s.m_board row col = Cell.White)
      ∨ (s.m_turnState = TurnState.BlackMove ∧ s.m_board row col = Cell.Black) then
    (true, { s with m_selected := (row, col) })
  else (false, s)

/-- The method `Chessboard::moveSelectedTo`.  The cell under the selection is
read without a bounds check. -/
def moveSelectedTo (s : Chessboard) (row col : Int) : Option (Bool × Chessboard) :=
  if s.m_selected.1 = -1 then some (false, s)
  else if s.m_turnState ≠ TurnState.WhiteMove ∧ s.m_turnState ≠ TurnState.BlackMove then
    some (false, s)
  else do
    let piece ← readCell s.m_board s.m_selected.1 s.m_selected.2
    if s.m_turnState = TurnState.WhiteMove ∧ piece ≠ Cell.White then some (false, s)
    else if s.m_turnState = TurnState.BlackMove ∧ piece ≠ Cell.Black then some (false, s)
    else do
      let valid ← pathValid s.m_board s.m_selected.1 s.m_selected.2 row col
      if !valid then some (false, s)
      else
        let current := { s.m_currentMove with startPos := (s.m_selected.1, s.m_selected.2) }
        let board1 := setCell s.m_board row col piece
        let board2 := setCell board1 s.m_selected.1 s.m_selected.2 Cell.Empty
        let turn :=
          if s.m_turnState = TurnState.WhiteMove then TurnState.WhiteShoot
          else if s.m_turnState = TurnState.BlackMove then TurnState.BlackShoot
          else s.m_turnState
        some (true, { s with
          m_board := board2
          m_selected := (row, col)
          m_turnState := turn
          m_currentMove := { current with targetPos := (row, col) } })

/-- The method `Chessboard::shootAt`.  The cell under the selection and the
cell under `m_currentMove.targetPos` (the argument of `moveMade`) are read
without a bounds check. -/
def shootAt (s : Chessboard) (row col : Int) : Option (Bool × Chessboard) :=
  if s.m_selected.1 = -1 then some (false, s)
  else if s.m_turnState ≠ TurnState.WhiteShoot ∧ s.m_turnState ≠ TurnState.BlackShoot then
    some (false, s)
  else do
    let piece ← readCell s.m_board s.m_selected.1 s.m_selected.2
    if s.m_turnState = TurnState.WhiteShoot ∧ piece ≠ Cell.White then some (false, s)
    else if s.m_turnState = TurnState.BlackShoot ∧ piece ≠ Cell.Black then some (false, s)
    else do
      let valid ← pathValid s.m_board s.m_selected.1 s.m_selected.2 row col
      if !valid then some (false, s)
      else
        let board1 := setCell s.m_board row col Cell.Block
        let turn :=
          if s.m_turnState = TurnState.WhiteShoot then TurnState.BlackMove
          else if s.m_turnState = TurnState.BlackShoot then TurnState.WhiteMove
          else s.m_turnState
        let current := { s.m_currentMove with shootPos := (row, col) }
        let moved ← readCell board1 current.targetPos.1 current.targetPos.2
        let s1 : Chessboard := { s with
          m_board := board1
          m_selected := (-1, -1)
          m_turnState := turn
          m_currentMove := current
          m_history := s.m_history ++ [current]
          signals := s.signals ++ [Signal.moveMade current (decide (moved = Cell.White))] }
        let s2 := if s1.m_autoCheckGameOver then (checkGameOver s1).2 else s1
        some (true, s2)

/-- The method `Chessboard::makeMove`.  The start cell is read without a
bounds check; `&&` evaluates its operands left to right and stops at the first
`false`. -/
def makeMove (s : Chessboard) (move : Move) : Option (Bool × Chessboard) := do
  let cell ← readCell s.m_board move.startPos.1 move.startPos.2
  if (cell = Cell.White ∧ s.m_turnState = TurnState.WhiteMove)
      ∨ (cell = Cell.Black ∧ s.m_turnState = TurnState.BlackMove) then
    let (selected, s1) := tryToSelect s move.startPos.1 move.startPos.2
    if !selected then some (false, s1)
    else do
      let (moved, s2) ← moveSelectedTo s1 move.targetPos.1 move.targetPos.2
      if !moved then some (false, s2)
      else do
        let (shot, s3) ← shootAt s2 move.shootPos.1 move.shootPos.2
        if !shot then some (false, s3)
        else some (true, (tryToClearSelected s3).2)
  else some (false, s)

/-- The board that `Chessboard::reset` builds: a value-initialised array (all
`Empty`) with the eight pieces placed. -/
def initialBoard : Board :=
  let b0 : Board := fun _ _ => Cell.Empty
  let b1 := setCell b0 0 2 Cell.Black
  let b2 := setCell b1 0 5 Cell.Black
  let b3 := setCell b2 2 0 Cell.Black
  let b4 := setCell b3 2 7 Cell.Black
  let b5 := setCell b4 7 2 Cell.White
  let b6 := setCell b5 7 5 Cell.White
  let b7 := setCell b6 5 0 Cell.White
  setCell b7 5 7 Cell.White

/-- The method `Chessboard::reset`. -/
def reset (s : Chessboard) : Chessboard :=
  { s with m_board := initialBoard, m_selected := (-1, -1), m_turnState := TurnState.WhiteMove }

/-! ## `Chessboard::getTerritoryArea` -/

/-- The eight guarded recursive calls of `getTerritoryArea`, in source order:
`if (guard) { int delta = getTerritoryArea(r, c, isWhite, board); if (delta == -1) return -1; area += delta; }`
for each `(guard, r, c)` of the list, then `return area`.  `visit` is the
recursive call; the board is the scratch board `*board`. -/
def exploreNeighbours (visit : Board → Int → Int → Option (Int × Board)) :
    List (Bool × Int × Int) → Int → Board → Option (Int × Board)
  | [], area, board => some (area, board)
  | (guard, r, c) :: rest, area, board =>
    if guard then
      match visit board r c with
      | none => none
      | some (delta, board1) =>
        if delta = -1 then some (-1, board1)
        else exploreNeighbours visit rest (area + delta) board1
    else exploreNeighbours visit rest area board

/-- The recursion of `Chessboard::getTerritoryArea` on the scratch board
(`board != nullptr`): the returned area and the scratch board afterwards.
The fuel bounds the recursion depth.  The source reads `(*board)[row][col]`
without a bounds check: `getMoveRange` calls it on an on-board square, and the
guards `row > 0`, `row < 7`, `col > 0`, `col < 7` keep the recursion on the
board. -/
def floodFill (isWhite : Bool) : Nat → Board → Int → Int → Option (Int × Board)
  | 0, _, _, _ => none
  | fuel + 1, board, row, col =>
    if board row col = (if isWhite then Cell.Black else Cell.White) then some (-1, board)
    else if board row col = Cell.Block then some (0, board)
    else
      exploreNeighbours (floodFill isWhite fuel)
        [ (decide (row > 0), row - 1, col),
          (decide (row < 7), row + 1, col),
          (decide (col > 0), row, col - 1),
          (decide (col < 7), row, col + 1),
          (decide (row > 0 ∧ col > 0), row - 1, col - 1),
          (decide (row > 0 ∧ col < 7), row - 1, col + 1),
          (decide (row < 7 ∧ col > 0), row + 1, col - 1),
          (decide (row < 7 ∧ col < 7), row + 1, col + 1) ]
        (if board row col = Cell.Empty then 1 else 0)
        (setCell board row col Cell.Block)

/-- The method `Chessboard::getTerritoryArea` called without a scratch board:
the fill runs on a copy of the board.  Every level of the recursion below the
first blocks one more of the 64 cells, so 65 levels are enough
(`floodFill_terminates`); the value for `none` is never taken. -/
def getTerritoryArea (b : Board) (row col : Int) (isWhite : Bool) : Int :=
  match floodFill isWhite 65 b row col with
  | some (area, _) => area
  | none => 0

/-! ## `Chessboard::getMoveRange`, `Chessboard::getMoveRangeIgnoring` -/

/-- A counting loop `while (cond(k)) k++;` started at `k`. -/
def countWhile (cond : Int → Bool) : Nat → Int → Int
  | 0, k => k
  | fuel + 1, k => if cond k then countWhile cond fuel (k + 1) else k

/-- The method `Chessboard::getMoveRange`. -/
def getMoveRange (b : Board) (row col : Int) : MoveRange :=
  if row < 0 ∨ row ≥ 8 ∨ col < 0 ∨ col ≥ 8 then {}
  else
    { up := countWhile (fun k => decide (row - k - 1 ≥ 0)
        && decide (b (row - k - 1) col = Cell.Empty)) 8 0
      down := countWhile (fun k => decide (row + k + 1 < 8)
        && decide (b (row + k + 1) col = Cell.Empty)) 8 0
      left := countWhile (fun k => decide (col - k - 1 ≥ 0)
        && decide (b row (col - k - 1) = Cell.Empty)) 8 0
      right := countWhile (fun k => decide (col + k + 1 < 8)
        && decide (b row (col + k + 1) = Cell.Empty)) 8 0
      upLeft := countWhile (fun k => decide (row - k - 1 ≥ 0) && decide (col - k - 1 ≥ 0)
        && decide (b (row - k - 1) (col - k - 1) = Cell.Empty)) 8 0
      upRight := countWhile (fun k => decide (row - k - 1 ≥ 0) && decide (col + k + 1 < 8)
        && decide (b (row - k - 1) (col + k + 1) = Cell.Empty)) 8 0
      downLeft := countWhile (fun k => decide (row + k + 1 < 8) && decide (col - k - 1 ≥ 0)
        && decide (b (row + k + 1) (col - k - 1) = Cell.Empty)) 8 0
      downRight := countWhile (fun k => decide (row + k + 1 < 8) && decide (col + k + 1 < 8)
        && decide (b (row + k + 1) (col + k + 1) = Cell.Empty)) 8 0
      territoryArea := getTerritoryArea b row col (decide (b row col = Cell.White)) }

/-- The method `Chessboard::getMoveRangeIgnoring`: the range it returns and
the board it leaves in `m_board`.  The source does not check `ignoreRow` and
`ignoreCol`; its callers pass the square of a piece. -/
def getMoveRangeIgnoring (b : Board) (row col ignoreRow ignoreCol : Int) : MoveRange × Board :=
  let originalCell := b ignoreRow ignoreCol
  let b1 := setCell b ignoreRow ignoreCol Cell.Empty
  let result := getMoveRange b1 row col
  (result, setCell b1 ignoreRow ignoreCol originalCell)

/-! ## `Bot::generateLegalMoves` -/

/-- The `switch (dir)` of `generateLegalMoves` that picks the step count. -/
def dirSteps (range : MoveRange) (dir : Nat) : Int :=
  match dir with
  | 0 => range.up
  | 1 => range.upRight
  | 2 => range.right
  | 3 => range.downRight
  | 4 => range.down
  | 5 => range.downLeft
  | 6 => range.left
  | 7 => range.upLeft
  | _ => 0

/-- The `switch (dir)` of `generateLegalMoves` that computes the square `s`
steps from `(r, c)` in direction `dir`. -/
def dirSquare (dir : Nat) (r c s : Int) : Int × Int :=
  match dir with
  | 0 => (r - s, c)
  | 1 => (r - s, c + s)
  | 2 => (r, c + s)
  | 3 => (r + s, c + s)
  | 4 => (r + s, c)
  | 5 => (r + s, c - s)
  | 6 => (r, c - s)
  | 7 => (r - s, c - s)
  | _ => (r, c)

/-- The values `1, 2, ..., n` of a loop `for (int s = 1; s <= n; ++s)`. -/
def stepsUpTo (n : Int) : List Int :=
  (List.range' 1 n.toNat).map (fun s : Nat => (s : Int))

/-- The two innermost loops of `generateLegalMoves`: the moves of the piece on
`(r, c)` to `(targetR, targetC)`, one per shoot square. -/
def shootMoves (b : Board) (r c targetR targetC : Int) : List Move :=
  let shootRange := (getMoveRangeIgnoring b targetR targetC r c).1
  (List.range 8).flatMap fun shootDir =>
    (stepsUpTo (dirSteps shootRange shootDir)).map fun ss =>
      { startPos := (r, c)
        targetPos := (targetR, targetC)
        shootPos := dirSquare shootDir targetR targetC ss }

/-- The body of the board scan of `generateLegalMoves` for the square
`(r, c)`: the moves appended to `moveList` there. -/
def pieceMoves (m_endgame : Bool) (b : Board) (isWhite : Bool) (r c : Int) : List Move :=
  if (isWhite = true ∧ b r c = Cell.White) ∨ (isWhite = false ∧ b r c = Cell.Black) then
    let range := getMoveRange b r c
    if !m_endgame && range.inClosedRegion then []
    else if !range.canMove then []
    else
      (List.range 8).flatMap fun dir =>
        (stepsUpTo (dirSteps range dir)).flatMap fun s =>
          shootMoves b r c (dirSquare dir r c s).1 (dirSquare dir r c s).2
  else []

/-- The method `Bot::generateLegalMoves` on the board `b` of the chosen
`Chessboard` (`m_chessboard` or `m_sandbox`), with the bot's flag `m_endgame`. -/
def generateLegalMoves (m_endgame : Bool) (b : Board) (isWhite : Bool) : List Move :=
  indices.flatMap fun r => indices.flatMap fun c => pieceMoves m_endgame b isWhite r c

/-- The constructor `Chessboard::Chessboard(whiteIsPlayer, blackIsPlayer, autoCheckGameOver)`:
an empty history, `m_gameOver = false`, then `reset()`. -/
def newChessboard (autoCheckGameOver : Bool) : Chessboard :=
  reset
    { m_board := fun _ _ => Cell.Empty
      m_selected := (-1, -1)
      m_turnState := TurnState.WhiteMove
      m_history := []
      m_autoCheckGameOver := autoCheckGameOver
      m_currentMove := {}
      m_gameOver := false
      signals := [] }

/-! ## Vocabulary of the specification

The notions below are not code of the repository: they are the words in which
the properties of the code are stated. -/

/-- The number of king steps between two squares (Chebyshev distance). -/
def lineDist (r c r1 c1 : Int) : Nat := max (r1 - r).natAbs (c1 - c).natAbs

/-- The squares `(r, c)` and `(r1, c1)` are different and lie on one row,
column or diagonal. -/
def sameLine (r c r1 c1 : Int) : Prop :=
  (r ≠ r1 ∨ c ≠ c1) ∧ (r = r1 ∨ c = c1 ∨ r1 - r = c1 - c ∨ r1 - r = -(c1 - c))

instance (r c r1 c1 : Int) : Decidable (sameLine r c r1 c1) := by
  unfold sameLine; infer_instance

/-- Every square strictly between `(r, c)` and `(r1, c1)` satisfies `P`: the
`j`-th square on the way, for `1 ≤ j < lineDist`, is `j` unit steps from
`(r, c)` towards `(r1, c1)`. -/
def betweenAll (P : Int → Int → Prop) (r c r1 c1 : Int) : Prop :=
  ∀ j : Nat, 1 ≤ j → j < lineDist r c r1 c1 →
    P (r + j * Int.sign (r1 - r)) (c + j * Int.sign (c1 - c))

instance (P : Int → Int → Prop) [∀ i j, Decidable (P i j)] (r c r1 c1 : Int) :
    Decidable (betweenAll P r c r1 c1) := by
  unfold betweenAll; infer_instance

/-- A clear queen line on board `b` from `(r, c)` to `(r1, c1)`: both squares
on the board, the end square `Empty`, the squares on one line, and every
square strictly between them `Empty`. -/
def clearLine (b : Board) (r c r1 c1 : Int) : Prop :=
  inBoard r c ∧ inBoard r1 c1 ∧ b r1 c1 = Cell.Empty ∧ sameLine r c r1 c1
    ∧ betweenAll (fun i j => b i j = Cell.Empty) r c r1 c1

instance (b : Board) (r c r1 c1 : Int) : Decidable (clearLine b r c r1 c1) := by
  unfold clearLine; infer_instance

/-- The cell `(r, c)` holds the piece of the side whose Move phase `t` is. -/
def ownPiece (t : TurnState) (b : Board) (r c : Int) : Prop :=
  (t = TurnState.WhiteMove ∧ b r c = Cell.White) ∨ (t = TurnState.BlackMove ∧ b r c = Cell.Black)

instance (t : TurnState) (b : Board) (r c : Int) : Decidable (ownPiece t b r c) := by
  unfold ownPiece; infer_instance

/-- The cell `(r, c)` holds the piece of the side whose Shoot phase `t` is. -/
def ownShooter (t : TurnState) (b : Board) (r c : Int) : Prop :=
  (t = TurnState.WhiteShoot ∧ b r c = Cell.White) ∨ (t = TurnState.BlackShoot ∧ b r c = Cell.Black)

/-- One step in the cycle WhiteMove → WhiteShoot → BlackMove → BlackShoot → WhiteMove. -/
def nextPhase : TurnState → TurnState
  | TurnState.WhiteMove => TurnState.WhiteShoot
  | TurnState.WhiteShoot => TurnState.BlackMove
  | TurnState.BlackMove => TurnState.BlackShoot
  | TurnState.BlackShoot => TurnState.WhiteMove

/-- The number of cells of the 8×8 board that hold `v`. -/
def countCells (b : Board) (v : Cell) : Nat :=
  ∑ p : Fin 8 × Fin 8, if b ((p.1 : Nat) : Int) ((p.2 : Nat) : Int) = v then 1 else 0

/-- One call of a mutator of `Chessboard`. -/
inductive Op where
  | tryToSelect (row col : Int)
  | tryToClearSelected
  | moveSelectedTo (row col : Int)
  | shootAt (row col : Int)
  | makeMove (move : Move)

/-- The state after one call, whatever it returned; `none` when the call faults. -/
def applyOp (s : Chessboard) : Op → Option Chessboard
  | Op.tryToSelect row col => some (tryToSelect s row col).2
  | Op.tryToClearSelected => some (tryToClearSelected s).2
  | Op.moveSelectedTo row col => (moveSelectedTo s row col).map Prod.snd
  | Op.shootAt row col => (shootAt s row col).map Prod.snd
  | Op.makeMove move => (makeMove s move).map Prod.snd

/-- The state after a sequence of calls. -/
def runOps (s : Chessboard) : List Op → Option Chessboard
  | [] => some s
  | op :: ops => (applyOp s op).bind fun s1 => runOps s1 ops

/-- Some cell among the (up to 8) cells adjacent to `(r, c)` is on the board
and `Empty`. -/
def hasEmptyNeighbour (b : Board) (r c : Int) : Prop :=
  ∃ dr ∈ [(-1 : Int), 0, 1], ∃ dc ∈ [(-1 : Int), 0, 1],
    (dr ≠ 0 ∨ dc ≠ 0) ∧ inBoard (r + dr) (c + dc) ∧ b (r + dr) (c + dc) = Cell.Empty

instance (b : Board) (r c : Int) : Decidable (hasEmptyNeighbour b r c) := by
  unfold hasEmptyNeighbour; infer_instance

/-- The colour `v` has a piece on the board with an `Empty` adjacent cell. -/
def hasMobilePiece (b : Board) (v : Cell) : Prop :=
  ∃ r ∈ indices, ∃ c ∈ indices, b r c = v ∧ hasEmptyNeighbour b r c

instance (b : Board) (v : Cell) : Decidable (hasMobilePiece b v) := by
  unfold hasMobilePiece; infer_instance

/-- With `sq j` the square at distance `j` in some direction, `k` is the
largest number such that the squares at distances `1..k` are all on the board
and all `Empty`. -/
def isReach (b : Board) (sq : Int → Int × Int) (k : Int) : Prop :=
  (∀ j : Int, 1 ≤ j → j ≤ k → inBoard (sq j).1 (sq j).2 ∧ b (sq j).1 (sq j).2 = Cell.Empty)
  ∧ ∀ k1 : Int,
      (∀ j : Int, 1 ≤ j → j ≤ k1 → inBoard (sq j).1 (sq j).2 ∧ b (sq j).1 (sq j).2 = Cell.Empty)
        → k1 ≤ k

/-- The opening move of the scenarios: the White piece on (5,0) goes to (5,3)
and shoots at (2,3). -/
def openingMove : Move := { startPos := (5, 0), targetPos := (5, 3), shootPos := (2, 3) }

/-- A move of the White piece on (5,0) to (5,3), legal in the starting
position, with a shot at (4,5), which is on no queen line from (5,3). -/
def badShotMove : Move := { startPos := (5, 0), targetPos := (5, 3), shootPos := (4, 5) }

/-- A board on which no Black piece has an `Empty` adjacent cell (the four
Black pieces fill the top left corner behind a wall of Block cells) and every
White piece has one. -/
def blackStuckBoard : Board :=
  boardOf
    [ [Cell.Black, Cell.Black, Cell.Block],
      [Cell.Black, Cell.Black, Cell.Block],
      [Cell.Block, Cell.Block, Cell.Block],
      [],
      [],
      [],
      [],
      [Cell.Empty, Cell.Empty, Cell.Empty, Cell.Empty, Cell.White, Cell.White, Cell.White,
        Cell.White] ]

/-- A `Chessboard` with the grid `b` and the phase `t`, nothing selected, an
empty history, automatic game-over checks on and the game not over. -/
def chessboardOf (b : Board) (t : TurnState) : Chessboard :=
  { m_board := b
    m_selected := (-1, -1)
    m_turnState := t
    m_history := []
    m_autoCheckGameOver := true
    m_currentMove := {}
    m_gameOver := false
    signals := [] }

/-- The board of the range scenario: empty except for a White piece on (3,3)
and a Black piece on (3,5). -/
def rangeScenarioBoard : Board :=
  boardOf
    [ [],
      [],
      [],
      [Cell.Empty, Cell.Empty, Cell.Empty, Cell.White, Cell.Empty, Cell.Black] ]

/-- The position after playing the moves of the list in order from `s`, each
of them accepted by `makeMove`; `none` when one is not accepted. -/
def playMoves (s : Chessboard) : List Move → Option Chessboard
  | [] => some s
  | m :: ms =>
    match makeMove s m with
    | some (true, s1) => playMoves s1 ms
    | _ => none

/-- Four opening moves after which the White piece on (7,0) is walled in with
the one Empty cell (7,1): White (5,0) → (7,0) shooting (6,1), Black (2,0) →
(3,0) shooting (6,0), White (7,2) → (7,3) shooting (7,2), Black (0,2) → (1,2)
shooting (6,2). -/
def enclosingMoves : List Move :=
  [ { startPos := (5, 0), targetPos := (7, 0), shootPos := (6, 1) },
    { startPos := (2, 0), targetPos := (3, 0), shootPos := (6, 0) },
    { startPos := (7, 2), targetPos := (7, 3), shootPos := (7, 2) },
    { startPos := (0, 2), targetPos := (1, 2), shootPos := (6, 2) } ]

/-- The move of the walled-in White piece: (7,0) → (7,1), shooting back at (7,0). -/
def cornerMove : Move := { startPos := (7, 0), targetPos := (7, 1), shootPos := (7, 0) }

/-! ## Vocabulary of the flood fill -/

/-- The cell kind of the pieces of a side. -/
def ownCell (isWhite : Bool) : Cell := if isWhite then Cell.White else Cell.Black

/-- The cell kind of the pieces of the opposing side. -/
def enemyCell (isWhite : Bool) : Cell := if isWhite then Cell.Black else Cell.White

/-- The cell `(r, c)` is on the board and is Empty or holds a piece of the side. -/
def passable (b : Board) (isWhite : Bool) (r c : Int) : Prop :=
  inBoard r c ∧ (b r c = Cell.Empty ∨ b r c = ownCell isWhite)

instance (b : Board) (isWhite : Bool) (r c : Int) : Decidable (passable b isWhite r c) := by
  unfold passable; infer_instance

/-- The squares `(r, c)` and `(r1, c1)` are 8-neighbours. -/
def adjacent (r c r1 c1 : Int) : Prop := lineDist r c r1 c1 = 1

instance (r c r1 c1 : Int) : Decidable (adjacent r c r1 c1) := by
  unfold adjacent; infer_instance

/-- The cell `(r1, c1)` is reachable from `(r, c)` by 8-neighbour steps through
cells that are Empty or hold a piece of the side, `(r, c)` being such a cell
itself: the connected component of `(r, c)`. -/
inductive Reach (b : Board) (isWhite : Bool) (r c : Int) : Int → Int → Prop where
  | start : passable b isWhite r c → Reach b isWhite r c r c
  | step {r1 c1 r2 c2 : Int} : Reach b isWhite r c r1 c1 → adjacent r1 c1 r2 c2
      → passable b isWhite r2 c2 → Reach b isWhite r c r2 c2

/-- Some cell of the component of `(r, c)` has an 8-neighbour on the board that
holds an opposing piece. -/
def touchesEnemy (b : Board) (isWhite : Bool) (r c : Int) : Prop :=
  ∃ i j i1 j1 : Int, Reach b isWhite r c i j ∧ adjacent i j i1 j1 ∧ inBoard i1 j1
    ∧ b i1 j1 = enemyCell isWhite

/-- The scratch board `b1` is the board `b` with some cells that were Empty or
held a piece of the side turned into Block. -/
def FillFrame (b b1 : Board) (isWhite : Bool) : Prop :=
  ∀ i j : Int, b1 i j = b i j ∨ (b1 i j = Cell.Block ∧ passable b isWhite i j)

/-- Every on-board 8-neighbour of a cell that the fill has changed is Block on
the scratch board. -/
def FillClosed (b b1 : Board) : Prop :=
  ∀ i j : Int, b1 i j ≠ b i j →
    ∀ i1 j1 : Int, adjacent i j i1 j1 → inBoard i1 j1 → b1 i1 j1 = Cell.Block

/-- The result `(a, b1)` of a fill from `(r, c)` on board `b` that has not met
an opposing piece. -/
structure FillOk (b : Board) (isWhite : Bool) (r c : Int) (a : Int) (b1 : Board) : Prop where
  frame : FillFrame b b1 isWhite
  sound : ∀ i j : Int, b1 i j ≠ b i j → Reach b isWhite r c i j
  start_blocked : b1 r c = Cell.Block
  closed : FillClosed b b1
  count : (countCells b1 Cell.Empty : Int) + a = countCells b Cell.Empty
  nonneg : 0 ≤ a

/-- A fill from `(r, c)` that returns -1 has met an opposing piece. -/
def FillAbort (b : Board) (isWhite : Bool) (r c : Int) : Prop :=
  b r c = enemyCell isWhite ∨ touchesEnemy b isWhite r c

/-- What a recursive call of `getTerritoryArea` on an on-board square does. -/
def VisitSpec (isWhite : Bool) (visit : Board → Int → Int → Option (Int × Board)) : Prop :=
  ∀ (b : Board) (r c : Int) (a : Int) (b1 : Board), inBoard r c → visit b r c = some (a, b1) →
    (a = -1 ∧ FillAbort b isWhite r c) ∨ FillOk b isWhite r c a b1

/-- The eight guarded neighbour calls of `getTerritoryArea` at `(row, col)`, in
source order: the list that `floodFill` passes to `exploreNeighbours`. -/
def fillNeighbours (row col : Int) : List (Bool × Int × Int) :=
  [ (decide (row > 0), row - 1, col),
    (decide (row < 7), row + 1, col),
    (decide (col > 0), row, col - 1),
    (decide (col < 7), row, col + 1),
    (decide (row > 0 ∧ col > 0), row - 1, col - 1),
    (decide (row > 0 ∧ col < 7), row - 1, col + 1),
    (decide (row < 7 ∧ col > 0), row + 1, col - 1),
    (decide (row < 7 ∧ col < 7), row + 1, col + 1) ]

/-- A board with a White piece in the corner (0,0) behind the Block cells
(0,1), (1,0), (1,1), and a Black piece far away on (7,7). -/
def corneredBoard : Board :=
  boardOf
    [ [Cell.White, Cell.Block],
      [Cell.Block, Cell.Block],
      [],
      [],
      [],
      [],
      [],
      [Cell.Empty, Cell.Empty, Cell.Empty, Cell.Empty, Cell.Empty, Cell.Empty, Cell.Empty,
        Cell.Black] ]

/-- A board with a White piece in the corner (0,0) whose adjacent cells are
the Black piece on (0,1) and the Block cells (1,0), (1,1). -/
def contactBoard : Board :=
  boardOf
    [ [Cell.White, Cell.Black],
      [Cell.Block, Cell.Block] ]

/-! ## `Bot`: the sandbox and the search (`bot.cpp`) -/

/-- The method `Bot::makeMoveInSandbox` on the sandbox `sb` of a bot that plays
White when `m_isWhite`.  The start cell is read without a bounds check. -/
def makeMoveInSandbox (m_isWhite : Bool) (sb : Chessboard) (move : Move)
    (skipOpponentTurn autoSetTurnState : Bool) : Option (Bool × Chessboard) := do
  let sb1 ←
    if autoSetTurnState then
      (readCell sb.m_board move.startPos.1 move.startPos.2).map fun cell =>
        { sb with
          m_turnState := if cell = Cell.White then TurnState.WhiteMove else TurnState.BlackMove }
    else some sb
  let (ok, sb2) ← makeMove sb1 move
  if ok then
    if skipOpponentTurn then
      some (true, { sb2 with
        m_turnState := if m_isWhite then TurnState.WhiteMove else TurnState.BlackMove })
    else some (true, sb2)
  else some (false, sb2)

/-- The method `Bot::reverseMoveInSandbox`.  The target cell is read, and the
three cells are written, without a bounds check. -/
def reverseMoveInSandbox (sb : Chessboard) (move : Move) : Option (Bool × Chessboard) := do
  let cell ← readCell sb.m_board move.targetPos.1 move.targetPos.2
  if cell = Cell.Empty ∨ cell = Cell.Block then some (false, sb)
  else if ¬ inBoard move.shootPos.1 move.shootPos.2 then none
  else if ¬ inBoard move.startPos.1 move.startPos.2 then none
  else
    let board1 := setCell sb.m_board move.shootPos.1 move.shootPos.2 Cell.Empty
    let board2 := setCell board1 move.startPos.1 move.startPos.2 cell
    let board3 := setCell board2 move.targetPos.1 move.targetPos.2 Cell.Empty
    some (true, { sb with m_board := board3 })

/-- The loop of the maximizing branch of `Bot::alphaBeta` over the rest of the
move list, with the current `maxEval`, `alpha`, `beta`; `search alpha beta` is
the recursive call `alphaBeta(depth - 1, alpha, beta, false)`. -/
def maxLoop (m_isWhite : Bool) (search : ℚ → ℚ → Chessboard → Option (ℚ × Chessboard)) :
    List Move → ℚ → ℚ → ℚ → Chessboard → Option (ℚ × Chessboard)
  | [], maxEval, _, _, sb => some (maxEval, sb)
  | move :: rest, maxEval, alpha, beta, sb =>
    match makeMoveInSandbox m_isWhite sb move true true with
    | none => none
    | some (false, sb1) => maxLoop m_isWhite search rest maxEval alpha beta sb1
    | some (true, sb1) =>
      match search alpha beta sb1 with
      | none => none
      | some (eval, sb2) =>
        match reverseMoveInSandbox sb2 move with
        | none => none
        | some (_, sb3) =>
          let maxEval1 := if eval > maxEval then eval else maxEval
          let alpha1 := if eval > alpha then eval else alpha
          if beta ≤ alpha1 then some (maxEval1, sb3)
          else maxLoop m_isWhite search rest maxEval1 alpha1 beta sb3

/-- The loop of the minimizing branch of `Bot::alphaBeta`; `search alpha beta`
is the recursive call `alphaBeta(depth - 1, alpha, beta, true)`. -/
def minLoop (m_isWhite : Bool) (search : ℚ → ℚ → Chessboard → Option (ℚ × Chessboard)) :
    List Move → ℚ → ℚ → ℚ → Chessboard → Option (ℚ × Chessboard)
  | [], minEval, _, _, sb => some (minEval, sb)
  | move :: rest, minEval, alpha, beta, sb =>
    match makeMoveInSandbox m_isWhite sb move true true with
    | none => none
    | some (false, sb1) => minLoop m_isWhite search rest minEval alpha beta sb1
    | some (true, sb1) =>
      match search alpha beta sb1 with
      | none => none
      | some (eval, sb2) =>
        match reverseMoveInSandbox sb2 move with
        | none => none
        | some (_, sb3) =>
          let minEval1 := if eval < minEval then eval else minEval
          let beta1 := if eval < beta then eval else beta
          if beta1 ≤ alpha then some (minEval1, sb3)
          else minLoop m_isWhite search rest minEval1 alpha beta1 sb3

/-- The method `Bot::alphaBeta` on the sandbox `sb`: the value it returns and
the sandbox afterwards.  `evalSandbox` is the leaf evaluation: in the source a
floating-point function of the sandbox board and of fields of the bot that the
search does not write; the search only compares and copies its values, which
are rationals here.  The fuel bounds the recursion depth. -/
def alphaBeta (evalSandbox : Board → ℚ) (m_isWhite m_endgame : Bool) :
    Nat → Int → ℚ → ℚ → Bool → Chessboard → Option (ℚ × Chessboard)
  | 0, _, _, _, _, _ => none
  | fuel + 1, depth, alpha, beta, maximizingPlayer, sb =>
    if depth = 0 then some (evalSandbox sb.m_board, sb)
    else
      let currentSideIsWhite := if maximizingPlayer then m_isWhite else !m_isWhite
      let moves := generateLegalMoves m_endgame sb.m_board currentSideIsWhite
      if moves.isEmpty then
        some (if maximizingPlayer then -10000000000 else 10000000000, sb)
      else if maximizingPlayer then
        maxLoop m_isWhite
          (fun a b s => alphaBeta evalSandbox m_isWhite m_endgame fuel (depth - 1) a b false s)
          moves (-100000000000) alpha beta sb
      else
        minLoop m_isWhite
          (fun a b s => alphaBeta evalSandbox m_isWhite m_endgame fuel (depth - 1) a b true s)
          moves 100000000000 alpha beta sb

/-- The loop of `Bot::getBestMove` over the rest of the move list, with the
current `bestMove`, `maxEval`, `alpha`, `beta`; `search alpha beta` is the call
`alphaBeta(depth - 1, alpha, beta, false)`. -/
def rootLoop (m_isWhite : Bool) (search : ℚ → ℚ → Chessboard → Option (ℚ × Chessboard)) :
    List Move → Move → ℚ → ℚ → ℚ → Chessboard → Option (Move × Chessboard)
  | [], bestMove, _, _, _, sb => some (bestMove, sb)
  | move :: rest, bestMove, maxEval, alpha, beta, sb =>
    match makeMoveInSandbox m_isWhite sb move true true with
    | none => none
    | some (false, sb1) => rootLoop m_isWhite search rest bestMove maxEval alpha beta sb1
    | some (true, sb1) =>
      match search alpha beta sb1 with
      | none => none
      | some (eval, sb2) =>
        match reverseMoveInSandbox sb2 move with
        | none => none
        | some (_, sb3) =>
          let bestMove1 := if eval > maxEval then move else bestMove
          let maxEval1 := if eval > maxEval then eval else maxEval
          let alpha1 := if eval > alpha then eval else alpha
          rootLoop m_isWhite search rest bestMove1 maxEval1 alpha1 beta sb3

/-- The method `Bot::getBestMove` on the sandbox `sb`: the move it returns and
the sandbox afterwards.  Every level of `alphaBeta` below a move has one Empty
cell fewer, so 65 levels are enough (`alphaBeta_total`). -/
def getBestMove (evalSandbox : Board → ℚ) (m_isWhite m_endgame : Bool) (depth : Int)
    (sb : Chessboard) : Option (Move × Chessboard) :=
  let moves := generateLegalMoves m_endgame sb.m_board m_isWhite
  if moves.isEmpty then some ({}, sb)
  else
    match rootLoop m_isWhite
        (fun a b s => alphaBeta evalSandbox m_isWhite m_endgame 65 (depth - 1) a b false s)
        moves {} (-100000000000) (-100000000000) 100000000000 sb with
    | none => none
    | some (bestMove, sb1) =>
      if bestMove.startPos.1 = -1 ∧ ¬ moves.isEmpty then
        match moves with
        | [] => none
        | first :: _ => some (first, sb1)
      else some (bestMove, sb1)

/-- The board after the piece on the start square of `m` has gone to the target
square and shot at the shoot square. -/
def applyMove (b : Board) (m : Move) : Board :=
  setCell (setCell (setCell b m.targetPos.1 m.targetPos.2 (b m.startPos.1 m.startPos.2))
    m.startPos.1 m.startPos.2 Cell.Empty) m.shootPos.1 m.shootPos.2 Cell.Block

/-- Plain minimax without pruning, `depth` plies deep, for a bot that plays
White when `m_isWhite`: the leaf evaluation at depth 0; at a node without a
generated move -1e10 for the maximizer and 1e10 for the minimizer; otherwise
the greatest (maximizer) or least (minimizer) value of the children, taken over
the list of `generateLegalMoves` for the side to move in its order. -/
def minimax (evalSandbox : Board → ℚ) (m_isWhite m_endgame : Bool) : Nat → Bool → Board → ℚ
  | 0, _, b => evalSandbox b
  | depth + 1, maximizingPlayer, b =>
    match (generateLegalMoves m_endgame b (if maximizingPlayer then m_isWhite else !m_isWhite)).map
        (fun m => minimax evalSandbox m_isWhite m_endgame depth (!maximizingPlayer)
          (applyMove b m)) with
    | [] => if maximizingPlayer then -10000000000 else 10000000000
    | v :: vs => if maximizingPlayer then vs.foldl max v else vs.foldl min v

/-- The move `m` is legal on the board `b` for the piece on its start square:
the target is reached along a clear line, and the shoot square along a line
that is clear once the start square is vacated. -/
def legalOn (b : Board) (m : Move) : Prop :=
  inBoard m.startPos.1 m.startPos.2
    ∧ (b m.startPos.1 m.startPos.2 = Cell.White ∨ b m.startPos.1 m.startPos.2 = Cell.Black)
    ∧ clearLine b m.startPos.1 m.startPos.2 m.targetPos.1 m.targetPos.2
    ∧ clearLine (setCell b m.startPos.1 m.startPos.2 Cell.Empty)
        m.targetPos.1 m.targetPos.2 m.shootPos.1 m.shootPos.2

instance (b : Board) (m : Move) : Decidable (legalOn b m) := by
  unfold legalOn; infer_instance

/-- The relation between the value `v` of a node and the value `v1` that a
search with the window `(alpha, beta)` returns for it: exact inside the window,
on the same side of the window outside it. -/
def Bounds (alpha beta v v1 : ℚ) : Prop :=
  (v ≤ alpha → v1 ≤ alpha) ∧ (beta ≤ v → beta ≤ v1) ∧ (alpha < v → v < beta → v1 = v)

/-- A sandbox with the grid `b` and the phase `t`: the `Chessboard` that the
constructor of `Bot` builds with `autoCheckGameOver = false`. -/
def sandboxOf (b : Board) (t : TurnState) : Chessboard :=
  { chessboardOf b t with m_autoCheckGameOver := false }

/-- A board of Block cells except for the top row, which begins with a White
piece on (0,0), the Empty cells (0,1) and (0,2), and a Black piece on (0,3). -/
def narrowBoard : Board :=
  boardOf
    [ [Cell.White, Cell.Empty, Cell.Empty, Cell.Black, Cell.Block, Cell.Block, Cell.Block,
        Cell.Block],
      List.replicate 8 Cell.Block, List.replicate 8 Cell.Block, List.replicate 8 Cell.Block,
      List.replicate 8 Cell.Block, List.replicate 8 Cell.Block, List.replicate 8 Cell.Block,
      List.replicate 8 Cell.Block ]

/-- A leaf evaluation below the initial `maxEval` of the search: -3e11 on the
boards with a Block on (0,2) and -2e11 on the others. -/
def lowEval (b : Board) : ℚ :=
  if b 0 2 = Cell.Block then -300000000000 else -200000000000

/-- The White piece of `narrowBoard` steps to (0,1) and shoots at (0,2). -/
def stepShootAhead : Move := { startPos := (0, 0), targetPos := (0, 1), shootPos := (0, 2) }

/-- The White piece of `narrowBoard` steps to (0,1) and shoots back at (0,0). -/
def stepShootBack : Move := { startPos := (0, 0), targetPos := (0, 1), shootPos := (0, 0) }

/-- A leaf evaluation inside the window of the search: -3 on the boards with
a Block on (0,2) and 2 on the others. -/
def smallEval (b : Board) : ℚ :=
  if b 0 2 = Cell.Block then -3 else 2

/-! ## `Bot`: the endgame solver (`bot.cpp`) -/

/-- The struct `Bot::AllMoves`; each `std::array` of four is a list of length
four, value-initialised. -/
structure AllMoves where
  positions : List (Int × Int) := List.replicate 4 (0, 0)
  moves : List MoveRange := List.replicate 4 {}
  moveOpts : Int := 0
  shootOpts : List Int := []
  actionCount : Int := 0

/-- The fields of `Bot` that the endgame solver reads or writes. -/
structure Bot where
  m_chessboard : Chessboard
  m_sandbox : Chessboard
  m_isWhite : Bool
  m_gameOver : Bool
  m_endgame : Bool
  m_endgameMoves : List Move
  m_endgameVisited : List Board

/-- The squares of the board in the order of the scan
`for (r = 0; r < 8; r++) for (c = 0; c < 8; c++)`. -/
def squares : List (Int × Int) := indices.flatMap fun r => indices.map fun c => (r, c)

/-- The two inner loops of `getAllMovesForSide` for the piece on `(r, c)`: the
numbers appended to `shootOpts`, one per destination of the piece. -/
def shootOptsFor (b : Board) (r c : Int) (range : MoveRange) : List Int :=
  (List.range 8).flatMap fun dir =>
    (stepsUpTo (dirSteps range dir)).map fun step =>
      (getMoveRangeIgnoring b (dirSquare dir r c step).1 (dirSquare dir r c step).2
        r c).1.getTotalMoves

/-- The body of the scan of `getAllMovesForSide` for a piece of the side on
`(r, c)`: the new `index` and `allMoves`.  The arrays are written at `index`
without a bounds check. -/
def recordPiece (m_endgame : Bool) (b : Board) (r c : Int) (index : Nat) (allMoves : AllMoves) :
    Option (Nat × AllMoves) :=
  if index < 4 then
    let range := getMoveRange b r c
    let allMoves1 : AllMoves :=
      { allMoves with
        positions := (allMoves.positions.set index (r, c))
        moves := (allMoves.moves.set index range) }
    if !m_endgame && range.inClosedRegion then some (index + 1, allMoves1)
    else
      let opts := shootOptsFor b r c range
      some (index + 1,
        { allMoves1 with
          moveOpts := (allMoves1.moveOpts + range.getTotalMoves)
          shootOpts := (allMoves1.shootOpts ++ opts)
          actionCount := (allMoves1.actionCount + opts.sum) })
  else none

/-- The scan of `getAllMovesForSide` over the rest of the squares. -/
def scanPieces (m_endgame : Bool) (b : Board) (isWhite : Bool) :
    List (Int × Int) → Nat → AllMoves → Option (Nat × AllMoves)
  | [], index, allMoves => some (index, allMoves)
  | p :: rest, index, allMoves =>
    if (isWhite = true ∧ b p.1 p.2 = Cell.White) ∨ (isWhite = false ∧ b p.1 p.2 = Cell.Black) then
      match recordPiece m_endgame b p.1 p.2 index allMoves with
      | none => none
      | some (index1, allMoves1) => scanPieces m_endgame b isWhite rest index1 allMoves1
    else scanPieces m_endgame b isWhite rest index allMoves

/-- The method `Bot::getAllMovesForSide` on the board `b` of the chosen
`Chessboard`, with the bot's flag `m_endgame`. -/
def getAllMovesForSide (m_endgame : Bool) (b : Board) (isWhite : Bool) : Option AllMoves :=
  (scanPieces m_endgame b isWhite squares 0 {}).map Prod.snd

/-- The method `Bot::resetSandbox`. -/
def resetSandbox (bot : Bot) : Bot :=
  { bot with
    m_sandbox :=
      { bot.m_sandbox with
        m_board := bot.m_chessboard.m_board
        m_turnState := bot.m_chessboard.m_turnState } }

/-- The loop `for (; index < 4; index++)` of `getEndgameMoves` over the rest of
the indices: the final `index` and `piecePos`. -/
def firstMobile (allMoves : AllMoves) : List Nat → Int × Int → Nat × (Int × Int)
  | [], piecePos => (4, piecePos)
  | index :: rest, piecePos =>
    if (allMoves.moves.getD index {}).getTotalMoves > 0 then
      (index, allMoves.positions.getD index (0, 0))
    else firstMobile allMoves rest piecePos

/-- Equality of two boards as 8×8 arrays (the key comparison of
`QSet<Chessboard::Board>`). -/
def boardEq (b1 b2 : Board) : Bool :=
  squares.all fun p => decide (b1 p.1 p.2 = b2 p.1 p.2)

/-- The backtracking loop of `getEndgameMoves` over the rest of `pieceMoves`,
with the current `bestMoves`; `search` is the recursive call and `area` is
`range.territoryArea`. -/
def searchLoop (search : Bot → Int × Int → Option (List Move × Bot)) (area : Int) :
    List Move → List Move → Bot → Option (List Move × Bot)
  | [], bestMoves, bot => some (bestMoves, bot)
  | move :: rest, bestMoves, bot =>
    match makeMoveInSandbox bot.m_isWhite bot.m_sandbox move true true with
    | none => none
    | some (false, sb1) =>
      if area = bestMoves.length then some (bestMoves, { bot with m_sandbox := sb1 })
      else searchLoop search area rest bestMoves { bot with m_sandbox := sb1 }
    | some (true, sb1) =>
      match search { bot with m_sandbox := sb1 } move.targetPos with
      | none => none
      | some (followingMoves, bot2) =>
        let bestMoves1 :=
          if followingMoves.length + 1 > bestMoves.length then move :: followingMoves
          else bestMoves
        match reverseMoveInSandbox bot2.m_sandbox move with
        | none => none
        | some (_, sb3) =>
          if area = bestMoves1.length then some (bestMoves1, { bot2 with m_sandbox := sb3 })
          else searchLoop search area rest bestMoves1 { bot2 with m_sandbox := sb3 }

/-- The method `Bot::getEndgameMoves`: the plan it returns and the bot
afterwards.  The fuel bounds the recursion depth.  `allMoves.moves[index]` is
read without a bounds check after the loop. -/
def getEndgameMoves : Nat → Bot → Int × Int → Option (List Move × Bot)
  | 0, _, _ => none
  | fuel + 1, bot, piecePos =>
    if piecePos.1 = -1 then
      match getAllMovesForSide bot.m_endgame bot.m_chessboard.m_board bot.m_isWhite with
      | none => none
      | some allMoves =>
        let bot1 := resetSandbox { bot with m_endgameMoves := [], m_endgameVisited := [] }
        let found := firstMobile allMoves [0, 1, 2, 3] piecePos
        match allMoves.moves.get? found.1 with
        | none => none
        | some curMoveRange =>
          if curMoveRange.territoryArea > 12 then
            let allLegalMoves :=
              generateLegalMoves bot1.m_endgame bot1.m_sandbox.m_board bot1.m_isWhite
            match allLegalMoves.filter (fun move => decide (move.startPos = found.2)) with
            | move :: _ => some ([move], bot1)
            | [] => some ([], bot1)
          else getEndgameMoves fuel bot1 found.2
    else
      let board := bot.m_sandbox.m_board
      if bot.m_endgameVisited.any (boardEq board) then some ([], bot)
      else
        let bot1 := { bot with m_endgameVisited := board :: bot.m_endgameVisited }
        let range := getMoveRange bot1.m_sandbox.m_board piecePos.1 piecePos.2
        let allLegalMoves :=
          generateLegalMoves bot1.m_endgame bot1.m_sandbox.m_board bot1.m_isWhite
        let pieceMoves := allLegalMoves.filter (fun move => decide (move.startPos = piecePos))
        searchLoop (getEndgameMoves fuel) range.territoryArea pieceMoves [] bot1

/-- The method `Bot::reset`. -/
def Bot.reset (bot : Bot) : Bot :=
  { bot with
    m_endgame := false
    m_endgameMoves := []
    m_endgameVisited := []
    m_sandbox := Amazons.reset bot.m_sandbox }

/-- The slot that the constructor of `Bot` connects to the signal `gameOver`
of the real board: `m_gameOver = true; reset();`. -/
def Bot.gameOverSlot (bot : Bot) : Bot :=
  Bot.reset { bot with m_gameOver := true }

/-- The signal is `gameOver`. -/
def Signal.isGameOver : Signal → Bool
  | Signal.gameOver _ => true
  | Signal.moveMade _ _ => false

/-- The bot after a call of a method of the real board that has left the board
as `s1`.  The slots of the bot are connected directly, so they run inside the
call, at the `emit`: the slot of `gameOver` runs when the signals of `s1`
beyond those of the board before the call hold a `gameOver`.  The slot of
`moveMade` only starts a timer for `makeNextMove`; neither slot touches the
board. -/
def Bot.deliver (bot : Bot) (s1 : Chessboard) : Bot :=
  if (s1.signals.drop bot.m_chessboard.signals.length).any Signal.isGameOver then
    Bot.gameOverSlot { bot with m_chessboard := s1 }
  else { bot with m_chessboard := s1 }

/-- The method `Bot::makeMoveInEndgame`.  Every level of `getEndgameMoves`
below the first two has one Empty cell fewer, so 66 levels are enough.  The
slot of `gameOver` runs inside `m_chessboard->makeMove(move)`, after
`takeFirst()`. -/
def makeMoveInEndgame (bot : Bot) : Option (Bool × Bot) := do
  let bot1 ←
    if bot.m_endgameMoves.length = 0 then
      (getEndgameMoves 66 bot (-1, -1)).map fun r => { r.2 with m_endgameMoves := r.1 }
    else some bot
  match bot1.m_endgameMoves with
  | move :: rest =>
    (makeMove bot1.m_chessboard move).map fun r =>
      (r.1, Bot.deliver { bot1 with m_endgameMoves := rest } r.2)
  | [] => some (false, bot1)

/-- The squares that hold a piece of the side, in scan order. -/
def piecesOf (b : Board) (isWhite : Bool) : List (Int × Int) :=
  squares.filter fun p => decide (b p.1 p.2 = ownCell isWhite)

/-- The first piece of the side, in scan order, with a destination. -/
def firstMobilePiece (b : Board) (isWhite : Bool) : Option (Int × Int) :=
  (piecesOf b isWhite).find? fun p => decide ((getMoveRange b p.1 p.2).getTotalMoves > 0)

/-- A sequence of consecutive legal moves made by the one piece of the side
that stands on `p`, starting from the board `b`: each move starts where the
piece stands, is legal on the board that the moves before it have left, and
leaves the piece on its target. -/
def pieceChain (isWhite : Bool) : Board → Int × Int → List Move → Prop
  | _, _, [] => True
  | b, p, m :: ms =>
    m.startPos = p ∧ b p.1 p.2 = ownCell isWhite ∧ legalOn b m
      ∧ pieceChain isWhite (applyMove b m) m.targetPos ms

/-- A bot in endgame mode on the real board `b` with the side `isWhite`, to
move, an empty plan and an empty visited set. -/
def endgameBot (b : Board) (isWhite : Bool) : Bot :=
  { m_chessboard := chessboardOf b (if isWhite then TurnState.WhiteMove else TurnState.BlackMove)
    m_sandbox := sandboxOf initialBoard TurnState.WhiteMove
    m_isWhite := isWhite
    m_gameOver := false
    m_endgame := true
    m_endgameMoves := []
    m_endgameVisited := [] }

/-- A board whose two top rows are a room of fifteen Empty cells with a White
piece on (0,0), closed by a row of Block cells; a Black piece stands far away on
(7,7). -/
def roomBoard : Board :=
  boardOf
    [ [Cell.White],
      [],
      List.replicate 8 Cell.Block,
      [],
      [],
      [],
      [],
      [Cell.Empty, Cell.Empty, Cell.Empty, Cell.Empty, Cell.Empty, Cell.Empty, Cell.Empty,
        Cell.Black] ]

/-- The moves of the piece on `p` in the list of `generateLegalMoves` in endgame
mode: the list `pieceMoves` of `getEndgameMoves`. -/
def pieceMovesAt (b : Board) (isWhite : Bool) (p : Int × Int) : List Move :=
  (generateLegalMoves true b isWhite).filter fun move => decide (move.startPos = p)

/-- The positions that the piece on `p` can bring about from the board `b` by
consecutive legal moves: the board and the square of the piece. -/
inductive Derives (isWhite : Bool) (b : Board) (p : Int × Int) : Board → Int × Int → Prop where
  | root : Derives isWhite b p b p
  | step {y : Board} {q : Int × Int} {m : Move} : Derives isWhite b p y q →
      m ∈ pieceMovesAt y isWhite q → Derives isWhite b p (applyMove y m) m.targetPos

/-- The board `y` is in the visited set `visited`. -/
def seen (visited : List Board) (y : Board) : Prop := visited.any (boardEq y) = true

/-- What a call of the backtracking search at the board `x` with the piece on
`px` and the visited set `visited` has achieved when it returns `plan` and
leaves the visited set `visited1`: the plan is a chain of moves of the piece;
the visited set has grown and contains `x`; every board added lies no deeper
than the plan is long and either has all its children in the visited set or
has no chain that would go beyond the length of the plan. -/
structure SearchPost (isWhite : Bool) (x : Board) (px : Int × Int) (visited : List Board)
    (plan : List Move) (visited1 : List Board) : Prop where
  chain : pieceChain isWhite x px plan
  mono : ∀ y, y ∈ visited → y ∈ visited1
  seenRoot : seen visited1 x
  fresh : ∀ y, y ∈ visited1 → y ∉ visited → ∃ q, Derives isWhite x px y q
    ∧ (countCells x Cell.Empty : Int) - countCells y Cell.Empty ≤ plan.length
    ∧ ((∀ m ∈ pieceMovesAt y isWhite q, seen visited1 (applyMove y m))
        ∨ ∀ ms, pieceChain isWhite y q ms →
            (countCells x Cell.Empty : Int) - countCells y Cell.Empty + ms.length ≤ plan.length)

/-- The board `y`, visited in a search from `(x, px)`, is accounted for by a
plan of length `n`: it derives from `(x, px)`, lies no deeper than `n`, and
either all its children are in the visited set or none of its chains goes
beyond depth `n`. -/
def NodeDone (isWhite : Bool) (x : Board) (px : Int × Int) (visited : List Board) (n : Nat)
    (y : Board) : Prop :=
  ∃ q, Derives isWhite x px y q
    ∧ (countCells x Cell.Empty : Int) - countCells y Cell.Empty ≤ n
    ∧ ((∀ m ∈ pieceMovesAt y isWhite q, seen visited (applyMove y m))
        ∨ ∀ ms, pieceChain isWhite y q ms →
            (countCells x Cell.Empty : Int) - countCells y Cell.Empty + ms.length ≤ n)

/-- A board of Block cells except for a pocket in the top left corner: a White
piece on (0,0) and the Empty cells (0,1), (0,2) and (1,0); a Black piece stands
on (7,7). -/
def pocketBoard : Board :=
  boardOf
    [ [Cell.White, Cell.Empty, Cell.Empty, Cell.Block, Cell.Block, Cell.Block, Cell.Block,
        Cell.Block],
      [Cell.Empty, Cell.Block, Cell.Block, Cell.Block, Cell.Block, Cell.Block, Cell.Block,
        Cell.Block],
      List.replicate 8 Cell.Block, List.replicate 8 Cell.Block, List.replicate 8 Cell.Block,
      List.replicate 8 Cell.Block, List.replicate 8 Cell.Block,
      [Cell.Block, Cell.Block, Cell.Block, Cell.Block, Cell.Block, Cell.Block, Cell.Block,
        Cell.Black] ]

/-- The eight steps of a king. -/
def kingSteps : List (Int × Int) :=
  [(-1, -1), (-1, 0), (-1, 1), (0, -1), (0, 1), (1, -1), (1, 0), (1, 1)]

/-- Each cell of the list is adjacent to the one before it, the first to `a`. -/
def chained : Int × Int → List (Int × Int) → Prop
  | _, [] => True
  | a, d :: rest => adjacent a.1 a.2 d.1 d.2 ∧ chained d rest

instance chainedDecidable : ∀ (a : Int × Int) (cs : List (Int × Int)), Decidable (chained a cs)
  | _, [] => isTrue trivial
  | a, d :: rest =>
    have : Decidable (chained d rest) := chainedDecidable d rest
    inferInstanceAs (Decidable (adjacent a.1 a.2 d.1 d.2 ∧ chained d rest))

/-- The piece of the side on `c0` is confined to a corridor: `cs` lists `N`
different Empty cells, the first adjacent to `c0` and each next one adjacent to
the one before, and every other on-board cell adjacent to `c0` or to a cell of
`cs` is a Block. -/
def Corridor (isWhite : Bool) (b : Board) (c0 : Int × Int) (cs : List (Int × Int)) : Prop :=
  inBoard c0.1 c0.2 ∧ b c0.1 c0.2 = ownCell isWhite
    ∧ (∀ c ∈ cs, inBoard c.1 c.2 ∧ b c.1 c.2 = Cell.Empty)
    ∧ cs.Nodup
    ∧ chained c0 cs
    ∧ ∀ c ∈ c0 :: cs, ∀ d ∈ kingSteps, inBoard (c.1 + d.1) (c.2 + d.2) →
        (c.1 + d.1, c.2 + d.2) ∈ c0 :: cs ∨ b (c.1 + d.1) (c.2 + d.2) = Cell.Block

instance (isWhite : Bool) (b : Board) (c0 : Int × Int) (cs : List (Int × Int)) :
    Decidable (Corridor isWhite b c0 cs) := by
  unfold Corridor; infer_instance

/-- The cells of the list do not branch: two cells are adjacent only when they
follow each other in the list. -/
def nonBranching (cells : List (Int × Int)) : Prop :=
  ∀ i ∈ List.range cells.length, ∀ j ∈ List.range cells.length, i + 1 < j →
    ¬ adjacent (cells.getD i (0, 0)).1 (cells.getD i (0, 0)).2
        (cells.getD j (0, 0)).1 (cells.getD j (0, 0)).2

instance (cells : List (Int × Int)) : Decidable (nonBranching cells) := by
  unfold nonBranching; infer_instance

/-- A board of Block cells except for a White piece on (0,0), a corridor of
thirteen Empty cells that runs from (0,1) along the top row to (0,6), turns at
(1,7) and runs back along the third row from (2,6) to (2,1), and a Black piece
on (7,7). -/
def corridorBoard : Board :=
  boardOf
    [ [Cell.White, Cell.Empty, Cell.Empty, Cell.Empty, Cell.Empty, Cell.Empty, Cell.Empty,
        Cell.Block],
      [Cell.Block, Cell.Block, Cell.Block, Cell.Block, Cell.Block, Cell.Block, Cell.Block,
        Cell.Empty],
      [Cell.Block, Cell.Empty, Cell.Empty, Cell.Empty, Cell.Empty, Cell.Empty, Cell.Empty,
        Cell.Block],
      List.replicate 8 Cell.Block, List.replicate 8 Cell.Block, List.replicate 8 Cell.Block,
      List.replicate 8 Cell.Block,
      [Cell.Block, Cell.Block, Cell.Block, Cell.Block, Cell.Block, Cell.Block, Cell.Block,
        Cell.Black] ]

/-- The thirteen cells of the corridor of `corridorBoard`, from the piece on. -/
def corridorCells : List (Int × Int) :=
  [(0, 1), (0, 2), (0, 3), (0, 4), (0, 5), (0, 6), (1, 7), (2, 6), (2, 5), (2, 4), (2, 3),
    (2, 2), (2, 1)]

/-- A board of Block cells except for a White piece on (0,0), the corridor of
the three Empty cells (0,1), (0,2), (0,3), and a Black piece on (7,7). -/
def laneBoard : Board :=
  boardOf
    [ [Cell.White, Cell.Empty, Cell.Empty, Cell.Empty, Cell.Block, Cell.Block, Cell.Block,
        Cell.Block],
      List.replicate 8 Cell.Block, List.replicate 8 Cell.Block, List.replicate 8 Cell.Block,
      List.replicate 8 Cell.Block, List.replicate 8 Cell.Block, List.replicate 8 Cell.Block,
      [Cell.Block, Cell.Block, Cell.Block, Cell.Block, Cell.Block, Cell.Block, Cell.Block,
        Cell.Black] ]

/-! ## `Bot`: the methods on the whole bot (`bot.cpp`) -/

/-- The method `Bot::makeMove`: the start cell of the real board is read
without a bounds check, then the move goes to `Chessboard::makeMove` of the
real board if the cell holds a piece of the bot; the slot of `gameOver` runs
inside that call. -/
def Bot.makeMove (bot : Bot) (move : Move) : Option (Bool × Bot) := do
  let cell ← readCell bot.m_chessboard.m_board move.startPos.1 move.startPos.2
  if (bot.m_isWhite = true ∧ cell = Cell.White) ∨ (bot.m_isWhite = false ∧ cell = Cell.Black) then
    (Amazons.makeMove bot.m_chessboard move).map fun r => (r.1, Bot.deliver bot r.2)
  else some (false, bot)

/-- The method `Bot::alphaBeta` on the bot: the search runs on `m_sandbox`. -/
def Bot.alphaBeta (evalSandbox : Board → ℚ) (bot : Bot) (fuel : Nat) (depth : Int)
    (alpha beta : ℚ) (maximizingPlayer : Bool) : Option (ℚ × Bot) :=
  (Amazons.alphaBeta evalSandbox bot.m_isWhite bot.m_endgame fuel depth alpha beta
    maximizingPlayer bot.m_sandbox).map fun r => (r.1, { bot with m_sandbox := r.2 })

/-- The method `Bot::getBestMove` on the bot: the search runs on `m_sandbox`. -/
def Bot.getBestMove (evalSandbox : Board → ℚ) (bot : Bot) (depth : Int) : Option (Move × Bot) :=
  (Amazons.getBestMove evalSandbox bot.m_isWhite bot.m_endgame depth bot.m_sandbox).map
    fun r => (r.1, { bot with m_sandbox := r.2 })

/-! ## `SaveGame`: reading the grid of a save file (`savegame.cpp`) -/

/-- A `QJsonValue`, as far as the loader of the grid looks at it: a number
(with the value that `toInt()` gives for it), an array, an object, or any
other value. -/
inductive Json where
  | num (n : Int)
  | arr (items : List Json)
  | obj (fields : List (String × Json))
  | other

/-- The method `QJsonValue::toArray`: the array, or an empty array for a value
that is no array. -/
def Json.toArray : Json → List Json
  | Json.arr items => items
  | _ => []

/-- The method `QJsonValue::toInt`: the number, or 0 for a value that is no
number. -/
def Json.toInt : Json → Int
  | Json.num n => n
  | _ => 0

/-- The method `QJsonValue::isArray`. -/
def Json.isArray : Json → Bool
  | Json.arr _ => true
  | _ => false

/-- The lookup `saveObj[key]` guarded by `saveObj.contains(key)`. -/
def Json.field (v : Json) (key : String) : Option Json :=
  match v with
  | Json.obj fields => fields.lookup key
  | _ => none

/-- The conversion `static_cast<Chessboard::Cell>(n)` to the enumeration with
underlying type `quint8`: the enumerator with the value `n mod 256`; `none`
is a byte that is no enumerator of `Cell`. -/
def cellOfInt (n : Int) : Option Cell :=
  if n % 256 = 0 then some Cell.Empty
  else if n % 256 = 1 then some Cell.Block
  else if n % 256 = 2 then some Cell.White
  else if n % 256 = 3 then some Cell.Black
  else none

/-- The inner loop `for (int c = 0; c < 8; c++)` of `jsonArrayToBoard` over the
rest of the columns. -/
def fillRow (rowArray : List Json) (r : Int) : List Int → Board → Option Board
  | [], board => some board
  | c :: rest, board =>
    match cellOfInt (rowArray.getD c.toNat Json.other).toInt with
    | none => none
    | some cell => fillRow rowArray r rest (setCell board r c cell)

/-- The outer loop `for (int r = 0; r < 8; r++)` of `jsonArrayToBoard` over the
rest of the rows; a row whose size is not 8 returns the board as it stands. -/
def fillRows (boardArray : List Json) : List Int → Board → Option Board
  | [], board => some board
  | r :: rest, board =>
    let rowArray := (boardArray.getD r.toNat Json.other).toArray
    if rowArray.length ≠ 8 then some board
    else
      match fillRow rowArray r indices board with
      | none => none
      | some board1 => fillRows boardArray rest board1

/-- The method `SaveGame::jsonArrayToBoard`.  The local `Chessboard::Board board;`
has no initialiser: `junk` is the content it starts with.  The result is
`none` when a cell of the input is no enumerator of `Cell`. -/
def jsonArrayToBoard (junk : Board) (boardArray : List Json) : Option Board :=
  if boardArray.length ≠ 8 then some junk
  else fillRows boardArray indices junk

/-- The part of `SaveGame::loadSave` that reads the grid out of the parsed
object `saveObj` and installs it in the live `Chessboard`: `(false, s)` when
the file is rejected, `(true, s1)` when the grid is installed (nothing after
this part writes `m_board` or returns false). -/
def loadSaveBoard (junk : Board) (saveObj : Json) (s : Chessboard) : Option (Bool × Chessboard) :=
  match saveObj.field "board" with
  | none => some (false, s)
  | some value =>
    if !value.isArray then some (false, s)
    else
      let boardArray := value.toArray
      if boardArray.length ≠ 8 then some (false, s)
      else
        match jsonArrayToBoard junk boardArray with
        | none => none
        | some board => some (true, { s with m_board := board })

/-- A row of eight cell codes. -/
def jsonRow (codes : List Int) : Json := Json.arr (codes.map Json.num)

/-- A persisted grid of eight rows of which the second has seven cells; the
first row begins with the code of a White piece. -/
def shortRowArray : List Json :=
  [ jsonRow [2, 0, 0, 0, 0, 0, 0, 0],
    jsonRow [0, 0, 0, 0, 0, 0, 0],
    jsonRow [0, 0, 0, 0, 0, 0, 0, 0], jsonRow [0, 0, 0, 0, 0, 0, 0, 0],
    jsonRow [0, 0, 0, 0, 0, 0, 0, 0], jsonRow [0, 0, 0, 0, 0, 0, 0, 0],
    jsonRow [0, 0, 0, 0, 0, 0, 0, 0], jsonRow [0, 0, 0, 0, 0, 0, 0, 0] ]

/-- A save file whose grid is `shortRowArray`. -/
def shortRowSave : Json := Json.obj [("board", Json.arr shortRowArray)]

/-- A board with a Block on every cell. -/
def blockBoard : Board := fun _ _ => Cell.Block

/-! ## The queries as methods on the state

`Chessboard::getMoveRangeIgnoring` writes `m_board` and restores it, and the
two scans of the bot call it inside their loops.  The definitions here pass
the `Chessboard` through every call, statement by statement. -/

/-- The method `Chessboard::getMoveRangeIgnoring` on the state: the range, and
the state after the two writes of `m_board`. -/
def Chessboard.getMoveRangeIgnoring (s : Chessboard) (row col ignoreRow ignoreCol : Int) :
    MoveRange × Chessboard :=
  let originalCell := s.m_board ignoreRow ignoreCol
  let s1 := { s with m_board := (setCell s.m_board ignoreRow ignoreCol Cell.Empty) }
  let result := getMoveRange s1.m_board row col
  (result, { s1 with m_board := (setCell s1.m_board ignoreRow ignoreCol originalCell) })

/-- The moves appended for one shoot range: the two innermost loops of
`generateLegalMoves`, which touch no state. -/
def shotsOf (shootRange : MoveRange) (r c targetR targetC : Int) : List Move :=
  (List.range 8).flatMap fun shootDir =>
    (stepsUpTo (dirSteps shootRange shootDir)).map fun ss =>
      { startPos := (r, c)
        targetPos := (targetR, targetC)
        shootPos := dirSquare shootDir targetR targetC ss }

/-- The body of the loop `for (s = 1; s <= steps; ++s)` of `generateLegalMoves`
on the state: the call of `getMoveRangeIgnoring` and the moves appended. -/
def Bot.targetStep (r c : Int) (dir : Nat) (acc : List Move × Chessboard) (s : Int) :
    List Move × Chessboard :=
  let target := dirSquare dir r c s
  let res := Chessboard.getMoveRangeIgnoring acc.2 target.1 target.2 r c
  (acc.1 ++ shotsOf res.1 r c target.1 target.2, res.2)

/-- The body of the board scan of `generateLegalMoves` for the square `(r, c)`
on the state. -/
def Bot.squareStep (m_endgame isWhite : Bool) (r : Int) (acc : List Move × Chessboard)
    (c : Int) : List Move × Chessboard :=
  if (isWhite = true ∧ acc.2.m_board r c = Cell.White)
      ∨ (isWhite = false ∧ acc.2.m_board r c = Cell.Black) then
    let range := getMoveRange acc.2.m_board r c
    if !m_endgame && range.inClosedRegion then acc
    else if !range.canMove then acc
    else
      (List.range 8).foldl
        (fun acc1 dir => (stepsUpTo (dirSteps range dir)).foldl (Bot.targetStep r c dir) acc1) acc
  else acc

/-- The chosen board of a bot: `inSandbox ? m_sandbox : m_chessboard`. -/
def Bot.chosen (bot : Bot) (inSandbox : Bool) : Chessboard :=
  if inSandbox then bot.m_sandbox else bot.m_chessboard

/-- The bot with the chosen board replaced. -/
def Bot.withChosen (bot : Bot) (inSandbox : Bool) (s : Chessboard) : Bot :=
  if inSandbox then { bot with m_sandbox := s } else { bot with m_chessboard := s }

/-- The method `Bot::generateLegalMoves` on the bot: the move list, and the bot
after the calls of `getMoveRangeIgnoring` on the chosen board. -/
def Bot.generateLegalMoves (bot : Bot) (isWhite inSandbox : Bool) : List Move × Bot :=
  Prod.map id (bot.withChosen inSandbox)
    (indices.foldl (fun acc r => indices.foldl (Bot.squareStep bot.m_endgame isWhite r) acc)
      (([] : List Move), bot.chosen inSandbox))

/-- The body of the loop `for (step = 1; step <= moveCount; step++)` of
`getAllMovesForSide` on the state: `shootOpts`, `actionCount` and the state. -/
def Bot.optStep (r c : Int) (dir : Nat) (acc : AllMoves × Chessboard) (step : Int) :
    AllMoves × Chessboard :=
  let res := Chessboard.getMoveRangeIgnoring acc.2 (dirSquare dir r c step).1
    (dirSquare dir r c step).2 r c
  let curShootOpts := res.1.getTotalMoves
  ({ acc.1 with
      shootOpts := (acc.1.shootOpts ++ [curShootOpts])
      actionCount := (acc.1.actionCount + curShootOpts) }, res.2)

/-- The body of the scan of `getAllMovesForSide` for a piece of the side on
`(r, c)`, on the state.  The arrays are written at `index` without a bounds
check. -/
def Bot.recordPiece (m_endgame : Bool) (r c : Int) (index : Nat) (acc : AllMoves × Chessboard) :
    Option (Nat × AllMoves × Chessboard) :=
  if index < 4 then
    let range := getMoveRange acc.2.m_board r c
    let allMoves1 : AllMoves :=
      { acc.1 with
        positions := (acc.1.positions.set index (r, c))
        moves := (acc.1.moves.set index range) }
    if !m_endgame && range.inClosedRegion then some (index + 1, allMoves1, acc.2)
    else
      let allMoves2 : AllMoves :=
        { allMoves1 with moveOpts := (allMoves1.moveOpts + range.getTotalMoves) }
      some (index + 1, (List.range 8).foldl
        (fun acc1 dir => (stepsUpTo (dirSteps range dir)).foldl (Bot.optStep r c dir) acc1)
        (allMoves2, acc.2))
  else none

/-- The scan of `getAllMovesForSide` over the rest of the squares, on the
state. -/
def Bot.scanPieces (m_endgame isWhite : Bool) :
    List (Int × Int) → Nat → AllMoves × Chessboard → Option (Nat × AllMoves × Chessboard)
  | [], index, acc => some (index, acc)
  | p :: rest, index, acc =>
    if (isWhite = true ∧ acc.2.m_board p.1 p.2 = Cell.White)
        ∨ (isWhite = false ∧ acc.2.m_board p.1 p.2 = Cell.Black) then
      match Bot.recordPiece m_endgame p.1 p.2 index acc with
      | none => none
      | some (index1, acc1) => Bot.scanPieces m_endgame isWhite rest index1 acc1
    else Bot.scanPieces m_endgame isWhite rest index acc

/-- The method `Bot::getAllMovesForSide` on the bot: the result, and the bot
after the calls of `getMoveRangeIgnoring` on the chosen board. -/
def Bot.getAllMovesForSide (bot : Bot) (isWhite inSandbox : Bool) : Option (AllMoves × Bot) :=
  (Bot.scanPieces bot.m_endgame isWhite squares 0 ({}, bot.chosen inSandbox)).map
    fun r => (r.2.1, bot.withChosen inSandbox r.2.2)

/-- The board rotated by 180 degrees: the cell `(i, j)` of the result is the
cell `(7 - i, 7 - j)` of `b`. -/
def rotate180 (b : Board) : Board := fun i j => b (7 - i) (7 - j)

/-- A range with up/down, left/right, upLeft/downRight and upRight/downLeft
exchanged. -/
def MoveRange.rotated (m : MoveRange) : MoveRange :=
  { up := m.down
    down := m.up
    left := m.right
    right := m.left
    upLeft := m.downRight
    upRight := m.downLeft
    downLeft := m.upRight
    downRight := m.upLeft
    territoryArea := m.territoryArea }

/-- A sequence of consecutive legal moves of the side, starting from the
board `b`, each made by a piece of the side that stands on a square of the
region `inRegion`. -/
def regionChain (isWhite : Bool) (inRegion : Int → Int → Prop) : Board → List Move → Prop
  | _, [] => True
  | b, m :: ms =>
    b m.startPos.1 m.startPos.2 = ownCell isWhite ∧ inRegion m.startPos.1 m.startPos.2
      ∧ legalOn b m ∧ regionChain isWhite inRegion (applyMove b m) ms

/-- The cell with the colours of the pieces exchanged. -/
def swapColour : Cell → Cell
  | Cell.White => Cell.Black
  | Cell.Black => Cell.White
  | v => v

/-- The position after playing the moves of a plan in order from `s` for the side
`isWhite`, the phase being set to the Move phase of the side before each
call of `makeMove`, and each move accepted; `none` when one is not accepted. -/
def playPlan (isWhite : Bool) (s : Chessboard) : List Move → Option Chessboard
  | [] => some s
  | m :: ms =>
    match makeMove
        { s with m_turnState := (if isWhite then TurnState.WhiteMove else TurnState.BlackMove) }
        m with
    | some (true, s1) => playPlan isWhite s1 ms
    | _ => none

/-- Every move of the list but the first starts on the target square of the
move before it. -/
def linked : List Move → Prop
  | [] => True
  | [_] => True
  | m1 :: m2 :: ms => m2.startPos = m1.targetPos ∧ linked (m2 :: ms)

/-- The state `s` is accounted for by its history: playing the history from
a fresh board (built with the flag `a`) succeeds and gives a position `r` with
as many Block cells as the history has moves, and either `s` has the board and
the (Move) phase of `r`, or `s` is in the Shoot phase after the relocation
recorded in `m_currentMove`, with the relocated piece selected. -/
def Replayed (a : Bool) (s : Chessboard) : Prop :=
  ∃ r, playMoves (newChessboard a) s.m_history = some r
    ∧ countCells r.m_board Cell.Block = s.m_history.length
    ∧ ((s.m_board = r.m_board ∧ s.m_turnState = r.m_turnState
          ∧ (r.m_turnState = TurnState.WhiteMove ∨ r.m_turnState = TurnState.BlackMove))
        ∨ (ownPiece r.m_turnState r.m_board s.m_currentMove.startPos.1 s.m_currentMove.startPos.2
            ∧ clearLine r.m_board s.m_currentMove.startPos.1 s.m_currentMove.startPos.2
                s.m_currentMove.targetPos.1 s.m_currentMove.targetPos.2
            ∧ s.m_board = setCell (setCell r.m_board s.m_currentMove.targetPos.1
                  s.m_currentMove.targetPos.2
                  (r.m_board s.m_currentMove.startPos.1 s.m_currentMove.startPos.2))
                s.m_currentMove.startPos.1 s.m_currentMove.startPos.2 Cell.Empty
            ∧ s.m_turnState = nextPhase r.m_turnState
            ∧ s.m_selected = (s.m_currentMove.targetPos.1, s.m_currentMove.targetPos.2)))

/-- The square `p` holds a piece of the side that the two scans of the bot do
not skip: it is not enclosed, or the bot is in endgame mode. -/
def counted (m_endgame : Bool) (b : Board) (isWhite : Bool) (p : Int × Int) : Bool :=
  decide (b p.1 p.2 = ownCell isWhite)
    && !(!m_endgame && (getMoveRange b p.1 p.2).inClosedRegion)

/-! ## `Bot::evalSandbox` (`bot.cpp`)

The evaluation is computed in `double` in the source.  Here its arithmetic is
exact arithmetic on rationals, and `std::pow` is a parameter `pow` of the
definitions: the exponents of the weights make its values irrational. -/

/-- The struct `Bot::Weights`. -/
structure Weights where
  mobilityWeight : ℚ
  mobilityExponent : ℚ
  shootFlexibilityWeight : ℚ
  shootExponent : ℚ
  territoryWeight : ℚ
  centerControlWeight : ℚ
  dispersionWeight : ℚ

/-- The default constructor `Weights()`: 1.0, 0.5, 0.6, 0.4, 2.0, 0.5, 0.3. -/
def defaultWeights : Weights :=
  { mobilityWeight := 1
    mobilityExponent := 1 / 2
    shootFlexibilityWeight := 3 / 5
    shootExponent := 2 / 5
    territoryWeight := 2
    centerControlWeight := 1 / 2
    dispersionWeight := 3 / 10 }

/-- The method `AllMoves::isEndgame`. -/
def AllMoves.isEndgame (a : AllMoves) : Bool :=
  ((a.moves.getD 0 {}).inClosedRegion || !(a.moves.getD 0 {}).canMove)
    && ((a.moves.getD 1 {}).inClosedRegion || !(a.moves.getD 1 {}).canMove)
    && ((a.moves.getD 2 {}).inClosedRegion || !(a.moves.getD 2 {}).canMove)
    && ((a.moves.getD 3 {}).inClosedRegion || !(a.moves.getD 3 {}).canMove)

/-- The power of the absolute value of an integer difference with the sign of
the difference: `std::pow(std::abs((double)d), e) * (d >= 0 ? 1 : -1)`. -/
def signedPow (pow : ℚ → ℚ → ℚ) (d : Int) (e : ℚ) : ℚ :=
  pow |(d : ℚ)| e * (if d ≥ 0 then 1 else -1)

/-- The loop of `evalSandbox` that adds up `territoryArea` over the four
entries of `moves` that are in a closed region. -/
def territorySum (a : AllMoves) : Int :=
  ((List.range 4).map fun i =>
    if (a.moves.getD i {}).inClosedRegion then (a.moves.getD i {}).territoryArea else 0).sum

/-- The Manhattan distance of a square to the centre (3.5, 3.5). -/
def distToCenter (p : Int × Int) : ℚ := |(p.1 : ℚ) - 7 / 2| + |(p.2 : ℚ) - 7 / 2|

/-- The loop of `evalSandbox` that adds up `oppDistToCenter - myDistToCenter`
over the four entries of `positions`. -/
def centerSum (myMoves oppMoves : AllMoves) : ℚ :=
  ((List.range 4).map fun i =>
    distToCenter (oppMoves.positions.getD i (0, 0))
      - distToCenter (myMoves.positions.getD i (0, 0))).sum

/-- The index pairs `i < j < 4` of the two loops of the dispersion score. -/
def indexPairs : List (Nat × Nat) :=
  (List.range 4).flatMap fun i => ((List.range 4).filter fun j => i < j).map fun j => (i, j)

/-- The two loops of `evalSandbox` that add up the Manhattan distances of the
pairs of entries of `positions`. -/
def pairDistance (a : AllMoves) : Int :=
  (indexPairs.map fun ij =>
    |(a.positions.getD ij.1 (0, 0)).1 - (a.positions.getD ij.2 (0, 0)).1|
      + |(a.positions.getD ij.1 (0, 0)).2 - (a.positions.getD ij.2 (0, 0)).2|).sum

/-- The value of `score` in `evalSandbox` before the two terminal
adjustments: mobility, shoot flexibility, and territory (when one side is in
the endgame) or centre control plus dispersion. -/
def positionalScore (pow : ℚ → ℚ → ℚ) (m_weights : Weights) (myMoves oppMoves : AllMoves) : ℚ :=
  let score := (0 : ℚ)
  let mobilityScore :=
    signedPow pow (myMoves.moveOpts - oppMoves.moveOpts) m_weights.mobilityExponent
      * m_weights.mobilityWeight / (4 * 27)
  let score := score + mobilityScore
  let shootScore :=
    signedPow pow (myMoves.shootOpts.sum - oppMoves.shootOpts.sum) m_weights.shootExponent
      * m_weights.shootFlexibilityWeight / (4 * 27 * 27)
  let score := score + shootScore
  if myMoves.isEndgame || oppMoves.isEndgame then
    let territoryScore :=
      ((territorySum myMoves - territorySum oppMoves : Int) : ℚ) * m_weights.territoryWeight / 54
    score + territoryScore
  else
    let centerScore := centerSum myMoves oppMoves / 28
    let score := score + centerScore * m_weights.centerControlWeight
    let dispersionScore :=
      ((pairDistance myMoves : ℚ) - (pairDistance oppMoves : ℚ)) * m_weights.dispersionWeight / 56
    score + dispersionScore

/-- The method `Bot::evalSandbox` on the sandbox board `b` of a bot that plays
White when `m_isWhite`, with the weights `m_weights` and the flag `m_endgame`;
`none` when `getAllMovesForSide` faults. -/
def evalSandbox (pow : ℚ → ℚ → ℚ) (m_weights : Weights) (m_isWhite m_endgame : Bool)
    (b : Board) : Option ℚ := do
  let myMoves ← getAllMovesForSide m_endgame b m_isWhite
  let oppMoves ← getAllMovesForSide m_endgame b (!m_isWhite)
  let score := positionalScore pow m_weights myMoves oppMoves
  let score := if oppMoves.moveOpts = 0 then score + 1000000000 else score
  let score := if myMoves.moveOpts = 0 then score - 1000000000 else score
  some score

/-- The board has four pieces of each side. -/
def fourPieces (b : Board) : Prop :=
  (piecesOf b true).length = 4 ∧ (piecesOf b false).length = 4

instance (b : Board) : Decidable (fourPieces b) := by
  unfold fourPieces; infer_instance

/-! ## `Bot`: the constructor, `makeNextMove` and the events around a bot -/

/-- The constructor `Bot::Bot(chessboard, isWhite, weights, parent)`: a bot of
the colour `isWhite` on the real board `chessboard`, with `m_gameOver` and
`m_endgame` false, an empty plan, an empty visited set and the sandbox
`new Chessboard(true, true, false, this)`. -/
def newBot (chessboard : Chessboard) (isWhite : Bool) : Bot :=
  { m_chessboard := chessboard
    m_sandbox := newChessboard false
    m_isWhite := isWhite
    m_gameOver := false
    m_endgame := false
    m_endgameMoves := []
    m_endgameVisited := [] }

/-- The method `Bot::makeNextMove`; `evalSandbox` is the evaluation that the
search calls at its leaves. -/
def Bot.makeNextMove (evalSandbox : Board → ℚ) (bot : Bot) : Option (Bool × Bot) :=
  if bot.m_gameOver then some (false, bot)
  else if bot.m_endgame then makeMoveInEndgame bot
  else
    match Amazons.getAllMovesForSide bot.m_endgame bot.m_chessboard.m_board bot.m_isWhite with
    | none => none
    | some allMoves =>
      if allMoves.isEndgame then makeMoveInEndgame { bot with m_endgame := true }
      else
        let bot1 := resetSandbox bot
        let depth : Int :=
          if bot1.m_chessboard.m_history.length < 6 then 1
          else if bot1.m_chessboard.m_history.length < 24 then 2
          else if bot1.m_chessboard.m_history.length < 48 then 3
          else 4
        match Bot.getBestMove evalSandbox bot1 depth with
        | none => none
        | some (move, bot2) => Bot.makeMove bot2 move

/-- What happens to a bot after its construction: a call of a mutator of the
real board by another party (the board widget or the other bot), or a call of
`makeNextMove` by one of the timers that the constructor and the slot of
`moveMade` start. -/
inductive Event where
  | call (op : Op)
  | timer

/-- The bot after one event, whatever the call returned; `none` when the call
faults.  The signals of a call on the real board are delivered to the bot. -/
def Bot.step (evalSandbox : Board → ℚ) (bot : Bot) : Event → Option Bot
  | Event.call op => (applyOp bot.m_chessboard op).map fun s1 => Bot.deliver bot s1
  | Event.timer => (Bot.makeNextMove evalSandbox bot).map Prod.snd

/-- The bot after a sequence of events. -/
def Bot.run (evalSandbox : Board → ℚ) (bot : Bot) : List Event → Option Bot
  | [] => some bot
  | e :: es => (Bot.step evalSandbox bot e).bind fun bot1 => Bot.run evalSandbox bot1 es

/-- The phase is the Move phase of a colour. -/
def movePhase (t : TurnState) : Prop := t = TurnState.WhiteMove ∨ t = TurnState.BlackMove

instance (t : TurnState) : Decidable (movePhase t) := by
  unfold movePhase; infer_instance

/-- The game-over flag of the board is up to date: the board checks for the
end of the game after every move, and in a Move phase with the flag down both
colours have a piece with an `Empty` adjacent cell. -/
def flagCurrent (s : Chessboard) : Prop :=
  s.m_autoCheckGameOver = true
    ∧ (movePhase s.m_turnState → s.m_gameOver = false →
        hasMobilePiece s.m_board Cell.White ∧ hasMobilePiece s.m_board Cell.Black)

/-- The bot is in step with its board: its flag `m_gameOver` is the flag of
the board, and that flag is up to date. -/
def Bot.inStep (bot : Bot) : Prop :=
  bot.m_gameOver = bot.m_chessboard.m_gameOver ∧ flagCurrent bot.m_chessboard

/-- The first state has led to the second by calls of the mutators of the
board: the setting `m_autoCheckGameOver` is the same, signals have only been
added, the flag `m_gameOver` is up exactly when it was up before or a
`gameOver` is among the added signals, the numbers of White and of Black cells
are the same, and the flag is up to date if it was. -/
def callEffect (s s1 : Chessboard) : Prop :=
  s1.m_autoCheckGameOver = s.m_autoCheckGameOver
    ∧ (∃ extra, s1.signals = s.signals ++ extra
        ∧ s1.m_gameOver = (s.m_gameOver || extra.any Signal.isGameOver))
    ∧ countCells s1.m_board Cell.White = countCells s.m_board Cell.White
    ∧ countCells s1.m_board Cell.Black = countCells s.m_board Cell.Black
    ∧ (flagCurrent s → flagCurrent s1)

/-- A board with the four Black pieces in the top left corner behind a wall of
Block cells that is open at (2,2) only, the one `Empty` cell adjacent to a
Black piece, and the White pieces on the bottom row; the diagonal from (7,7)
to (2,2) is Empty. -/
def lastCellBoard : Board :=
  boardOf
    [ [Cell.Black, Cell.Black, Cell.Block],
      [Cell.Black, Cell.Black, Cell.Block],
      [Cell.Block, Cell.Block, Cell.Empty],
      [],
      [],
      [],
      [],
      [Cell.Empty, Cell.Empty, Cell.Empty, Cell.Empty, Cell.White, Cell.White, Cell.White,
        Cell.White] ]

/-- The move of the White piece on (7,7) of `lastCellBoard` to (2,2), with a
shot at (3,3): it takes the last `Empty` cell next to a Black piece. -/
def closingMove : Move := { startPos := (7, 7), targetPos := (2, 2), shootPos := (3, 3) }

/-! # Theorems -/

/-! ## Path validation -/

theorem diagLoop_eq (b : Board) (sr sc er ec : Int)
    (hs : (sr = 1 ∨ sr = -1 ∨ sr = 0) ∧ (sc = 1 ∨ sc = -1 ∨ sc = 0) ∧ (sr ≠ 0 ∨ sc ≠ 0)) :
    ∀ (n fuel : Nat) (r c : Int), n < fuel → er = r + n * sr → ec = c + n * sc →
      diagLoop b sr sc er ec fuel r c
        = some (decide (∀ j : Nat, j < n → b (r + j * sr) (c + j * sc) = Cell.Empty)) := by
  intro n
  induction n with
  | zero =>
    intro fuel r c hf hr hc
    obtain ⟨f, rfl⟩ : ∃ f, fuel = f + 1 := ⟨fuel - 1, by omega⟩
    simp at hr hc
    simp [diagLoop, hr, hc]
  | succ k ih =>
    intro fuel r c hf hr hc
    obtain ⟨f, rfl⟩ : ∃ f, fuel = f + 1 := ⟨fuel - 1, by omega⟩
    have hne : r ≠ er ∨ c ≠ ec := by
      rcases hs with ⟨h1 | h1 | h1, h2 | h2 | h2, h3⟩ <;> subst h1 <;> subst h2 <;>
        first | (left; push_cast at hr; omega) | (right; push_cast at hc; omega)
    unfold diagLoop
    rw [if_pos hne]
    by_cases hcell : b r c = Cell.Empty
    · rw [if_neg (by simpa using hcell)]
      rw [ih f (r + sr) (c + sc) (by omega) (by push_cast at hr; rw [hr]; ring)
        (by push_cast at hc; rw [hc]; ring)]
      congr 1
      apply decide_eq_decide.mpr
      constructor
      · intro h j hj
        rcases Nat.eq_zero_or_pos j with rfl | hpos
        · simpa using hcell
        · have := h (j - 1) (by omega)
          have e : ((j - 1 : Nat) : Int) = (j : Int) - 1 := by omega
          rw [e] at this
          have e1 : r + sr + (↑j - 1) * sr = r + ↑j * sr := by ring
          have e2 : c + sc + (↑j - 1) * sc = c + ↑j * sc := by ring
          rwa [e1, e2] at this
      · intro h j hj
        have := h (j + 1) (by omega)
        push_cast at this
        have e1 : r + sr + ↑j * sr = r + (↑j + 1) * sr := by ring
        have e2 : c + sc + ↑j * sc = c + (↑j + 1) * sc := by ring
        rwa [e1, e2]
    · rw [if_pos (by simpa using hcell)]
      congr 1
      symm
      apply decide_eq_false
      intro h
      exact hcell (by simpa using h 0 (by omega))

theorem rowLoop_eq_diagLoop (b : Board) (row step endCol : Int) :
    ∀ (fuel : Nat) (i : Int),
      rowLoop b row step endCol fuel i = diagLoop b 0 step row endCol fuel row i := by
  intro fuel
  induction fuel with
  | zero => intro i; rfl
  | succ f ih => intro i; simp [rowLoop, diagLoop, ih]

theorem colLoop_eq_diagLoop (b : Board) (col step endRow : Int) :
    ∀ (fuel : Nat) (i : Int),
      colLoop b col step endRow fuel i = diagLoop b step 0 endRow col fuel i col := by
  intro fuel
  induction fuel with
  | zero => intro i; rfl
  | succ f ih => intro i; simp [colLoop, diagLoop, ih]

theorem sign_cases (d : Int) :
    (0 < d ∧ Int.sign d = 1) ∨ (d < 0 ∧ Int.sign d = -1) ∨ (d = 0 ∧ Int.sign d = 0) := by
  rcases lt_trichotomy d 0 with h | h | h
  · right; left; exact ⟨h, Int.sign_eq_neg_one_of_neg h⟩
  · right; right; exact ⟨h, by simp [h]⟩
  · left; exact ⟨h, Int.sign_eq_one_of_pos h⟩

/-- The walk from the square after `(r, c)` to `(r1, c1)` by unit steps. -/
theorem diagLoop_walk (b : Board) (r c r1 c1 : Int) (hl : sameLine r c r1 c1)
    (hd : lineDist r c r1 c1 ≤ 8) :
    diagLoop b (Int.sign (r1 - r)) (Int.sign (c1 - c)) r1 c1 8
        (r + Int.sign (r1 - r)) (c + Int.sign (c1 - c))
      = some (decide (betweenAll (fun i j => b i j = Cell.Empty) r c r1 c1)) := by
  have hsr := sign_cases (r1 - r)
  have hsc := sign_cases (c1 - c)
  obtain ⟨hne, hal⟩ := hl
  unfold lineDist at hd
  have key := diagLoop_eq b (Int.sign (r1 - r)) (Int.sign (c1 - c)) r1 c1
    (by rcases hsr with ⟨h1, h2⟩ | ⟨h1, h2⟩ | ⟨h1, h2⟩ <;>
          rcases hsc with ⟨h3, h4⟩ | ⟨h3, h4⟩ | ⟨h3, h4⟩ <;> rw [h2, h4] <;>
            omega)
    (lineDist r c r1 c1 - 1) 8 (r + Int.sign (r1 - r)) (c + Int.sign (c1 - c))
    (by unfold lineDist; omega)
    (by unfold lineDist
        rcases hsr with ⟨h1, h2⟩ | ⟨h1, h2⟩ | ⟨h1, h2⟩ <;>
          rcases hsc with ⟨h3, h4⟩ | ⟨h3, h4⟩ | ⟨h3, h4⟩ <;> rw [h2] <;> omega)
    (by unfold lineDist
        rcases hsr with ⟨h1, h2⟩ | ⟨h1, h2⟩ | ⟨h1, h2⟩ <;>
          rcases hsc with ⟨h3, h4⟩ | ⟨h3, h4⟩ | ⟨h3, h4⟩ <;> rw [h4] <;> omega)
  rw [key]
  congr 1
  apply decide_eq_decide.mpr
  unfold betweenAll
  constructor
  · intro h j hj1 hj2
    have := h (j - 1) (by omega)
    have e : ((j - 1 : Nat) : Int) = (j : Int) - 1 := by omega
    rw [e] at this
    have e1 : r + (r1 - r).sign + (↑j - 1) * (r1 - r).sign = r + ↑j * (r1 - r).sign := by ring
    have e2 : c + (c1 - c).sign + (↑j - 1) * (c1 - c).sign = c + ↑j * (c1 - c).sign := by ring
    rwa [e1, e2] at this
  · intro h j hj
    have := h (j + 1) (by omega) (by omega)
    push_cast at this
    have e1 : r + (r1 - r).sign + ↑j * (r1 - r).sign = r + (↑j + 1) * (r1 - r).sign := by ring
    have e2 : c + (c1 - c).sign + ↑j * (c1 - c).sign = c + (↑j + 1) * (c1 - c).sign := by ring
    rwa [e1, e2]

theorem sign_eq_ite (d : Int) (h : d ≠ 0) :
    (if d > 0 then (1 : Int) else -1) = Int.sign d := by
  rcases sign_cases d with ⟨h3, h4⟩ | ⟨h3, h4⟩ | ⟨h3, h4⟩
  · rw [h4, if_pos h3]
  · rw [h4, if_neg (by omega)]
  · omega

theorem pathValid_eq (b : Board) (r c r1 c1 : Int) :
    pathValid b r c r1 c1 = some (decide (clearLine b r c r1 c1)) := by
  unfold pathValid
  by_cases hb : r < 0 ∨ r ≥ 8 ∨ c < 0 ∨ c ≥ 8 ∨ r1 < 0 ∨ r1 ≥ 8 ∨ c1 < 0 ∨ c1 ≥ 8
  · rw [if_pos hb]
    congr 1; symm; apply decide_eq_false
    rintro ⟨h1, h2, -⟩
    unfold inBoard at h1 h2; omega
  rw [if_neg hb]
  by_cases ht : b r1 c1 ≠ Cell.Empty
  · rw [if_pos ht]
    congr 1; symm; apply decide_eq_false
    rintro ⟨-, -, h, -⟩
    exact ht h
  rw [if_neg ht]
  have hin : inBoard r c ∧ inBoard r1 c1 := by unfold inBoard; omega
  have hd : lineDist r c r1 c1 ≤ 8 := by unfold lineDist; omega
  have hfin : ∀ hl : sameLine r c r1 c1,
      some (decide (betweenAll (fun i j => b i j = Cell.Empty) r c r1 c1))
        = some (decide (clearLine b r c r1 c1)) := by
    intro hl
    congr 1
    apply decide_eq_decide.mpr
    unfold clearLine
    constructor
    · intro h; exact ⟨hin.1, hin.2, not_not.mp ht, hl, h⟩
    · intro h; exact h.2.2.2.2
  dsimp only
  by_cases h1 : r1 - r = 0 ∧ c1 - c ≠ 0
  · -- horizontal
    rw [if_pos h1, sign_eq_ite _ h1.2]
    have hl : sameLine r c r1 c1 := by unfold sameLine; omega
    have hw := diagLoop_walk b r c r1 c1 hl hd
    have e1 : Int.sign (r1 - r) = 0 := by rw [h1.1]; rfl
    have e3 : r1 = r := by omega
    rw [e1] at hw
    simp only [add_zero] at hw
    rw [rowLoop_eq_diagLoop]
    subst e3
    rw [hw]
    exact hfin hl
  rw [if_neg h1]
  by_cases h2 : r1 - r ≠ 0 ∧ c1 - c = 0
  · -- vertical
    rw [if_pos h2, sign_eq_ite _ h2.1]
    have hl : sameLine r c r1 c1 := by unfold sameLine; omega
    have hw := diagLoop_walk b r c r1 c1 hl hd
    have e1 : Int.sign (c1 - c) = 0 := by rw [h2.2]; rfl
    have e3 : c1 = c := by omega
    rw [e1] at hw
    simp only [add_zero] at hw
    rw [colLoop_eq_diagLoop]
    subst e3
    rw [hw]
    exact hfin hl
  rw [if_neg h2]
  by_cases h3 : (r1 - r = c1 - c ∧ r1 - r ≠ 0) ∨ (r1 - r = -(c1 - c) ∧ r1 - r ≠ 0)
  · -- diagonal
    rw [if_pos h3, sign_eq_ite (r1 - r) (by omega), sign_eq_ite (c1 - c) (by omega)]
    have hl : sameLine r c r1 c1 := by unfold sameLine; omega
    rw [diagLoop_walk b r c r1 c1 hl hd]
    exact hfin hl
  · rw [if_neg h3]
    congr 1; symm; apply decide_eq_false
    rintro ⟨-, -, -, hl, -⟩
    unfold sameLine at hl
    omega

theorem moveSelectedTo_cases (s : Chessboard) (row col : Int) (ok : Bool) (s1 : Chessboard)
    (h : moveSelectedTo s row col = some (ok, s1)) :
    (ok = false ∧ s1 = s) ∨
    (ok = true ∧ ownPiece s.m_turnState s.m_board s.m_selected.1 s.m_selected.2
      ∧ clearLine s.m_board s.m_selected.1 s.m_selected.2 row col
      ∧ s1 = { s with
          m_board := setCell (setCell s.m_board row col (s.m_board s.m_selected.1 s.m_selected.2))
            s.m_selected.1 s.m_selected.2 Cell.Empty
          m_selected := (row, col)
          m_turnState := nextPhase s.m_turnState
          m_currentMove :=
            { startPos := (s.m_selected.1, s.m_selected.2), targetPos := (row, col),
              shootPos := s.m_currentMove.shootPos } }) := by
  unfold moveSelectedTo at h
  by_cases h1 : s.m_selected.1 = -1
  · simp [h1] at h; obtain ⟨rfl, rfl⟩ := h; simp
  by_cases hin : inBoard s.m_selected.1 s.m_selected.2
  · by_cases hcl : clearLine s.m_board s.m_selected.1 s.m_selected.2 row col
    · cases ht : s.m_turnState <;> cases hp : s.m_board s.m_selected.1 s.m_selected.2 <;>
        simp [h1, hin, ht, hp, hcl, readCell, pathValid_eq, ownPiece, nextPhase] at h ⊢ <;>
        simp [← h.1, ← h.2, hp]
    · cases ht : s.m_turnState <;> cases hp : s.m_board s.m_selected.1 s.m_selected.2 <;>
        simp [h1, hin, ht, hp, hcl, readCell, pathValid_eq, ownPiece, nextPhase] at h ⊢ <;>
        simp [← h.1, ← h.2]
  · cases ht : s.m_turnState <;>
      simp [h1, hin, ht, readCell] at h ⊢ <;> simp [← h.1, ← h.2]

theorem moveSelectedTo_total (s : Chessboard) (row col : Int)
    (h : s.m_selected.1 = -1 ∨ inBoard s.m_selected.1 s.m_selected.2
      ∨ (s.m_turnState ≠ TurnState.WhiteMove ∧ s.m_turnState ≠ TurnState.BlackMove)) :
    ∃ ok s1, moveSelectedTo s row col = some (ok, s1) := by
  unfold moveSelectedTo
  by_cases h1 : s.m_selected.1 = -1
  · simp [h1]
  by_cases h2 : s.m_turnState ≠ TurnState.WhiteMove ∧ s.m_turnState ≠ TurnState.BlackMove
  · simp [h1, h2]
  have hin : inBoard s.m_selected.1 s.m_selected.2 := by tauto
  rw [if_neg h1, if_neg h2]
  simp only [readCell, hin, if_true, Option.bind_eq_bind, Option.some_bind, pathValid_eq]
  split_ifs <;> simp

theorem moveSelectedTo_ok (s : Chessboard) (row col : Int)
    (hsel : inBoard s.m_selected.1 s.m_selected.2)
    (hown : ownPiece s.m_turnState s.m_board s.m_selected.1 s.m_selected.2)
    (hcl : clearLine s.m_board s.m_selected.1 s.m_selected.2 row col) :
    ∃ s1, moveSelectedTo s row col = some (true, s1) := by
  have h1 : s.m_selected.1 ≠ -1 := by unfold inBoard at hsel; omega
  unfold moveSelectedTo
  rcases hown with ⟨ht, hp⟩ | ⟨ht, hp⟩ <;>
    simp [h1, hsel, ht, hp, hcl, readCell, pathValid_eq]

theorem shootAt_cases (s : Chessboard) (row col : Int) (ok : Bool) (s1 : Chessboard)
    (h : shootAt s row col = some (ok, s1)) :
    (ok = false ∧ s1 = s) ∨
    (ok = true ∧ ownShooter s.m_turnState s.m_board s.m_selected.1 s.m_selected.2
      ∧ clearLine s.m_board s.m_selected.1 s.m_selected.2 row col
      ∧ inBoard s.m_currentMove.targetPos.1 s.m_currentMove.targetPos.2
      ∧ s1.m_board = setCell s.m_board row col Cell.Block
      ∧ s1.m_selected = (-1, -1)
      ∧ s1.m_turnState = nextPhase s.m_turnState
      ∧ s1.m_history = s.m_history ++ [{ s.m_currentMove with shootPos := (row, col) }]
      ∧ s1.m_currentMove = { s.m_currentMove with shootPos := (row, col) }
      ∧ s1.m_autoCheckGameOver = s.m_autoCheckGameOver) := by
  unfold shootAt at h
  by_cases h1 : s.m_selected.1 = -1
  · simp [h1] at h; obtain ⟨rfl, rfl⟩ := h; simp
  by_cases hin : inBoard s.m_selected.1 s.m_selected.2
  · by_cases hcl : clearLine s.m_board s.m_selected.1 s.m_selected.2 row col
    · by_cases hcur : inBoard s.m_currentMove.targetPos.1 s.m_currentMove.targetPos.2
      · cases ht : s.m_turnState <;> cases hp : s.m_board s.m_selected.1 s.m_selected.2 <;>
          simp [h1, hin, ht, hp, hcl, hcur, readCell, pathValid_eq, ownShooter, nextPhase] at h ⊢ <;>
          obtain ⟨rfl, rfl⟩ := h <;> simp <;>
          cases s.m_autoCheckGameOver <;> simp [checkGameOver] <;> split_ifs <;> simp [onGameOver]
      · cases ht : s.m_turnState <;> cases hp : s.m_board s.m_selected.1 s.m_selected.2 <;>
          simp [h1, hin, ht, hp, hcl, hcur, readCell, pathValid_eq] at h ⊢ <;>
          obtain ⟨rfl, rfl⟩ := h <;> simp
    · cases ht : s.m_turnState <;> cases hp : s.m_board s.m_selected.1 s.m_selected.2 <;>
        simp [h1, hin, ht, hp, hcl, readCell, pathValid_eq] at h ⊢ <;>
        obtain ⟨rfl, rfl⟩ := h <;> simp
  · cases ht : s.m_turnState <;>
      simp [h1, hin, ht, readCell] at h ⊢ <;> obtain ⟨rfl, rfl⟩ := h <;> simp

theorem setCell_same (b : Board) (r c : Int) (v : Cell) : setCell b r c v r c = v := by
  simp [setCell]

theorem setCell_other (b : Board) (r c i j : Int) (v : Cell) (h : i ≠ r ∨ j ≠ c) :
    setCell b r c v i j = b i j := by
  unfold setCell
  rw [if_neg]
  intro h1
  rcases h with h | h
  · exact h h1.1
  · exact h h1.2

theorem makeMove_cases (s : Chessboard) (m : Move)
    (hin : inBoard m.startPos.1 m.startPos.2) :
    (¬ ownPiece s.m_turnState s.m_board m.startPos.1 m.startPos.2
      ∧ makeMove s m = some (false, s)) ∨
    (ownPiece s.m_turnState s.m_board m.startPos.1 m.startPos.2
      ∧ ¬ clearLine s.m_board m.startPos.1 m.startPos.2 m.targetPos.1 m.targetPos.2
      ∧ makeMove s m = some (false, { s with m_selected := (m.startPos.1, m.startPos.2) })) ∨
    (ownPiece s.m_turnState s.m_board m.startPos.1 m.startPos.2
      ∧ clearLine s.m_board m.startPos.1 m.startPos.2 m.targetPos.1 m.targetPos.2
      ∧ ¬ clearLine (setCell (setCell s.m_board m.targetPos.1 m.targetPos.2
            (s.m_board m.startPos.1 m.startPos.2)) m.startPos.1 m.startPos.2 Cell.Empty)
          m.targetPos.1 m.targetPos.2 m.shootPos.1 m.shootPos.2
      ∧ makeMove s m = some (false, { s with
          m_board := setCell (setCell s.m_board m.targetPos.1 m.targetPos.2
            (s.m_board m.startPos.1 m.startPos.2)) m.startPos.1 m.startPos.2 Cell.Empty
          m_selected := (m.targetPos.1, m.targetPos.2)
          m_turnState := nextPhase s.m_turnState
          m_currentMove :=
            { startPos := (m.startPos.1, m.startPos.2),
              targetPos := (m.targetPos.1, m.targetPos.2),
              shootPos := s.m_currentMove.shootPos } })) ∨
    (ownPiece s.m_turnState s.m_board m.startPos.1 m.startPos.2
      ∧ clearLine s.m_board m.startPos.1 m.startPos.2 m.targetPos.1 m.targetPos.2
      ∧ clearLine (setCell (setCell s.m_board m.targetPos.1 m.targetPos.2
            (s.m_board m.startPos.1 m.startPos.2)) m.startPos.1 m.startPos.2 Cell.Empty)
          m.targetPos.1 m.targetPos.2 m.shootPos.1 m.shootPos.2
      ∧ ∃ s1, makeMove s m = some (true, s1)
          ∧ s1.m_board = setCell (setCell (setCell s.m_board m.targetPos.1 m.targetPos.2
              (s.m_board m.startPos.1 m.startPos.2)) m.startPos.1 m.startPos.2 Cell.Empty)
              m.shootPos.1 m.shootPos.2 Cell.Block
          ∧ s1.m_selected = (-1, -1)
          ∧ s1.m_turnState = nextPhase (nextPhase s.m_turnState)
          ∧ s1.m_history = s.m_history ++ [m]) := by
  obtain ⟨⟨r, c⟩, ⟨tr, tc⟩, ⟨sr, sc⟩⟩ := m
  simp only at hin ⊢
  by_cases hown : ownPiece s.m_turnState s.m_board r c
  · right
    have hr : r ≠ -1 := by unfold inBoard at hin; omega
    have hb : ¬ (r < 0 ∨ r ≥ 8 ∨ c < 0 ∨ c ≥ 8) := by unfold inBoard at hin; omega
    by_cases hcl : clearLine s.m_board r c tr tc
    · right
      have htin : inBoard tr tc := hcl.2.1
      have htr : tr ≠ -1 := by unfold inBoard at htin; omega
      have hne : tr ≠ r ∨ tc ≠ c := by
        have := hcl.2.2.2.1.1
        omega
      have hne' : ¬ (tr = r ∧ tc = c) := by omega
      by_cases hcl2 : clearLine (setCell (setCell s.m_board tr tc (s.m_board r c)) r c Cell.Empty)
          tr tc sr sc
      · right
        refine ⟨hown, hcl, hcl2, ?_⟩
        rcases hown with ⟨ht, hp⟩ | ⟨ht, hp⟩ <;> rw [hp] at hcl2 <;>
          simp [makeMove, tryToSelect, moveSelectedTo, shootAt, readCell, hin, htin, ht, hp, hr,
            htr, hb, hcl, hcl2, pathValid_eq, setCell_same, setCell_other, hne, hne',
            tryToClearSelected, nextPhase] <;>
          cases s.m_autoCheckGameOver <;> simp [checkGameOver] <;> split_ifs <;> simp [onGameOver]
      · left
        refine ⟨hown, hcl, hcl2, ?_⟩
        rcases hown with ⟨ht, hp⟩ | ⟨ht, hp⟩ <;> rw [hp] at hcl2 <;>
          simp [makeMove, tryToSelect, moveSelectedTo, shootAt, readCell, hin, htin, ht, hp, hr,
            htr, hb, hcl, hcl2, pathValid_eq, setCell_same, setCell_other, hne, hne', nextPhase]
    · left
      refine ⟨hown, hcl, ?_⟩
      rcases hown with ⟨ht, hp⟩ | ⟨ht, hp⟩ <;>
        simp [makeMove, tryToSelect, moveSelectedTo, readCell, hin, ht, hp, hr, hb, hcl,
          pathValid_eq]
  · left
    refine ⟨hown, ?_⟩
    unfold ownPiece at hown
    simp only [makeMove, readCell, hin, if_true, Option.bind_eq_bind, Option.some_bind]
    rw [if_neg]
    tauto

/-- A square strictly between two squares of a line is not the first of them. -/
theorem between_ne_start (r c r1 c1 : Int) (hl : sameLine r c r1 c1) (j : Nat) (hj : 1 ≤ j) :
    r + j * Int.sign (r1 - r) ≠ r ∨ c + j * Int.sign (c1 - c) ≠ c := by
  obtain ⟨hne, -⟩ := hl
  rcases sign_cases (r1 - r) with ⟨h1, h2⟩ | ⟨h1, h2⟩ | ⟨h1, h2⟩ <;>
    rcases sign_cases (c1 - c) with ⟨h3, h4⟩ | ⟨h3, h4⟩ | ⟨h3, h4⟩ <;>
      rw [h2, h4] <;> omega

/-- Clear lines from `(r, c)` only depend on the cells other than `(r, c)`. -/
theorem clearLine_congr (b1 b2 : Board) (r c r1 c1 : Int)
    (h : ∀ i j, (i ≠ r ∨ j ≠ c) → (b1 i j = Cell.Empty ↔ b2 i j = Cell.Empty)) :
    clearLine b1 r c r1 c1 ↔ clearLine b2 r c r1 c1 := by
  unfold clearLine
  constructor
  · rintro ⟨h1, h2, h3, h4, h5⟩
    refine ⟨h1, h2, (h _ _ (by have := h4.1; omega)).mp h3, h4, ?_⟩
    intro j hj1 hj2
    exact (h _ _ (between_ne_start r c r1 c1 h4 j hj1)).mp (h5 j hj1 hj2)
  · rintro ⟨h1, h2, h3, h4, h5⟩
    refine ⟨h1, h2, (h _ _ (by have := h4.1; omega)).mpr h3, h4, ?_⟩
    intro j hj1 hj2
    exact (h _ _ (between_ne_start r c r1 c1 h4 j hj1)).mpr (h5 j hj1 hj2)

/-- The shoot line on the board after the relocation, in terms of the board before it. -/
theorem clearLine_after_move (b : Board) (r c tr tc sr sc : Int) (p : Cell) :
    clearLine (setCell (setCell b tr tc p) r c Cell.Empty) tr tc sr sc ↔
      (inBoard tr tc ∧ inBoard sr sc ∧ sameLine tr tc sr sc
        ∧ (b sr sc = Cell.Empty ∨ (sr = r ∧ sc = c))
        ∧ betweenAll (fun i j => b i j = Cell.Empty ∨ (i = r ∧ j = c)) tr tc sr sc) := by
  have cell : ∀ i j, (i ≠ tr ∨ j ≠ tc) →
      (setCell (setCell b tr tc p) r c Cell.Empty i j = Cell.Empty
        ↔ (b i j = Cell.Empty ∨ (i = r ∧ j = c))) := by
    intro i j hne
    by_cases h : i = r ∧ j = c
    · simp [setCell, h]
    · have h1 : ¬ (i = tr ∧ j = tc) := by omega
      simp [setCell, h, h1]
  unfold clearLine
  constructor
  · rintro ⟨h1, h2, h3, h4, h5⟩
    refine ⟨h1, h2, h4, (cell _ _ (by have := h4.1; omega)).mp h3, ?_⟩
    intro j hj1 hj2
    exact (cell _ _ (between_ne_start tr tc sr sc h4 j hj1)).mp (h5 j hj1 hj2)
  · rintro ⟨h1, h2, h4, h3, h5⟩
    refine ⟨h1, h2, (cell _ _ (by have := h4.1; omega)).mpr h3, h4, ?_⟩
    intro j hj1 hj2
    exact (cell _ _ (between_ne_start tr tc sr sc h4 j hj1)).mpr (h5 j hj1 hj2)

theorem makeMove_none (s : Chessboard) (m : Move) (h : ¬ inBoard m.startPos.1 m.startPos.2) :
    makeMove s m = none := by
  simp [makeMove, readCell, h]

theorem ownPiece_ne_empty (t : TurnState) (b : Board) (r c : Int) (h : ownPiece t b r c) :
    b r c ≠ Cell.Empty ∧ b r c ≠ Cell.Block := by
  rcases h with ⟨-, h⟩ | ⟨-, h⟩ <;> rw [h] <;> simp

/-- C1: when the start square is on the board, `makeMove` returns, and it
returns true exactly when (a) the start cell holds the piece of the side whose
Move phase it is, (b) the target is an on-board Empty square on a queen line
from the start with only Empty squares between, and (c) the shoot square is an
on-board square on a queen line from the target, Empty or the start square,
with every square between Empty or the start square. -/
theorem makeMove_true_iff (s : Chessboard) (m : Move)
    (hstart : inBoard m.startPos.1 m.startPos.2) :
    ∃ ok s1, makeMove s m = some (ok, s1) ∧
      (ok = true ↔
        ((s.m_turnState = TurnState.WhiteMove ∧ s.m_board m.startPos.1 m.startPos.2 = Cell.White)
          ∨ (s.m_turnState = TurnState.BlackMove
              ∧ s.m_board m.startPos.1 m.startPos.2 = Cell.Black))
        ∧ (inBoard m.targetPos.1 m.targetPos.2
            ∧ s.m_board m.targetPos.1 m.targetPos.2 = Cell.Empty
            ∧ sameLine m.startPos.1 m.startPos.2 m.targetPos.1 m.targetPos.2
            ∧ betweenAll (fun i j => s.m_board i j = Cell.Empty)
                m.startPos.1 m.startPos.2 m.targetPos.1 m.targetPos.2)
        ∧ (inBoard m.shootPos.1 m.shootPos.2
            ∧ sameLine m.targetPos.1 m.targetPos.2 m.shootPos.1 m.shootPos.2
            ∧ (s.m_board m.shootPos.1 m.shootPos.2 = Cell.Empty
                ∨ (m.shootPos.1 = m.startPos.1 ∧ m.shootPos.2 = m.startPos.2))
            ∧ betweenAll (fun i j => s.m_board i j = Cell.Empty
                  ∨ (i = m.startPos.1 ∧ j = m.startPos.2))
                m.targetPos.1 m.targetPos.2 m.shootPos.1 m.shootPos.2)) := by
  have key : ∀ _ : ownPiece s.m_turnState s.m_board m.startPos.1 m.startPos.2,
      (clearLine (setCell (setCell s.m_board m.targetPos.1 m.targetPos.2
            (s.m_board m.startPos.1 m.startPos.2)) m.startPos.1 m.startPos.2 Cell.Empty)
          m.targetPos.1 m.targetPos.2 m.shootPos.1 m.shootPos.2 ↔ _) :=
    fun _ => clearLine_after_move s.m_board m.startPos.1 m.startPos.2 m.targetPos.1
      m.targetPos.2 m.shootPos.1 m.shootPos.2 _
  rcases makeMove_cases s m hstart with ⟨h1, h2⟩ | ⟨h1, h2, h3⟩ | ⟨h1, h2, h3, h4⟩
      | ⟨h1, h2, h3, s1, h4, -⟩
  · refine ⟨false, _, h2, ?_⟩
    constructor
    · intro h; cases h
    · rintro ⟨h, -⟩; exact absurd h h1
  · refine ⟨false, _, h3, ?_⟩
    constructor
    · intro h; cases h
    · rintro ⟨-, ⟨a, b, c, d⟩, -⟩; exact absurd ⟨hstart, a, b, c, d⟩ h2
  · refine ⟨false, _, h4, ?_⟩
    constructor
    · intro h; cases h
    · rintro ⟨-, ⟨a, -⟩, ⟨b, c, d, e⟩⟩
      exact absurd ((key h1).mpr ⟨a, b, c, d, e⟩) h3
  · refine ⟨true, s1, h4, ?_⟩
    constructor
    · intro _
      obtain ⟨-, b, c, d, e⟩ := (key h1).mp h3
      exact ⟨h1, h2.2, b, c, d, e⟩
    · intro _; rfl

theorem makeMove_true_iff_witness :
    inBoard openingMove.startPos.1 openingMove.startPos.2
      ∧ ∃ s1, makeMove (newChessboard true) openingMove = some (true, s1) := by
  refine ⟨by decide, ?_⟩
  obtain ⟨ok, s1, h, hiff⟩ := makeMove_true_iff (newChessboard true) openingMove (by decide)
  have hok : ok = true := hiff.mpr (by decide)
  subst hok
  exact ⟨s1, h⟩

theorem countCells_setCell (b : Board) (r c : Int) (x v : Cell) (h : inBoard r c) :
    countCells (setCell b r c x) v + (if b r c = v then 1 else 0)
      = countCells b v + (if x = v then 1 else 0) := by
  obtain ⟨h1, h2, h3, h4⟩ := h
  let p0 : Fin 8 × Fin 8 := (⟨r.toNat, by omega⟩, ⟨c.toNat, by omega⟩)
  have hr : ((p0.1 : Nat) : Int) = r := by simp [p0]; omega
  have hc : ((p0.2 : Nat) : Int) = c := by simp [p0]; omega
  have hmem : p0 ∈ (Finset.univ : Finset (Fin 8 × Fin 8)) := Finset.mem_univ _
  unfold countCells
  rw [← Finset.add_sum_erase _ _ hmem, ← Finset.add_sum_erase _ (fun p : Fin 8 × Fin 8 =>
    if b ((p.1 : Nat) : Int) ((p.2 : Nat) : Int) = v then 1 else 0) hmem]
  have hrest : ∀ p ∈ (Finset.univ : Finset (Fin 8 × Fin 8)).erase p0,
      (if setCell b r c x ((p.1 : Nat) : Int) ((p.2 : Nat) : Int) = v then 1 else 0)
        = (if b ((p.1 : Nat) : Int) ((p.2 : Nat) : Int) = v then 1 else 0) := by
    intro p hp
    have hne : p ≠ p0 := (Finset.mem_erase.mp hp).1
    have : ((p.1 : Nat) : Int) ≠ r ∨ ((p.2 : Nat) : Int) ≠ c := by
      by_contra hcon
      push_neg at hcon
      apply hne
      ext
      · simp [p0]; omega
      · simp [p0]; omega
    rw [setCell_other _ _ _ _ _ _ this]
  rw [Finset.sum_congr rfl hrest, hr, hc, setCell_same]
  omega

/-- C2, counterexample: in the starting position `makeMove` with a legal
relocation (5,0) → (5,3) and an illegal shot at (4,5) returns false, yet the
piece has left (5,0) for (5,3) and the phase has become WhiteShoot. -/
theorem makeMove_false_changes_state :
    ∃ s1, makeMove (newChessboard true) badShotMove = some (false, s1)
      ∧ (newChessboard true).m_board 5 0 = Cell.White ∧ s1.m_board 5 0 = Cell.Empty
      ∧ (newChessboard true).m_board 5 3 = Cell.Empty ∧ s1.m_board 5 3 = Cell.White
      ∧ (newChessboard true).m_turnState = TurnState.WhiteMove
      ∧ s1.m_turnState = TurnState.WhiteShoot := by
  rcases makeMove_cases (newChessboard true) badShotMove (by decide) with
    ⟨h1, -⟩ | ⟨-, h2, -⟩ | ⟨-, -, -, h4⟩ | ⟨-, -, h3, -⟩
  · exact absurd (by decide) h1
  · exact absurd (by decide) h2
  · exact ⟨_, h4, by decide, by decide, by decide, by decide, by decide, by decide⟩
  · exact absurd h3 (by decide)

/-- C2, amended: whenever `makeMove` returns false the history is unchanged;
and when the start cell does not hold the mover's piece or the relocation is
not a clear line to an Empty square, the grid and the phase are unchanged too. -/
theorem makeMove_false_frame (s s1 : Chessboard) (m : Move)
    (h : makeMove s m = some (false, s1)) :
    s1.m_history = s.m_history
      ∧ (¬ (ownPiece s.m_turnState s.m_board m.startPos.1 m.startPos.2
            ∧ clearLine s.m_board m.startPos.1 m.startPos.2 m.targetPos.1 m.targetPos.2)
          → s1.m_board = s.m_board ∧ s1.m_turnState = s.m_turnState) := by
  by_cases hstart : inBoard m.startPos.1 m.startPos.2
  · rcases makeMove_cases s m hstart with ⟨h1, h2⟩ | ⟨h1, h2, h3⟩ | ⟨h1, h2, h3, h4⟩
        | ⟨h1, h2, h3, s2, h4, -⟩
    · rw [h2] at h; cases h
      exact ⟨rfl, fun _ => ⟨rfl, rfl⟩⟩
    · rw [h3] at h; cases h
      exact ⟨rfl, fun _ => ⟨rfl, rfl⟩⟩
    · rw [h4] at h; cases h
      exact ⟨rfl, fun hn => absurd ⟨h1, h2⟩ hn⟩
    · rw [h4] at h; cases h
  · rw [makeMove_none s m hstart] at h; cases h

theorem makeMove_false_frame_witness :
    ∃ s1, makeMove (newChessboard true) { startPos := (0, 2), targetPos := (1, 2), shootPos := (2, 2) }
        = some (false, s1)
      ∧ s1.m_history = (newChessboard true).m_history
      ∧ s1.m_board = (newChessboard true).m_board
      ∧ s1.m_turnState = (newChessboard true).m_turnState := by
  rcases makeMove_cases (newChessboard true)
      { startPos := (0, 2), targetPos := (1, 2), shootPos := (2, 2) } (by decide) with
    ⟨-, h2⟩ | ⟨h1, -⟩ | ⟨h1, -⟩ | ⟨h1, -⟩
  · have := makeMove_false_frame _ _ _ h2
    exact ⟨_, h2, this.1, this.2 (by decide)⟩
  · exact absurd h1 (by decide)
  · exact absurd h1 (by decide)
  · exact absurd h1 (by decide)

theorem move_eta (m : Move) :
    ({ startPos := (m.startPos.1, m.startPos.2), targetPos := (m.targetPos.1, m.targetPos.2),
       shootPos := (m.shootPos.1, m.shootPos.2) } : Move) = m := by
  cases m; rfl

/-- The relocation keeps the number of cells of every kind. -/
theorem countCells_relocate (b : Board) (r c tr tc : Int) (v : Cell)
    (hin : inBoard r c) (htin : inBoard tr tc) (hne : tr ≠ r ∨ tc ≠ c)
    (hempty : b tr tc = Cell.Empty) (hp : b r c ≠ Cell.Empty) :
    countCells (setCell (setCell b tr tc (b r c)) r c Cell.Empty) v = countCells b v := by
  have h1 := countCells_setCell b tr tc (b r c) v htin
  have h2 := countCells_setCell (setCell b tr tc (b r c)) r c Cell.Empty v hin
  rw [setCell_other _ _ _ _ _ _ (by omega : r ≠ tr ∨ c ≠ tc)] at h2
  rw [hempty] at h1
  by_cases hv : Cell.Empty = v
  · subst hv
    simp [hp] at h1 h2
    omega
  · simp [hv] at h1 h2
    omega

/-- A shot turns one `Empty` cell into a `Block` cell. -/
theorem countCells_shoot (b : Board) (r c : Int) (v : Cell) (hin : inBoard r c)
    (hempty : b r c = Cell.Empty) :
    countCells (setCell b r c Cell.Block) v + (if v = Cell.Empty then 1 else 0)
      = countCells b v + (if v = Cell.Block then 1 else 0) := by
  have h1 := countCells_setCell b r c Cell.Block v hin
  rw [hempty] at h1
  cases v <;> simp at h1 ⊢ <;> omega

/-- C3: whenever `makeMove` returns true, the target cell holds the piece that
stood on the start cell, the shoot cell is Block, the start cell is Empty
unless it is the shoot square, every other cell is unchanged, there is exactly
one more Block cell, the phase is the Move phase of the other colour, the
selection is (-1,-1) and the history is the old one with this move appended. -/
theorem makeMove_true_effect (s s1 : Chessboard) (m : Move)
    (h : makeMove s m = some (true, s1)) :
    s1.m_board m.targetPos.1 m.targetPos.2 = s.m_board m.startPos.1 m.startPos.2
      ∧ (s.m_board m.startPos.1 m.startPos.2 = Cell.White
          ∨ s.m_board m.startPos.1 m.startPos.2 = Cell.Black)
      ∧ s1.m_board m.shootPos.1 m.shootPos.2 = Cell.Block
      ∧ ((m.shootPos.1 ≠ m.startPos.1 ∨ m.shootPos.2 ≠ m.startPos.2)
          → s1.m_board m.startPos.1 m.startPos.2 = Cell.Empty)
      ∧ (∀ i j : Int, (i ≠ m.startPos.1 ∨ j ≠ m.startPos.2)
          → (i ≠ m.targetPos.1 ∨ j ≠ m.targetPos.2)
          → (i ≠ m.shootPos.1 ∨ j ≠ m.shootPos.2) → s1.m_board i j = s.m_board i j)
      ∧ countCells s1.m_board Cell.Block = countCells s.m_board Cell.Block + 1
      ∧ ((s.m_turnState = TurnState.WhiteMove ∧ s1.m_turnState = TurnState.BlackMove)
          ∨ (s.m_turnState = TurnState.BlackMove ∧ s1.m_turnState = TurnState.WhiteMove))
      ∧ s1.m_selected = (-1, -1)
      ∧ s1.m_history = s.m_history ++ [m] := by
  by_cases hstart : inBoard m.startPos.1 m.startPos.2
  · rcases makeMove_cases s m hstart with ⟨h1, h2⟩ | ⟨h1, h2, h3⟩ | ⟨h1, h2, h3, h4⟩
        | ⟨h1, h2, h3, s2, h4, hb, hsel, ht, hh⟩
    · rw [h2] at h; cases h
    · rw [h3] at h; cases h
    · rw [h4] at h; cases h
    · rw [h4] at h; cases h
      obtain ⟨-, htin, hempty, hl, -⟩ := h2
      obtain ⟨-, hsin, hsempty, hl2, -⟩ := h3
      have hne1 : m.targetPos.1 ≠ m.startPos.1 ∨ m.targetPos.2 ≠ m.startPos.2 := by
        have := hl.1; omega
      have hne2 : m.targetPos.1 ≠ m.shootPos.1 ∨ m.targetPos.2 ≠ m.shootPos.2 := hl2.1
      refine ⟨?_, ?_, ?_, ?_, ?_, ?_, ?_, hsel, hh⟩
      · rw [hb, setCell_other _ _ _ _ _ _ hne2, setCell_other _ _ _ _ _ _ hne1, setCell_same]
      · rcases h1 with ⟨-, h⟩ | ⟨-, h⟩
        · exact Or.inl h
        · exact Or.inr h
      · rw [hb, setCell_same]
      · intro hne
        rw [hb, setCell_other _ _ _ _ _ _ (by omega), setCell_same]
      · intro i j ha hb1 hc
        rw [hb, setCell_other _ _ _ _ _ _ hc, setCell_other _ _ _ _ _ _ ha,
          setCell_other _ _ _ _ _ _ hb1]
      · rw [hb]
        have e1 := countCells_shoot _ _ _ Cell.Block hsin hsempty
        have e2 := countCells_relocate s.m_board _ _ _ _ Cell.Block hstart htin hne1 hempty
          (ownPiece_ne_empty _ _ _ _ h1).1
        simp at e1
        rw [e1, e2]
      · rcases h1 with ⟨h, -⟩ | ⟨h, -⟩
        · left; exact ⟨h, by rw [ht, h]; rfl⟩
        · right; exact ⟨h, by rw [ht, h]; rfl⟩
  · rw [makeMove_none s m hstart] at h; cases h

theorem makeMove_true_effect_witness :
    ∃ s1, makeMove (newChessboard true) openingMove = some (true, s1)
      ∧ s1.m_board 5 3 = Cell.White ∧ s1.m_board 2 3 = Cell.Block ∧ s1.m_board 5 0 = Cell.Empty
      ∧ s1.m_turnState = TurnState.BlackMove
      ∧ s1.m_history = [openingMove] := by
  rcases makeMove_cases (newChessboard true) openingMove (by decide) with
    ⟨h1, -⟩ | ⟨-, h2, -⟩ | ⟨-, -, h3, -⟩ | ⟨-, -, -, s1, h4, -⟩
  · exact absurd (by decide) h1
  · exact absurd (by decide) h2
  · exact absurd (by decide) h3
  · have e := makeMove_true_effect _ _ _ h4
    refine ⟨s1, h4, e.1, e.2.2.1, e.2.2.2.1 (by decide), ?_, e.2.2.2.2.2.2.2.2⟩
    rcases e.2.2.2.2.2.2.1 with ⟨-, h⟩ | ⟨h, -⟩
    · exact h
    · exact absurd h (by decide)

/-- No mutator changes the number of White cells or of Black cells. -/
theorem applyOp_count (s s1 : Chessboard) (op : Op) (v : Cell)
    (hv : v = Cell.White ∨ v = Cell.Black) (h : applyOp s op = some s1) :
    countCells s1.m_board v = countCells s.m_board v := by
  have hv1 : v ≠ Cell.Empty := by rcases hv with rfl | rfl <;> simp
  have hv2 : v ≠ Cell.Block := by rcases hv with rfl | rfl <;> simp
  cases op with
  | tryToSelect row col =>
    simp only [applyOp, Option.some.injEq] at h
    subst h
    unfold tryToSelect
    split_ifs <;> rfl
  | tryToClearSelected =>
    simp only [applyOp, Option.some.injEq] at h
    subst h
    unfold tryToClearSelected
    split_ifs <;> rfl
  | moveSelectedTo row col =>
    simp only [applyOp, Option.map_eq_some'] at h
    obtain ⟨⟨ok, s2⟩, h, rfl⟩ := h
    rcases moveSelectedTo_cases s row col ok s2 h with ⟨-, rfl⟩ | ⟨-, hown, hcl, rfl⟩
    · rfl
    · obtain ⟨hin, htin, hempty, hl, -⟩ := hcl
      exact countCells_relocate s.m_board _ _ _ _ v hin htin (by have := hl.1; omega) hempty
        (ownPiece_ne_empty _ _ _ _ hown).1
  | shootAt row col =>
    simp only [applyOp, Option.map_eq_some'] at h
    obtain ⟨⟨ok, s2⟩, h, rfl⟩ := h
    rcases shootAt_cases s row col ok s2 h with ⟨-, rfl⟩ | ⟨-, -, hcl, -, hb, -⟩
    · rfl
    · obtain ⟨-, htin, hempty, -⟩ := hcl
      have e := countCells_shoot s.m_board row col v htin hempty
      simp only [hv1, hv2, if_false, add_zero] at e
      show countCells s2.m_board v = _
      rw [hb, e]
  | makeMove m =>
    simp only [applyOp, Option.map_eq_some'] at h
    obtain ⟨⟨ok, s2⟩, h, rfl⟩ := h
    by_cases hstart : inBoard m.startPos.1 m.startPos.2
    · have hrel : ∀ (_ : ownPiece s.m_turnState s.m_board m.startPos.1 m.startPos.2)
          (_ : clearLine s.m_board m.startPos.1 m.startPos.2 m.targetPos.1 m.targetPos.2),
          countCells (setCell (setCell s.m_board m.targetPos.1 m.targetPos.2
            (s.m_board m.startPos.1 m.startPos.2)) m.startPos.1 m.startPos.2 Cell.Empty) v
            = countCells s.m_board v := by
        intro hown hcl
        obtain ⟨hin, htin, hempty, hl, -⟩ := hcl
        exact countCells_relocate s.m_board _ _ _ _ v hin htin (by have := hl.1; omega) hempty
          (ownPiece_ne_empty _ _ _ _ hown).1
      rcases makeMove_cases s m hstart with ⟨h1, h2⟩ | ⟨h1, h2, h3⟩ | ⟨h1, h2, h3, h4⟩
          | ⟨h1, h2, h3, s3, h4, hb, -⟩
      · rw [h2] at h; cases h; rfl
      · rw [h3] at h; cases h; rfl
      · rw [h4] at h; cases h
        exact hrel h1 h2
      · rw [h4] at h; cases h
        obtain ⟨-, hsin, hsempty, -⟩ := h3
        have e := countCells_shoot _ _ _ v hsin hsempty
        simp only [hv1, hv2, if_false, add_zero] at e
        show countCells s2.m_board v = _
        rw [hb, e]
        exact hrel h1 h2
    · rw [makeMove_none s m hstart] at h; cases h

theorem runOps_count (ops : List Op) (v : Cell) (hv : v = Cell.White ∨ v = Cell.Black) :
    ∀ s s1 : Chessboard, runOps s ops = some s1 →
      countCells s1.m_board v = countCells s.m_board v := by
  induction ops with
  | nil =>
    intro s s1 h
    simp only [runOps, Option.some.injEq] at h
    rw [h]
  | cons op ops ih =>
    intro s s1 h
    simp only [runOps, Option.bind_eq_some] at h
    obtain ⟨s2, h1, h2⟩ := h
    rw [ih s2 s1 h2, applyOp_count s s2 op v hv h1]

/-- C6: in every state reached from `reset()` by any sequence of calls of
`tryToSelect`, `tryToClearSelected`, `moveSelectedTo`, `shootAt` and
`makeMove`, whatever they return, the board holds exactly four White cells and
exactly four Black cells. -/
theorem piece_count_invariant (s0 s : Chessboard) (ops : List Op)
    (h : runOps (reset s0) ops = some s) :
    countCells s.m_board Cell.White = 4 ∧ countCells s.m_board Cell.Black = 4 := by
  constructor
  · rw [runOps_count ops _ (Or.inl rfl) _ _ h]
    show countCells initialBoard Cell.White = 4
    decide
  · rw [runOps_count ops _ (Or.inr rfl) _ _ h]
    show countCells initialBoard Cell.Black = 4
    decide

theorem piece_count_invariant_witness :
    ∃ s, runOps (reset (newChessboard true))
        [Op.tryToSelect 5 0, Op.moveSelectedTo 5 3, Op.tryToClearSelected, Op.shootAt 2 3,
          Op.makeMove badShotMove] = some s
      ∧ countCells s.m_board Cell.White = 4 ∧ countCells s.m_board Cell.Black = 4 := by
  obtain ⟨s, hs⟩ := Option.isSome_iff_exists.mp (by decide :
    (runOps (reset (newChessboard true))
      [Op.tryToSelect 5 0, Op.moveSelectedTo 5 3, Op.tryToClearSelected, Op.shootAt 2 3,
        Op.makeMove badShotMove]).isSome = true)
  exact ⟨s, hs, piece_count_invariant (newChessboard true) s _ hs⟩

/-- C7: `tryToSelect` and `tryToClearSelected` leave the phase unchanged;
`moveSelectedTo` and `shootAt` leave it unchanged when they return false and
advance it by exactly one step of the cycle WhiteMove → WhiteShoot → BlackMove
→ BlackShoot → WhiteMove when they return true, `moveSelectedTo` from a Move
phase to the Shoot phase of the same colour, `shootAt` from a Shoot phase to
the Move phase of the other colour. -/
theorem turn_phase_cycle (s : Chessboard) (row col : Int) :
    (tryToSelect s row col).2.m_turnState = s.m_turnState
      ∧ (tryToClearSelected s).2.m_turnState = s.m_turnState
      ∧ (∀ ok s1, moveSelectedTo s row col = some (ok, s1) →
          (ok = false → s1.m_turnState = s.m_turnState)
          ∧ (ok = true → s1.m_turnState = nextPhase s.m_turnState
              ∧ ((s.m_turnState = TurnState.WhiteMove ∧ s1.m_turnState = TurnState.WhiteShoot)
                ∨ (s.m_turnState = TurnState.BlackMove
                    ∧ s1.m_turnState = TurnState.BlackShoot))))
      ∧ (∀ ok s1, shootAt s row col = some (ok, s1) →
          (ok = false → s1.m_turnState = s.m_turnState)
          ∧ (ok = true → s1.m_turnState = nextPhase s.m_turnState
              ∧ ((s.m_turnState = TurnState.WhiteShoot ∧ s1.m_turnState = TurnState.BlackMove)
                ∨ (s.m_turnState = TurnState.BlackShoot
                    ∧ s1.m_turnState = TurnState.WhiteMove)))) := by
  refine ⟨?_, ?_, ?_, ?_⟩
  · unfold tryToSelect
    split_ifs <;> rfl
  · unfold tryToClearSelected
    split_ifs <;> rfl
  · intro ok s1 h
    rcases moveSelectedTo_cases s row col ok s1 h with ⟨rfl, rfl⟩ | ⟨rfl, hown, -, rfl⟩
    · constructor
      · intro _; rfl
      · intro h; cases h
    · refine ⟨?_, fun _ => ?_⟩
      · intro h; cases h
      refine ⟨rfl, ?_⟩
      rcases hown with ⟨ht, -⟩ | ⟨ht, -⟩
      · left; exact ⟨ht, by simp [ht, nextPhase]⟩
      · right; exact ⟨ht, by simp [ht, nextPhase]⟩
  · intro ok s1 h
    rcases shootAt_cases s row col ok s1 h with ⟨rfl, rfl⟩ | ⟨rfl, hown, -, -, -, -, ht1, -⟩
    · constructor
      · intro _; rfl
      · intro h; cases h
    · refine ⟨?_, fun _ => ?_⟩
      · intro h; cases h
      refine ⟨ht1, ?_⟩
      rcases hown with ⟨ht, -⟩ | ⟨ht, -⟩
      · left; exact ⟨ht, by rw [ht1, ht]; rfl⟩
      · right; exact ⟨ht, by rw [ht1, ht]; rfl⟩

theorem turn_phase_cycle_witness :
    ∃ s1, moveSelectedTo (tryToSelect (newChessboard true) 5 0).2 5 3 = some (true, s1)
      ∧ s1.m_turnState = TurnState.WhiteShoot := by
  obtain ⟨s1, h⟩ := moveSelectedTo_ok (tryToSelect (newChessboard true) 5 0).2 5 3
    (by decide) (by decide) (by decide)
  refine ⟨s1, h, ?_⟩
  rcases (((turn_phase_cycle (tryToSelect (newChessboard true) 5 0).2 5 3).2.2.1 true s1 h).2
    rfl).2 with ⟨-, h2⟩ | ⟨h1, -⟩
  · exact h2
  · exact absurd h1 (by decide)

theorem mem_indices (r : Int) : r ∈ indices ↔ 0 ≤ r ∧ r < 8 := by
  simp only [indices, List.mem_cons, List.mem_singleton, List.not_mem_nil, or_false]
  omega

theorem hasEmptyNeighbour_intro (b : Board) (r c dr dc : Int)
    (hdr : dr = -1 ∨ dr = 0 ∨ dr = 1) (hdc : dc = -1 ∨ dc = 0 ∨ dc = 1)
    (hne : dr ≠ 0 ∨ dc ≠ 0) (hin : inBoard (r + dr) (c + dc))
    (hcell : b (r + dr) (c + dc) = Cell.Empty) : hasEmptyNeighbour b r c :=
  ⟨dr, by rcases hdr with h | h | h <;> simp [h], dc, by rcases hdc with h | h | h <;> simp [h],
    hne, hin, hcell⟩

theorem canMove_eq (b : Board) (r c : Int) :
    canMove b r c = true ↔ ¬ (r < 0 ∨ r ≥ 8 ∨ c < 0 ∨ c ≥ 8) ∧
      ((r > 0 ∧ b (r - 1) c = Cell.Empty) ∨ (r < 7 ∧ b (r + 1) c = Cell.Empty)
        ∨ (c > 0 ∧ b r (c - 1) = Cell.Empty) ∨ (c < 7 ∧ b r (c + 1) = Cell.Empty)
        ∨ (r > 0 ∧ c > 0 ∧ b (r - 1) (c - 1) = Cell.Empty)
        ∨ (r > 0 ∧ c < 7 ∧ b (r - 1) (c + 1) = Cell.Empty)
        ∨ (r < 7 ∧ c > 0 ∧ b (r + 1) (c - 1) = Cell.Empty)
        ∨ (r < 7 ∧ c < 7 ∧ b (r + 1) (c + 1) = Cell.Empty)) := by
  unfold canMove
  by_cases h0 : r < 0 ∨ r ≥ 8 ∨ c < 0 ∨ c ≥ 8
  · rw [if_pos h0]; simp only [Bool.false_eq_true, false_iff]; exact fun h => h.1 h0
  rw [if_neg h0]
  by_cases h1 : r > 0 ∧ b (r - 1) c = Cell.Empty
  · rw [if_pos h1]; simp only [true_iff]; exact ⟨h0, Or.inl h1⟩
  rw [if_neg h1]
  by_cases h2 : r < 7 ∧ b (r + 1) c = Cell.Empty
  · rw [if_pos h2]; simp only [true_iff]; exact ⟨h0, Or.inr (Or.inl h2)⟩
  rw [if_neg h2]
  by_cases h3 : c > 0 ∧ b r (c - 1) = Cell.Empty
  · rw [if_pos h3]; simp only [true_iff]; exact ⟨h0, Or.inr (Or.inr (Or.inl h3))⟩
  rw [if_neg h3]
  by_cases h4 : c < 7 ∧ b r (c + 1) = Cell.Empty
  · rw [if_pos h4]; simp only [true_iff]; exact ⟨h0, Or.inr (Or.inr (Or.inr (Or.inl h4)))⟩
  rw [if_neg h4]
  by_cases h5 : r > 0 ∧ c > 0 ∧ b (r - 1) (c - 1) = Cell.Empty
  · rw [if_pos h5]; simp only [true_iff]; exact ⟨h0, Or.inr (Or.inr (Or.inr (Or.inr (Or.inl h5))))⟩
  rw [if_neg h5]
  by_cases h6 : r > 0 ∧ c < 7 ∧ b (r - 1) (c + 1) = Cell.Empty
  · rw [if_pos h6]; simp only [true_iff]; exact ⟨h0, Or.inr (Or.inr (Or.inr (Or.inr (Or.inr (Or.inl h6)))))⟩
  rw [if_neg h6]
  by_cases h7 : r < 7 ∧ c > 0 ∧ b (r + 1) (c - 1) = Cell.Empty
  · rw [if_pos h7]; simp only [true_iff]; exact ⟨h0, Or.inr (Or.inr (Or.inr (Or.inr (Or.inr (Or.inr (Or.inl h7))))))⟩
  rw [if_neg h7]
  by_cases h8 : r < 7 ∧ c < 7 ∧ b (r + 1) (c + 1) = Cell.Empty
  · rw [if_pos h8]; simp only [true_iff]; exact ⟨h0, Or.inr (Or.inr (Or.inr (Or.inr (Or.inr (Or.inr (Or.inr (h8)))))))⟩
  rw [if_neg h8]
  simp only [Bool.false_eq_true, false_iff]
  rintro ⟨-, h | h | h | h | h | h | h | h⟩ <;> contradiction

theorem canMove_iff (b : Board) (r c : Int) :
    canMove b r c = true ↔ inBoard r c ∧ hasEmptyNeighbour b r c := by
  rw [canMove_eq]
  have e1 : r - 1 = r + -1 := by ring
  have e2 : c - 1 = c + -1 := by ring
  have e3 : r = r + 0 := by ring
  have e4 : c = c + 0 := by ring
  constructor
  · rintro ⟨h0, h⟩
    have hin : inBoard r c := by unfold inBoard; omega
    refine ⟨hin, ?_⟩
    unfold inBoard at hin
    rcases h with h1 | h2 | h3 | h4 | h5 | h6 | h7 | h8
    · exact hasEmptyNeighbour_intro b r c (-1) 0 (by simp) (by simp)
        (by simp) (by unfold inBoard; omega) (by rw [← e1, ← e4]; exact h1.2)
    · exact hasEmptyNeighbour_intro b r c 1 0 (by simp) (by simp)
        (by simp) (by unfold inBoard; omega) (by rw [← e4]; exact h2.2)
    · exact hasEmptyNeighbour_intro b r c 0 (-1) (by simp) (by simp)
        (by simp) (by unfold inBoard; omega) (by rw [← e2, ← e3]; exact h3.2)
    · exact hasEmptyNeighbour_intro b r c 0 1 (by simp) (by simp)
        (by simp) (by unfold inBoard; omega) (by rw [← e3]; exact h4.2)
    · exact hasEmptyNeighbour_intro b r c (-1) (-1) (by simp) (by simp)
        (by simp) (by unfold inBoard; omega) (by rw [← e1, ← e2]; exact h5.2.2)
    · exact hasEmptyNeighbour_intro b r c (-1) 1 (by simp) (by simp)
        (by simp) (by unfold inBoard; omega) (by rw [← e1]; exact h6.2.2)
    · exact hasEmptyNeighbour_intro b r c 1 (-1) (by simp) (by simp)
        (by simp) (by unfold inBoard; omega) (by rw [← e2]; exact h7.2.2)
    · exact hasEmptyNeighbour_intro b r c 1 1 (by simp) (by simp)
        (by simp) (by unfold inBoard; omega) h8.2.2
  · rintro ⟨hin, dr, hdr, dc, hdc, hne, hin2, hcell⟩
    simp only [List.mem_cons, List.mem_singleton, List.not_mem_nil, or_false] at hdr hdc
    unfold inBoard at hin hin2
    refine ⟨by omega, ?_⟩
    rcases hdr with rfl | rfl | rfl <;> rcases hdc with rfl | rfl | rfl <;>
      (try simp only [add_zero, ← sub_eq_add_neg] at hcell hin2)
    · right; right; right; right; left; exact ⟨by omega, by omega, hcell⟩
    · left; exact ⟨by omega, hcell⟩
    · right; right; right; right; right; left; exact ⟨by omega, by omega, hcell⟩
    · right; right; left; exact ⟨by omega, hcell⟩
    · omega
    · right; right; right; left; exact ⟨by omega, hcell⟩
    · right; right; right; right; right; right; left; exact ⟨by omega, by omega, hcell⟩
    · right; left; exact ⟨by omega, hcell⟩
    · right; right; right; right; right; right; right; exact ⟨by omega, by omega, hcell⟩

theorem scanRow_spec (b : Board) (r : Int) :
    ∀ (cs : List Int) (w bl : Bool),
      ((scanRow b r cs (w, bl)).1 = true
          ↔ (w = true ∨ ∃ c ∈ cs, b r c = Cell.White ∧ canMove b r c = true))
      ∧ ((scanRow b r cs (w, bl)).2 = true
          ↔ (bl = true ∨ ∃ c ∈ cs, b r c = Cell.Black ∧ canMove b r c = true)) := by
  intro cs
  induction cs with
  | nil => intro w bl; simp [scanRow]
  | cons c cs ih =>
    intro w bl
    unfold scanRow
    cases hcell : b r c <;> cases hm : canMove b r c <;> cases w <;> cases bl <;>
      simp [hcell, hm, ih]

theorem scanRows_spec (b : Board) :
    ∀ (rs : List Int) (w bl : Bool),
      ((scanRows b rs (w, bl)).1 = true
          ↔ (w = true ∨ ∃ r ∈ rs, ∃ c ∈ indices, b r c = Cell.White ∧ canMove b r c = true))
      ∧ ((scanRows b rs (w, bl)).2 = true
          ↔ (bl = true ∨ ∃ r ∈ rs, ∃ c ∈ indices, b r c = Cell.Black ∧ canMove b r c = true)) := by
  intro rs
  induction rs with
  | nil => intro w bl; simp [scanRows]
  | cons r rs ih =>
    intro w bl
    have h := scanRow_spec b r indices w bl
    unfold scanRows
    dsimp only
    generalize scanRow b r indices (w, bl) = wb1 at h
    obtain ⟨w1, b1⟩ := wb1
    simp only at h
    simp only [List.mem_cons, exists_eq_or_imp]
    have ih1 := ih w1 b1
    by_cases hboth : (w1 && b1) = true
    · rw [if_pos hboth]
      simp only [Bool.and_eq_true] at hboth
      obtain ⟨rfl, rfl⟩ := hboth
      constructor
      · simp only [true_iff]
        rcases h.1.mp rfl with h1 | h1
        · exact Or.inl h1
        · exact Or.inr (Or.inl h1)
      · simp only [true_iff]
        rcases h.2.mp rfl with h1 | h1
        · exact Or.inl h1
        · exact Or.inr (Or.inl h1)
    · rw [if_neg hboth, ih1.1, ih1.2, h.1, h.2, or_assoc, or_assoc]
      exact ⟨Iff.rfl, Iff.rfl⟩

theorem hasMobilePiece_iff (b : Board) (v : Cell) :
    hasMobilePiece b v ↔ ∃ r ∈ indices, ∃ c ∈ indices, b r c = v ∧ canMove b r c = true := by
  unfold hasMobilePiece
  constructor
  · rintro ⟨r, hr, c, hc, hv, hn⟩
    refine ⟨r, hr, c, hc, hv, (canMove_iff b r c).mpr ⟨?_, hn⟩⟩
    rw [mem_indices] at hr hc
    unfold inBoard; omega
  · rintro ⟨r, hr, c, hc, hv, hn⟩
    exact ⟨r, hr, c, hc, hv, ((canMove_iff b r c).mp hn).2⟩

/-- A piece with an `Empty` adjacent cell has a legal move: step there and
shoot back at the start square. -/
theorem makeMove_of_neighbour (s : Chessboard) (r c dr dc : Int)
    (hown : ownPiece s.m_turnState s.m_board r c) (hin : inBoard r c)
    (hdr : dr = -1 ∨ dr = 0 ∨ dr = 1) (hdc : dc = -1 ∨ dc = 0 ∨ dc = 1)
    (hne : dr ≠ 0 ∨ dc ≠ 0) (hin2 : inBoard (r + dr) (c + dc))
    (hcell : s.m_board (r + dr) (c + dc) = Cell.Empty) :
    ∃ s1, makeMove s { startPos := (r, c), targetPos := (r + dr, c + dc), shootPos := (r, c) }
      = some (true, s1) := by
  have hd1 : lineDist r c (r + dr) (c + dc) = 1 := by
    unfold lineDist
    rcases hdr with rfl | rfl | rfl <;> rcases hdc with rfl | rfl | rfl <;> omega
  have hd2 : lineDist (r + dr) (c + dc) r c = 1 := by
    unfold lineDist
    rcases hdr with rfl | rfl | rfl <;> rcases hdc with rfl | rfl | rfl <;> omega
  have hl1 : sameLine r c (r + dr) (c + dc) := by
    unfold sameLine
    rcases hdr with rfl | rfl | rfl <;> rcases hdc with rfl | rfl | rfl <;> omega
  have hl2 : sameLine (r + dr) (c + dc) r c := by
    unfold sameLine
    rcases hdr with rfl | rfl | rfl <;> rcases hdc with rfl | rfl | rfl <;> omega
  have hc1 : clearLine s.m_board r c (r + dr) (c + dc) :=
    ⟨hin, hin2, hcell, hl1, fun j h1 h2 => by omega⟩
  have hc2 : clearLine (setCell (setCell s.m_board (r + dr) (c + dc) (s.m_board r c)) r c
      Cell.Empty) (r + dr) (c + dc) r c :=
    (clearLine_after_move s.m_board r c (r + dr) (c + dc) r c _).mpr
      ⟨hin2, hin, hl2, Or.inr ⟨rfl, rfl⟩, fun j h1 h2 => by omega⟩
  rcases makeMove_cases s { startPos := (r, c), targetPos := (r + dr, c + dc), shootPos := (r, c) }
      hin with ⟨h1, -⟩ | ⟨-, h2, -⟩ | ⟨-, -, h3, -⟩ | ⟨-, -, -, s1, h4, -⟩
  · exact absurd hown h1
  · exact absurd hc1 h2
  · exact absurd hc2 h3
  · exact ⟨s1, h4⟩

/-- The first square of a clear line is an `Empty` adjacent cell. -/
theorem neighbour_of_clearLine (b : Board) (r c r1 c1 : Int) (h : clearLine b r c r1 c1) :
    hasEmptyNeighbour b r c := by
  obtain ⟨hin, hin1, hempty, hl, hbetween⟩ := h
  have hl' := hl
  obtain ⟨hne, hal⟩ := hl
  unfold inBoard at hin hin1
  have hsr := sign_cases (r1 - r)
  have hsc := sign_cases (c1 - c)
  have hcell : b (r + Int.sign (r1 - r)) (c + Int.sign (c1 - c)) = Cell.Empty := by
    by_cases hd : lineDist r c r1 c1 = 1
    · have e1 : r + Int.sign (r1 - r) = r1 := by
        unfold lineDist at hd
        rcases hsr with ⟨h1, h2⟩ | ⟨h1, h2⟩ | ⟨h1, h2⟩ <;> rw [h2] <;> omega
      have e2 : c + Int.sign (c1 - c) = c1 := by
        unfold lineDist at hd
        rcases hsc with ⟨h1, h2⟩ | ⟨h1, h2⟩ | ⟨h1, h2⟩ <;> rw [h2] <;> omega
      rw [e1, e2]; exact hempty
    · have := hbetween 1 (le_refl 1) (by unfold lineDist at hd ⊢; omega)
      simpa using this
  refine hasEmptyNeighbour_intro b r c (Int.sign (r1 - r)) (Int.sign (c1 - c)) ?_ ?_ ?_ ?_ hcell
  · rcases hsr with ⟨h1, h2⟩ | ⟨h1, h2⟩ | ⟨h1, h2⟩ <;> simp [h2]
  · rcases hsc with ⟨h1, h2⟩ | ⟨h1, h2⟩ | ⟨h1, h2⟩ <;> simp [h2]
  · rcases hsr with ⟨h1, h2⟩ | ⟨h1, h2⟩ | ⟨h1, h2⟩ <;>
      rcases hsc with ⟨h3, h4⟩ | ⟨h3, h4⟩ | ⟨h3, h4⟩ <;> rw [h2, h4] <;> omega
  · unfold inBoard
    rcases hsr with ⟨h1, h2⟩ | ⟨h1, h2⟩ | ⟨h1, h2⟩ <;>
      rcases hsc with ⟨h3, h4⟩ | ⟨h3, h4⟩ | ⟨h3, h4⟩ <;> rw [h2, h4] <;> omega

/-- The side to move has a move that `makeMove` accepts exactly when it has a
piece with an `Empty` adjacent cell. -/
theorem legal_move_iff_mobile (s : Chessboard) (v : Cell)
    (hv : (s.m_turnState = TurnState.WhiteMove ∧ v = Cell.White)
      ∨ (s.m_turnState = TurnState.BlackMove ∧ v = Cell.Black)) :
    (∃ m s1, makeMove s m = some (true, s1)) ↔ hasMobilePiece s.m_board v := by
  constructor
  · rintro ⟨m, s1, h⟩
    by_cases hstart : inBoard m.startPos.1 m.startPos.2
    · rcases makeMove_cases s m hstart with ⟨h1, h2⟩ | ⟨h1, h2, h3⟩ | ⟨h1, h2, h3, h4⟩
          | ⟨h1, h2, -⟩
      · rw [h2] at h; cases h
      · rw [h3] at h; cases h
      · rw [h4] at h; cases h
      · refine ⟨m.startPos.1, ?_, m.startPos.2, ?_, ?_, neighbour_of_clearLine _ _ _ _ _ h2⟩
        · rw [mem_indices]; unfold inBoard at hstart; omega
        · rw [mem_indices]; unfold inBoard at hstart; omega
        · rcases h1 with ⟨ht, hp⟩ | ⟨ht, hp⟩ <;> rcases hv with ⟨ht', rfl⟩ | ⟨ht', rfl⟩ <;>
            first | exact hp | (rw [ht] at ht'; cases ht')
    · rw [makeMove_none s m hstart] at h; cases h
  · rintro ⟨r, hr, c, hc, hcell, dr, hdr, dc, hdc, hne, hin2, hempty⟩
    simp only [List.mem_cons, List.mem_singleton, List.not_mem_nil, or_false] at hdr hdc
    rw [mem_indices] at hr hc
    have hown : ownPiece s.m_turnState s.m_board r c := by
      rcases hv with ⟨ht, rfl⟩ | ⟨ht, rfl⟩
      · exact Or.inl ⟨ht, hcell⟩
      · exact Or.inr ⟨ht, hcell⟩
    obtain ⟨s1, h⟩ := makeMove_of_neighbour s r c dr dc hown (by unfold inBoard; omega)
      hdr hdc hne hin2 hempty
    exact ⟨_, s1, h⟩

/-- C8: on a board not flagged as game over, `checkGameOver` returns true
exactly when some colour has no piece with an Empty adjacent cell; it emits
`gameOver(Tie)` when neither colour has one, `gameOver(Black)` when only White
has none, `gameOver(White)` when only Black has none, and no signal when it
returns false.  In particular, when `makeMove` accepts no move of Black and
some move of White, it returns true with winner White. -/
theorem checkGameOver_spec (s : Chessboard) (hgo : s.m_gameOver = false) :
    ((checkGameOver s).1 = true
        ↔ (¬ hasMobilePiece s.m_board Cell.White ∨ ¬ hasMobilePiece s.m_board Cell.Black))
      ∧ (¬ hasMobilePiece s.m_board Cell.White ∧ ¬ hasMobilePiece s.m_board Cell.Black
          → (checkGameOver s).2.signals = s.signals ++ [Signal.gameOver Winner.Tie])
      ∧ (¬ hasMobilePiece s.m_board Cell.White ∧ hasMobilePiece s.m_board Cell.Black
          → (checkGameOver s).2.signals = s.signals ++ [Signal.gameOver Winner.Black])
      ∧ (hasMobilePiece s.m_board Cell.White ∧ ¬ hasMobilePiece s.m_board Cell.Black
          → (checkGameOver s).2.signals = s.signals ++ [Signal.gameOver Winner.White])
      ∧ ((checkGameOver s).1 = false → (checkGameOver s).2.signals = s.signals)
      ∧ ((¬ ∃ m s1, makeMove { s with m_turnState := TurnState.BlackMove } m = some (true, s1))
          → (∃ m s1, makeMove { s with m_turnState := TurnState.WhiteMove } m = some (true, s1))
          → (checkGameOver s).1 = true
            ∧ (checkGameOver s).2.signals = s.signals ++ [Signal.gameOver Winner.White]) := by
  have hscan := scanRows_spec s.m_board indices false false
  simp only [Bool.false_eq_true, false_or, ← hasMobilePiece_iff] at hscan
  obtain ⟨hw, hb⟩ := hscan
  have hW : ¬ hasMobilePiece s.m_board Cell.White
      → (scanRows s.m_board indices (false, false)).1 = false := by
    intro h; rw [← hw] at h; simpa using h
  have hB : ¬ hasMobilePiece s.m_board Cell.Black
      → (scanRows s.m_board indices (false, false)).2 = false := by
    intro h; rw [← hb] at h; simpa using h
  have e1 : (checkGameOver s).1 = !((scanRows s.m_board indices (false, false)).1
      && (scanRows s.m_board indices (false, false)).2) := by
    simp [checkGameOver, hgo]
  have e2 : (checkGameOver s).2.signals =
      if (!(scanRows s.m_board indices (false, false)).1
          && !(scanRows s.m_board indices (false, false)).2) = true then
        s.signals ++ [Signal.gameOver Winner.Tie]
      else if (!(scanRows s.m_board indices (false, false)).1) = true then
        s.signals ++ [Signal.gameOver Winner.Black]
      else if (!(scanRows s.m_board indices (false, false)).2) = true then
        s.signals ++ [Signal.gameOver Winner.White]
      else s.signals := by
    simp only [checkGameOver, hgo, Bool.false_eq_true, if_false]
    split_ifs <;> rfl
  have c1 : (checkGameOver s).1 = true
      ↔ (¬ hasMobilePiece s.m_board Cell.White ∨ ¬ hasMobilePiece s.m_board Cell.Black) := by
    rw [e1, ← hw, ← hb]
    cases (scanRows s.m_board indices (false, false)).1 <;>
      cases (scanRows s.m_board indices (false, false)).2 <;> simp
  have c4 : hasMobilePiece s.m_board Cell.White ∧ ¬ hasMobilePiece s.m_board Cell.Black
      → (checkGameOver s).2.signals = s.signals ++ [Signal.gameOver Winner.White] := by
    rintro ⟨h1, h2⟩
    rw [e2, hw.mpr h1, hB h2]; rfl
  refine ⟨c1, ?_, ?_, c4, ?_, ?_⟩
  · rintro ⟨h1, h2⟩
    rw [e2, hW h1, hB h2]; rfl
  · rintro ⟨h1, h2⟩
    rw [e2, hW h1, hb.mpr h2]; rfl
  · intro h
    rw [e1] at h
    simp only [Bool.not_eq_false', Bool.and_eq_true] at h
    rw [e2, h.1, h.2]; rfl
  · intro hblack hwhite
    have h1 : hasMobilePiece s.m_board Cell.White :=
      (legal_move_iff_mobile { s with m_turnState := TurnState.WhiteMove } Cell.White
        (Or.inl ⟨rfl, rfl⟩)).mp hwhite
    have h2 : ¬ hasMobilePiece s.m_board Cell.Black := fun h =>
      hblack ((legal_move_iff_mobile { s with m_turnState := TurnState.BlackMove } Cell.Black
        (Or.inr ⟨rfl, rfl⟩)).mpr h)
    exact ⟨c1.mpr (Or.inr h2), c4 ⟨h1, h2⟩⟩

theorem checkGameOver_spec_witness :
    (checkGameOver (chessboardOf blackStuckBoard TurnState.BlackMove)).1 = true
      ∧ (checkGameOver (chessboardOf blackStuckBoard TurnState.BlackMove)).2.signals
          = [Signal.gameOver Winner.White] :=
  ⟨(checkGameOver_spec (chessboardOf blackStuckBoard TurnState.BlackMove) rfl).1.mpr
      (Or.inr (by decide)),
    (checkGameOver_spec (chessboardOf blackStuckBoard TurnState.BlackMove) rfl).2.2.2.1
      ⟨by decide, by decide⟩⟩

theorem countWhile_spec (cond : Int → Bool) :
    ∀ (n : Nat) (k0 : Int),
      k0 ≤ countWhile cond n k0 ∧ countWhile cond n k0 ≤ k0 + n
        ∧ (∀ j, k0 ≤ j → j < countWhile cond n k0 → cond j = true)
        ∧ (countWhile cond n k0 < k0 + n → cond (countWhile cond n k0) = false) := by
  intro n
  induction n with
  | zero =>
    intro k0
    simp only [countWhile]
    refine ⟨le_refl _, by simp, fun j h1 h2 => by omega, fun h => by simp at h⟩
  | succ n ih =>
    intro k0
    unfold countWhile
    cases hc : cond k0
    · simp only [Bool.false_eq_true, if_false]
      refine ⟨le_refl _, by omega, fun j h1 h2 => by omega, fun _ => hc⟩
    · simp only [if_true]
      obtain ⟨h1, h2, h3, h4⟩ := ih (k0 + 1)
      refine ⟨by omega, by push_cast; omega, ?_, ?_⟩
      · intro j hj1 hj2
        rcases eq_or_lt_of_le hj1 with rfl | hlt
        · exact hc
        · exact h3 j (by omega) hj2
      · intro h
        exact h4 (by push_cast at h; omega)

/-- A counting loop of `getMoveRange` whose test at count `k` is "the square at
distance `k + 1` is on the board and `Empty`" leaves, with 8 units of fuel,
through its test, and returns the reach in that direction. -/
theorem countWhile_exit (b : Board) (cond : Int → Bool) (sq : Int → Int × Int)
    (hcond : ∀ k : Int, 0 ≤ k →
      (cond k = true ↔ inBoard (sq (k + 1)).1 (sq (k + 1)).2
        ∧ b (sq (k + 1)).1 (sq (k + 1)).2 = Cell.Empty))
    (hout : ¬ inBoard (sq 8).1 (sq 8).2) :
    0 ≤ countWhile cond 8 0 ∧ cond (countWhile cond 8 0) = false
      ∧ isReach b sq (countWhile cond 8 0) := by
  obtain ⟨h1, h2, h3, h4⟩ := countWhile_spec cond 8 0
  have hlt : countWhile cond 8 0 < 8 := by
    by_contra hge
    have h7 := h3 7 (by omega) (by omega)
    exact hout ((hcond 7 (by omega)).mp h7).1
  have hexit : cond (countWhile cond 8 0) = false := h4 (by push_cast; omega)
  refine ⟨h1, hexit, ?_, ?_⟩
  · intro j hj1 hj2
    have := (hcond (j - 1) (by omega)).mp (h3 (j - 1) (by omega) (by omega))
    simpa using this
  · intro k1 hk1
    by_contra hgt
    have := hk1 (countWhile cond 8 0 + 1) (by omega) (by omega)
    rw [← hcond _ h1, hexit] at this
    cases this

theorem getMoveRange_reach (b : Board) (r c : Int) (h : inBoard r c) :
    (0 ≤ (getMoveRange b r c).up ∧ isReach b (fun j => (r - j, c)) (getMoveRange b r c).up)
      ∧ (0 ≤ (getMoveRange b r c).down
          ∧ isReach b (fun j => (r + j, c)) (getMoveRange b r c).down)
      ∧ (0 ≤ (getMoveRange b r c).left
          ∧ isReach b (fun j => (r, c - j)) (getMoveRange b r c).left)
      ∧ (0 ≤ (getMoveRange b r c).right
          ∧ isReach b (fun j => (r, c + j)) (getMoveRange b r c).right)
      ∧ (0 ≤ (getMoveRange b r c).upLeft
          ∧ isReach b (fun j => (r - j, c - j)) (getMoveRange b r c).upLeft)
      ∧ (0 ≤ (getMoveRange b r c).upRight
          ∧ isReach b (fun j => (r - j, c + j)) (getMoveRange b r c).upRight)
      ∧ (0 ≤ (getMoveRange b r c).downLeft
          ∧ isReach b (fun j => (r + j, c - j)) (getMoveRange b r c).downLeft)
      ∧ (0 ≤ (getMoveRange b r c).downRight
          ∧ isReach b (fun j => (r + j, c + j)) (getMoveRange b r c).downRight) := by
  have hb : ¬ (r < 0 ∨ r ≥ 8 ∨ c < 0 ∨ c ≥ 8) := by unfold inBoard at h; omega
  unfold inBoard at h
  unfold getMoveRange
  rw [if_neg hb]
  dsimp only
  have em : ∀ x k : Int, x - (k + 1) = x - k - 1 := fun x k => by ring
  have ep : ∀ x k : Int, x + (k + 1) = x + k + 1 := fun x k => by ring
  refine ⟨?_, ?_, ?_, ?_, ?_, ?_, ?_, ?_⟩
  all_goals
    refine (fun x => ⟨x.1, x.2.2⟩) (countWhile_exit b _ _ ?_ ?_)
  all_goals first
    | (intro k hk
       simp only [Bool.and_eq_true, decide_eq_true_eq, em, ep, inBoard]
       constructor
       · intro hh; refine ⟨by omega, ?_⟩; tauto
       · intro hh; tauto)
    | (simp only [inBoard]; omega)

/-- C9: for every board and on-board square, each of the eight directional
fields of `getMoveRange` (up = decreasing row, down = increasing row, left =
decreasing column, right = increasing column, and the four diagonals) is the
largest `k` such that the squares at distances `1..k` in that direction are
all on the board and all Empty; and on the board that is empty except for
White on (3,3) and Black on (3,5), `getMoveRange(3,3)` has right = 1 and
left = 3. -/
theorem getMoveRange_spec :
    (∀ (b : Board) (r c : Int), inBoard r c →
      isReach b (fun j => (r - j, c)) (getMoveRange b r c).up
        ∧ isReach b (fun j => (r + j, c)) (getMoveRange b r c).down
        ∧ isReach b (fun j => (r, c - j)) (getMoveRange b r c).left
        ∧ isReach b (fun j => (r, c + j)) (getMoveRange b r c).right
        ∧ isReach b (fun j => (r - j, c - j)) (getMoveRange b r c).upLeft
        ∧ isReach b (fun j => (r - j, c + j)) (getMoveRange b r c).upRight
        ∧ isReach b (fun j => (r + j, c - j)) (getMoveRange b r c).downLeft
        ∧ isReach b (fun j => (r + j, c + j)) (getMoveRange b r c).downRight)
      ∧ (getMoveRange rangeScenarioBoard 3 3).right = 1
      ∧ (getMoveRange rangeScenarioBoard 3 3).left = 3 := by
  refine ⟨fun b r c h => ?_, by decide, by decide⟩
  obtain ⟨h1, h2, h3, h4, h5, h6, h7, h8⟩ := getMoveRange_reach b r c h
  exact ⟨h1.2, h2.2, h3.2, h4.2, h5.2, h6.2, h7.2, h8.2⟩

theorem getMoveRange_spec_witness :
    inBoard 3 3 ∧ isReach rangeScenarioBoard (fun j => (3, 3 + j)) 1 := by
  refine ⟨by decide, ?_⟩
  have h := (getMoveRange_spec.1 rangeScenarioBoard 3 3 (by decide)).2.2.2.1
  have e : (getMoveRange rangeScenarioBoard 3 3).right = 1 := by decide
  rw [e] at h
  exact h

/-- C10: for on-board squares `(r, c)` and `(ir, ic)`,
`getMoveRangeIgnoring(r, c, ir, ic)` returns the `MoveRange` that
`getMoveRange(r, c)` returns on the board `b1` obtained from the board by
replacing cell `(ir, ic)` with Empty. -/
theorem getMoveRangeIgnoring_eq (b b1 : Board) (r c ir ic : Int)
    (_h1 : inBoard r c) (_h2 : inBoard ir ic)
    (hb1 : ∀ i j : Int, b1 i j = if i = ir ∧ j = ic then Cell.Empty else b i j) :
    (getMoveRangeIgnoring b r c ir ic).1 = getMoveRange b1 r c := by
  have e : b1 = setCell b ir ic Cell.Empty := funext fun i => funext fun j => hb1 i j
  rw [e]
  rfl

theorem getMoveRangeIgnoring_eq_witness :
    inBoard 3 4 ∧ inBoard 3 3
      ∧ (getMoveRangeIgnoring rangeScenarioBoard 3 4 3 3).1
          = getMoveRange (setCell rangeScenarioBoard 3 3 Cell.Empty) 3 4
      ∧ (getMoveRangeIgnoring rangeScenarioBoard 3 4 3 3).1.left = 4
      ∧ (getMoveRange rangeScenarioBoard 3 4).left = 0 :=
  ⟨by decide, by decide,
    getMoveRangeIgnoring_eq rangeScenarioBoard _ 3 4 3 3 (by decide) (by decide)
      (fun _ _ => rfl),
    by decide, by decide⟩

/-- The unit step of direction `dir` of the generator's `switch`. -/
theorem dirSquare_eq (dir : Nat) (hdir : dir < 8) :
    ∃ dr dc : Int, (dr = -1 ∨ dr = 0 ∨ dr = 1) ∧ (dc = -1 ∨ dc = 0 ∨ dc = 1) ∧ (dr ≠ 0 ∨ dc ≠ 0)
      ∧ ∀ r c s : Int, dirSquare dir r c s = (r + s * dr, c + s * dc) := by
  interval_cases dir
  · exact ⟨-1, 0, by simp, by simp, by simp, fun r c s => Prod.ext (by simp only [dirSquare]; ring) (by simp only [dirSquare]; ring)⟩
  · exact ⟨-1, 1, by simp, by simp, by simp, fun r c s => Prod.ext (by simp only [dirSquare]; ring) (by simp only [dirSquare]; ring)⟩
  · exact ⟨0, 1, by simp, by simp, by simp, fun r c s => Prod.ext (by simp only [dirSquare]; ring) (by simp only [dirSquare]; ring)⟩
  · exact ⟨1, 1, by simp, by simp, by simp, fun r c s => Prod.ext (by simp only [dirSquare]; ring) (by simp only [dirSquare]; ring)⟩
  · exact ⟨1, 0, by simp, by simp, by simp, fun r c s => Prod.ext (by simp only [dirSquare]; ring) (by simp only [dirSquare]; ring)⟩
  · exact ⟨1, -1, by simp, by simp, by simp, fun r c s => Prod.ext (by simp only [dirSquare]; ring) (by simp only [dirSquare]; ring)⟩
  · exact ⟨0, -1, by simp, by simp, by simp, fun r c s => Prod.ext (by simp only [dirSquare]; ring) (by simp only [dirSquare]; ring)⟩
  · exact ⟨-1, -1, by simp, by simp, by simp, fun r c s => Prod.ext (by simp only [dirSquare]; ring) (by simp only [dirSquare]; ring)⟩

/-- Every unit step is the step of one of the eight directions. -/
theorem dir_of_step (dr dc : Int) (hdr : dr = -1 ∨ dr = 0 ∨ dr = 1)
    (hdc : dc = -1 ∨ dc = 0 ∨ dc = 1) (hne : dr ≠ 0 ∨ dc ≠ 0) :
    ∃ dir : Nat, dir < 8 ∧ ∀ r c s : Int, dirSquare dir r c s = (r + s * dr, c + s * dc) := by
  rcases hdr with rfl | rfl | rfl <;> rcases hdc with rfl | rfl | rfl
  · exact ⟨7, by omega, fun r c s => Prod.ext (by simp only [dirSquare]; ring) (by simp only [dirSquare]; ring)⟩
  · exact ⟨0, by omega, fun r c s => Prod.ext (by simp only [dirSquare]; ring) (by simp only [dirSquare]; ring)⟩
  · exact ⟨1, by omega, fun r c s => Prod.ext (by simp only [dirSquare]; ring) (by simp only [dirSquare]; ring)⟩
  · exact ⟨6, by omega, fun r c s => Prod.ext (by simp only [dirSquare]; ring) (by simp only [dirSquare]; ring)⟩
  · simp at hne
  · exact ⟨2, by omega, fun r c s => Prod.ext (by simp only [dirSquare]; ring) (by simp only [dirSquare]; ring)⟩
  · exact ⟨5, by omega, fun r c s => Prod.ext (by simp only [dirSquare]; ring) (by simp only [dirSquare]; ring)⟩
  · exact ⟨4, by omega, fun r c s => Prod.ext (by simp only [dirSquare]; ring) (by simp only [dirSquare]; ring)⟩
  · exact ⟨3, by omega, fun r c s => Prod.ext (by simp only [dirSquare]; ring) (by simp only [dirSquare]; ring)⟩

/-- The square `s ≥ 1` unit steps away is on a line with the start, at distance `s`. -/
theorem line_of_steps (r c dr dc s : Int) (hs : 1 ≤ s) (hdr : dr = -1 ∨ dr = 0 ∨ dr = 1)
    (hdc : dc = -1 ∨ dc = 0 ∨ dc = 1) (hne : dr ≠ 0 ∨ dc ≠ 0) :
    sameLine r c (r + s * dr) (c + s * dc)
      ∧ (lineDist r c (r + s * dr) (c + s * dc) : Int) = s
      ∧ Int.sign (r + s * dr - r) = dr ∧ Int.sign (c + s * dc - c) = dc := by
  have e1 : r + s * dr - r = s * dr := by ring
  have e2 : c + s * dc - c = s * dc := by ring
  rw [e1, e2]
  have hsign : Int.sign s = 1 := Int.sign_eq_one_of_pos (by omega)
  refine ⟨?_, ?_, ?_, ?_⟩
  · unfold sameLine
    rcases hdr with rfl | rfl | rfl <;> rcases hdc with rfl | rfl | rfl <;> omega
  · unfold lineDist
    rcases hdr with rfl | rfl | rfl <;> rcases hdc with rfl | rfl | rfl <;> omega
  · rw [Int.sign_mul, hsign, one_mul]
    rcases hdr with rfl | rfl | rfl <;> rfl
  · rw [Int.sign_mul, hsign, one_mul]
    rcases hdc with rfl | rfl | rfl <;> rfl

/-- A square on a line with `(r, c)` is a number of unit steps away. -/
theorem steps_of_line (r c r1 c1 : Int) (h : sameLine r c r1 c1) :
    1 ≤ (lineDist r c r1 c1 : Int)
      ∧ r1 = r + (lineDist r c r1 c1 : Int) * Int.sign (r1 - r)
      ∧ c1 = c + (lineDist r c r1 c1 : Int) * Int.sign (c1 - c)
      ∧ (Int.sign (r1 - r) ≠ 0 ∨ Int.sign (c1 - c) ≠ 0) := by
  obtain ⟨hne, hal⟩ := h
  unfold lineDist
  rcases sign_cases (r1 - r) with ⟨h1, h2⟩ | ⟨h1, h2⟩ | ⟨h1, h2⟩ <;>
    rcases sign_cases (c1 - c) with ⟨h3, h4⟩ | ⟨h3, h4⟩ | ⟨h3, h4⟩ <;>
      rw [h2, h4] <;> omega

/-- A clear ray of `s` unit steps is a clear line to its last square. -/
theorem ray_iff_clearLine (b : Board) (r c dr dc s : Int) (hin : inBoard r c) (hs : 1 ≤ s)
    (hdr : dr = -1 ∨ dr = 0 ∨ dr = 1) (hdc : dc = -1 ∨ dc = 0 ∨ dc = 1)
    (hne : dr ≠ 0 ∨ dc ≠ 0) :
    (∀ j : Int, 1 ≤ j → j ≤ s →
        inBoard (r + j * dr) (c + j * dc) ∧ b (r + j * dr) (c + j * dc) = Cell.Empty)
      ↔ clearLine b r c (r + s * dr) (c + s * dc) := by
  obtain ⟨hl, hd, hsr, hsc⟩ := line_of_steps r c dr dc s hs hdr hdc hne
  unfold clearLine betweenAll
  rw [hsr, hsc]
  constructor
  · intro h
    refine ⟨hin, (h s hs (le_refl s)).1, (h s hs (le_refl s)).2, hl, ?_⟩
    intro j hj1 hj2
    exact (h j (by omega) (by omega)).2
  · rintro ⟨-, hin1, hempty, -, hbetween⟩ j hj1 hj2
    rcases eq_or_lt_of_le hj2 with rfl | hlt
    · exact ⟨hin1, hempty⟩
    · have hb := hbetween j.toNat (by omega) (by omega)
      have e : ((j.toNat : Nat) : Int) = j := by omega
      rw [e] at hb
      refine ⟨?_, hb⟩
      unfold inBoard at hin hin1 ⊢
      rcases hdr with rfl | rfl | rfl <;> rcases hdc with rfl | rfl | rfl <;> omega

theorem isReach_dir (b : Board) (r c : Int) (h : inBoard r c) (dir : Nat) (hdir : dir < 8) :
    0 ≤ dirSteps (getMoveRange b r c) dir
      ∧ isReach b (dirSquare dir r c) (dirSteps (getMoveRange b r c) dir) := by
  obtain ⟨h1, h2, h3, h4, h5, h6, h7, h8⟩ := getMoveRange_reach b r c h
  interval_cases dir
  · exact h1
  · exact h6
  · exact h4
  · exact h8
  · exact h2
  · exact h7
  · exact h3
  · exact h5

/-- Path validation agrees with the range engine: the clear lines from an
on-board square are the squares within the range of one of the 8 directions. -/
theorem clearLine_iff_range (b : Board) (r c tr tc : Int) (hin : inBoard r c) :
    clearLine b r c tr tc ↔
      ∃ dir, dir < 8 ∧ ∃ s : Int, 1 ≤ s ∧ s ≤ dirSteps (getMoveRange b r c) dir
        ∧ dirSquare dir r c s = (tr, tc) := by
  constructor
  · intro hcl
    obtain ⟨hs, e1, e2, hne⟩ := steps_of_line r c tr tc hcl.2.2.2.1
    have hdr : Int.sign (tr - r) = -1 ∨ Int.sign (tr - r) = 0 ∨ Int.sign (tr - r) = 1 := by
      rcases sign_cases (tr - r) with ⟨-, h⟩ | ⟨-, h⟩ | ⟨-, h⟩ <;> simp [h]
    have hdc : Int.sign (tc - c) = -1 ∨ Int.sign (tc - c) = 0 ∨ Int.sign (tc - c) = 1 := by
      rcases sign_cases (tc - c) with ⟨-, h⟩ | ⟨-, h⟩ | ⟨-, h⟩ <;> simp [h]
    obtain ⟨dir, hdir, hsq⟩ := dir_of_step _ _ hdr hdc hne
    refine ⟨dir, hdir, (lineDist r c tr tc : Int), hs, ?_, ?_⟩
    · apply (isReach_dir b r c hin dir hdir).2.2
      intro j hj1 hj2
      rw [hsq]
      have hcl1 : clearLine b r c (r + (lineDist r c tr tc : Int) * Int.sign (tr - r))
          (c + (lineDist r c tr tc : Int) * Int.sign (tc - c)) := by
        rw [← e1, ← e2]; exact hcl
      exact (ray_iff_clearLine b r c _ _ _ hin hs hdr hdc hne).mpr hcl1 j hj1 hj2
    · rw [hsq, ← e1, ← e2]
  · rintro ⟨dir, hdir, s, hs1, hs2, hsq⟩
    obtain ⟨dr, dc, hdr, hdc, hne, hd⟩ := dirSquare_eq dir hdir
    have hreach := (isReach_dir b r c hin dir hdir).2.1
    rw [hd] at hsq
    obtain ⟨rfl, rfl⟩ := Prod.mk.inj hsq
    apply (ray_iff_clearLine b r c dr dc s hin hs1 hdr hdc hne).mp
    intro j hj1 hj2
    have := hreach j hj1 (by omega)
    rw [hd] at this
    exact this

theorem mem_stepsUpTo (n s : Int) : s ∈ stepsUpTo n ↔ 1 ≤ s ∧ s ≤ n := by
  unfold stepsUpTo
  simp only [List.mem_map, List.mem_range'_1]
  constructor
  · rintro ⟨k, ⟨h1, h2⟩, rfl⟩
    omega
  · rintro ⟨h1, h2⟩
    exact ⟨s.toNat, ⟨by omega, by omega⟩, by omega⟩

theorem mem_shootMoves (b : Board) (r c tr tc : Int) (m : Move) (htin : inBoard tr tc) :
    m ∈ shootMoves b r c tr tc ↔
      m.startPos = (r, c) ∧ m.targetPos = (tr, tc)
        ∧ clearLine (setCell b r c Cell.Empty) tr tc m.shootPos.1 m.shootPos.2 := by
  rw [clearLine_iff_range _ _ _ _ _ htin]
  unfold shootMoves
  simp only [List.mem_flatMap, List.mem_range, List.mem_map, mem_stepsUpTo, getMoveRangeIgnoring]
  constructor
  · rintro ⟨dir, hdir, ss, ⟨h1, h2⟩, rfl⟩
    exact ⟨rfl, rfl, dir, hdir, ss, h1, h2, rfl⟩
  · rintro ⟨hs, ht, dir, hdir, ss, h1, h2, hsq⟩
    refine ⟨dir, hdir, ss, ⟨h1, h2⟩, ?_⟩
    obtain ⟨st, tg, sh⟩ := m
    simp only at hs ht hsq
    subst hs ht
    rw [hsq]

/-- A piece with a clear line to some square can move. -/
theorem canMove_of_clearLine (b : Board) (r c tr tc : Int) (h : clearLine b r c tr tc) :
    (getMoveRange b r c).canMove = true := by
  have hin := h.1
  obtain ⟨dir, hdir, s, hs1, hs2, -⟩ := (clearLine_iff_range b r c tr tc hin).mp h
  obtain ⟨⟨h1, -⟩, ⟨h2, -⟩, ⟨h3, -⟩, ⟨h4, -⟩, ⟨h5, -⟩, ⟨h6, -⟩, ⟨h7, -⟩, ⟨h8, -⟩⟩ :=
    getMoveRange_reach b r c hin
  unfold MoveRange.canMove MoveRange.getTotalMoves
  simp only [decide_eq_true_eq]
  interval_cases dir <;> simp only [dirSteps] at hs2 <;> omega

/-- The moves that `generateLegalMoves` lists. -/
theorem mem_generateLegalMoves (e w : Bool) (b : Board) (m : Move) :
    m ∈ generateLegalMoves e b w ↔
      inBoard m.startPos.1 m.startPos.2
        ∧ ((w = true ∧ b m.startPos.1 m.startPos.2 = Cell.White)
            ∨ (w = false ∧ b m.startPos.1 m.startPos.2 = Cell.Black))
        ∧ (e = true ∨ (getMoveRange b m.startPos.1 m.startPos.2).inClosedRegion = false)
        ∧ clearLine b m.startPos.1 m.startPos.2 m.targetPos.1 m.targetPos.2
        ∧ clearLine (setCell b m.startPos.1 m.startPos.2 Cell.Empty)
            m.targetPos.1 m.targetPos.2 m.shootPos.1 m.shootPos.2 := by
  unfold generateLegalMoves
  simp only [List.mem_flatMap, mem_indices]
  constructor
  · rintro ⟨r, hr, c, hc, hm⟩
    have hin : inBoard r c := by unfold inBoard; omega
    unfold pieceMoves at hm
    dsimp only at hm
    by_cases hcol : (w = true ∧ b r c = Cell.White) ∨ (w = false ∧ b r c = Cell.Black)
    · rw [if_pos hcol] at hm
      by_cases hskip : (!e && (getMoveRange b r c).inClosedRegion) = true
      · rw [if_pos hskip] at hm; cases hm
      rw [if_neg hskip] at hm
      by_cases hcan : (!(getMoveRange b r c).canMove) = true
      · rw [if_pos hcan] at hm; cases hm
      rw [if_neg hcan] at hm
      simp only [List.mem_flatMap, List.mem_range, mem_stepsUpTo] at hm
      obtain ⟨dir, hdir, s, ⟨hs1, hs2⟩, hm⟩ := hm
      have hcl : clearLine b r c (dirSquare dir r c s).1 (dirSquare dir r c s).2 :=
        (clearLine_iff_range b r c _ _ hin).mpr ⟨dir, hdir, s, hs1, hs2, rfl⟩
      rw [mem_shootMoves _ _ _ _ _ _ hcl.2.1] at hm
      obtain ⟨hst, htg, hsh⟩ := hm
      rw [hst, htg]
      refine ⟨hin, hcol, ?_, hcl, hsh⟩
      cases e
      · right; simpa using hskip
      · left; rfl
    · rw [if_neg hcol] at hm; cases hm
  · rintro ⟨hin, hcol, hskip, hcl, hsh⟩
    refine ⟨m.startPos.1, by unfold inBoard at hin; omega, m.startPos.2,
      by unfold inBoard at hin; omega, ?_⟩
    unfold pieceMoves
    have hcan := canMove_of_clearLine b _ _ _ _ hcl
    have hskip' : ¬ ((!e && (getMoveRange b m.startPos.1 m.startPos.2).inClosedRegion) = true) := by
      rcases hskip with h | h <;> simp [h]
    rw [if_pos hcol, if_neg hskip']
    simp only [hcan, Bool.not_true, Bool.false_eq_true, if_false]
    obtain ⟨dir, hdir, s, hs1, hs2, hsq⟩ := (clearLine_iff_range b _ _ _ _ hin).mp hcl
    simp only [List.mem_flatMap, List.mem_range, mem_stepsUpTo]
    refine ⟨dir, hdir, s, ⟨hs1, hs2⟩, ?_⟩
    rw [hsq, mem_shootMoves _ _ _ _ _ _ hcl.2.1]
    exact ⟨rfl, rfl, hsh⟩

/-- The shoot line of the generator (start square emptied, piece not yet on the
target) is the shoot line of `makeMove` (piece relocated). -/
theorem clearLine_ignoring_iff (b : Board) (r c tr tc sr sc : Int) (p : Cell) :
    clearLine (setCell b r c Cell.Empty) tr tc sr sc
      ↔ clearLine (setCell (setCell b tr tc p) r c Cell.Empty) tr tc sr sc := by
  apply clearLine_congr
  intro i j hne
  by_cases h : i = r ∧ j = c
  · simp [setCell, h]
  · have h1 : ¬ (i = tr ∧ j = tc) := by omega
    simp [setCell, h, h1]

/-- C4: every move that `generateLegalMoves(side)` lists, with either value of
the endgame flag, is accepted by `makeMove` on the same board in that side's
Move phase. -/
theorem generateLegalMoves_sound (s : Chessboard) (m_endgame isWhite : Bool) (m : Move)
    (hphase : s.m_turnState = if isWhite then TurnState.WhiteMove else TurnState.BlackMove)
    (hm : m ∈ generateLegalMoves m_endgame s.m_board isWhite) :
    ∃ s1, makeMove s m = some (true, s1) := by
  obtain ⟨hin, hcol, -, hcl, hsh⟩ := (mem_generateLegalMoves _ _ _ _).mp hm
  have hown : ownPiece s.m_turnState s.m_board m.startPos.1 m.startPos.2 := by
    rcases hcol with ⟨rfl, h⟩ | ⟨rfl, h⟩
    · exact Or.inl ⟨hphase, h⟩
    · exact Or.inr ⟨hphase, h⟩
  have hsh2 := (clearLine_ignoring_iff s.m_board _ _ _ _ _ _
    (s.m_board m.startPos.1 m.startPos.2)).mp hsh
  rcases makeMove_cases s m hin with ⟨h1, -⟩ | ⟨-, h2, -⟩ | ⟨-, -, h3, -⟩ | ⟨-, -, -, s1, h4, -⟩
  · exact absurd hown h1
  · exact absurd hcl h2
  · exact absurd hsh2 h3
  · exact ⟨s1, h4⟩

theorem generateLegalMoves_sound_witness :
    openingMove ∈ generateLegalMoves false (newChessboard true).m_board true
      ∧ ∃ s1, makeMove (newChessboard true) openingMove = some (true, s1) := by
  have hm : openingMove ∈ generateLegalMoves false (newChessboard true).m_board true :=
    (mem_generateLegalMoves _ _ _ _).mpr
      ⟨by decide, by decide, by decide, by decide, by decide⟩
  exact ⟨hm, generateLegalMoves_sound (newChessboard true) false true openingMove rfl hm⟩

/-- C5, counterexample: after the four accepted moves `enclosingMoves` from the
starting position it is White's turn, `makeMove` accepts `cornerMove` of the
White piece on (7,0), whose range has territoryArea ≥ 0, and
`generateLegalMoves(White)` with the endgame flag off does not list it; the
White piece on (7,3) is mobile and not enclosed, so the position is not an
endgame for White. -/
theorem generateLegalMoves_incomplete :
    ∃ s s1, playMoves (newChessboard true) enclosingMoves = some s
      ∧ s.m_turnState = TurnState.WhiteMove
      ∧ makeMove s cornerMove = some (true, s1)
      ∧ cornerMove ∉ generateLegalMoves false s.m_board true
      ∧ s.m_board 7 3 = Cell.White
      ∧ (getMoveRange s.m_board 7 3).inClosedRegion = false
      ∧ (getMoveRange s.m_board 7 3).canMove = true := by
  have h : ((playMoves (newChessboard true) enclosingMoves).bind fun s =>
      (makeMove s cornerMove).map fun p =>
        (p.1, s.m_turnState, (getMoveRange s.m_board 7 0).inClosedRegion, s.m_board 7 3,
          (getMoveRange s.m_board 7 3).inClosedRegion, (getMoveRange s.m_board 7 3).canMove))
      = some (true, TurnState.WhiteMove, true, Cell.White, false, true) := by
    decide
  obtain ⟨s, hs, h2⟩ := Option.bind_eq_some.mp h
  obtain ⟨⟨ok, s1⟩, h3, h4⟩ := Option.map_eq_some'.mp h2
  simp only [Prod.mk.injEq] at h4
  obtain ⟨rfl, ht, hclosed, hw, hncl, hcan⟩ := h4
  refine ⟨s, s1, hs, ht, h3, ?_, hw, hncl, hcan⟩
  intro hmem
  rcases ((mem_generateLegalMoves _ _ _ _).mp hmem).2.2.1 with h5 | h5
  · cases h5
  · rw [show cornerMove.startPos.1 = 7 from rfl, show cornerMove.startPos.2 = 0 from rfl,
      hclosed] at h5
    cases h5

/-- C5, amended: every move that `makeMove` accepts for the side to move is
listed by `generateLegalMoves(side)` on that position, provided the endgame
flag is on or the range of the moved piece is not enclosed (territoryArea < 0). -/
theorem generateLegalMoves_complete (s s1 : Chessboard) (m_endgame : Bool) (m : Move)
    (h : makeMove s m = some (true, s1))
    (hflag : m_endgame = true
      ∨ (getMoveRange s.m_board m.startPos.1 m.startPos.2).inClosedRegion = false) :
    m ∈ generateLegalMoves m_endgame s.m_board (decide (s.m_turnState = TurnState.WhiteMove)) := by
  by_cases hstart : inBoard m.startPos.1 m.startPos.2
  · rcases makeMove_cases s m hstart with ⟨h1, h2⟩ | ⟨h1, h2, h3⟩ | ⟨h1, h2, h3, h4⟩
        | ⟨h1, h2, h3, -⟩
    · rw [h2] at h; cases h
    · rw [h3] at h; cases h
    · rw [h4] at h; cases h
    · refine (mem_generateLegalMoves _ _ _ _).mpr ⟨hstart, ?_, hflag, h2, ?_⟩
      · rcases h1 with ⟨ht, hp⟩ | ⟨ht, hp⟩
        · left; exact ⟨by simp [ht], hp⟩
        · right; exact ⟨by simp [ht], hp⟩
      · exact (clearLine_ignoring_iff s.m_board _ _ _ _ _ _ _).mpr h3
  · rw [makeMove_none s m hstart] at h; cases h

theorem generateLegalMoves_complete_witness :
    ∃ s1, makeMove (newChessboard true) openingMove = some (true, s1)
      ∧ openingMove ∈ generateLegalMoves false (newChessboard true).m_board true := by
  rcases makeMove_cases (newChessboard true) openingMove (by decide) with
    ⟨h1, -⟩ | ⟨-, h2, -⟩ | ⟨-, -, h3, -⟩ | ⟨-, -, -, s1, h4, -⟩
  · exact absurd (by decide) h1
  · exact absurd (by decide) h2
  · exact absurd (by decide) h3
  · exact ⟨s1, h4, generateLegalMoves_complete _ _ false _ h4 (Or.inr (by decide))⟩

theorem countCells_le (b : Board) (v : Cell) : countCells b v ≤ 64 := by
  unfold countCells
  calc (∑ p : Fin 8 × Fin 8, if b ((p.1 : Nat) : Int) ((p.2 : Nat) : Int) = v then 1 else 0)
      ≤ ∑ _p : Fin 8 × Fin 8, 1 := Finset.sum_le_sum (fun p _ => by split_ifs <;> omega)
    _ = 64 := by simp

theorem exploreNeighbours_mono (visit : Board → Int → Int → Option (Int × Board))
    (hv : ∀ b r c a b1, visit b r c = some (a, b1) →
      countCells b Cell.Block ≤ countCells b1 Cell.Block) :
    ∀ (l : List (Bool × Int × Int)) (area : Int) (b : Board) (a : Int) (b1 : Board),
      exploreNeighbours visit l area b = some (a, b1) →
        countCells b Cell.Block ≤ countCells b1 Cell.Block := by
  intro l
  induction l with
  | nil =>
    intro area b a b1 h
    simp only [exploreNeighbours, Option.some.injEq, Prod.mk.injEq] at h
    rw [h.2]
  | cons x l ih =>
    intro area b a b1 h
    obtain ⟨g, r, c⟩ := x
    unfold exploreNeighbours at h
    cases g
    · simp only [Bool.false_eq_true, if_false] at h
      exact ih _ _ _ _ h
    · simp only [if_true] at h
      cases hvis : visit b r c with
      | none => rw [hvis] at h; cases h
      | some res =>
        obtain ⟨delta, b2⟩ := res
        rw [hvis] at h
        simp only at h
        have h1 := hv _ _ _ _ _ hvis
        by_cases hd : delta = -1
        · rw [if_pos hd] at h
          simp only [Option.some.injEq, Prod.mk.injEq] at h
          rw [← h.2]; exact h1
        · rw [if_neg hd] at h
          exact le_trans h1 (ih _ _ _ _ h)

/-- The flood fill only ever turns cells into `Block`. -/
theorem floodFill_mono (isWhite : Bool) :
    ∀ (fuel : Nat) (b : Board) (r c : Int) (a : Int) (b1 : Board),
      floodFill isWhite fuel b r c = some (a, b1) →
        countCells b Cell.Block ≤ countCells b1 Cell.Block := by
  intro fuel
  induction fuel with
  | zero => intro b r c a b1 h; simp [floodFill] at h
  | succ n ih =>
    intro b r c a b1 h
    unfold floodFill at h
    by_cases h1 : b r c = (if isWhite then Cell.Black else Cell.White)
    · rw [if_pos h1] at h
      simp only [Option.some.injEq, Prod.mk.injEq] at h
      rw [h.2]
    rw [if_neg h1] at h
    by_cases h2 : b r c = Cell.Block
    · rw [if_pos h2] at h
      simp only [Option.some.injEq, Prod.mk.injEq] at h
      rw [h.2]
    rw [if_neg h2] at h
    have hm := exploreNeighbours_mono (floodFill isWhite n) ih _ _ _ _ _ h
    by_cases hin : inBoard r c
    · have := countCells_setCell b r c Cell.Block Cell.Block hin
      simp only [h2, if_false, if_true, add_zero] at this
      omega
    · have hsame : countCells (setCell b r c Cell.Block) Cell.Block = countCells b Cell.Block := by
        unfold countCells
        apply Finset.sum_congr rfl
        intro p _
        rw [setCell_other]
        by_contra hcon
        push_neg at hcon
        apply hin
        unfold inBoard
        omega
      omega

theorem exploreNeighbours_total (visit : Board → Int → Int → Option (Int × Board)) (n : Nat)
    (hv : ∀ b r c a b1, visit b r c = some (a, b1) →
      countCells b Cell.Block ≤ countCells b1 Cell.Block)
    (ht : ∀ b r c, inBoard r c → 64 - countCells b Cell.Block < n → ∃ res, visit b r c = some res) :
    ∀ (l : List (Bool × Int × Int)) (area : Int) (b : Board),
      (∀ x ∈ l, x.1 = true → inBoard x.2.1 x.2.2) → 64 - countCells b Cell.Block < n →
        ∃ res, exploreNeighbours visit l area b = some res := by
  intro l
  induction l with
  | nil => intro area b _ _; exact ⟨_, rfl⟩
  | cons x l ih =>
    intro area b hl hb
    obtain ⟨g, r, c⟩ := x
    have hl' : ∀ x ∈ l, x.1 = true → inBoard x.2.1 x.2.2 :=
      fun x hx => hl x (List.mem_cons_of_mem _ hx)
    unfold exploreNeighbours
    cases g
    · simp only [Bool.false_eq_true, if_false]
      exact ih _ _ hl' hb
    · simp only [if_true]
      obtain ⟨⟨delta, b2⟩, hvis⟩ := ht b r c (hl (true, r, c) (List.mem_cons_self _ _) rfl) hb
      rw [hvis]
      simp only
      by_cases hd : delta = -1
      · rw [if_pos hd]; exact ⟨_, rfl⟩
      · rw [if_neg hd]
        have := hv _ _ _ _ _ hvis
        exact ih _ _ hl' (by omega)

/-- The flood fill returns as soon as the fuel exceeds the number of on-board
cells that are not `Block`. -/
theorem floodFill_total (isWhite : Bool) :
    ∀ (fuel : Nat) (b : Board) (r c : Int), inBoard r c →
      64 - countCells b Cell.Block < fuel → ∃ res, floodFill isWhite fuel b r c = some res := by
  intro fuel
  induction fuel with
  | zero => intro b r c _ h; omega
  | succ n ih =>
    intro b r c hin hb
    unfold floodFill
    by_cases h1 : b r c = (if isWhite then Cell.Black else Cell.White)
    · rw [if_pos h1]; exact ⟨_, rfl⟩
    rw [if_neg h1]
    by_cases h2 : b r c = Cell.Block
    · rw [if_pos h2]; exact ⟨_, rfl⟩
    rw [if_neg h2]
    have hc := countCells_setCell b r c Cell.Block Cell.Block hin
    simp only [h2, if_false, if_true, add_zero] at hc
    have hle := countCells_le (setCell b r c Cell.Block) Cell.Block
    apply exploreNeighbours_total (floodFill isWhite n) n (floodFill_mono isWhite n) ih
    · intro x hx hg
      unfold inBoard at hin ⊢
      simp only [List.mem_cons, List.mem_singleton, List.not_mem_nil, or_false] at hx
      rcases hx with rfl | rfl | rfl | rfl | rfl | rfl | rfl | rfl <;>
        simp only [decide_eq_true_eq] at hg <;> dsimp only <;> omega
    · omega

/-- With 65 units of fuel the flood fill of `getTerritoryArea` returns: the
value that `getTerritoryArea` takes is the area the fill computed. -/
theorem floodFill_terminates (b : Board) (row col : Int) (isWhite : Bool) (h : inBoard row col) :
    ∃ board1, floodFill isWhite 65 b row col = some (getTerritoryArea b row col isWhite, board1) := by
  obtain ⟨⟨a, b1⟩, hres⟩ := floodFill_total isWhite 65 b row col h (by omega)
  refine ⟨b1, ?_⟩
  unfold getTerritoryArea
  rw [hres]

theorem ownCell_ne (w : Bool) :
    ownCell w ≠ Cell.Empty ∧ ownCell w ≠ Cell.Block ∧ ownCell w ≠ enemyCell w := by
  cases w <;> simp [ownCell, enemyCell]

theorem enemyCell_ne (w : Bool) : enemyCell w ≠ Cell.Empty ∧ enemyCell w ≠ Cell.Block := by
  cases w <;> simp [enemyCell]

theorem cell_cases (w : Bool) (x : Cell) :
    x = Cell.Empty ∨ x = Cell.Block ∨ x = ownCell w ∨ x = enemyCell w := by
  cases w <;> cases x <;> simp [ownCell, enemyCell]

theorem passable_ne (b : Board) (w : Bool) (r c : Int) (h : passable b w r c) :
    b r c ≠ Cell.Block ∧ b r c ≠ enemyCell w := by
  obtain ⟨-, h | h⟩ := h
  · rw [h]; exact ⟨by simp, (enemyCell_ne w).1.symm⟩
  · rw [h]; exact ⟨(ownCell_ne w).2.1, (ownCell_ne w).2.2⟩

theorem FillFrame.refl (b : Board) (w : Bool) : FillFrame b b w := fun _ _ => Or.inl rfl

theorem FillFrame.passable_of {b b1 : Board} {w : Bool} (h : FillFrame b b1 w) {i j : Int}
    (hp : passable b1 w i j) : passable b w i j ∧ b1 i j = b i j := by
  rcases h i j with h1 | ⟨h1, h2⟩
  · exact ⟨⟨hp.1, by rw [← h1]; exact hp.2⟩, h1⟩
  · exact absurd h1 (passable_ne b1 w i j hp).1

theorem FillFrame.trans {b b1 b2 : Board} {w : Bool} (h1 : FillFrame b b1 w)
    (h2 : FillFrame b1 b2 w) : FillFrame b b2 w := by
  intro i j
  rcases h2 i j with e | ⟨e, hp⟩
  · rcases h1 i j with e1 | ⟨e1, hp1⟩
    · left; rw [e, e1]
    · right; exact ⟨by rw [e, e1], hp1⟩
  · right; exact ⟨e, (h1.passable_of hp).1⟩

theorem FillFrame.block {b b1 : Board} {w : Bool} (h : FillFrame b b1 w) {i j : Int}
    (hb : b i j = Cell.Block) : b1 i j = Cell.Block := by
  rcases h i j with e | ⟨e, -⟩
  · rw [e, hb]
  · exact e

theorem FillFrame.enemy {b b1 : Board} {w : Bool} (h : FillFrame b b1 w) {i j : Int}
    (hb : b1 i j = enemyCell w) : b i j = enemyCell w := by
  rcases h i j with e | ⟨e, -⟩
  · rw [← e, hb]
  · rw [e] at hb; exact absurd hb.symm (enemyCell_ne w).2

theorem Reach.cell_passable {b : Board} {w : Bool} {r c i j : Int} (h : Reach b w r c i j) :
    passable b w i j := by
  cases h with
  | start hp => exact hp
  | step _ _ hp => exact hp

theorem Reach.mono_frame {b b1 : Board} {w : Bool} (hf : FillFrame b b1 w) {r c i j : Int}
    (h : Reach b1 w r c i j) : Reach b w r c i j := by
  induction h with
  | start hp => exact Reach.start (hf.passable_of hp).1
  | step _ hadj hp ih => exact Reach.step ih hadj (hf.passable_of hp).1

theorem Reach.extend {b : Board} {w : Bool} {r c r1 c1 i j : Int} (hp : passable b w r c)
    (hadj : adjacent r c r1 c1) (h : Reach b w r1 c1 i j) : Reach b w r c i j := by
  induction h with
  | start hp1 => exact Reach.step (Reach.start hp) hadj hp1
  | step _ hadj2 hp2 ih => exact Reach.step ih hadj2 hp2

theorem FillAbort.abort_mono {b b1 : Board} {w : Bool} (hf : FillFrame b b1 w) {r c : Int}
    (h : FillAbort b1 w r c) : FillAbort b w r c := by
  rcases h with h | ⟨i, j, i1, j1, hr, hadj, hin, he⟩
  · exact Or.inl (hf.enemy h)
  · exact Or.inr ⟨i, j, i1, j1, hr.mono_frame hf, hadj, hin, hf.enemy he⟩

/-- The eight guarded calls of one level of the fill. -/
theorem exploreNeighbours_spec (w : Bool) (visit : Board → Int → Int → Option (Int × Board))
    (hv : VisitSpec w visit) :
    ∀ (l : List (Bool × Int × Int)) (area : Int) (b : Board) (a : Int) (b1 : Board),
      0 ≤ area → (∀ x ∈ l, x.1 = true → inBoard x.2.1 x.2.2) →
      exploreNeighbours visit l area b = some (a, b1) →
        (a = -1 ∧ ∃ x ∈ l, x.1 = true ∧ FillAbort b w x.2.1 x.2.2)
        ∨ (area ≤ a ∧ FillFrame b b1 w
            ∧ (∀ i j : Int, b1 i j ≠ b i j → ∃ x ∈ l, x.1 = true ∧ Reach b w x.2.1 x.2.2 i j)
            ∧ (∀ x ∈ l, x.1 = true → b1 x.2.1 x.2.2 = Cell.Block)
            ∧ FillClosed b b1
            ∧ (countCells b1 Cell.Empty : Int) + a = countCells b Cell.Empty + area) := by
  intro l
  induction l with
  | nil =>
    intro area b a b1 harea _ h
    simp only [exploreNeighbours, Option.some.injEq, Prod.mk.injEq] at h
    obtain ⟨rfl, rfl⟩ := h
    right
    refine ⟨le_refl _, FillFrame.refl _ _, ?_, ?_, ?_, rfl⟩
    · intro i j hne; exact absurd rfl hne
    · intro x hx; cases hx
    · intro i j hne; exact absurd rfl hne
  | cons x l ih =>
    intro area b a b1 harea hl h
    obtain ⟨g, r, c⟩ := x
    have hl' : ∀ x ∈ l, x.1 = true → inBoard x.2.1 x.2.2 :=
      fun x hx => hl x (List.mem_cons_of_mem _ hx)
    unfold exploreNeighbours at h
    cases g
    · simp only [Bool.false_eq_true, if_false] at h
      rcases ih area b a b1 harea hl' h with ⟨ha, y, hy, hg, hab⟩ | ⟨h1, h2, h3, h4, h5, h6⟩
      · exact Or.inl ⟨ha, y, List.mem_cons_of_mem _ hy, hg, hab⟩
      · right
        refine ⟨h1, h2, ?_, ?_, h5, h6⟩
        · intro i j hne
          obtain ⟨y, hy, hg, hr⟩ := h3 i j hne
          exact ⟨y, List.mem_cons_of_mem _ hy, hg, hr⟩
        · intro y hy hg
          rcases List.mem_cons.mp hy with rfl | hy
          · cases hg
          · exact h4 y hy hg
    · simp only [if_true] at h
      have hin : inBoard r c := hl (true, r, c) (List.mem_cons_self _ _) rfl
      cases hvis : visit b r c with
      | none => rw [hvis] at h; cases h
      | some res =>
        obtain ⟨delta, b2⟩ := res
        rw [hvis] at h
        simp only at h
        rcases hv b r c delta b2 hin hvis with ⟨hd, hab⟩ | hok
        · rw [if_pos hd] at h
          simp only [Option.some.injEq, Prod.mk.injEq] at h
          exact Or.inl ⟨h.1.symm, (true, r, c), List.mem_cons_self _ _, rfl, hab⟩
        · have hd : delta ≠ -1 := by have := hok.nonneg; omega
          rw [if_neg hd] at h
          rcases ih (area + delta) b2 a b1 (by have := hok.nonneg; omega) hl' h with
            ⟨ha, y, hy, hg, hab⟩ | ⟨h1, h2, h3, h4, h5, h6⟩
          · exact Or.inl ⟨ha, y, List.mem_cons_of_mem _ hy, hg, hab.abort_mono hok.frame⟩
          · right
            refine ⟨by have := hok.nonneg; omega, hok.frame.trans h2, ?_, ?_, ?_, ?_⟩
            · intro i j hne
              by_cases hc : b2 i j = b i j
              · have : b1 i j ≠ b2 i j := by rw [hc]; exact hne
                obtain ⟨y, hy, hg, hr⟩ := h3 i j this
                exact ⟨y, List.mem_cons_of_mem _ hy, hg, hr.mono_frame hok.frame⟩
              · exact ⟨(true, r, c), List.mem_cons_self _ _, rfl, hok.sound i j hc⟩
            · intro y hy hg
              rcases List.mem_cons.mp hy with rfl | hy
              · exact h2.block hok.start_blocked
              · exact h4 y hy hg
            · intro i j hne i1 j1 hadj hin1
              by_cases hc : b2 i j = b i j
              · have : b1 i j ≠ b2 i j := by rw [hc]; exact hne
                exact h5 i j this i1 j1 hadj hin1
              · exact h2.block (hok.closed i j hc i1 j1 hadj hin1)
            · have := hok.count
              omega

theorem floodFill_succ (w : Bool) (n : Nat) (b : Board) (row col : Int) :
    floodFill w (n + 1) b row col =
      if b row col = enemyCell w then some (-1, b)
      else if b row col = Cell.Block then some (0, b)
      else exploreNeighbours (floodFill w n) (fillNeighbours row col)
        (if b row col = Cell.Empty then 1 else 0) (setCell b row col Cell.Block) := rfl

theorem fillNeighbours_adjacent (r c : Int) (h : inBoard r c) :
    ∀ x ∈ fillNeighbours r c, x.1 = true → inBoard x.2.1 x.2.2 ∧ adjacent r c x.2.1 x.2.2 := by
  intro x hx hg
  unfold inBoard at h ⊢
  unfold adjacent lineDist
  simp only [fillNeighbours, List.mem_cons, List.mem_singleton, List.not_mem_nil, or_false] at hx
  rcases hx with rfl | rfl | rfl | rfl | rfl | rfl | rfl | rfl <;>
    simp only [decide_eq_true_eq] at hg <;> dsimp only <;> omega

theorem fillNeighbours_complete (r c i j : Int) (h : inBoard r c) (hadj : adjacent r c i j)
    (hin : inBoard i j) : (true, i, j) ∈ fillNeighbours r c := by
  unfold inBoard at h hin
  unfold adjacent lineDist at hadj
  have hi : i = r - 1 ∨ i = r ∨ i = r + 1 := by omega
  have hj : j = c - 1 ∨ j = c ∨ j = c + 1 := by omega
  simp only [fillNeighbours, List.mem_cons, List.mem_singleton, List.not_mem_nil, or_false,
    Prod.mk.injEq]
  rcases hi with rfl | rfl | rfl <;> rcases hj with rfl | rfl | rfl
  · right; right; right; right; left
    exact ⟨by simp; omega, rfl, rfl⟩
  · left; exact ⟨by simp; omega, rfl, rfl⟩
  · right; right; right; right; right; left
    exact ⟨by simp; omega, rfl, rfl⟩
  · right; right; left; exact ⟨by simp; omega, rfl, rfl⟩
  · omega
  · right; right; right; left; exact ⟨by simp; omega, rfl, rfl⟩
  · right; right; right; right; right; right; left
    exact ⟨by simp; omega, rfl, rfl⟩
  · right; left; exact ⟨by simp; omega, rfl, rfl⟩
  · right; right; right; right; right; right; right
    exact ⟨by simp; omega, rfl, rfl⟩

/-- What the flood fill returns, for every amount of fuel it returns with. -/
theorem floodFill_spec (w : Bool) : ∀ fuel : Nat, VisitSpec w (floodFill w fuel) := by
  intro fuel
  induction fuel with
  | zero => intro b r c a b1 _ h; simp [floodFill] at h
  | succ n ih =>
    intro b r c a b1 hin h
    rw [floodFill_succ] at h
    by_cases h1 : b r c = enemyCell w
    · rw [if_pos h1] at h
      simp only [Option.some.injEq, Prod.mk.injEq] at h
      exact Or.inl ⟨h.1.symm, Or.inl h1⟩
    rw [if_neg h1] at h
    by_cases h2 : b r c = Cell.Block
    · rw [if_pos h2] at h
      simp only [Option.some.injEq, Prod.mk.injEq] at h
      obtain ⟨rfl, rfl⟩ := h
      right
      exact ⟨FillFrame.refl _ _, fun i j hne => absurd rfl hne, h2,
        fun i j hne => absurd rfl hne, by simp, le_refl _⟩
    rw [if_neg h2] at h
    have hp : passable b w r c := by
      refine ⟨hin, ?_⟩
      rcases cell_cases w (b r c) with h3 | h3 | h3 | h3
      · exact Or.inl h3
      · exact absurd h3 h2
      · exact Or.inr h3
      · exact absurd h3 h1
    have hf0 : FillFrame b (setCell b r c Cell.Block) w := by
      intro i j
      by_cases hij : i = r ∧ j = c
      · right; rw [hij.1, hij.2]; exact ⟨setCell_same _ _ _ _, hp⟩
      · left; exact setCell_other _ _ _ _ _ _ (by omega)
    have hcount : (countCells (setCell b r c Cell.Block) Cell.Empty : Int)
        + (if b r c = Cell.Empty then 1 else 0) = countCells b Cell.Empty := by
      have := countCells_setCell b r c Cell.Block Cell.Empty hin
      simp only [reduceCtorEq, if_false, add_zero] at this
      split_ifs at this ⊢ <;> omega
    have hnb := fillNeighbours_adjacent r c hin
    rcases exploreNeighbours_spec w (floodFill w n) ih (fillNeighbours r c) _ _ a b1
        (by split_ifs <;> omega) (fun x hx hg => (hnb x hx hg).1) h with
      ⟨ha, x, hx, hg, hab⟩ | ⟨h3, h4, h5, h6, h7, h8⟩
    · left
      refine ⟨ha, Or.inr ?_⟩
      obtain ⟨hxin, hxadj⟩ := hnb x hx hg
      rcases hab with he | ⟨i, j, i1, j1, hr, hadj, hin1, he⟩
      · exact ⟨r, c, x.2.1, x.2.2, Reach.start hp, hxadj, hxin, hf0.enemy he⟩
      · exact ⟨i, j, i1, j1, Reach.extend hp hxadj (hr.mono_frame hf0), hadj, hin1, hf0.enemy he⟩
    · right
      have hb1 : b1 r c = Cell.Block := h4.block (setCell_same _ _ _ _)
      refine ⟨hf0.trans h4, ?_, hb1, ?_, by omega, by split_ifs at h3 <;> omega⟩
      · intro i j hne
        by_cases hij : i = r ∧ j = c
        · rw [hij.1, hij.2]; exact Reach.start hp
        · have e : setCell b r c Cell.Block i j = b i j :=
            setCell_other _ _ _ _ _ _ (by omega)
          obtain ⟨x, hx, hg, hr⟩ := h5 i j (by rw [e]; exact hne)
          exact Reach.extend hp (hnb x hx hg).2 (hr.mono_frame hf0)
      · intro i j hne i1 j1 hadj hin1
        by_cases hij : i = r ∧ j = c
        · rw [hij.1, hij.2] at hadj
          exact h6 _ (fillNeighbours_complete r c i1 j1 hin hadj hin1) rfl
        · have e : setCell b r c Cell.Block i j = b i j :=
            setCell_other _ _ _ _ _ _ (by omega)
          exact h7 i j (by rw [e]; exact hne) i1 j1 hadj hin1

/-- A fill that has not met an opposing piece has blocked the whole component. -/
theorem FillOk.reach_blocked {b b1 : Board} {w : Bool} {r c : Int} {a : Int}
    (h : FillOk b w r c a b1) {i j : Int} (hr : Reach b w r c i j) :
    b1 i j = Cell.Block ∧ b1 i j ≠ b i j := by
  induction hr with
  | start hp =>
    refine ⟨h.start_blocked, ?_⟩
    rw [h.start_blocked]; exact (passable_ne b w r c hp).1.symm
  | step _ hadj hp ih =>
    have hb := h.closed _ _ ih.2 _ _ hadj hp.1
    refine ⟨hb, ?_⟩
    rw [hb]; exact (passable_ne b w _ _ hp).1.symm

theorem FillOk.not_abort {b b1 : Board} {w : Bool} {r c : Int} {a : Int}
    (h : FillOk b w r c a b1) : ¬ FillAbort b w r c := by
  rintro (he | ⟨i, j, i1, j1, hr, hadj, hin, he⟩)
  · rcases h.frame r c with e | ⟨-, hp⟩
    · rw [h.start_blocked] at e
      rw [he] at e
      exact (enemyCell_ne w).2 e.symm
    · exact (passable_ne b w r c hp).2 he
  · have hb := h.closed _ _ (h.reach_blocked hr).2 _ _ hadj hin
    rcases h.frame i1 j1 with e | ⟨-, hp⟩
    · rw [hb, he] at e
      exact (enemyCell_ne w).2 e.symm
    · exact (passable_ne b w _ _ hp).2 he

/-- The Empty cells that a fill has blocked, as a set of squares. -/
theorem FillOk.empty_cells {b b1 : Board} {w : Bool} {r c : Int} {a : Int}
    (h : FillOk b w r c a b1) :
    ∃ S : Finset (Int × Int),
      (∀ i j : Int, (i, j) ∈ S ↔ Reach b w r c i j ∧ b i j = Cell.Empty) ∧ a = S.card := by
  let f : Fin 8 × Fin 8 → Int × Int := fun p => (((p.1 : Nat) : Int), ((p.2 : Nat) : Int))
  have hf : Function.Injective f := by
    intro p q hpq
    simp only [f, Prod.mk.injEq] at hpq
    ext
    · omega
    · omega
  let T : Finset (Fin 8 × Fin 8) := Finset.univ.filter fun p =>
    b ((p.1 : Nat) : Int) ((p.2 : Nat) : Int) = Cell.Empty
      ∧ b1 ((p.1 : Nat) : Int) ((p.2 : Nat) : Int) ≠ b ((p.1 : Nat) : Int) ((p.2 : Nat) : Int)
  refine ⟨T.image f, ?_, ?_⟩
  · intro i j
    simp only [T, Finset.mem_image, Finset.mem_filter, Finset.mem_univ, true_and, f,
      Prod.mk.injEq]
    constructor
    · rintro ⟨p, ⟨h1, h2⟩, rfl, rfl⟩
      exact ⟨h.sound _ _ h2, h1⟩
    · rintro ⟨hr, he⟩
      have hin := hr.cell_passable.1
      unfold inBoard at hin
      refine ⟨(⟨i.toNat, by omega⟩, ⟨j.toNat, by omega⟩), ?_, ?_, ?_⟩
      · have e1 : ((i.toNat : Nat) : Int) = i := by omega
        have e2 : ((j.toNat : Nat) : Int) = j := by omega
        simp only [e1, e2]
        exact ⟨he, (h.reach_blocked hr).2⟩
      · simp only; omega
      · simp only; omega
  · rw [Finset.card_image_of_injective _ hf, Finset.card_filter]
    have hc := h.count
    unfold countCells at hc
    have hpt : ∀ p : Fin 8 × Fin 8,
        (if b ((p.1 : Nat) : Int) ((p.2 : Nat) : Int) = Cell.Empty then 1 else 0)
          = (if b1 ((p.1 : Nat) : Int) ((p.2 : Nat) : Int) = Cell.Empty then 1 else 0)
            + (if b ((p.1 : Nat) : Int) ((p.2 : Nat) : Int) = Cell.Empty
                ∧ b1 ((p.1 : Nat) : Int) ((p.2 : Nat) : Int)
                  ≠ b ((p.1 : Nat) : Int) ((p.2 : Nat) : Int) then 1 else 0) := by
      intro p
      rcases h.frame ((p.1 : Nat) : Int) ((p.2 : Nat) : Int) with e | ⟨e, -⟩
      · rw [e]; simp
      · rw [e]
        by_cases he : b ((p.1 : Nat) : Int) ((p.2 : Nat) : Int) = Cell.Empty
        · simp [he]
        · simp [he]
    rw [Finset.sum_congr rfl (fun p _ => hpt p), Finset.sum_add_distrib] at hc
    push_cast at hc ⊢
    omega

/-- C11: for every board, side and on-board start square, with the component of
the start the set of cells reachable from it by 8-neighbour steps through cells
that are Empty or hold a piece of the side, `getTerritoryArea` returns -1
exactly when the start holds an opposing piece or some cell of the component
has an 8-neighbour holding an opposing piece; otherwise it returns the number
of Empty cells of the component. -/
theorem getTerritoryArea_spec (b : Board) (r c : Int) (isWhite : Bool) (h : inBoard r c) :
    (getTerritoryArea b r c isWhite = -1
        ↔ (b r c = enemyCell isWhite ∨ touchesEnemy b isWhite r c))
      ∧ (getTerritoryArea b r c isWhite ≠ -1 →
          ∃ S : Finset (Int × Int),
            (∀ i j : Int, (i, j) ∈ S ↔ Reach b isWhite r c i j ∧ b i j = Cell.Empty)
              ∧ getTerritoryArea b r c isWhite = S.card) := by
  obtain ⟨b1, hres⟩ := floodFill_terminates b r c isWhite h
  rcases floodFill_spec isWhite 65 b r c _ b1 h hres with ⟨ha, hab⟩ | hok
  · exact ⟨⟨fun _ => hab, fun _ => ha⟩, fun hne => absurd ha hne⟩
  · have hne : getTerritoryArea b r c isWhite ≠ -1 := by have := hok.nonneg; omega
    exact ⟨⟨fun ha => absurd ha hne, fun hab => absurd hab hok.not_abort⟩,
      fun _ => hok.empty_cells⟩

theorem getTerritoryArea_spec_witness :
    inBoard 0 0 ∧ getTerritoryArea corneredBoard 0 0 true = 0
      ∧ ¬ touchesEnemy corneredBoard true 0 0 := by
  have h := (getTerritoryArea_spec corneredBoard 0 0 true (by decide)).1
  have h0 : getTerritoryArea corneredBoard 0 0 true = 0 := by decide
  refine ⟨by decide, h0, fun ht => ?_⟩
  have := h.mpr (Or.inr ht)
  rw [h0] at this
  cases this

/-- The component that a fill has blocked, as a set of squares, and the area as
the number of its Empty cells. -/
theorem FillOk.component {b b1 : Board} {w : Bool} {r c : Int} {a : Int}
    (h : FillOk b w r c a b1) :
    ∃ T : Finset (Int × Int),
      (∀ i j : Int, (i, j) ∈ T ↔ Reach b w r c i j)
        ∧ a = (T.filter fun p => b p.1 p.2 = Cell.Empty).card := by
  let f : Fin 8 × Fin 8 → Int × Int := fun p => (((p.1 : Nat) : Int), ((p.2 : Nat) : Int))
  let T0 : Finset (Fin 8 × Fin 8) := Finset.univ.filter fun p =>
    b1 ((p.1 : Nat) : Int) ((p.2 : Nat) : Int) ≠ b ((p.1 : Nat) : Int) ((p.2 : Nat) : Int)
  have hT : ∀ i j : Int, (i, j) ∈ T0.image f ↔ Reach b w r c i j := by
    intro i j
    simp only [T0, Finset.mem_image, Finset.mem_filter, Finset.mem_univ, true_and, f,
      Prod.mk.injEq]
    constructor
    · rintro ⟨p, h2, rfl, rfl⟩
      exact h.sound _ _ h2
    · intro hr
      have hin := hr.cell_passable.1
      unfold inBoard at hin
      refine ⟨(⟨i.toNat, by omega⟩, ⟨j.toNat, by omega⟩), ?_, ?_, ?_⟩
      · have e1 : ((i.toNat : Nat) : Int) = i := by omega
        have e2 : ((j.toNat : Nat) : Int) = j := by omega
        simp only [e1, e2]
        exact (h.reach_blocked hr).2
      · simp only; omega
      · simp only; omega
  refine ⟨T0.image f, hT, ?_⟩
  obtain ⟨S, hS, ha⟩ := h.empty_cells
  rw [ha]
  congr 2
  ext ⟨i, j⟩
  rw [hS, Finset.mem_filter, hT]

/-- A piece all of whose on-board adjacent cells are impassable is alone in its
component. -/
theorem Reach.singleton {b : Board} {w : Bool} {r c : Int}
    (h : ∀ i j : Int, adjacent r c i j → inBoard i j → ¬ passable b w i j) {i j : Int}
    (hr : Reach b w r c i j) : i = r ∧ j = c := by
  induction hr with
  | start _ => exact ⟨rfl, rfl⟩
  | step _ hadj hp ih =>
    obtain ⟨rfl, rfl⟩ := ih
    exact absurd hp (h _ _ hadj hp.1)

theorem corneredBoard_reach (i j : Int) (hr : Reach corneredBoard true 0 0 i j) :
    i = 0 ∧ j = 0 := by
  refine Reach.singleton ?_ hr
  intro i j hadj hin
  unfold inBoard at hin
  unfold adjacent lineDist at hadj
  have hi : i = 0 ∨ i = 1 := by omega
  have hj : j = 0 ∨ j = 1 := by omega
  rcases hi with rfl | rfl <;> rcases hj with rfl | rfl <;> first | omega | decide

theorem corneredBoard_free : ¬ touchesEnemy corneredBoard true 0 0 := by
  rintro ⟨i, j, i1, j1, hr, hadj, hin, he⟩
  obtain ⟨rfl, rfl⟩ := corneredBoard_reach i j hr
  unfold inBoard at hin
  unfold adjacent lineDist at hadj
  have hi : i1 = 0 ∨ i1 = 1 := by omega
  have hj : j1 = 0 ∨ j1 = 1 := by omega
  rcases hi with rfl | rfl <;> rcases hj with rfl | rfl <;>
    first | omega | exact absurd he (by decide)

/-- C12, counterexample: on `corneredBoard` the fill from the White piece on
(0,0) reaches no opposing piece, the component of (0,0) is the one cell (0,0),
which holds a White piece (so Empty plus own-piece cells count 1), and
`getTerritoryArea` returns 0. -/
theorem getTerritoryArea_skips_own_pieces :
    getTerritoryArea corneredBoard 0 0 true = 0
      ∧ corneredBoard 0 0 ≠ enemyCell true ∧ ¬ touchesEnemy corneredBoard true 0 0
      ∧ ∃ S : Finset (Int × Int),
          (∀ i j : Int, (i, j) ∈ S ↔ Reach corneredBoard true 0 0 i j
            ∧ (corneredBoard i j = Cell.Empty ∨ corneredBoard i j = ownCell true))
          ∧ S.card = 1 := by
  refine ⟨by decide, by decide, corneredBoard_free, {(0, 0)}, ?_, rfl⟩
  intro i j
  simp only [Finset.mem_singleton, Prod.mk.injEq]
  constructor
  · rintro ⟨rfl, rfl⟩
    exact ⟨Reach.start (by decide), by decide⟩
  · rintro ⟨hr, -⟩
    exact corneredBoard_reach i j hr

/-- C12, amended: when the start is on the board and the fill from it reaches no
opposing piece, `getTerritoryArea` returns the number of Empty cells of the
start's component; the own-piece cells of the component are not counted, so the
value plus their number is the number of cells of the component. -/
theorem getTerritoryArea_counts_empty (b : Board) (r c : Int) (isWhite : Bool)
    (h : inBoard r c) (hstart : b r c ≠ enemyCell isWhite)
    (hfree : ¬ touchesEnemy b isWhite r c) :
    ∃ T : Finset (Int × Int),
      (∀ i j : Int, (i, j) ∈ T ↔ Reach b isWhite r c i j)
        ∧ getTerritoryArea b r c isWhite = (T.filter fun p => b p.1 p.2 = Cell.Empty).card
        ∧ getTerritoryArea b r c isWhite
            + (T.filter fun p => b p.1 p.2 = ownCell isWhite).card = T.card := by
  obtain ⟨b1, hres⟩ := floodFill_terminates b r c isWhite h
  rcases floodFill_spec isWhite 65 b r c _ b1 h hres with ⟨-, hab⟩ | hok
  · rcases hab with he | ht
    · exact absurd he hstart
    · exact absurd ht hfree
  · obtain ⟨T, hT, ha⟩ := hok.component
    refine ⟨T, hT, ha, ?_⟩
    rw [ha]
    have hsplit := Finset.filter_card_add_filter_neg_card_eq_card (s := T)
      (fun p => b p.1 p.2 = Cell.Empty)
    have hown : (T.filter fun p => ¬ b p.1 p.2 = Cell.Empty)
        = T.filter fun p => b p.1 p.2 = ownCell isWhite := by
      apply Finset.filter_congr
      rintro ⟨i, j⟩ hp
      have hpass := ((hT i j).mp hp).cell_passable
      constructor
      · intro hne
        rcases hpass.2 with h1 | h1
        · exact absurd h1 hne
        · exact h1
      · intro ho he
        rw [ho] at he
        exact (ownCell_ne isWhite).1 he
    rw [hown] at hsplit
    exact_mod_cast hsplit

theorem getTerritoryArea_counts_empty_witness :
    ∃ T : Finset (Int × Int),
      (∀ i j : Int, (i, j) ∈ T ↔ Reach corneredBoard true 0 0 i j)
        ∧ getTerritoryArea corneredBoard 0 0 true
            = (T.filter fun p => corneredBoard p.1 p.2 = Cell.Empty).card
        ∧ getTerritoryArea corneredBoard 0 0 true
            + (T.filter fun p => corneredBoard p.1 p.2 = ownCell true).card = T.card :=
  getTerritoryArea_counts_empty corneredBoard 0 0 true (by decide) (by decide)
    corneredBoard_free

/-- The two outcomes of the fill from an on-board square. -/
theorem getTerritoryArea_cases (b : Board) (r c : Int) (w : Bool) (h : inBoard r c) :
    (getTerritoryArea b r c w = -1 ∧ FillAbort b w r c)
      ∨ ∃ b1 : Board, FillOk b w r c (getTerritoryArea b r c w) b1 := by
  obtain ⟨b1, hres⟩ := floodFill_terminates b r c w h
  rcases floodFill_spec w 65 b r c _ b1 h hres with hab | hok
  · exact Or.inl hab
  · exact Or.inr ⟨b1, hok⟩

theorem getMoveRange_territoryArea (b : Board) (r c : Int) (h : inBoard r c) :
    (getMoveRange b r c).territoryArea = getTerritoryArea b r c (decide (b r c = Cell.White)) := by
  have hb : ¬ (r < 0 ∨ r ≥ 8 ∨ c < 0 ∨ c ≥ 8) := by unfold inBoard at h; omega
  unfold getMoveRange
  rw [if_neg hb]

/-- A piece with no Empty adjacent cell has no destination in any direction. -/
theorem getMoveRange_stuck (b : Board) (r c : Int) (h : inBoard r c)
    (hno : ¬ hasEmptyNeighbour b r c) : (getMoveRange b r c).getTotalMoves = 0 := by
  have key : ∀ (dr dc k : Int), (dr = -1 ∨ dr = 0 ∨ dr = 1) → (dc = -1 ∨ dc = 0 ∨ dc = 1) →
      (dr ≠ 0 ∨ dc ≠ 0) → 0 ≤ k → isReach b (fun j => (r + dr * j, c + dc * j)) k → k = 0 := by
    intro dr dc k hdr hdc hne hk hreach
    by_contra hk0
    have h1 := hreach.1 1 (le_refl 1) (by omega)
    simp only [mul_one] at h1
    exact hno (hasEmptyNeighbour_intro b r c dr dc hdr hdc hne h1.1 h1.2)
  obtain ⟨h1, h2, h3, h4, h5, h6, h7, h8⟩ := getMoveRange_reach b r c h
  have e1 := key (-1) 0 _ (by omega) (by omega) (by omega) h1.1
    (by have := h1.2; simpa [sub_eq_add_neg] using this)
  have e2 := key 1 0 _ (by omega) (by omega) (by omega) h2.1 (by simpa using h2.2)
  have e3 := key 0 (-1) _ (by omega) (by omega) (by omega) h3.1
    (by have := h3.2; simpa [sub_eq_add_neg] using this)
  have e4 := key 0 1 _ (by omega) (by omega) (by omega) h4.1 (by simpa using h4.2)
  have e5 := key (-1) (-1) _ (by omega) (by omega) (by omega) h5.1
    (by have := h5.2; simpa [sub_eq_add_neg] using this)
  have e6 := key (-1) 1 _ (by omega) (by omega) (by omega) h6.1
    (by have := h6.2; simpa [sub_eq_add_neg] using this)
  have e7 := key 1 (-1) _ (by omega) (by omega) (by omega) h7.1
    (by have := h7.2; simpa [sub_eq_add_neg] using this)
  have e8 := key 1 1 _ (by omega) (by omega) (by omega) h8.1 (by simpa using h8.2)
  unfold MoveRange.getTotalMoves
  omega

theorem ownCell_ne_enemyCell (w : Bool) : ownCell w ≠ enemyCell w := by
  cases w <;> decide

theorem ownCell_of_piece (b : Board) (r c : Int) (hp : b r c = Cell.White ∨ b r c = Cell.Black) :
    b r c = ownCell (decide (b r c = Cell.White)) := by
  rcases hp with e | e <;> rw [e] <;> decide

/-- C13, counterexample: on `contactBoard` the White piece on (0,0) has no
Empty adjacent cell, `getMoveRange` there has `canMove()` false, and its
`territoryArea` field is -1, not 0. -/
theorem getMoveRange_contact_not_zero :
    (contactBoard 0 0 = Cell.White ∧ ¬ hasEmptyNeighbour contactBoard 0 0)
      ∧ (getMoveRange contactBoard 0 0).canMove = false
      ∧ (getMoveRange contactBoard 0 0).territoryArea = -1 := by
  decide

/-- C13, amended: for every board and every on-board piece none of whose
adjacent cells is Empty, `getMoveRange` at the piece's square has `canMove()`
false; its `territoryArea` field is -1 when an adjacent cell holds an opposing
piece, and 0 when every on-board adjacent cell is a Block. -/
theorem getMoveRange_no_empty_neighbour (b : Board) (r c : Int) (h : inBoard r c)
    (hp : b r c = Cell.White ∨ b r c = Cell.Black) (hno : ¬ hasEmptyNeighbour b r c) :
    (getMoveRange b r c).canMove = false
      ∧ ((∃ i j : Int, adjacent r c i j ∧ inBoard i j
            ∧ b i j = enemyCell (decide (b r c = Cell.White)))
          → (getMoveRange b r c).territoryArea = -1)
      ∧ ((∀ i j : Int, adjacent r c i j → inBoard i j → b i j = Cell.Block)
          → (getMoveRange b r c).territoryArea = 0) := by
  have hown := ownCell_of_piece b r c hp
  have hpass : passable b (decide (b r c = Cell.White)) r c := ⟨h, Or.inr hown⟩
  refine ⟨?_, ?_, ?_⟩
  · unfold MoveRange.canMove
    rw [getMoveRange_stuck b r c h hno]
    decide
  · rintro ⟨i, j, hadj, hin, he⟩
    rw [getMoveRange_territoryArea b r c h]
    rcases getTerritoryArea_cases b r c (decide (b r c = Cell.White)) h with hab | ⟨b1, hok⟩
    · exact hab.1
    · exact absurd (Or.inr ⟨r, c, i, j, Reach.start hpass, hadj, hin, he⟩) hok.not_abort
  · intro hall
    rw [getMoveRange_territoryArea b r c h]
    have hsingle : ∀ i j : Int, Reach b (decide (b r c = Cell.White)) r c i j → i = r ∧ j = c := by
      intro i j hr
      refine Reach.singleton ?_ hr
      intro i1 j1 hadj hin hps
      exact (passable_ne b _ i1 j1 hps).1 (hall i1 j1 hadj hin)
    rcases getTerritoryArea_cases b r c (decide (b r c = Cell.White)) h with hab | ⟨b1, hok⟩
    · exfalso
      rcases hab.2 with he | ⟨i, j, i1, j1, hr, hadj, hin, he⟩
      · exact ownCell_ne_enemyCell _ (hown.symm.trans he)
      · obtain ⟨rfl, rfl⟩ := hsingle i j hr
        rw [hall i1 j1 hadj hin] at he
        exact (enemyCell_ne _).2 he.symm
    · obtain ⟨S, hS, ha⟩ := hok.empty_cells
      have hempty : S = ∅ := by
        apply Finset.eq_empty_of_forall_not_mem
        rintro ⟨i, j⟩ hmem
        obtain ⟨hr, he⟩ := (hS i j).mp hmem
        obtain ⟨rfl, rfl⟩ := hsingle i j hr
        rcases hp with e | e <;> rw [e] at he <;> cases he
      rw [ha, hempty]
      rfl

theorem getMoveRange_no_empty_neighbour_witness :
    (getMoveRange corneredBoard 0 0).canMove = false
      ∧ ((∃ i j : Int, adjacent 0 0 i j ∧ inBoard i j
            ∧ corneredBoard i j = enemyCell (decide (corneredBoard 0 0 = Cell.White)))
          → (getMoveRange corneredBoard 0 0).territoryArea = -1)
      ∧ ((∀ i j : Int, adjacent 0 0 i j → inBoard i j → corneredBoard i j = Cell.Block)
          → (getMoveRange corneredBoard 0 0).territoryArea = 0) :=
  getMoveRange_no_empty_neighbour corneredBoard 0 0 (by decide) (by decide) (by decide)

theorem legalOn_of_mem (e w : Bool) (b : Board) (m : Move)
    (h : m ∈ generateLegalMoves e b w) : legalOn b m := by
  obtain ⟨hin, hcol, -, hcl, hsh⟩ := (mem_generateLegalMoves _ _ _ _).mp h
  refine ⟨hin, ?_, hcl, hsh⟩
  rcases hcol with ⟨-, h1⟩ | ⟨-, h1⟩
  · exact Or.inl h1
  · exact Or.inr h1

/-- The facts about the three squares of a legal move. -/
theorem legalOn.squares {b : Board} {m : Move} (h : legalOn b m) :
    inBoard m.targetPos.1 m.targetPos.2 ∧ inBoard m.shootPos.1 m.shootPos.2
      ∧ (m.targetPos.1 ≠ m.startPos.1 ∨ m.targetPos.2 ≠ m.startPos.2)
      ∧ (m.shootPos.1 ≠ m.targetPos.1 ∨ m.shootPos.2 ≠ m.targetPos.2)
      ∧ b m.targetPos.1 m.targetPos.2 = Cell.Empty
      ∧ ((m.shootPos.1 = m.startPos.1 ∧ m.shootPos.2 = m.startPos.2)
          ∨ b m.shootPos.1 m.shootPos.2 = Cell.Empty) := by
  obtain ⟨hin, hp, hcl, hsh⟩ := h
  have h1 := hcl.2.2.2.1
  have h2 := hsh.2.2.2.1
  have h3 := hsh.2.2.1
  unfold sameLine at h1 h2
  refine ⟨hcl.2.1, hsh.2.1, by omega, by omega, hcl.2.2.1, ?_⟩
  by_cases hs : m.shootPos.1 = m.startPos.1 ∧ m.shootPos.2 = m.startPos.2
  · exact Or.inl hs
  · right
    rw [setCell_other _ _ _ _ _ _ (by omega)] at h3
    exact h3

theorem makeMoveInSandbox_legal (w : Bool) (sb : Chessboard) (m : Move)
    (h : legalOn sb.m_board m) :
    ∃ sb1, makeMoveInSandbox w sb m true true = some (true, sb1)
      ∧ sb1.m_board = applyMove sb.m_board m := by
  obtain ⟨hin, hp, hcl, hsh⟩ := h
  have hsh2 := (clearLine_ignoring_iff sb.m_board _ _ _ _ _ _
    (sb.m_board m.startPos.1 m.startPos.2)).mp hsh
  have hread : readCell sb.m_board m.startPos.1 m.startPos.2
      = some (sb.m_board m.startPos.1 m.startPos.2) := by
    unfold readCell; rw [if_pos hin]
  rcases makeMove_cases { sb with m_turnState :=
      (if (sb.m_board m.startPos.1 m.startPos.2 = Cell.White) then TurnState.WhiteMove
      else TurnState.BlackMove) } m hin with ⟨h1, -⟩ | ⟨-, h2, -⟩ | ⟨-, -, h3, -⟩
        | ⟨-, -, -, s1, h4, h5, -⟩
  · exfalso
    apply h1
    rcases hp with e | e
    · exact Or.inl ⟨by simp [e], e⟩
    · exact Or.inr ⟨by simp [e], e⟩
  · exact absurd hcl h2
  · exact absurd hsh2 h3
  · refine ⟨{ s1 with m_turnState := if w then TurnState.WhiteMove else TurnState.BlackMove },
      ?_, h5⟩
    unfold makeMoveInSandbox
    simp only [if_true, hread, Option.map_some', Option.bind_eq_bind, Option.some_bind, h4]

theorem reverseMoveInSandbox_applyMove (sb2 : Chessboard) (b : Board) (m : Move)
    (h : legalOn b m) (hb : sb2.m_board = applyMove b m) :
    ∃ sb3, reverseMoveInSandbox sb2 m = some (true, sb3) ∧ sb3.m_board = b := by
  obtain ⟨htin, hsin, hts, hst, hte, hse⟩ := h.squares
  obtain ⟨hin, hp, -, -⟩ := h
  have hcell : sb2.m_board m.targetPos.1 m.targetPos.2 = b m.startPos.1 m.startPos.2 := by
    rw [hb]
    unfold applyMove
    rw [setCell_other _ _ _ _ _ _ (by omega), setCell_other _ _ _ _ _ _ hts, setCell_same]
  have hread : readCell sb2.m_board m.targetPos.1 m.targetPos.2
      = some (b m.startPos.1 m.startPos.2) := by
    unfold readCell; rw [if_pos htin, hcell]
  have hne : ¬ (b m.startPos.1 m.startPos.2 = Cell.Empty
      ∨ b m.startPos.1 m.startPos.2 = Cell.Block) := by
    rcases hp with e | e <;> rw [e] <;> decide
  refine ⟨{ sb2 with m_board := (setCell (setCell (setCell sb2.m_board m.shootPos.1 m.shootPos.2
    Cell.Empty) m.startPos.1 m.startPos.2 (b m.startPos.1 m.startPos.2))
    m.targetPos.1 m.targetPos.2 Cell.Empty) }, ?_, ?_⟩
  · unfold reverseMoveInSandbox
    simp only [hread, Option.bind_eq_bind, Option.some_bind]
    rw [if_neg hne, if_neg (not_not.mpr hsin), if_neg (not_not.mpr hin)]
  · simp only
    funext i j
    rw [hb]
    unfold applyMove
    by_cases e1 : i = m.targetPos.1 ∧ j = m.targetPos.2
    · obtain ⟨rfl, rfl⟩ := e1
      rw [setCell_same, hte]
    · rw [setCell_other _ _ _ _ _ _ (by omega)]
      by_cases e2 : i = m.startPos.1 ∧ j = m.startPos.2
      · obtain ⟨rfl, rfl⟩ := e2
        rw [setCell_same]
      · rw [setCell_other _ _ _ _ _ _ (by omega)]
        by_cases e3 : i = m.shootPos.1 ∧ j = m.shootPos.2
        · obtain ⟨rfl, rfl⟩ := e3
          rw [setCell_same]
          rcases hse with hs | hs
          · exact absurd hs e2
          · exact hs.symm
        · rw [setCell_other _ _ _ _ _ _ (by omega), setCell_other _ _ _ _ _ _ (by omega),
            setCell_other _ _ _ _ _ _ (by omega), setCell_other _ _ _ _ _ _ (by omega)]

theorem countCells_applyMove (b : Board) (m : Move) (h : legalOn b m) :
    countCells (applyMove b m) Cell.Empty + 1 = countCells b Cell.Empty := by
  obtain ⟨htin, hsin, hts, hst, hte, hse⟩ := h.squares
  obtain ⟨hin, hp, -, -⟩ := h
  have hpe : b m.startPos.1 m.startPos.2 ≠ Cell.Empty := by
    rcases hp with e | e <;> rw [e] <;> decide
  have h1 := countCells_relocate b m.startPos.1 m.startPos.2 m.targetPos.1 m.targetPos.2
    Cell.Empty hin htin hts hte hpe
  have h2 := countCells_shoot (setCell (setCell b m.targetPos.1 m.targetPos.2
    (b m.startPos.1 m.startPos.2)) m.startPos.1 m.startPos.2 Cell.Empty)
    m.shootPos.1 m.shootPos.2 Cell.Empty hsin (by
      rcases hse with hs | hs
      · rw [hs.1, hs.2, setCell_same]
      · by_cases e2 : m.shootPos.1 = m.startPos.1 ∧ m.shootPos.2 = m.startPos.2
        · rw [e2.1, e2.2, setCell_same]
        · rw [setCell_other _ _ _ _ _ _ (by omega), setCell_other _ _ _ _ _ _ hst, hs])
  unfold applyMove
  simp at h2
  omega

theorem maxLoop_spec (w : Bool) (search : ℚ → ℚ → Chessboard → Option (ℚ × Chessboard))
    (b0 : Board) (val : Move → ℚ) (G : Prop) (lo beta alpha0 : ℚ) (hlo : lo ≤ alpha0) :
    ∀ moves : List Move, (∀ m ∈ moves, legalOn b0 m) →
      (∀ m ∈ moves, ∀ (a : ℚ) (s : Chessboard), s.m_board = applyMove b0 m →
        ∃ v1 s1, search a beta s = some (v1, s1) ∧ s1.m_board = s.m_board
          ∧ (G → lo ≤ a → a < beta → Bounds a beta (val m) v1)) →
      ∀ (maxEval alpha M : ℚ) (sb : Chessboard), sb.m_board = b0 →
        ∃ v1 sb1, maxLoop w search moves maxEval alpha beta sb = some (v1, sb1)
          ∧ sb1.m_board = b0
          ∧ (G → alpha = max alpha0 maxEval → alpha < beta → (M ≤ alpha0 → maxEval ≤ alpha0)
              → (alpha0 < M → maxEval = M)
              → Bounds alpha0 beta ((moves.map val).foldl max M) v1) := by
  intro moves
  induction moves with
  | nil =>
    intro _ _ maxEval alpha M sb hsb
    refine ⟨maxEval, sb, rfl, hsb, ?_⟩
    intro _ ha hab h1 h2
    simp only [List.map_nil, List.foldl_nil]
    refine ⟨h1, ?_, fun h _ => h2 h⟩
    intro hbM
    have hm : maxEval ≤ alpha := by rw [ha]; exact le_max_right _ _
    have h0 : alpha0 ≤ alpha := by rw [ha]; exact le_max_left _ _
    rw [h2 (by linarith)]
    exact hbM
  | cons m rest ih =>
    intro hlegal hsearch maxEval alpha M sb hsb
    have hm : legalOn b0 m := hlegal m (List.mem_cons_self _ _)
    obtain ⟨sb1, hmk, hb1⟩ := makeMoveInSandbox_legal w sb m (hsb ▸ hm)
    rw [hsb] at hb1
    obtain ⟨eval, sb2, hs, hb2, hbounds⟩ := hsearch m (List.mem_cons_self _ _) alpha sb1 hb1
    rw [hb1] at hb2
    obtain ⟨sb3, hrev, hb3⟩ := reverseMoveInSandbox_applyMove sb2 b0 m hm hb2
    have ih1 := ih (fun x hx => hlegal x (List.mem_cons_of_mem _ hx))
      (fun x hx => hsearch x (List.mem_cons_of_mem _ hx))
      (if eval > maxEval then eval else maxEval) (if eval > alpha then eval else alpha)
      (max M (val m)) sb3 hb3
    unfold maxLoop
    simp only [hmk, hs, hrev]
    by_cases hbreak : beta ≤ (if eval > alpha then eval else alpha)
    · rw [if_pos hbreak]
      refine ⟨_, sb3, rfl, hb3, ?_⟩
      intro hG ha hab h1 h2
      have hme : maxEval ≤ alpha := by rw [ha]; exact le_max_right _ _
      have h0 : alpha0 ≤ alpha := by rw [ha]; exact le_max_left _ _
      obtain ⟨hb_lo, hb_hi, hb_in⟩ := hbounds hG (by linarith) hab
      have he : alpha < eval := by
        by_contra hcon
        rw [if_neg (by simpa using hcon)] at hbreak
        linarith
      rw [if_pos he] at hbreak
      have hv : beta ≤ val m := by
        by_contra hcon
        push_neg at hcon
        by_cases hva : val m ≤ alpha
        · have := hb_lo hva; linarith
        · push_neg at hva
          have := hb_in hva hcon; linarith
      have hF : val m ≤ (List.map val (m :: rest)).foldl max M := by
        simp only [List.map_cons, List.foldl_cons]
        have : ∀ (l : List ℚ) (x : ℚ), x ≤ l.foldl max x := by
          intro l
          induction l with
          | nil => intro x; exact le_refl _
          | cons y l ihl => intro x; exact le_trans (le_max_left _ _) (ihl (max x y))
        exact le_trans (le_max_right _ _) (this _ _)
      rw [if_pos (by linarith : eval > maxEval)]
      refine ⟨fun h => ?_, fun _ => hbreak, fun _ h => ?_⟩ <;> linarith
    · rw [if_neg hbreak]
      obtain ⟨v1, sb4, hloop, hb4, hres⟩ := ih1
      refine ⟨v1, sb4, hloop, hb4, ?_⟩
      intro hG ha hab h1 h2
      have hme : maxEval ≤ alpha := by rw [ha]; exact le_max_right _ _
      have h0 : alpha0 ≤ alpha := by rw [ha]; exact le_max_left _ _
      obtain ⟨hb_lo, hb_hi, hb_in⟩ := hbounds hG (by linarith) hab
      have hMa : M ≤ alpha := by
        by_cases hM : M ≤ alpha0
        · linarith
        · push_neg at hM; rw [← h2 hM]; exact hme
      push_neg at hbreak
      simp only [List.map_cons, List.foldl_cons]
      by_cases hva : val m ≤ alpha
      · have hev := hb_lo hva
        have e1 : (if eval > alpha then eval else alpha) = alpha := if_neg (by simpa using hev)
        rw [e1] at hbreak
        have hM1 : max M (val m) ≤ alpha := max_le hMa hva
        apply hres hG
        · rw [e1]
          by_cases hc : eval > maxEval
          · rw [if_pos hc]
            have h3 : eval ≤ alpha0 := by
              rcases le_total alpha0 maxEval with h | h
              · rw [ha, max_eq_right h] at hev; linarith
              · rw [ha, max_eq_left h] at hev; exact hev
            rw [max_eq_left h3, ha, max_eq_left (by linarith)]
          · rw [if_neg hc]; exact ha
        · rw [e1]; exact hbreak
        · intro hle
          have hM0 : M ≤ alpha0 := le_trans (le_max_left _ _) hle
          have hv0 : val m ≤ alpha0 := le_trans (le_max_right _ _) hle
          have hm0 := h1 hM0
          have haa : alpha = alpha0 := by rw [ha]; exact max_eq_left hm0
          split_ifs <;> linarith
        · intro hlt
          by_cases hM : alpha0 < M
          · have hmM := h2 hM
            have haM : alpha = M := by rw [ha, hmM]; exact max_eq_right (le_of_lt hM)
            rw [max_eq_left (by linarith : val m ≤ M)]
            rw [if_neg (by linarith : ¬ eval > maxEval)]
            exact hmM
          · push_neg at hM
            have hm0 := h1 hM
            have haa : alpha = alpha0 := by rw [ha]; exact max_eq_left hm0
            have : max M (val m) ≤ alpha0 := max_le hM (by linarith)
            linarith
      · push_neg at hva
        by_cases hvb : val m < beta
        · have hev := hb_in hva hvb
          have e1 : (if eval > alpha then eval else alpha) = eval := if_pos (by linarith)
          have e2 : (if eval > maxEval then eval else maxEval) = eval := if_pos (by linarith)
          rw [e1] at hbreak
          have hM1 : max M (val m) = val m := max_eq_right (by linarith)
          apply hres hG
          · rw [e1, e2]; exact (max_eq_right (by linarith)).symm
          · rw [e1]; exact hbreak
          · intro hle; rw [hM1] at hle; linarith
          · intro _; rw [e2, hM1]; exact hev
        · push_neg at hvb
          have hev := hb_hi hvb
          exfalso
          split_ifs at hbreak <;> linarith

theorem minLoop_spec (w : Bool) (search : ℚ → ℚ → Chessboard → Option (ℚ × Chessboard))
    (b0 : Board) (val : Move → ℚ) (G : Prop) (hi alpha beta0 : ℚ) (hhi : beta0 ≤ hi) :
    ∀ moves : List Move, (∀ m ∈ moves, legalOn b0 m) →
      (∀ m ∈ moves, ∀ (b : ℚ) (s : Chessboard), s.m_board = applyMove b0 m →
        ∃ v1 s1, search alpha b s = some (v1, s1) ∧ s1.m_board = s.m_board
          ∧ (G → alpha < b → b ≤ hi → Bounds alpha b (val m) v1)) →
      ∀ (minEval beta M : ℚ) (sb : Chessboard), sb.m_board = b0 →
        ∃ v1 sb1, minLoop w search moves minEval alpha beta sb = some (v1, sb1)
          ∧ sb1.m_board = b0
          ∧ (G → beta = min beta0 minEval → alpha < beta → (beta0 ≤ M → beta0 ≤ minEval)
              → (M < beta0 → minEval = M)
              → Bounds alpha beta0 ((moves.map val).foldl min M) v1) := by
  intro moves
  induction moves with
  | nil =>
    intro _ _ minEval beta M sb hsb
    refine ⟨minEval, sb, rfl, hsb, ?_⟩
    intro _ hb hab h1 h2
    simp only [List.map_nil, List.foldl_nil]
    have hm : beta ≤ minEval := by rw [hb]; exact min_le_right _ _
    have h0 : beta ≤ beta0 := by rw [hb]; exact min_le_left _ _
    refine ⟨?_, h1, fun _ h => h2 h⟩
    intro hMa
    rw [h2 (by linarith)]
    exact hMa
  | cons m rest ih =>
    intro hlegal hsearch minEval beta M sb hsb
    have hm : legalOn b0 m := hlegal m (List.mem_cons_self _ _)
    obtain ⟨sb1, hmk, hb1⟩ := makeMoveInSandbox_legal w sb m (hsb ▸ hm)
    rw [hsb] at hb1
    obtain ⟨eval, sb2, hs, hb2, hbounds⟩ := hsearch m (List.mem_cons_self _ _) beta sb1 hb1
    rw [hb1] at hb2
    obtain ⟨sb3, hrev, hb3⟩ := reverseMoveInSandbox_applyMove sb2 b0 m hm hb2
    have ih1 := ih (fun x hx => hlegal x (List.mem_cons_of_mem _ hx))
      (fun x hx => hsearch x (List.mem_cons_of_mem _ hx))
      (if eval < minEval then eval else minEval) (if eval < beta then eval else beta)
      (min M (val m)) sb3 hb3
    unfold minLoop
    simp only [hmk, hs, hrev]
    by_cases hbreak : (if eval < beta then eval else beta) ≤ alpha
    · rw [if_pos hbreak]
      refine ⟨_, sb3, rfl, hb3, ?_⟩
      intro hG hb hab h1 h2
      have hme : beta ≤ minEval := by rw [hb]; exact min_le_right _ _
      have h0 : beta ≤ beta0 := by rw [hb]; exact min_le_left _ _
      obtain ⟨hb_lo, hb_hi, hb_in⟩ := hbounds hG hab (by linarith)
      have he : eval < beta := by
        by_contra hcon
        rw [if_neg hcon] at hbreak
        linarith
      rw [if_pos he] at hbreak
      have hv : val m ≤ alpha := by
        by_contra hcon
        push_neg at hcon
        by_cases hvb : beta ≤ val m
        · have := hb_hi hvb; linarith
        · push_neg at hvb
          have := hb_in hcon hvb; linarith
      have hF : (List.map val (m :: rest)).foldl min M ≤ val m := by
        simp only [List.map_cons, List.foldl_cons]
        have : ∀ (l : List ℚ) (x : ℚ), l.foldl min x ≤ x := by
          intro l
          induction l with
          | nil => intro x; exact le_refl _
          | cons y l ihl => intro x; exact le_trans (ihl (min x y)) (min_le_left _ _)
        exact le_trans (this _ _) (min_le_right _ _)
      rw [if_pos (by linarith : eval < minEval)]
      refine ⟨fun _ => hbreak, fun h => ?_, fun h _ => ?_⟩ <;> linarith
    · rw [if_neg hbreak]
      obtain ⟨v1, sb4, hloop, hb4, hres⟩ := ih1
      refine ⟨v1, sb4, hloop, hb4, ?_⟩
      intro hG hb hab h1 h2
      have hme : beta ≤ minEval := by rw [hb]; exact min_le_right _ _
      have h0 : beta ≤ beta0 := by rw [hb]; exact min_le_left _ _
      obtain ⟨hb_lo, hb_hi, hb_in⟩ := hbounds hG hab (by linarith)
      have hMb : beta ≤ M := by
        by_cases hM : beta0 ≤ M
        · linarith
        · push_neg at hM; rw [← h2 hM]; exact hme
      push_neg at hbreak
      simp only [List.map_cons, List.foldl_cons]
      by_cases hvb : beta ≤ val m
      · have hev := hb_hi hvb
        have e1 : (if eval < beta then eval else beta) = beta := if_neg (by linarith)
        rw [e1] at hbreak
        have hM1 : beta ≤ min M (val m) := le_min hMb hvb
        apply hres hG
        · rw [e1]
          by_cases hc : eval < minEval
          · rw [if_pos hc]
            have h3 : beta0 ≤ eval := by
              rcases le_total beta0 minEval with h | h
              · rw [hb, min_eq_left h] at hev; exact hev
              · rw [hb, min_eq_right h] at hev; linarith
            rw [min_eq_left h3, hb, min_eq_left (by linarith)]
          · rw [if_neg hc]; exact hb
        · rw [e1]; exact hbreak
        · intro hle
          have hM0 : beta0 ≤ M := le_trans hle (min_le_left _ _)
          have hv0 : beta0 ≤ val m := le_trans hle (min_le_right _ _)
          have hm0 := h1 hM0
          have hbb : beta = beta0 := by rw [hb]; exact min_eq_left hm0
          split_ifs <;> linarith
        · intro hlt
          by_cases hM : M < beta0
          · have hmM := h2 hM
            have hbM : beta = M := by rw [hb, hmM]; exact min_eq_right (le_of_lt hM)
            rw [min_eq_left (by linarith : M ≤ val m)]
            rw [if_neg (by linarith : ¬ eval < minEval)]
            exact hmM
          · push_neg at hM
            have hm0 := h1 hM
            have hbb : beta = beta0 := by rw [hb]; exact min_eq_left hm0
            have : beta0 ≤ min M (val m) := le_min hM (by linarith)
            linarith
      · push_neg at hvb
        by_cases hva : alpha < val m
        · have hev := hb_in hva hvb
          have e1 : (if eval < beta then eval else beta) = eval := if_pos (by linarith)
          have e2 : (if eval < minEval then eval else minEval) = eval := if_pos (by linarith)
          rw [e1] at hbreak
          have hM1 : min M (val m) = val m := min_eq_right (by linarith)
          apply hres hG
          · rw [e1, e2]; exact (min_eq_right (by linarith)).symm
          · rw [e1]; exact hbreak
          · intro hle; rw [hM1] at hle; linarith
          · intro _; rw [e2, hM1]; exact hev
        · push_neg at hva
          have hev := hb_lo hva
          exfalso
          split_ifs at hbreak <;> linarith

theorem Bounds.bounds_refl (a b v : ℚ) : Bounds a b v v := ⟨fun h => h, fun h => h, fun _ _ => rfl⟩

theorem foldl_max_range (lo hi : ℚ) :
    ∀ (l : List ℚ) (x : ℚ), lo < x ∧ x < hi → (∀ y ∈ l, lo < y ∧ y < hi) →
      lo < l.foldl max x ∧ l.foldl max x < hi := by
  intro l
  induction l with
  | nil => intro x hx _; exact hx
  | cons y l ih =>
    intro x hx hl
    have hy := hl y (List.mem_cons_self _ _)
    exact ih (max x y) ⟨lt_of_lt_of_le hx.1 (le_max_left _ _), max_lt hx.2 hy.2⟩
      (fun z hz => hl z (List.mem_cons_of_mem _ hz))

theorem foldl_min_range (lo hi : ℚ) :
    ∀ (l : List ℚ) (x : ℚ), lo < x ∧ x < hi → (∀ y ∈ l, lo < y ∧ y < hi) →
      lo < l.foldl min x ∧ l.foldl min x < hi := by
  intro l
  induction l with
  | nil => intro x hx _; exact hx
  | cons y l ih =>
    intro x hx hl
    have hy := hl y (List.mem_cons_self _ _)
    exact ih (min x y) ⟨lt_min hx.1 hy.1, lt_of_le_of_lt (min_le_left _ _) hx.2⟩
      (fun z hz => hl z (List.mem_cons_of_mem _ hz))

theorem minimax_succ (ev : Board → ℚ) (w e : Bool) (d : Nat) (mx : Bool) (b : Board) :
    minimax ev w e (d + 1) mx b
      = match (generateLegalMoves e b (if mx then w else !w)).map
          (fun m => minimax ev w e d (!mx) (applyMove b m)) with
        | [] => if mx then -10000000000 else 10000000000
        | v :: vs => if mx then vs.foldl max v else vs.foldl min v := rfl

/-- Every value of plain minimax lies strictly between -1e11 and 1e11 when the
leaf evaluations do. -/
theorem minimax_range (ev : Board → ℚ) (w e : Bool)
    (hev : ∀ b, -100000000000 < ev b ∧ ev b < 100000000000) :
    ∀ (d : Nat) (mx : Bool) (b : Board),
      -100000000000 < minimax ev w e d mx b ∧ minimax ev w e d mx b < 100000000000 := by
  intro d
  induction d with
  | zero => intro mx b; exact hev b
  | succ d ih =>
    intro mx b
    rw [minimax_succ]
    have hall : ∀ y ∈ (generateLegalMoves e b (if mx then w else !w)).map
        (fun m => minimax ev w e d (!mx) (applyMove b m)),
        -100000000000 < y ∧ y < 100000000000 := by
      intro y hy
      obtain ⟨m, -, rfl⟩ := List.mem_map.mp hy
      exact ih _ _
    revert hall
    generalize (generateLegalMoves e b (if mx then w else !w)).map
        (fun m => minimax ev w e d (!mx) (applyMove b m)) = l
    intro hall
    cases l with
    | nil => cases mx <;> norm_num
    | cons v vs =>
      have hv := hall v (List.mem_cons_self _ _)
      have hvs : ∀ y ∈ vs, -100000000000 < y ∧ y < 100000000000 :=
        fun y hy => hall y (List.mem_cons_of_mem _ hy)
      cases mx
      · exact foldl_min_range _ _ vs v hv hvs
      · exact foldl_max_range _ _ vs v hv hvs

theorem alphaBeta_succ (ev : Board → ℚ) (w e : Bool) (fuel : Nat) (depth : Int) (alpha beta : ℚ)
    (mx : Bool) (sb : Chessboard) :
    alphaBeta ev w e (fuel + 1) depth alpha beta mx sb
      = if depth = 0 then some (ev sb.m_board, sb)
        else if (generateLegalMoves e sb.m_board (if mx then w else !w)).isEmpty then
          some (if mx then -10000000000 else 10000000000, sb)
        else if mx then
          maxLoop w (fun a b s => alphaBeta ev w e fuel (depth - 1) a b false s)
            (generateLegalMoves e sb.m_board (if mx then w else !w)) (-100000000000) alpha beta sb
        else
          minLoop w (fun a b s => alphaBeta ev w e fuel (depth - 1) a b true s)
            (generateLegalMoves e sb.m_board (if mx then w else !w)) 100000000000 alpha beta sb :=
  rfl

/-- With more fuel than Empty cells `alphaBeta` returns, at every depth, and
leaves the sandbox board as it found it; at a depth ≥ 0, with leaf evaluations
strictly between -1e11 and 1e11 and a window inside these, its value is related
to the minimax value by `Bounds`. -/
theorem alphaBeta_spec (ev : Board → ℚ) (w e : Bool) :
    ∀ (fuel : Nat) (depth : Int) (alpha beta : ℚ) (mx : Bool) (sb : Chessboard),
      countCells sb.m_board Cell.Empty < fuel →
      ∃ v sb1, alphaBeta ev w e fuel depth alpha beta mx sb = some (v, sb1)
        ∧ sb1.m_board = sb.m_board
        ∧ ((∀ b, -100000000000 < ev b ∧ ev b < 100000000000) → 0 ≤ depth
            → -100000000000 ≤ alpha → alpha < beta → beta ≤ 100000000000
            → Bounds alpha beta (minimax ev w e depth.toNat mx sb.m_board) v) := by
  intro fuel
  induction fuel with
  | zero => intro _ _ _ _ sb h; exact absurd h (Nat.not_lt_zero _)
  | succ fuel ih =>
    intro depth alpha beta mx sb hfuel
    rw [alphaBeta_succ]
    by_cases hd : depth = 0
    · rw [if_pos hd]
      refine ⟨_, sb, rfl, rfl, fun _ _ _ _ _ => ?_⟩
      rw [hd]
      exact Bounds.bounds_refl _ _ _
    rw [if_neg hd]
    have hnat : 0 ≤ depth → depth.toNat = (depth - 1).toNat + 1 := by intro h; omega
    by_cases hempty : (generateLegalMoves e sb.m_board (if mx then w else !w)).isEmpty = true
    · rw [if_pos hempty]
      refine ⟨_, sb, rfl, rfl, fun _ h0 _ _ _ => ?_⟩
      rw [hnat h0, minimax_succ, List.isEmpty_iff.mp hempty]
      exact Bounds.bounds_refl _ _ _
    rw [if_neg hempty]
    have hlegal : ∀ m ∈ generateLegalMoves e sb.m_board (if mx then w else !w),
        legalOn sb.m_board m := fun m hm => legalOn_of_mem _ _ _ _ hm
    have hchild : ∀ m ∈ generateLegalMoves e sb.m_board (if mx then w else !w),
        ∀ s : Chessboard, s.m_board = applyMove sb.m_board m →
          countCells s.m_board Cell.Empty < fuel := by
      intro m hm s hs
      have := countCells_applyMove sb.m_board m (hlegal m hm)
      rw [hs]; omega
    cases mx with
    | true =>
      simp only [if_true]
      simp only [if_true] at hlegal hchild hempty
      obtain ⟨v1, sb1, hloop, hb1, hres⟩ := maxLoop_spec w
        (fun a b s => alphaBeta ev w e fuel (depth - 1) a b false s) sb.m_board
        (fun m => minimax ev w e (depth - 1).toNat false (applyMove sb.m_board m))
        ((∀ b, -100000000000 < ev b ∧ ev b < 100000000000) ∧ 0 ≤ depth
          ∧ -100000000000 ≤ alpha ∧ beta ≤ 100000000000)
        alpha beta alpha (le_refl _) (generateLegalMoves e sb.m_board w) hlegal
        (by
          intro m hm a s hs
          obtain ⟨v, s1, h1, h2, h3⟩ := ih (depth - 1) a beta false s (hchild m hm s hs)
          refine ⟨v, s1, h1, h2, ?_⟩
          rintro ⟨g1, g2, g3, g4⟩ ha hab
          have := h3 g1 (by omega) (by linarith) hab g4
          rw [hs] at this
          exact this)
        (-100000000000) alpha (-100000000000) sb rfl
      refine ⟨v1, sb1, hloop, hb1, ?_⟩
      intro g1 g2 g3 g4 g5
      have hb := hres ⟨g1, g2, g3, g5⟩ (max_eq_left g3).symm g4 (fun _ => g3)
        (fun h => absurd h (not_lt.mpr g3))
      rw [hnat g2, minimax_succ]
      simp only [if_true, Bool.not_true]
      revert hb hempty
      generalize generateLegalMoves e sb.m_board w = moves
      intro hempty hb
      cases moves with
      | nil => simp at hempty
      | cons m rest =>
        simp only [List.map_cons, List.foldl_cons] at hb ⊢
        rw [max_eq_right (le_of_lt (minimax_range ev w e g1 _ _ _).1)] at hb
        exact hb
    | false =>
      simp only [Bool.false_eq_true, if_false]
      simp only [Bool.false_eq_true, if_false] at hlegal hchild hempty
      obtain ⟨v1, sb1, hloop, hb1, hres⟩ := minLoop_spec w
        (fun a b s => alphaBeta ev w e fuel (depth - 1) a b true s) sb.m_board
        (fun m => minimax ev w e (depth - 1).toNat true (applyMove sb.m_board m))
        ((∀ b, -100000000000 < ev b ∧ ev b < 100000000000) ∧ 0 ≤ depth
          ∧ -100000000000 ≤ alpha ∧ beta ≤ 100000000000)
        beta alpha beta (le_refl _) (generateLegalMoves e sb.m_board (!w)) hlegal
        (by
          intro m hm b s hs
          obtain ⟨v, s1, h1, h2, h3⟩ := ih (depth - 1) alpha b true s (hchild m hm s hs)
          refine ⟨v, s1, h1, h2, ?_⟩
          rintro ⟨g1, g2, g3, g4⟩ hab hb
          have := h3 g1 (by omega) g3 hab (by linarith)
          rw [hs] at this
          exact this)
        100000000000 beta 100000000000 sb rfl
      refine ⟨v1, sb1, hloop, hb1, ?_⟩
      intro g1 g2 g3 g4 g5
      have hb := hres ⟨g1, g2, g3, g5⟩ (min_eq_left g5).symm g4 (fun _ => g5)
        (fun h => absurd h (not_lt.mpr g5))
      rw [hnat g2, minimax_succ]
      simp only [Bool.false_eq_true, if_false, Bool.not_false]
      revert hb hempty
      generalize generateLegalMoves e sb.m_board (!w) = moves
      intro hempty hb
      cases moves with
      | nil => simp at hempty
      | cons m rest =>
        simp only [List.map_cons, List.foldl_cons] at hb ⊢
        rw [min_eq_right (le_of_lt (minimax_range ev w e g1 _ _ _).2)] at hb
        exact hb

theorem rootLoop_spec (w : Bool) (search : ℚ → ℚ → Chessboard → Option (ℚ × Chessboard))
    (b0 : Board) (val : Move → ℚ) (G : Prop) (lo beta : ℚ) :
    ∀ moves : List Move, (∀ m ∈ moves, legalOn b0 m) →
      (∀ m ∈ moves, ∀ (a : ℚ) (s : Chessboard), s.m_board = applyMove b0 m →
        ∃ v1 s1, search a beta s = some (v1, s1) ∧ s1.m_board = s.m_board
          ∧ (G → lo ≤ a → a < beta → Bounds a beta (val m) v1)) →
      ∀ (best : Move) (M : ℚ) (sb : Chessboard), sb.m_board = b0 →
        ∃ r sb1, rootLoop w search moves best M M beta sb = some (r, sb1)
          ∧ sb1.m_board = b0 ∧ (r = best ∨ r ∈ moves)
          ∧ (G → lo ≤ M → M < beta → (∀ m ∈ moves, val m < beta) →
              (r = best ∧ ∀ m ∈ moves, val m ≤ M)
                ∨ ∃ p q, moves = p ++ r :: q ∧ M < val r ∧ (∀ m ∈ p, val m < val r)
                    ∧ ∀ m ∈ q, val m ≤ val r) := by
  intro moves
  induction moves with
  | nil =>
    intro _ _ best M sb hsb
    exact ⟨best, sb, rfl, hsb, Or.inl rfl, fun _ _ _ _ =>
      Or.inl ⟨rfl, fun m hm => absurd hm (List.not_mem_nil _)⟩⟩
  | cons m rest ih =>
    intro hlegal hsearch best M sb hsb
    have hm : legalOn b0 m := hlegal m (List.mem_cons_self _ _)
    obtain ⟨sb1, hmk, hb1⟩ := makeMoveInSandbox_legal w sb m (hsb ▸ hm)
    rw [hsb] at hb1
    obtain ⟨eval, sb2, hs, hb2, hbounds⟩ := hsearch m (List.mem_cons_self _ _) M sb1 hb1
    rw [hb1] at hb2
    obtain ⟨sb3, hrev, hb3⟩ := reverseMoveInSandbox_applyMove sb2 b0 m hm hb2
    unfold rootLoop
    simp only [hmk, hs, hrev]
    by_cases he : eval > M
    · simp only [if_pos he]
      obtain ⟨r, sb4, hloop, hb4, hmem, hres⟩ := ih
        (fun x hx => hlegal x (List.mem_cons_of_mem _ hx))
        (fun x hx => hsearch x (List.mem_cons_of_mem _ hx)) m eval sb3 hb3
      refine ⟨r, sb4, hloop, hb4, ?_, ?_⟩
      · rcases hmem with h | h
        · right; rw [h]; exact List.mem_cons_self _ _
        · right; exact List.mem_cons_of_mem _ h
      · intro hG hlo hMb hall
        obtain ⟨hb_lo, hb_hi, hb_in⟩ := hbounds hG hlo hMb
        have hvb := hall m (List.mem_cons_self _ _)
        have hvM : M < val m := by
          by_contra hcon
          push_neg at hcon
          have := hb_lo hcon
          linarith
        have hev : eval = val m := hb_in hvM hvb
        rw [hev] at hres
        rcases hres hG (by linarith) hvb (fun x hx => hall x (List.mem_cons_of_mem _ hx)) with
          ⟨h1, h2⟩ | ⟨p, q, h1, h2, h3, h4⟩
        · right
          exact ⟨[], rest, by rw [h1]; rfl, by rw [h1]; exact hvM,
            fun x hx => absurd hx (List.not_mem_nil _), by rw [h1]; exact h2⟩
        · right
          refine ⟨m :: p, q, by rw [h1]; rfl, by linarith, ?_, h4⟩
          intro x hx
          rcases List.mem_cons.mp hx with rfl | hx
          · exact h2
          · exact h3 x hx
    · simp only [if_neg he]
      obtain ⟨r, sb4, hloop, hb4, hmem, hres⟩ := ih
        (fun x hx => hlegal x (List.mem_cons_of_mem _ hx))
        (fun x hx => hsearch x (List.mem_cons_of_mem _ hx)) best M sb3 hb3
      refine ⟨r, sb4, hloop, hb4, ?_, ?_⟩
      · rcases hmem with h | h
        · left; exact h
        · right; exact List.mem_cons_of_mem _ h
      · intro hG hlo hMb hall
        obtain ⟨hb_lo, hb_hi, hb_in⟩ := hbounds hG hlo hMb
        have hvb := hall m (List.mem_cons_self _ _)
        have hvM : val m ≤ M := by
          by_contra hcon
          push_neg at hcon
          have := hb_in hcon hvb
          rw [this] at he
          exact he hcon
        rcases hres hG hlo hMb (fun x hx => hall x (List.mem_cons_of_mem _ hx)) with
          ⟨h1, h2⟩ | ⟨p, q, h1, h2, h3, h4⟩
        · left
          refine ⟨h1, ?_⟩
          intro x hx
          rcases List.mem_cons.mp hx with rfl | hx
          · exact hvM
          · exact h2 x hx
        · right
          refine ⟨m :: p, q, by rw [h1]; rfl, h2, ?_, h4⟩
          intro x hx
          rcases List.mem_cons.mp hx with rfl | hx
          · linarith
          · exact h3 x hx

/-- What `getBestMove` returns: it returns, the sandbox board is as before,
the move is the sentinel exactly when no move is generated and otherwise a
generated move; with leaf evaluations strictly between -1e11 and 1e11 and a
depth ≥ 1 it is the first generated move of greatest minimax value. -/
theorem getBestMove_cases (ev : Board → ℚ) (w e : Bool) (depth : Int) (sb : Chessboard) :
    ∃ mv sb1, getBestMove ev w e depth sb = some (mv, sb1) ∧ sb1.m_board = sb.m_board
      ∧ ((generateLegalMoves e sb.m_board w = [] ∧ mv = {})
          ∨ (mv ∈ generateLegalMoves e sb.m_board w
              ∧ ((∀ b, -100000000000 < ev b ∧ ev b < 100000000000) → 1 ≤ depth →
                  ∃ p q, generateLegalMoves e sb.m_board w = p ++ mv :: q
                    ∧ (∀ m ∈ p, minimax ev w e (depth - 1).toNat false (applyMove sb.m_board m)
                        < minimax ev w e (depth - 1).toNat false (applyMove sb.m_board mv))
                    ∧ ∀ m ∈ q, minimax ev w e (depth - 1).toNat false (applyMove sb.m_board m)
                        ≤ minimax ev w e (depth - 1).toNat false (applyMove sb.m_board mv)))) := by
  unfold getBestMove
  by_cases hempty : (generateLegalMoves e sb.m_board w).isEmpty = true
  · simp only [hempty, if_true]
    exact ⟨{}, sb, rfl, rfl, Or.inl ⟨List.isEmpty_iff.mp hempty, rfl⟩⟩
  simp only [hempty, Bool.false_eq_true, if_false, not_false_eq_true, and_true]
  have hlegal : ∀ m ∈ generateLegalMoves e sb.m_board w, legalOn sb.m_board m :=
    fun m hm => legalOn_of_mem _ _ _ _ hm
  obtain ⟨r, sb1, hloop, hb1, hmem, hres⟩ := rootLoop_spec w
    (fun a b s => alphaBeta ev w e 65 (depth - 1) a b false s) sb.m_board
    (fun m => minimax ev w e (depth - 1).toNat false (applyMove sb.m_board m))
    ((∀ b, -100000000000 < ev b ∧ ev b < 100000000000) ∧ 1 ≤ depth)
    (-100000000000) 100000000000 (generateLegalMoves e sb.m_board w) hlegal
    (by
      intro m hm a s hs
      obtain ⟨v, s1, h1, h2, h3⟩ := alphaBeta_spec ev w e 65 (depth - 1) a 100000000000 false s
        (Nat.lt_succ_of_le (countCells_le _ _))
      refine ⟨v, s1, h1, h2, ?_⟩
      rintro ⟨g1, g2⟩ ha hab
      have := h3 g1 (by omega) ha hab (le_refl _)
      rw [hs] at this
      exact this)
    {} (-100000000000) sb rfl
  rw [hloop]
  simp only
  have hstart : ∀ m ∈ generateLegalMoves e sb.m_board w, m.startPos.1 ≠ -1 := by
    intro m hm
    have := (hlegal m hm).1
    unfold inBoard at this
    omega
  have hspec : ∀ mv ∈ generateLegalMoves e sb.m_board w, r = mv ∨ r = {} →
      ((∀ m ∈ generateLegalMoves e sb.m_board w,
          minimax ev w e (depth - 1).toNat false (applyMove sb.m_board m)
            ≤ -100000000000) → r = {} → False) →
      ((∀ b, -100000000000 < ev b ∧ ev b < 100000000000) → 1 ≤ depth →
        r = mv ∧ ∃ p q, generateLegalMoves e sb.m_board w = p ++ mv :: q
          ∧ (∀ m ∈ p, minimax ev w e (depth - 1).toNat false (applyMove sb.m_board m)
              < minimax ev w e (depth - 1).toNat false (applyMove sb.m_board mv))
          ∧ ∀ m ∈ q, minimax ev w e (depth - 1).toNat false (applyMove sb.m_board m)
              ≤ minimax ev w e (depth - 1).toNat false (applyMove sb.m_board mv)) := by
    intro mv hmv hr hno g1 g2
    rcases hres ⟨g1, g2⟩ (le_refl _) (by norm_num)
      (fun m _ => (minimax_range ev w e g1 _ _ _).2) with ⟨h1, h2⟩ | ⟨p, q, h1, -, h3, h4⟩
    · exact absurd h1 (fun h => hno h2 h)
    · have hrm : r ∈ generateLegalMoves e sb.m_board w := by
        rw [h1]; exact List.mem_append_right _ (List.mem_cons_self _ _)
      have hrmv : r = mv := by
        rcases hr with h | h
        · exact h
        · rw [h] at hrm; exact absurd rfl (hstart _ hrm)
      subst hrmv
      exact ⟨rfl, p, q, h1, h3, h4⟩
  have hno : ∀ g1 : (∀ b, -100000000000 < ev b ∧ ev b < 100000000000),
      (∀ m ∈ generateLegalMoves e sb.m_board w,
        minimax ev w e (depth - 1).toNat false (applyMove sb.m_board m) ≤ -100000000000) →
      False := by
    intro g1 hle
    cases hl : generateLegalMoves e sb.m_board w with
    | nil => rw [hl] at hempty; simp at hempty
    | cons m0 rest =>
      have := hle m0 (by rw [hl]; exact List.mem_cons_self _ _)
      have := (minimax_range ev w e g1 (depth - 1).toNat false (applyMove sb.m_board m0)).1
      linarith
  by_cases hsent : r.startPos.1 = -1
  · simp only [hsent, if_true]
    have hr0 : r = {} := by
      rcases hmem with h | h
      · exact h
      · exact absurd hsent (hstart r h)
    cases hl : generateLegalMoves e sb.m_board w with
    | nil => rw [hl] at hempty; simp at hempty
    | cons m0 rest =>
      simp only
      have hm0 : m0 ∈ generateLegalMoves e sb.m_board w := by rw [hl]; exact List.mem_cons_self _ _
      refine ⟨m0, sb1, rfl, hb1, Or.inr ⟨by rw [← hl]; exact hm0, ?_⟩⟩
      intro g1 g2
      have := hspec m0 hm0 (Or.inr hr0) (fun h _ => hno g1 h) g1 g2
      rw [← hl]
      exact this.2
  · simp only [hsent, if_false]
    have hrm : r ∈ generateLegalMoves e sb.m_board w := by
      rcases hmem with h | h
      · rw [h] at hsent; exact absurd rfl hsent
      · exact h
    refine ⟨r, sb1, rfl, hb1, Or.inr ⟨hrm, ?_⟩⟩
    intro g1 g2
    exact (hspec r hrm (Or.inl rfl) (fun h _ => hno g1 h) g1 g2).2

theorem smallEval_range (b : Board) :
    -100000000000 < smallEval b ∧ smallEval b < 100000000000 := by
  unfold smallEval
  split_ifs <;> constructor <;> norm_num

/-- C14: for every sandbox position, every depth ≥ 0 and either value of
`maximizingPlayer`, when every leaf evaluation lies strictly between -1e11 and
1e11, `alphaBeta(depth, -1e11, 1e11, maximizingPlayer)` returns exactly the
value of plain minimax of the same depth over the same move generator in the
same order, with the same leaf evaluation and the same no-move values, and
leaves the sandbox board as it was. -/
theorem alphaBeta_eq_minimax (ev : Board → ℚ) (m_isWhite m_endgame : Bool) (fuel : Nat)
    (depth : Int) (maximizingPlayer : Bool) (sb : Chessboard)
    (hev : ∀ b, -100000000000 < ev b ∧ ev b < 100000000000) (hdepth : 0 ≤ depth)
    (hfuel : countCells sb.m_board Cell.Empty < fuel) :
    ∃ sb1, alphaBeta ev m_isWhite m_endgame fuel depth (-100000000000) 100000000000
        maximizingPlayer sb
          = some (minimax ev m_isWhite m_endgame depth.toNat maximizingPlayer sb.m_board, sb1)
      ∧ sb1.m_board = sb.m_board := by
  obtain ⟨v, sb1, h1, h2, h3⟩ := alphaBeta_spec ev m_isWhite m_endgame fuel depth
    (-100000000000) 100000000000 maximizingPlayer sb hfuel
  have hr := minimax_range ev m_isWhite m_endgame hev depth.toNat maximizingPlayer sb.m_board
  have hv := (h3 hev hdepth (le_refl _) (by norm_num) (le_refl _)).2.2 hr.1 hr.2
  rw [hv] at h1
  exact ⟨sb1, h1, h2⟩

theorem alphaBeta_eq_minimax_witness :
    (∃ sb1, alphaBeta smallEval true false 65 2 (-100000000000) 100000000000 true
        (sandboxOf narrowBoard TurnState.WhiteMove)
          = some (minimax smallEval true false (2 : Int).toNat true
              (sandboxOf narrowBoard TurnState.WhiteMove).m_board, sb1)
      ∧ sb1.m_board = (sandboxOf narrowBoard TurnState.WhiteMove).m_board)
      ∧ minimax smallEval true false 2 true narrowBoard = 10000000000 :=
  ⟨alphaBeta_eq_minimax smallEval true false 65 2 true
    (sandboxOf narrowBoard TurnState.WhiteMove) smallEval_range (by decide)
    (Nat.lt_succ_of_le (countCells_le _ _)), by decide⟩

/-- C15, counterexample: with the leaf evaluation `lowEval`, whose values are
below -1e11 (the evaluation scales with the weights, which the constructor of
`Bot` and the save files give without a bound), `getBestMove(1)` on
`narrowBoard` with White to move returns the first generated move
`stepShootAhead`, whose minimax value -3e11 is less than the value -2e11 of the
generated move `stepShootBack`. -/
theorem getBestMove_low_evaluations :
    (getBestMove lowEval true false 1 (sandboxOf narrowBoard TurnState.WhiteMove)).map Prod.fst
        = some stepShootAhead
      ∧ stepShootBack ∈ generateLegalMoves false narrowBoard true
      ∧ minimax lowEval true false 0 false (applyMove narrowBoard stepShootAhead)
          < minimax lowEval true false 0 false (applyMove narrowBoard stepShootBack) := by
  refine ⟨by decide, by decide, by decide⟩

/-- C15, amended: for every sandbox position with at least one generated move
and every depth ≥ 1, when every leaf evaluation lies strictly between -1e11 and
1e11, `getBestMove(depth)` returns the first move, in `generateLegalMoves`
order, whose plain minimax value (opponent to move, depth - 1 remaining) is
greatest among the generated moves: every move before it has a smaller value
and every move after it a value that is not greater. -/
theorem getBestMove_first_max (ev : Board → ℚ) (m_isWhite m_endgame : Bool) (depth : Int)
    (sb : Chessboard) (hev : ∀ b, -100000000000 < ev b ∧ ev b < 100000000000)
    (hdepth : 1 ≤ depth) (hmoves : generateLegalMoves m_endgame sb.m_board m_isWhite ≠ []) :
    ∃ mv sb1 p q, getBestMove ev m_isWhite m_endgame depth sb = some (mv, sb1)
      ∧ generateLegalMoves m_endgame sb.m_board m_isWhite = p ++ mv :: q
      ∧ (∀ m ∈ p, minimax ev m_isWhite m_endgame (depth - 1).toNat false (applyMove sb.m_board m)
          < minimax ev m_isWhite m_endgame (depth - 1).toNat false (applyMove sb.m_board mv))
      ∧ ∀ m ∈ q, minimax ev m_isWhite m_endgame (depth - 1).toNat false (applyMove sb.m_board m)
          ≤ minimax ev m_isWhite m_endgame (depth - 1).toNat false (applyMove sb.m_board mv) := by
  obtain ⟨mv, sb1, h1, -, h3⟩ := getBestMove_cases ev m_isWhite m_endgame depth sb
  rcases h3 with ⟨h, -⟩ | ⟨-, h⟩
  · exact absurd h hmoves
  · obtain ⟨p, q, h4, h5, h6⟩ := h hev hdepth
    exact ⟨mv, sb1, p, q, h1, h4, h5, h6⟩

theorem getBestMove_first_max_witness :
    (∃ mv sb1 p q, getBestMove smallEval true false 1 (sandboxOf narrowBoard TurnState.WhiteMove)
        = some (mv, sb1)
      ∧ generateLegalMoves false (sandboxOf narrowBoard TurnState.WhiteMove).m_board true
          = p ++ mv :: q
      ∧ (∀ m ∈ p, minimax smallEval true false ((1 : Int) - 1).toNat false
            (applyMove (sandboxOf narrowBoard TurnState.WhiteMove).m_board m)
          < minimax smallEval true false ((1 : Int) - 1).toNat false
              (applyMove (sandboxOf narrowBoard TurnState.WhiteMove).m_board mv))
      ∧ ∀ m ∈ q, minimax smallEval true false ((1 : Int) - 1).toNat false
            (applyMove (sandboxOf narrowBoard TurnState.WhiteMove).m_board m)
          ≤ minimax smallEval true false ((1 : Int) - 1).toNat false
              (applyMove (sandboxOf narrowBoard TurnState.WhiteMove).m_board mv))
      ∧ (getBestMove smallEval true false 1 (sandboxOf narrowBoard TurnState.WhiteMove)).map
          Prod.fst = some stepShootBack :=
  ⟨getBestMove_first_max smallEval true false 1 (sandboxOf narrowBoard TurnState.WhiteMove)
    smallEval_range (by decide) (by decide), by decide⟩

/-- C16: for every sandbox position and every depth, `getBestMove` returns; the
move it returns is the empty-Move sentinel (start, target and shoot all
(-1,-1)) if and only if `generateLegalMoves` for the mover is empty, and
otherwise it is an element of that list. -/
theorem getBestMove_sentinel_iff (ev : Board → ℚ) (m_isWhite m_endgame : Bool) (depth : Int)
    (sb : Chessboard) :
    ∃ mv sb1, getBestMove ev m_isWhite m_endgame depth sb = some (mv, sb1)
      ∧ (mv = { startPos := (-1, -1), targetPos := (-1, -1), shootPos := (-1, -1) }
          ↔ generateLegalMoves m_endgame sb.m_board m_isWhite = [])
      ∧ (generateLegalMoves m_endgame sb.m_board m_isWhite ≠ []
          → mv ∈ generateLegalMoves m_endgame sb.m_board m_isWhite) := by
  obtain ⟨mv, sb1, h1, -, h3⟩ := getBestMove_cases ev m_isWhite m_endgame depth sb
  refine ⟨mv, sb1, h1, ?_, ?_⟩
  · rcases h3 with ⟨h, hm⟩ | ⟨h, -⟩
    · exact ⟨fun _ => h, fun _ => hm⟩
    · constructor
      · intro hm
        have := (legalOn_of_mem _ _ _ _ h).1
        rw [hm] at this
        exact absurd this (by decide)
      · intro he
        rw [he] at h
        exact absurd h (List.not_mem_nil _)
  · intro hne
    rcases h3 with ⟨h, -⟩ | ⟨h, -⟩
    · exact absurd h hne
    · exact h

theorem own_iff (b : Board) (w : Bool) (r c : Int) :
    ((w = true ∧ b r c = Cell.White) ∨ (w = false ∧ b r c = Cell.Black)) ↔ b r c = ownCell w := by
  cases w <;> simp [ownCell]

theorem recordPiece_spec (e : Bool) (b : Board) (r c : Int) (index : Nat) (a : AllMoves)
    (h : index < 4) :
    ∃ a1, recordPiece e b r c index a = some (index + 1, a1)
      ∧ a1.positions = a.positions.set index (r, c)
      ∧ a1.moves = a.moves.set index (getMoveRange b r c) := by
  unfold recordPiece
  rw [if_pos h]
  dsimp only
  split_ifs
  · exact ⟨_, rfl, rfl, rfl⟩
  · exact ⟨_, rfl, rfl, rfl⟩

/-- The arrays that the scan of `getAllMovesForSide` fills when the side has at
most four pieces among the squares still to scan. -/
theorem scanPieces_spec (e : Bool) (b : Board) (w : Bool) :
    ∀ (rest : List (Int × Int)) (index : Nat) (a : AllMoves),
      index + (rest.filter fun p => decide (b p.1 p.2 = ownCell w)).length ≤ 4 →
      a.positions.length = 4 → a.moves.length = 4 →
      ∃ a1, scanPieces e b w rest index a
          = some (index + (rest.filter fun p => decide (b p.1 p.2 = ownCell w)).length, a1)
        ∧ a1.positions.length = 4 ∧ a1.moves.length = 4
        ∧ (∀ i, i < index →
            a1.positions.getD i (0, 0) = a.positions.getD i (0, 0)
              ∧ a1.moves.getD i {} = a.moves.getD i {})
        ∧ (∀ i, index + (rest.filter fun p => decide (b p.1 p.2 = ownCell w)).length ≤ i →
            a1.positions.getD i (0, 0) = a.positions.getD i (0, 0)
              ∧ a1.moves.getD i {} = a.moves.getD i {})
        ∧ ∀ j, j < (rest.filter fun p => decide (b p.1 p.2 = ownCell w)).length →
            a1.positions.getD (index + j) (0, 0)
                = (rest.filter fun p => decide (b p.1 p.2 = ownCell w)).getD j (0, 0)
              ∧ a1.moves.getD (index + j) {}
                = getMoveRange b
                    ((rest.filter fun p => decide (b p.1 p.2 = ownCell w)).getD j (0, 0)).1
                    ((rest.filter fun p => decide (b p.1 p.2 = ownCell w)).getD j (0, 0)).2 := by
  intro rest
  induction rest with
  | nil =>
    intro index a _ hp hm
    exact ⟨a, rfl, hp, hm, fun _ _ => ⟨rfl, rfl⟩, fun _ _ => ⟨rfl, rfl⟩,
      fun j hj => absurd hj (Nat.not_lt_zero _)⟩
  | cons p rest ih =>
    intro index a hle hp hm
    unfold scanPieces
    by_cases hown : b p.1 p.2 = ownCell w
    · have hf : (List.filter (fun p => decide (b p.1 p.2 = ownCell w)) (p :: rest))
          = p :: rest.filter fun p => decide (b p.1 p.2 = ownCell w) := by
        rw [List.filter_cons_of_pos (by simpa using hown)]
      rw [hf] at hle ⊢
      simp only [List.length_cons] at hle ⊢
      rw [if_pos ((own_iff b w p.1 p.2).mpr hown)]
      obtain ⟨a0, hrec, hp0, hm0⟩ := recordPiece_spec e b p.1 p.2 index a (by omega)
      simp only [hrec]
      obtain ⟨a1, hs, hp1, hm1, hlow, hhigh, hmid⟩ := ih (index + 1) a0 (by omega)
        (by rw [hp0, List.length_set]; exact hp) (by rw [hm0, List.length_set]; exact hm)
      refine ⟨a1, by rw [hs]; congr 2; omega, hp1, hm1, ?_, ?_, ?_⟩
      · intro i hi
        obtain ⟨h1, h2⟩ := hlow i (by omega)
        rw [h1, h2, hp0, hm0]
        simp only [List.getD_eq_getElem?_getD]
        rw [List.getElem?_set_ne (by omega), List.getElem?_set_ne (by omega)]
        exact ⟨rfl, rfl⟩
      · intro i hi
        obtain ⟨h1, h2⟩ := hhigh i (by omega)
        rw [h1, h2, hp0, hm0]
        simp only [List.getD_eq_getElem?_getD]
        rw [List.getElem?_set_ne (by omega), List.getElem?_set_ne (by omega)]
        exact ⟨rfl, rfl⟩
      · intro j hj
        cases j with
        | zero =>
          obtain ⟨h1, h2⟩ := hlow index (by omega)
          simp only [Nat.add_zero, List.getD_cons_zero]
          rw [h1, h2, hp0, hm0]
          simp only [List.getD_eq_getElem?_getD]
          rw [List.getElem?_set_self (by omega), List.getElem?_set_self (by omega)]
          exact ⟨rfl, rfl⟩
        | succ j =>
          obtain ⟨h1, h2⟩ := hmid j (by omega)
          simp only [List.getD_cons_succ]
          rw [show index + (j + 1) = index + 1 + j by omega]
          exact ⟨h1, h2⟩
    · have hf : (List.filter (fun p => decide (b p.1 p.2 = ownCell w)) (p :: rest))
          = rest.filter fun p => decide (b p.1 p.2 = ownCell w) := by
        rw [List.filter_cons_of_neg (by simpa using hown)]
      rw [hf] at hle ⊢
      rw [if_neg (fun h => hown ((own_iff b w p.1 p.2).mp h))]
      exact ih index a hle hp hm

/-- The arrays of `getAllMovesForSide` for a side with at most four pieces:
the pieces in scan order with their ranges, then the initial entries. -/
theorem getAllMovesForSide_spec (e : Bool) (b : Board) (w : Bool)
    (h : (piecesOf b w).length ≤ 4) :
    ∃ a, getAllMovesForSide e b w = some a ∧ a.moves.length = 4
      ∧ (∀ j, a.moves.getD j {}
          = ((piecesOf b w).map fun p => getMoveRange b p.1 p.2).getD j {})
      ∧ ∀ j, j < (piecesOf b w).length →
          a.positions.getD j (0, 0) = (piecesOf b w).getD j (0, 0) := by
  obtain ⟨a1, hs, -, hm1, -, hhigh, hmid⟩ := scanPieces_spec e b w squares 0 {}
    (by rw [Nat.zero_add]; exact h) rfl rfl
  refine ⟨a1, ?_, hm1, ?_, ?_⟩
  · unfold getAllMovesForSide
    rw [hs]; rfl
  · intro j
    by_cases hj : j < (piecesOf b w).length
    · have := (hmid j hj).2
      rw [Nat.zero_add] at this
      rw [this]
      simp only [List.getD_eq_getElem?_getD, List.getElem?_map]
      unfold piecesOf
      unfold piecesOf at hj
      rw [List.getElem?_eq_getElem hj]
      rfl
    · have := (hhigh j (by unfold piecesOf at hj; omega)).2
      have hA : ((piecesOf b w).map fun p => getMoveRange b p.1 p.2).getD j {} = {} :=
        List.getD_eq_default _ _ (by rw [List.length_map]; omega)
      have hB : (List.replicate 4 ({} : MoveRange)).getD j {} = {} := by
        by_cases h4 : j < 4
        · interval_cases j <;> rfl
        · exact List.getD_eq_default _ _ (by rw [List.length_replicate]; omega)
      rw [this, hA]
      exact hB
  · intro j hj
    have := (hmid j hj).1
    rw [Nat.zero_add] at this
    exact this

theorem firstMobile_four (a : AllMoves) (pp : Int × Int) :
    firstMobile a [0, 1, 2, 3] pp
      = if (a.moves.getD 0 {}).getTotalMoves > 0 then (0, a.positions.getD 0 (0, 0))
        else if (a.moves.getD 1 {}).getTotalMoves > 0 then (1, a.positions.getD 1 (0, 0))
        else if (a.moves.getD 2 {}).getTotalMoves > 0 then (2, a.positions.getD 2 (0, 0))
        else if (a.moves.getD 3 {}).getTotalMoves > 0 then (3, a.positions.getD 3 (0, 0))
        else (4, pp) := rfl

/-- The loop that looks for the first mobile entry returns the first mobile
piece with its index, or index 4 when there is none. -/
theorem firstMobile_spec (a : AllMoves) (f : Int × Int → MoveRange) (ps : List (Int × Int))
    (pp : Int × Int) (h : ps.length ≤ 4)
    (hm : ∀ j, a.moves.getD j {} = (ps.map f).getD j {})
    (hp : ∀ j, j < ps.length → a.positions.getD j (0, 0) = ps.getD j (0, 0)) :
    (∀ p, ps.find? (fun p => decide ((f p).getTotalMoves > 0)) = some p →
        ∃ idx, idx < 4 ∧ firstMobile a [0, 1, 2, 3] pp = (idx, p) ∧ a.moves.getD idx {} = f p)
      ∧ (ps.find? (fun p => decide ((f p).getTotalMoves > 0)) = none →
          firstMobile a [0, 1, 2, 3] pp = (4, pp)) := by
  have hz : ¬ (({} : MoveRange).getTotalMoves > 0) := by decide
  rw [firstMobile_four]
  rcases ps with _ | ⟨p0, _ | ⟨p1, _ | ⟨p2, _ | ⟨p3, _ | ⟨p4, rest⟩⟩⟩⟩⟩
  · have h0 : a.moves.getD 0 {} = {} := hm 0
    have h1 : a.moves.getD 1 {} = {} := hm 1
    have h2 : a.moves.getD 2 {} = {} := hm 2
    have h3 : a.moves.getD 3 {} = {} := hm 3
    rw [h0, h1, h2, h3]
    constructor
    · intro p hfind
      rw [List.find?_nil] at hfind
      cases hfind
    · intro _
      rw [if_neg hz, if_neg hz, if_neg hz, if_neg hz]
  · have h0 : a.moves.getD 0 {} = f p0 := hm 0
    have h1 : a.moves.getD 1 {} = {} := hm 1
    have h2 : a.moves.getD 2 {} = {} := hm 2
    have h3 : a.moves.getD 3 {} = {} := hm 3
    have q0 : a.positions.getD 0 (0, 0) = p0 := hp 0 (by simp)
    rw [h0, h1, h2, h3]
    by_cases c0 : (f p0).getTotalMoves > 0
    · constructor
      · intro p hfind
        rw [List.find?_cons_of_pos _ (by simpa using c0)] at hfind
        cases hfind
        exact ⟨0, by omega, by rw [if_pos c0, q0], h0⟩
      · intro hfind
        rw [List.find?_cons_of_pos _ (by simpa using c0)] at hfind
        cases hfind
    · constructor
      · intro p hfind
        rw [List.find?_cons_of_neg _ (by simpa using c0), List.find?_nil] at hfind
        cases hfind
      · intro _
        rw [if_neg c0, if_neg hz, if_neg hz, if_neg hz]
  · have h0 : a.moves.getD 0 {} = f p0 := hm 0
    have h1 : a.moves.getD 1 {} = f p1 := hm 1
    have h2 : a.moves.getD 2 {} = {} := hm 2
    have h3 : a.moves.getD 3 {} = {} := hm 3
    have q0 : a.positions.getD 0 (0, 0) = p0 := hp 0 (by simp)
    have q1 : a.positions.getD 1 (0, 0) = p1 := hp 1 (by simp)
    rw [h0, h1, h2, h3]
    by_cases c0 : (f p0).getTotalMoves > 0
    · constructor
      · intro p hfind
        rw [List.find?_cons_of_pos _ (by simpa using c0)] at hfind
        cases hfind
        exact ⟨0, by omega, by rw [if_pos c0, q0], h0⟩
      · intro hfind
        rw [List.find?_cons_of_pos _ (by simpa using c0)] at hfind
        cases hfind
    · by_cases c1 : (f p1).getTotalMoves > 0
      · constructor
        · intro p hfind
          rw [List.find?_cons_of_neg _ (by simpa using c0), List.find?_cons_of_pos _ (by simpa using c1)] at hfind
          cases hfind
          exact ⟨1, by omega, by rw [if_neg c0, if_pos c1, q1], h1⟩
        · intro hfind
          rw [List.find?_cons_of_neg _ (by simpa using c0), List.find?_cons_of_pos _ (by simpa using c1)] at hfind
          cases hfind
      · constructor
        · intro p hfind
          rw [List.find?_cons_of_neg _ (by simpa using c0), List.find?_cons_of_neg _ (by simpa using c1), List.find?_nil] at hfind
          cases hfind
        · intro _
          rw [if_neg c0, if_neg c1, if_neg hz, if_neg hz]
  · have h0 : a.moves.getD 0 {} = f p0 := hm 0
    have h1 : a.moves.getD 1 {} = f p1 := hm 1
    have h2 : a.moves.getD 2 {} = f p2 := hm 2
    have h3 : a.moves.getD 3 {} = {} := hm 3
    have q0 : a.positions.getD 0 (0, 0) = p0 := hp 0 (by simp)
    have q1 : a.positions.getD 1 (0, 0) = p1 := hp 1 (by simp)
    have q2 : a.positions.getD 2 (0, 0) = p2 := hp 2 (by simp)
    rw [h0, h1, h2, h3]
    by_cases c0 : (f p0).getTotalMoves > 0
    · constructor
      · intro p hfind
        rw [List.find?_cons_of_pos _ (by simpa using c0)] at hfind
        cases hfind
        exact ⟨0, by omega, by rw [if_pos c0, q0], h0⟩
      · intro hfind
        rw [List.find?_cons_of_pos _ (by simpa using c0)] at hfind
        cases hfind
    · by_cases c1 : (f p1).getTotalMoves > 0
      · constructor
        · intro p hfind
          rw [List.find?_cons_of_neg _ (by simpa using c0), List.find?_cons_of_pos _ (by simpa using c1)] at hfind
          cases hfind
          exact ⟨1, by omega, by rw [if_neg c0, if_pos c1, q1], h1⟩
        · intro hfind
          rw [List.find?_cons_of_neg _ (by simpa using c0), List.find?_cons_of_pos _ (by simpa using c1)] at hfind
          cases hfind
      · by_cases c2 : (f p2).getTotalMoves > 0
        · constructor
          · intro p hfind
            rw [List.find?_cons_of_neg _ (by simpa using c0), List.find?_cons_of_neg _ (by simpa using c1), List.find?_cons_of_pos _ (by simpa using c2)] at hfind
            cases hfind
            exact ⟨2, by omega, by rw [if_neg c0, if_neg c1, if_pos c2, q2], h2⟩
          · intro hfind
            rw [List.find?_cons_of_neg _ (by simpa using c0), List.find?_cons_of_neg _ (by simpa using c1), List.find?_cons_of_pos _ (by simpa using c2)] at hfind
            cases hfind
        · constructor
          · intro p hfind
            rw [List.find?_cons_of_neg _ (by simpa using c0), List.find?_cons_of_neg _ (by simpa using c1), List.find?_cons_of_neg _ (by simpa using c2), List.find?_nil] at hfind
            cases hfind
          · intro _
            rw [if_neg c0, if_neg c1, if_neg c2, if_neg hz]
  · have h0 : a.moves.getD 0 {} = f p0 := hm 0
    have h1 : a.moves.getD 1 {} = f p1 := hm 1
    have h2 : a.moves.getD 2 {} = f p2 := hm 2
    have h3 : a.moves.getD 3 {} = f p3 := hm 3
    have q0 : a.positions.getD 0 (0, 0) = p0 := hp 0 (by simp)
    have q1 : a.positions.getD 1 (0, 0) = p1 := hp 1 (by simp)
    have q2 : a.positions.getD 2 (0, 0) = p2 := hp 2 (by simp)
    have q3 : a.positions.getD 3 (0, 0) = p3 := hp 3 (by simp)
    rw [h0, h1, h2, h3]
    by_cases c0 : (f p0).getTotalMoves > 0
    · constructor
      · intro p hfind
        rw [List.find?_cons_of_pos _ (by simpa using c0)] at hfind
        cases hfind
        exact ⟨0, by omega, by rw [if_pos c0, q0], h0⟩
      · intro hfind
        rw [List.find?_cons_of_pos _ (by simpa using c0)] at hfind
        cases hfind
    · by_cases c1 : (f p1).getTotalMoves > 0
      · constructor
        · intro p hfind
          rw [List.find?_cons_of_neg _ (by simpa using c0), List.find?_cons_of_pos _ (by simpa using c1)] at hfind
          cases hfind
          exact ⟨1, by omega, by rw [if_neg c0, if_pos c1, q1], h1⟩
        · intro hfind
          rw [List.find?_cons_of_neg _ (by simpa using c0), List.find?_cons_of_pos _ (by simpa using c1)] at hfind
          cases hfind
      · by_cases c2 : (f p2).getTotalMoves > 0
        · constructor
          · intro p hfind
            rw [List.find?_cons_of_neg _ (by simpa using c0), List.find?_cons_of_neg _ (by simpa using c1), List.find?_cons_of_pos _ (by simpa using c2)] at hfind
            cases hfind
            exact ⟨2, by omega, by rw [if_neg c0, if_neg c1, if_pos c2, q2], h2⟩
          · intro hfind
            rw [List.find?_cons_of_neg _ (by simpa using c0), List.find?_cons_of_neg _ (by simpa using c1), List.find?_cons_of_pos _ (by simpa using c2)] at hfind
            cases hfind
        · by_cases c3 : (f p3).getTotalMoves > 0
          · constructor
            · intro p hfind
              rw [List.find?_cons_of_neg _ (by simpa using c0), List.find?_cons_of_neg _ (by simpa using c1), List.find?_cons_of_neg _ (by simpa using c2), List.find?_cons_of_pos _ (by simpa using c3)] at hfind
              cases hfind
              exact ⟨3, by omega, by rw [if_neg c0, if_neg c1, if_neg c2, if_pos c3, q3], h3⟩
            · intro hfind
              rw [List.find?_cons_of_neg _ (by simpa using c0), List.find?_cons_of_neg _ (by simpa using c1), List.find?_cons_of_neg _ (by simpa using c2), List.find?_cons_of_pos _ (by simpa using c3)] at hfind
              cases hfind
          · constructor
            · intro p hfind
              rw [List.find?_cons_of_neg _ (by simpa using c0), List.find?_cons_of_neg _ (by simpa using c1), List.find?_cons_of_neg _ (by simpa using c2), List.find?_cons_of_neg _ (by simpa using c3), List.find?_nil] at hfind
              cases hfind
            · intro _
              rw [if_neg c0, if_neg c1, if_neg c2, if_neg c3]
  · simp at h

theorem mem_squares (p : Int × Int) : p ∈ squares ↔ inBoard p.1 p.2 := by
  unfold squares inBoard
  simp only [List.mem_flatMap, List.mem_map, mem_indices]
  constructor
  · rintro ⟨r, hr, c, hc, rfl⟩
    exact ⟨hr.1, hr.2, hc.1, hc.2⟩
  · rintro ⟨h1, h2, h3, h4⟩
    exact ⟨p.1, ⟨h1, h2⟩, p.2, ⟨h3, h4⟩, rfl⟩

theorem mem_piecesOf (b : Board) (w : Bool) (p : Int × Int) :
    p ∈ piecesOf b w ↔ inBoard p.1 p.2 ∧ b p.1 p.2 = ownCell w := by
  unfold piecesOf
  rw [List.mem_filter, mem_squares]
  simp

theorem firstMobilePiece_some (b : Board) (w : Bool) (p : Int × Int)
    (h : firstMobilePiece b w = some p) :
    inBoard p.1 p.2 ∧ b p.1 p.2 = ownCell w ∧ (getMoveRange b p.1 p.2).getTotalMoves > 0 := by
  unfold firstMobilePiece at h
  have h1 := List.find?_some h
  have h2 := List.mem_of_find?_eq_some h
  rw [mem_piecesOf] at h2
  exact ⟨h2.1, h2.2, by simpa using h1⟩

theorem ownCell_piece (w : Bool) : ownCell w = Cell.White ∨ ownCell w = Cell.Black := by
  cases w <;> simp [ownCell]

theorem mem_generateLegalMoves_endgame (b : Board) (w : Bool) (m : Move) :
    m ∈ generateLegalMoves true b w
      ↔ legalOn b m ∧ b m.startPos.1 m.startPos.2 = ownCell w := by
  rw [mem_generateLegalMoves]
  unfold legalOn
  constructor
  · rintro ⟨h1, h2, -, h4, h5⟩
    have := (own_iff b w _ _).mp h2
    refine ⟨⟨h1, ?_, h4, h5⟩, this⟩
    rw [this]; exact ownCell_piece w
  · rintro ⟨⟨h1, -, h4, h5⟩, h6⟩
    exact ⟨h1, (own_iff b w _ _).mpr h6, Or.inl rfl, h4, h5⟩

/-- A piece with a destination has the legal move to an adjacent Empty cell
with the shot back at its start square. -/
theorem exists_move_of_mobile (b : Board) (w : Bool) (p : Int × Int) (hin : inBoard p.1 p.2)
    (hown : b p.1 p.2 = ownCell w) (hmob : (getMoveRange b p.1 p.2).getTotalMoves > 0) :
    ∃ m ∈ generateLegalMoves true b w, m.startPos = p := by
  have hne : hasEmptyNeighbour b p.1 p.2 := by
    by_contra hno
    have := getMoveRange_stuck b p.1 p.2 hin hno
    omega
  obtain ⟨dr, hdr, dc, hdc, hnz, hin2, hcell⟩ := hne
  have hdr' : dr = -1 ∨ dr = 0 ∨ dr = 1 := by simpa using hdr
  have hdc' : dc = -1 ∨ dc = 0 ∨ dc = 1 := by simpa using hdc
  refine ⟨{ startPos := p, targetPos := (p.1 + dr, p.2 + dc), shootPos := p }, ?_, rfl⟩
  rw [mem_generateLegalMoves_endgame]
  refine ⟨⟨hin, ?_, ?_, ?_⟩, hown⟩
  · simp only; rw [hown]; exact ownCell_piece w
  · refine ⟨hin, hin2, hcell, ?_, ?_⟩
    · unfold sameLine
      simp only
      rcases hdr' with rfl | rfl | rfl <;> rcases hdc' with rfl | rfl | rfl <;> omega
    · intro j h1 h2
      exfalso
      simp only [lineDist] at h2
      rcases hdr' with rfl | rfl | rfl <;> rcases hdc' with rfl | rfl | rfl <;> omega
  · refine ⟨hin2, hin, setCell_same _ _ _ _, ?_, ?_⟩
    · unfold sameLine
      simp only
      rcases hdr' with rfl | rfl | rfl <;> rcases hdc' with rfl | rfl | rfl <;> omega
    · intro j h1 h2
      exfalso
      simp only [lineDist] at h2
      rcases hdr' with rfl | rfl | rfl <;> rcases hdc' with rfl | rfl | rfl <;> omega

theorem makeMove_legal (s : Chessboard) (m : Move) (h : legalOn s.m_board m)
    (hown : ownPiece s.m_turnState s.m_board m.startPos.1 m.startPos.2) :
    ∃ s1, makeMove s m = some (true, s1) ∧ s1.m_board = applyMove s.m_board m := by
  obtain ⟨hin, -, hcl, hsh⟩ := h
  have hsh2 := (clearLine_ignoring_iff s.m_board _ _ _ _ _ _
    (s.m_board m.startPos.1 m.startPos.2)).mp hsh
  rcases makeMove_cases s m hin with ⟨h1, -⟩ | ⟨-, h2, -⟩ | ⟨-, -, h3, -⟩
      | ⟨-, -, -, s1, h4, h5, -⟩
  · exact absurd hown h1
  · exact absurd hcl h2
  · exact absurd hsh2 h3
  · exact ⟨s1, h4, h5⟩

theorem getEndgameMoves_succ (fuel : Nat) (bot : Bot) (piecePos : Int × Int) :
    getEndgameMoves (fuel + 1) bot piecePos
      = if piecePos.1 = -1 then
          match getAllMovesForSide bot.m_endgame bot.m_chessboard.m_board bot.m_isWhite with
          | none => none
          | some allMoves =>
            match allMoves.moves.get? (firstMobile allMoves [0, 1, 2, 3] piecePos).1 with
            | none => none
            | some curMoveRange =>
              if curMoveRange.territoryArea > 12 then
                match (generateLegalMoves bot.m_endgame bot.m_chessboard.m_board bot.m_isWhite).filter
                    (fun move => decide (move.startPos
                      = (firstMobile allMoves [0, 1, 2, 3] piecePos).2)) with
                | move :: _ =>
                  some ([move], resetSandbox { bot with m_endgameMoves := [], m_endgameVisited := [] })
                | [] => some ([], resetSandbox { bot with m_endgameMoves := [], m_endgameVisited := [] })
              else getEndgameMoves fuel
                (resetSandbox { bot with m_endgameMoves := [], m_endgameVisited := [] })
                (firstMobile allMoves [0, 1, 2, 3] piecePos).2
        else
          if bot.m_endgameVisited.any (boardEq bot.m_sandbox.m_board) then some ([], bot)
          else
            searchLoop (getEndgameMoves fuel)
              (getMoveRange bot.m_sandbox.m_board piecePos.1 piecePos.2).territoryArea
              ((generateLegalMoves bot.m_endgame bot.m_sandbox.m_board bot.m_isWhite).filter
                (fun move => decide (move.startPos = piecePos))) []
              { bot with m_endgameVisited := bot.m_sandbox.m_board :: bot.m_endgameVisited } :=
  rfl

/-- The first call of `getEndgameMoves()` when the first mobile piece of the
mover has a `territoryArea` above 12: the plan is the first generated move of
that piece. -/
theorem getEndgameMoves_init_far (fuel : Nat) (bot : Bot) (p : Int × Int)
    (hend : bot.m_endgame = true)
    (hlen : (piecesOf bot.m_chessboard.m_board bot.m_isWhite).length ≤ 4)
    (hfirst : firstMobilePiece bot.m_chessboard.m_board bot.m_isWhite = some p)
    (harea : (getMoveRange bot.m_chessboard.m_board p.1 p.2).territoryArea > 12) :
    ∃ move bot1, getEndgameMoves (fuel + 1) bot (-1, -1) = some ([move], bot1)
      ∧ move.startPos = p ∧ legalOn bot.m_chessboard.m_board move
      ∧ bot.m_chessboard.m_board move.startPos.1 move.startPos.2 = ownCell bot.m_isWhite := by
  obtain ⟨hin, hown, hmob⟩ := firstMobilePiece_some _ _ _ hfirst
  obtain ⟨a, ha, hm4, hm, hp⟩ := getAllMovesForSide_spec bot.m_endgame
    bot.m_chessboard.m_board bot.m_isWhite hlen
  obtain ⟨idx, hidx, hfound, hrange⟩ := (firstMobile_spec a
    (fun p => getMoveRange bot.m_chessboard.m_board p.1 p.2)
    (piecesOf bot.m_chessboard.m_board bot.m_isWhite) (-1, -1) hlen hm hp).1 p hfirst
  obtain ⟨m0, hm0, hs0⟩ := exists_move_of_mobile _ _ p hin hown hmob
  rw [getEndgameMoves_succ, if_pos rfl, ha]
  simp only
  rw [hfound]
  simp only
  have hget : a.moves.get? idx = some (getMoveRange bot.m_chessboard.m_board p.1 p.2) := by
    rw [List.get?_eq_get (by rw [hm4]; exact hidx)]
    congr 1
    rw [← hrange, List.getD_eq_getElem?_getD, List.getElem?_eq_getElem (by rw [hm4]; exact hidx)]
    rfl
  rw [hget]
  simp only
  rw [if_pos harea, hend]
  cases hf : (generateLegalMoves true bot.m_chessboard.m_board bot.m_isWhite).filter
      (fun move => decide (move.startPos = p)) with
  | nil =>
    have : m0 ∈ (generateLegalMoves true bot.m_chessboard.m_board bot.m_isWhite).filter
        (fun move => decide (move.startPos = p)) :=
      List.mem_filter.mpr ⟨hm0, by simpa using hs0⟩
    rw [hf] at this
    cases this
  | cons move rest =>
    have hmem : move ∈ (generateLegalMoves true bot.m_chessboard.m_board bot.m_isWhite).filter
        (fun move => decide (move.startPos = p)) := by rw [hf]; exact List.mem_cons_self _ _
    obtain ⟨hgen, hstart⟩ := List.mem_filter.mp hmem
    have hstart' : move.startPos = p := by simpa using hstart
    obtain ⟨hleg, hownm⟩ := (mem_generateLegalMoves_endgame _ _ _).mp hgen
    exact ⟨move, _, rfl, hstart', hleg, hownm⟩

/-- C19: in endgame mode, with the mover's Move phase on the real board and at
most four pieces of the mover, when the first piece of the mover with a
destination has territoryArea greater than 12, `getEndgameMoves()` returns a
plan of exactly one move, that move starts on that piece's square, and
`makeMove` accepts it on the current board. -/
theorem getEndgameMoves_short_circuit (fuel : Nat) (bot : Bot) (p : Int × Int)
    (hend : bot.m_endgame = true)
    (hturn : bot.m_chessboard.m_turnState
      = if bot.m_isWhite then TurnState.WhiteMove else TurnState.BlackMove)
    (hlen : (piecesOf bot.m_chessboard.m_board bot.m_isWhite).length ≤ 4)
    (hfirst : firstMobilePiece bot.m_chessboard.m_board bot.m_isWhite = some p)
    (harea : (getMoveRange bot.m_chessboard.m_board p.1 p.2).territoryArea > 12) :
    ∃ move bot1 s1, getEndgameMoves (fuel + 1) bot (-1, -1) = some ([move], bot1)
      ∧ move.startPos = p ∧ makeMove bot.m_chessboard move = some (true, s1) := by
  obtain ⟨move, bot1, h1, h2, hleg, hown⟩ :=
    getEndgameMoves_init_far fuel bot p hend hlen hfirst harea
  have hownp : ownPiece bot.m_chessboard.m_turnState bot.m_chessboard.m_board
      move.startPos.1 move.startPos.2 := by
    rw [hturn]
    unfold ownPiece
    rw [hown]
    cases bot.m_isWhite <;> simp [ownCell]
  obtain ⟨s1, hs1, -⟩ := makeMove_legal bot.m_chessboard move hleg hownp
  exact ⟨move, bot1, s1, h1, h2, hs1⟩

theorem getEndgameMoves_short_circuit_witness :
    (getMoveRange roomBoard 0 0).territoryArea = 15
      ∧ ∃ move bot1 s1, getEndgameMoves 66 (endgameBot roomBoard true) (-1, -1)
          = some ([move], bot1)
        ∧ move.startPos = (0, 0)
        ∧ makeMove (endgameBot roomBoard true).m_chessboard move = some (true, s1) :=
  ⟨by decide, getEndgameMoves_short_circuit 65 (endgameBot roomBoard true) (0, 0) rfl rfl
    (by decide) (by decide) (by decide)⟩

theorem Reach.mono_passable {b b1 : Board} {w : Bool}
    (h : ∀ i j : Int, passable b1 w i j → passable b w i j) {r c i j : Int}
    (hr : Reach b1 w r c i j) : Reach b w r c i j := by
  induction hr with
  | start hp => exact Reach.start (h _ _ hp)
  | step _ hadj hp ih => exact Reach.step ih hadj (h _ _ hp)

theorem Reach.reach_trans {b : Board} {w : Bool} {r c r1 c1 i j : Int}
    (h1 : Reach b w r c r1 c1) (h2 : Reach b w r1 c1 i j) : Reach b w r c i j := by
  induction h2 with
  | start _ => exact h1
  | step _ hadj hp ih => exact Reach.step ih hadj hp

/-- A queen line whose squares after the first are Empty or hold an own piece
stays inside the component of its first square. -/
theorem Reach.of_line {b : Board} {w : Bool} (r c r1 c1 : Int) (hin : inBoard r c)
    (hin1 : inBoard r1 c1) (hl : sameLine r c r1 c1) (hp : passable b w r c)
    (hcells : ∀ j : Nat, 1 ≤ j → j ≤ lineDist r c r1 c1 →
      b (r + j * Int.sign (r1 - r)) (c + j * Int.sign (c1 - c)) = Cell.Empty
        ∨ b (r + j * Int.sign (r1 - r)) (c + j * Int.sign (c1 - c)) = ownCell w) :
    Reach b w r c r1 c1 := by
  obtain ⟨hn, e1, e2, hs⟩ := steps_of_line r c r1 c1 hl
  have key : ∀ j : Nat, j ≤ lineDist r c r1 c1 →
      Reach b w r c (r + j * Int.sign (r1 - r)) (c + j * Int.sign (c1 - c)) := by
    intro j
    induction j with
    | zero =>
      intro _
      simp only [Nat.cast_zero, zero_mul, add_zero]
      exact Reach.start hp
    | succ j ih =>
      intro hj
      refine Reach.step (ih (by omega)) ?_ ⟨?_, hcells (j + 1) (by omega) hj⟩
      · unfold adjacent lineDist
        push_cast
        rcases sign_cases (r1 - r) with ⟨-, h2⟩ | ⟨-, h2⟩ | ⟨-, h2⟩ <;>
          rcases sign_cases (c1 - c) with ⟨-, h4⟩ | ⟨-, h4⟩ | ⟨-, h4⟩ <;>
            rw [h2, h4] at hs ⊢ <;> omega
      · unfold inBoard at hin hin1 ⊢
        push_cast
        have hj' : ((j : Int) + 1) ≤ (lineDist r c r1 c1 : Int) := by exact_mod_cast hj
        rcases sign_cases (r1 - r) with ⟨-, h2⟩ | ⟨-, h2⟩ | ⟨-, h2⟩ <;>
          rcases sign_cases (c1 - c) with ⟨-, h4⟩ | ⟨-, h4⟩ | ⟨-, h4⟩ <;>
            rw [h2] at e1 <;> rw [h4] at e2 <;> rw [h2, h4] at hs ⊢ <;> omega
  have := key (lineDist r c r1 c1) (le_refl _)
  rw [← e1, ← e2] at this
  exact this

/-- The cells of the board after a legal move. -/
theorem applyMove_cells (b : Board) (m : Move) (h : legalOn b m) :
    applyMove b m m.targetPos.1 m.targetPos.2 = b m.startPos.1 m.startPos.2
      ∧ applyMove b m m.shootPos.1 m.shootPos.2 = Cell.Block
      ∧ ((m.shootPos.1 ≠ m.startPos.1 ∨ m.shootPos.2 ≠ m.startPos.2) →
          applyMove b m m.startPos.1 m.startPos.2 = Cell.Empty)
      ∧ ∀ i j : Int, (i ≠ m.targetPos.1 ∨ j ≠ m.targetPos.2) →
          (i ≠ m.startPos.1 ∨ j ≠ m.startPos.2) → (i ≠ m.shootPos.1 ∨ j ≠ m.shootPos.2) →
          applyMove b m i j = b i j := by
  obtain ⟨htin, hsin, hts, hst, hte, hse⟩ := h.squares
  unfold applyMove
  refine ⟨?_, setCell_same _ _ _ _, ?_, ?_⟩
  · rw [setCell_other _ _ _ _ _ _ (by omega), setCell_other _ _ _ _ _ _ hts, setCell_same]
  · intro hne
    rw [setCell_other _ _ _ _ _ _ (by omega), setCell_same]
  · intro i j h1 h2 h3
    rw [setCell_other _ _ _ _ _ _ h3, setCell_other _ _ _ _ _ _ h2, setCell_other _ _ _ _ _ _ h1]

theorem passable_applyMove (b : Board) (w : Bool) (m : Move) (h : legalOn b m)
    (hown : b m.startPos.1 m.startPos.2 = ownCell w) (i j : Int)
    (hp : passable (applyMove b m) w i j) : passable b w i j := by
  obtain ⟨htin, hsin, hts, hst, hte, hse⟩ := h.squares
  obtain ⟨h1, h2, h3, h4⟩ := applyMove_cells b m h
  refine ⟨hp.1, ?_⟩
  by_cases e1 : i = m.targetPos.1 ∧ j = m.targetPos.2
  · rw [e1.1, e1.2]; exact Or.inl hte
  by_cases e2 : i = m.startPos.1 ∧ j = m.startPos.2
  · rw [e2.1, e2.2]; exact Or.inr hown
  by_cases e3 : i = m.shootPos.1 ∧ j = m.shootPos.2
  · exfalso
    have := hp.2
    rw [e3.1, e3.2, h2] at this
    rcases this with h | h
    · cases h
    · exact (ownCell_ne w).2.1 h.symm
  · rw [← h4 i j (by omega) (by omega) (by omega)]
    exact hp.2

theorem enemy_applyMove (b : Board) (w : Bool) (m : Move) (h : legalOn b m)
    (hown : b m.startPos.1 m.startPos.2 = ownCell w) (i j : Int)
    (he : applyMove b m i j = enemyCell w) : b i j = enemyCell w := by
  obtain ⟨h1, h2, h3, h4⟩ := applyMove_cells b m h
  by_cases e1 : i = m.targetPos.1 ∧ j = m.targetPos.2
  · rw [e1.1, e1.2, h1, hown] at he
    exact absurd he (ownCell_ne_enemyCell w)
  by_cases e3 : i = m.shootPos.1 ∧ j = m.shootPos.2
  · rw [e3.1, e3.2, h2] at he
    exact absurd he.symm (enemyCell_ne w).2
  by_cases e2 : i = m.startPos.1 ∧ j = m.startPos.2
  · rw [e2.1, e2.2, h3 (by omega)] at he
    exact absurd he.symm (enemyCell_ne w).1
  · rw [← h4 i j (by omega) (by omega) (by omega)]
    exact he

/-- The target and the shoot square of a legal move are in the component of
its start square. -/
theorem reach_of_legal (b : Board) (w : Bool) (m : Move) (h : legalOn b m)
    (hown : b m.startPos.1 m.startPos.2 = ownCell w) :
    Reach b w m.startPos.1 m.startPos.2 m.targetPos.1 m.targetPos.2
      ∧ Reach b w m.startPos.1 m.startPos.2 m.shootPos.1 m.shootPos.2 := by
  obtain ⟨htin, hsin, hts, hst, hte, hse⟩ := h.squares
  obtain ⟨hin, -, hcl, hsh⟩ := h
  have hps : passable b w m.startPos.1 m.startPos.2 := ⟨hin, Or.inr hown⟩
  have hpt : passable b w m.targetPos.1 m.targetPos.2 := ⟨htin, Or.inl hte⟩
  have h1 : Reach b w m.startPos.1 m.startPos.2 m.targetPos.1 m.targetPos.2 := by
    refine Reach.of_line _ _ _ _ hin htin hcl.2.2.2.1 hps ?_
    intro j hj1 hj2
    left
    by_cases hj : j < lineDist m.startPos.1 m.startPos.2 m.targetPos.1 m.targetPos.2
    · exact hcl.2.2.2.2 j hj1 hj
    · obtain ⟨-, e1, e2, -⟩ := steps_of_line _ _ _ _ hcl.2.2.2.1
      have : j = lineDist m.startPos.1 m.startPos.2 m.targetPos.1 m.targetPos.2 := by omega
      rw [this, ← e1, ← e2]
      exact hte
  refine ⟨h1, Reach.reach_trans h1 ?_⟩
  refine Reach.of_line _ _ _ _ htin hsin hsh.2.2.2.1 hpt ?_
  intro j hj1 hj2
  have hcell : setCell b m.startPos.1 m.startPos.2 Cell.Empty
      (m.targetPos.1 + j * Int.sign (m.shootPos.1 - m.targetPos.1))
      (m.targetPos.2 + j * Int.sign (m.shootPos.2 - m.targetPos.2)) = Cell.Empty := by
    by_cases hj : j < lineDist m.targetPos.1 m.targetPos.2 m.shootPos.1 m.shootPos.2
    · exact hsh.2.2.2.2 j hj1 hj
    · obtain ⟨-, e1, e2, -⟩ := steps_of_line _ _ _ _ hsh.2.2.2.1
      have : j = lineDist m.targetPos.1 m.targetPos.2 m.shootPos.1 m.shootPos.2 := by omega
      rw [this, ← e1, ← e2]
      exact hsh.2.2.1
  by_cases e : m.targetPos.1 + j * Int.sign (m.shootPos.1 - m.targetPos.1) = m.startPos.1
      ∧ m.targetPos.2 + j * Int.sign (m.shootPos.2 - m.targetPos.2) = m.startPos.2
  · right; rw [e.1, e.2]; exact hown
  · left
    rw [setCell_other _ _ _ _ _ _ (by omega)] at hcell
    exact hcell

/-- After a legal move of the piece on the start square, the fill from the
target square meets no opposing piece if the fill from the start square met
none, and its area is smaller by at least one. -/
theorem FillOk.after_move {b b1 : Board} {w : Bool} {m : Move} {a : Int}
    (hok : FillOk b w m.startPos.1 m.startPos.2 a b1) (h : legalOn b m)
    (hown : b m.startPos.1 m.startPos.2 = ownCell w) :
    ∃ b2, FillOk (applyMove b m) w m.targetPos.1 m.targetPos.2
        (getTerritoryArea (applyMove b m) m.targetPos.1 m.targetPos.2 w) b2
      ∧ getTerritoryArea (applyMove b m) m.targetPos.1 m.targetPos.2 w + 1 ≤ a := by
  obtain ⟨htin, hsin, hts, hst, hte, hse⟩ := h.squares
  obtain ⟨c1, c2, c3, c4⟩ := applyMove_cells b m h
  obtain ⟨hrt, hrs⟩ := reach_of_legal b w m h hown
  have hreach : ∀ i j : Int, Reach (applyMove b m) w m.targetPos.1 m.targetPos.2 i j →
      Reach b w m.startPos.1 m.startPos.2 i j := fun i j hr =>
    Reach.reach_trans hrt (Reach.mono_passable (passable_applyMove b w m h hown) hr)
  rcases getTerritoryArea_cases (applyMove b m) m.targetPos.1 m.targetPos.2 w htin with
    ⟨-, hab⟩ | ⟨b2, hok2⟩
  · exfalso
    apply hok.not_abort
    rcases hab with he | ⟨i, j, i1, j1, hr, hadj, hin, he⟩
    · rw [c1, hown] at he
      exact absurd he (ownCell_ne_enemyCell w)
    · exact Or.inr ⟨i, j, i1, j1, hreach i j hr, hadj, hin, enemy_applyMove b w m h hown _ _ he⟩
  refine ⟨b2, hok2, ?_⟩
  obtain ⟨S, hS, ha⟩ := hok.empty_cells
  obtain ⟨S2, hS2, ha2⟩ := hok2.empty_cells
  rw [ha, ha2]
  have htS : (m.targetPos.1, m.targetPos.2) ∈ S := (hS _ _).mpr ⟨hrt, hte⟩
  have hsub : ∀ i j : Int, (i, j) ∈ S2 →
      (i ≠ m.targetPos.1 ∨ j ≠ m.targetPos.2) ∧ (i ≠ m.shootPos.1 ∨ j ≠ m.shootPos.2)
        ∧ ((i = m.startPos.1 ∧ j = m.startPos.2) ∨ (i, j) ∈ S) := by
    intro i j hx
    obtain ⟨hr, he⟩ := (hS2 i j).mp hx
    have n1 : i ≠ m.targetPos.1 ∨ j ≠ m.targetPos.2 := by
      by_contra hcon
      have e : i = m.targetPos.1 ∧ j = m.targetPos.2 := by omega
      rw [e.1, e.2, c1, hown] at he
      exact (ownCell_ne w).1 he
    have n2 : i ≠ m.shootPos.1 ∨ j ≠ m.shootPos.2 := by
      by_contra hcon
      have e : i = m.shootPos.1 ∧ j = m.shootPos.2 := by omega
      rw [e.1, e.2, c2] at he
      cases he
    refine ⟨n1, n2, ?_⟩
    by_cases e : i = m.startPos.1 ∧ j = m.startPos.2
    · exact Or.inl e
    · right
      rw [c4 i j n1 (by omega) n2] at he
      exact (hS i j).mpr ⟨hreach i j hr, he⟩
  by_cases hback : m.shootPos.1 = m.startPos.1 ∧ m.shootPos.2 = m.startPos.2
  · have hle : S2 ⊆ S.erase (m.targetPos.1, m.targetPos.2) := by
      rintro ⟨i, j⟩ hx
      obtain ⟨n1, n2, h3⟩ := hsub i j hx
      rw [Finset.mem_erase]
      refine ⟨fun e => ?_, ?_⟩
      · rw [Prod.mk.injEq] at e; omega
      · rcases h3 with e | h3
        · exfalso; omega
        · exact h3
    have h1 := Finset.card_le_card hle
    rw [Finset.card_erase_of_mem htS] at h1
    have h2 := Finset.card_pos.mpr ⟨_, htS⟩
    have : (S2.card : Int) + 1 ≤ S.card := by exact_mod_cast (by omega : S2.card + 1 ≤ S.card)
    exact this
  · have hshE : b m.shootPos.1 m.shootPos.2 = Cell.Empty := by
      rcases hse with e | e
      · exact absurd e hback
      · exact e
    have hshS : (m.shootPos.1, m.shootPos.2) ∈ S.erase (m.targetPos.1, m.targetPos.2) := by
      rw [Finset.mem_erase]
      refine ⟨fun e => ?_, (hS _ _).mpr ⟨hrs, hshE⟩⟩
      rw [Prod.mk.injEq] at e; omega
    have hle : S2 ⊆ insert (m.startPos.1, m.startPos.2)
        ((S.erase (m.targetPos.1, m.targetPos.2)).erase (m.shootPos.1, m.shootPos.2)) := by
      rintro ⟨i, j⟩ hx
      obtain ⟨n1, n2, h3⟩ := hsub i j hx
      rw [Finset.mem_insert]
      rcases h3 with e | h3
      · left; rw [e.1, e.2]
      · right
        rw [Finset.mem_erase, Finset.mem_erase]
        refine ⟨fun e => ?_, fun e => ?_, h3⟩
        · rw [Prod.mk.injEq] at e; omega
        · rw [Prod.mk.injEq] at e; omega
    have h1 := le_trans (Finset.card_le_card hle) (Finset.card_insert_le _ _)
    rw [Finset.card_erase_of_mem hshS, Finset.card_erase_of_mem htS] at h1
    have h2 := Finset.card_pos.mpr ⟨_, hshS⟩
    rw [Finset.card_erase_of_mem htS] at h2
    have : (S2.card : Int) + 1 ≤ S.card := by exact_mod_cast (by omega : S2.card + 1 ≤ S.card)
    exact this

/-- The area of an enclosed piece bounds the number of consecutive moves that
the piece can make. -/
theorem pieceChain_length_le (w : Bool) :
    ∀ (ms : List Move) (b b1 : Board) (p : Int × Int) (a : Int),
      pieceChain w b p ms → FillOk b w p.1 p.2 a b1 → (ms.length : Int) ≤ a := by
  intro ms
  induction ms with
  | nil => intro b b1 p a _ hok; simpa using hok.nonneg
  | cons m ms ih =>
    intro b b1 p a hch hok
    obtain ⟨hs, hown, hleg, hrest⟩ := hch
    subst hs
    obtain ⟨b2, hok2, hle⟩ := hok.after_move hleg hown
    have := ih _ b2 _ _ hrest hok2
    simp only [List.length_cons]
    push_cast
    omega

/-- The `territoryArea` of the range of an own piece is the area of the fill for
its side; when it is not negative it bounds every chain of moves of the
piece. -/
theorem pieceChain_length_le_area (w : Bool) (b : Board) (p : Int × Int) (ms : List Move)
    (hin : inBoard p.1 p.2) (hown : b p.1 p.2 = ownCell w)
    (harea : 0 ≤ (getMoveRange b p.1 p.2).territoryArea) (hch : pieceChain w b p ms) :
    (ms.length : Int) ≤ (getMoveRange b p.1 p.2).territoryArea := by
  rw [getMoveRange_territoryArea b p.1 p.2 hin] at harea ⊢
  have hw : decide (b p.1 p.2 = Cell.White) = w := by
    rw [hown]; cases w <;> decide
  rw [hw] at harea ⊢
  rcases getTerritoryArea_cases b p.1 p.2 w hin with ⟨h1, -⟩ | ⟨b1, hok⟩
  · omega
  · exact pieceChain_length_le w ms b b1 p _ hch hok

theorem mem_pieceMovesAt (b : Board) (w : Bool) (p : Int × Int) (m : Move) :
    m ∈ pieceMovesAt b w p
      ↔ legalOn b m ∧ b m.startPos.1 m.startPos.2 = ownCell w ∧ m.startPos = p := by
  unfold pieceMovesAt
  rw [List.mem_filter, mem_generateLegalMoves_endgame]
  simp only [decide_eq_true_eq, and_assoc]

theorem boardEq_iff (b1 b2 : Board) :
    boardEq b1 b2 = true ↔ ∀ i j : Int, inBoard i j → b1 i j = b2 i j := by
  unfold boardEq
  rw [List.all_eq_true]
  constructor
  · intro h i j hin
    have := h (i, j) ((mem_squares _).mpr hin)
    simpa using this
  · intro h p hp
    have := h p.1 p.2 ((mem_squares _).mp hp)
    simpa using this

theorem seen_of_mem {V : List Board} {y : Board} (h : y ∈ V) : seen V y := by
  unfold seen
  rw [List.any_eq_true]
  exact ⟨y, h, (boardEq_iff y y).mpr fun _ _ _ => rfl⟩

theorem seen_mono {V V1 : List Board} (h : ∀ y, y ∈ V → y ∈ V1) {y : Board} (hs : seen V y) :
    seen V1 y := by
  unfold seen at hs ⊢
  rw [List.any_eq_true] at hs ⊢
  obtain ⟨z, hz, he⟩ := hs
  exact ⟨z, h z hz, he⟩

/-- The facts that hold of every position derived from `(b, p)`: the piece
stands on `q`, the boards agree off the grid, and the other pieces of the side
are where they were. -/
theorem Derives.facts {w : Bool} {b : Board} {p : Int × Int} (hin : inBoard p.1 p.2)
    (hown : b p.1 p.2 = ownCell w) {y : Board} {q : Int × Int} (h : Derives w b p y q) :
    inBoard q.1 q.2 ∧ y q.1 q.2 = ownCell w ∧ (∀ i j : Int, ¬ inBoard i j → y i j = b i j)
      ∧ ¬ ((q.1 ≠ p.1 ∨ q.2 ≠ p.2) ∧ b q.1 q.2 = ownCell w)
      ∧ ∀ i j : Int, (i ≠ q.1 ∨ j ≠ q.2) →
          (y i j = ownCell w ↔ (i ≠ p.1 ∨ j ≠ p.2) ∧ b i j = ownCell w) := by
  induction h with
  | root =>
    refine ⟨hin, hown, fun _ _ _ => rfl, fun h => ?_, fun i j hne => ?_⟩
    · omega
    · exact ⟨fun h => ⟨hne, h⟩, fun h => h.2⟩
  | @step y q m hd hm ih =>
    obtain ⟨hleg, hownm, hs⟩ := (mem_pieceMovesAt _ _ _ _).mp hm
    subst hs
    obtain ⟨-, i1, i2, i3, i4⟩ := ih
    obtain ⟨htin, hsin, hts, hst, hte, hse⟩ := hleg.squares
    obtain ⟨c1, c2, c3, c4⟩ := applyMove_cells y m hleg
    refine ⟨htin, by rw [c1]; exact hownm, ?_, ?_, ?_⟩
    · intro i j hout
      have n1 : i ≠ m.targetPos.1 ∨ j ≠ m.targetPos.2 := by
        by_contra hc
        have e : i = m.targetPos.1 ∧ j = m.targetPos.2 := by omega
        exact hout (by rw [e.1, e.2]; exact htin)
      have n2 : i ≠ m.startPos.1 ∨ j ≠ m.startPos.2 := by
        by_contra hc
        have e : i = m.startPos.1 ∧ j = m.startPos.2 := by omega
        exact hout (by rw [e.1, e.2]; exact hleg.1)
      have n3 : i ≠ m.shootPos.1 ∨ j ≠ m.shootPos.2 := by
        by_contra hc
        have e : i = m.shootPos.1 ∧ j = m.shootPos.2 := by omega
        exact hout (by rw [e.1, e.2]; exact hsin)
      rw [c4 i j n1 n2 n3]
      exact i2 i j hout
    · rintro ⟨hne, hb⟩
      have := (i4 m.targetPos.1 m.targetPos.2 hts).mpr ⟨hne, hb⟩
      rw [hte] at this
      exact (ownCell_ne w).1 this.symm
    · intro i j hne
      by_cases e3 : i = m.shootPos.1 ∧ j = m.shootPos.2
      · rw [e3.1, e3.2, c2]
        constructor
        · intro h; exact absurd h.symm (ownCell_ne w).2.1
        · intro h
          exfalso
          rcases hse with e | e
          · exact i3 ⟨by rw [← e.1, ← e.2]; exact h.1, by rw [← e.1, ← e.2]; exact h.2⟩
          · have := (i4 m.shootPos.1 m.shootPos.2 (by
              by_contra hc
              have e' : m.shootPos.1 = m.startPos.1 ∧ m.shootPos.2 = m.startPos.2 := by omega
              rw [e'.1, e'.2, hownm] at e
              exact (ownCell_ne w).1 e)).mpr h
            rw [e] at this
            exact (ownCell_ne w).1 this.symm
      by_cases e2 : i = m.startPos.1 ∧ j = m.startPos.2
      · rw [e2.1, e2.2, c3 (by rw [← e2.1, ← e2.2]; omega)]
        constructor
        · intro h; exact absurd h.symm (ownCell_ne w).1
        · intro h; exact absurd h i3
      · rw [c4 i j hne (by omega) (by omega)]
        exact i4 i j (by omega)

/-- A board determines the square of the moving piece. -/
theorem Derives.unique {w : Bool} {b : Board} {p : Int × Int} (hin : inBoard p.1 p.2)
    (hown : b p.1 p.2 = ownCell w) {y : Board} {q1 q2 : Int × Int}
    (h1 : Derives w b p y q1) (h2 : Derives w b p y q2) : q1 = q2 := by
  obtain ⟨-, a1, -, a3, -⟩ := h1.facts hin hown
  obtain ⟨-, -, -, -, b4⟩ := h2.facts hin hown
  by_contra hne
  have hne' : q1.1 ≠ q2.1 ∨ q1.2 ≠ q2.2 := by
    by_contra hc
    apply hne
    ext <;> omega
  exact a3 ((b4 q1.1 q1.2 hne').mp a1)

/-- Two derived boards that are equal as 8×8 arrays are equal. -/
theorem Derives.board_eq {w : Bool} {b : Board} {p : Int × Int} (hin : inBoard p.1 p.2)
    (hown : b p.1 p.2 = ownCell w) {y z : Board} {q1 q2 : Int × Int}
    (h1 : Derives w b p y q1) (h2 : Derives w b p z q2) (he : boardEq y z = true) : y = z := by
  obtain ⟨-, -, a2, -, -⟩ := h1.facts hin hown
  obtain ⟨-, -, b2, -, -⟩ := h2.facts hin hown
  funext i j
  by_cases hij : inBoard i j
  · exact (boardEq_iff y z).mp he i j hij
  · rw [a2 i j hij, b2 i j hij]

theorem Derives.prepend {w : Bool} {x : Board} {px : Int × Int} {m : Move}
    (hm : m ∈ pieceMovesAt x w px) {y : Board} {q : Int × Int}
    (h : Derives w (applyMove x m) m.targetPos y q) : Derives w x px y q := by
  induction h with
  | root => exact Derives.step Derives.root hm
  | step _ hm2 ih => exact Derives.step ih hm2

theorem NodeDone.weaken {w : Bool} {x : Board} {px : Int × Int} {V V1 : List Board} {n n1 : Nat}
    {y : Board} (hV : ∀ z, z ∈ V → z ∈ V1) (hn : n ≤ n1) (h : NodeDone w x px V n y) :
    NodeDone w x px V1 n1 y := by
  obtain ⟨q, hd, hdep, hcl⟩ := h
  refine ⟨q, hd, by omega, ?_⟩
  rcases hcl with hcl | hcl
  · exact Or.inl fun m hm => seen_mono hV (hcl m hm)
  · exact Or.inr fun ms hms => by have := hcl ms hms; omega

theorem NodeDone.lift {w : Bool} {x : Board} {px : Int × Int} {m : Move} {V : List Board}
    {n : Nat} {y : Board} (hm : m ∈ pieceMovesAt x w px)
    (h : NodeDone w (applyMove x m) m.targetPos V n y) : NodeDone w x px V (n + 1) y := by
  obtain ⟨q, hd, hdep, hcl⟩ := h
  have hc := countCells_applyMove x m ((mem_pieceMovesAt _ _ _ _).mp hm).1
  refine ⟨q, hd.prepend hm, by push_cast; omega, ?_⟩
  rcases hcl with hcl | hcl
  · exact Or.inl hcl
  · exact Or.inr fun ms hms => by have := hcl ms hms; push_cast; omega

theorem searchLoop_spec (w : Bool) (x : Board) (px : Int × Int) (hin : inBoard px.1 px.2)
    (hown : x px.1 px.2 = ownCell w)
    (search : Bot → Int × Int → Option (List Move × Bot)) (V0 : List Board) :
    ∀ rest : List Move, (∀ m ∈ rest, m ∈ pieceMovesAt x w px) →
      (∀ m ∈ rest, ∀ bot : Bot, bot.m_sandbox.m_board = applyMove x m → bot.m_isWhite = w →
        bot.m_endgame = true →
        ∃ plan bot1, search bot m.targetPos = some (plan, bot1)
          ∧ bot1.m_sandbox.m_board = applyMove x m ∧ bot1.m_isWhite = w
          ∧ bot1.m_endgame = true
          ∧ SearchPost w (applyMove x m) m.targetPos bot.m_endgameVisited plan
              bot1.m_endgameVisited) →
      ∀ (best : List Move) (bot : Bot), bot.m_sandbox.m_board = x → bot.m_isWhite = w →
        bot.m_endgame = true → pieceChain w x px best →
        (∀ y, y ∈ bot.m_endgameVisited → y ∉ V0 →
          NodeDone w x px bot.m_endgameVisited best.length y) →
        ∃ plan bot1,
          searchLoop search (getMoveRange x px.1 px.2).territoryArea rest best bot
              = some (plan, bot1)
            ∧ bot1.m_sandbox.m_board = x ∧ bot1.m_isWhite = w ∧ bot1.m_endgame = true
            ∧ pieceChain w x px plan ∧ best.length ≤ plan.length
            ∧ (∀ y, y ∈ bot.m_endgameVisited → y ∈ bot1.m_endgameVisited)
            ∧ (∀ y, y ∈ bot1.m_endgameVisited → y ∉ V0 →
                NodeDone w x px bot1.m_endgameVisited plan.length y)
            ∧ ((∀ m ∈ rest, seen bot1.m_endgameVisited (applyMove x m))
                ∨ ∀ ms, pieceChain w x px ms → (ms.length : Int) ≤ plan.length) := by
  intro rest
  induction rest with
  | nil =>
    intro _ _ best bot hsb hw he hch hfresh
    exact ⟨best, bot, rfl, hsb, hw, he, hch, le_refl _, fun _ h => h, hfresh,
      Or.inl fun m hm => absurd hm (List.not_mem_nil _)⟩
  | cons m rest ih =>
    intro hmoves hsearch best bot hsb hw he hch hfresh
    have hm := hmoves m (List.mem_cons_self _ _)
    obtain ⟨hleg, hownm, hstart⟩ := (mem_pieceMovesAt _ _ _ _).mp hm
    obtain ⟨sb1, hmk, hb1⟩ := makeMoveInSandbox_legal bot.m_isWhite bot.m_sandbox m
      (by rw [hsb]; exact hleg)
    rw [hsb] at hb1
    obtain ⟨planc, bot2, hs, hb2, hw2, he2, hpost⟩ := hsearch m (List.mem_cons_self _ _)
      { bot with m_sandbox := sb1 } hb1 hw he
    obtain ⟨sb3, hrev, hb3⟩ := reverseMoveInSandbox_applyMove bot2.m_sandbox x m hleg hb2
    have hchain1 : pieceChain w x px
        (if planc.length + 1 > best.length then m :: planc else best) := by
      split_ifs
      · exact ⟨hstart, hown, hleg, hpost.chain⟩
      · exact hch
    have hlen1 : best.length ≤ (if planc.length + 1 > best.length then m :: planc else best).length
        ∧ planc.length + 1
            ≤ (if planc.length + 1 > best.length then m :: planc else best).length := by
      split_ifs with hc
      · simp only [List.length_cons]; omega
      · omega
    have hfresh1 : ∀ y, y ∈ bot2.m_endgameVisited → y ∉ V0 →
        NodeDone w x px bot2.m_endgameVisited
          (if planc.length + 1 > best.length then m :: planc else best).length y := by
      intro y hy hnot
      by_cases hold : y ∈ bot.m_endgameVisited
      · exact (hfresh y hold hnot).weaken hpost.mono hlen1.1
      · exact (NodeDone.lift hm (hpost.fresh y hy hold)).weaken (fun _ h => h) hlen1.2
    unfold searchLoop
    simp only [hmk, hs, hrev]
    by_cases hexit : (getMoveRange x px.1 px.2).territoryArea
        = ((if planc.length + 1 > best.length then m :: planc else best).length : Int)
    · rw [if_pos hexit]
      refine ⟨_, _, rfl, hb3, hw2, he2, hchain1, hlen1.1, hpost.mono, hfresh1, Or.inr ?_⟩
      intro ms hms
      rw [← hexit]
      exact pieceChain_length_le_area w x px ms hin hown (by rw [hexit]; exact Int.natCast_nonneg _)
        hms
    · rw [if_neg hexit]
      obtain ⟨plan, bot4, hloop, hb4, hw4, he4, hch4, hlen4, hmono4, hfresh4, hroot4⟩ := ih
        (fun z hz => hmoves z (List.mem_cons_of_mem _ hz))
        (fun z hz => hsearch z (List.mem_cons_of_mem _ hz))
        (if planc.length + 1 > best.length then m :: planc else best)
        { bot2 with m_sandbox := sb3 } hb3 hw2 he2 hchain1 hfresh1
      refine ⟨plan, bot4, hloop, hb4, hw4, he4, hch4, le_trans hlen1.1 hlen4,
        fun y hy => hmono4 y (hpost.mono y hy), hfresh4, ?_⟩
      rcases hroot4 with h | h
      · left
        intro z hz
        rcases List.mem_cons.mp hz with rfl | hz
        · exact seen_mono hmono4 hpost.seenRoot
        · exact h z hz
      · exact Or.inr h

/-- The backtracking search of `getEndgameMoves` at a piece of the side: with
more fuel than Empty cells it returns, restores the sandbox board, and has
achieved `SearchPost`. -/
theorem getEndgameMoves_spec (w : Bool) :
    ∀ (fuel : Nat) (bot : Bot) (px : Int × Int), bot.m_isWhite = w → bot.m_endgame = true →
      inBoard px.1 px.2 → bot.m_sandbox.m_board px.1 px.2 = ownCell w →
      countCells bot.m_sandbox.m_board Cell.Empty < fuel →
      ∃ plan bot1, getEndgameMoves fuel bot px = some (plan, bot1)
        ∧ bot1.m_sandbox.m_board = bot.m_sandbox.m_board ∧ bot1.m_isWhite = w
        ∧ bot1.m_endgame = true
        ∧ SearchPost w bot.m_sandbox.m_board px bot.m_endgameVisited plan
            bot1.m_endgameVisited := by
  intro fuel
  induction fuel with
  | zero => intro _ _ _ _ _ _ h; exact absurd h (Nat.not_lt_zero _)
  | succ fuel ih =>
    intro bot px hw he hin hown hfuel
    have hpx : ¬ px.1 = -1 := by unfold inBoard at hin; omega
    rw [getEndgameMoves_succ, if_neg hpx]
    by_cases hseen : bot.m_endgameVisited.any (boardEq bot.m_sandbox.m_board) = true
    · rw [if_pos hseen]
      exact ⟨[], bot, rfl, rfl, hw, he, trivial, fun _ h => h, hseen,
        fun y hy hny => absurd hy hny⟩
    · have hlist : (generateLegalMoves bot.m_endgame bot.m_sandbox.m_board bot.m_isWhite).filter
          (fun move => decide (move.startPos = px))
            = pieceMovesAt bot.m_sandbox.m_board w px := by rw [he, hw]; rfl
      rw [if_neg hseen, hlist]
      obtain ⟨plan, bot1, hloop, hb1, hw1, he1, hch1, -, hmono1, hfresh1, hroot1⟩ :=
        searchLoop_spec w bot.m_sandbox.m_board px hin hown (getEndgameMoves fuel)
          (bot.m_sandbox.m_board :: bot.m_endgameVisited)
          (pieceMovesAt bot.m_sandbox.m_board w px) (fun _ h => h)
          (by
            intro m hm bot' hb' hw' he'
            obtain ⟨hleg, hownm, -⟩ := (mem_pieceMovesAt _ _ _ _).mp hm
            have hc := countCells_applyMove _ m hleg
            obtain ⟨plan, bot1, h1, h2, h3, h4, h5⟩ := ih bot' m.targetPos hw' he'
              hleg.squares.1
              (by rw [hb', (applyMove_cells _ m hleg).1]; exact hownm)
              (by rw [hb']; omega)
            rw [hb'] at h2 h5
            exact ⟨plan, bot1, h1, h2, h3, h4, h5⟩)
          [] { bot with m_endgameVisited := bot.m_sandbox.m_board :: bot.m_endgameVisited }
          rfl hw he trivial (fun y hy hny => absurd hy hny)
      refine ⟨plan, bot1, hloop, hb1, hw1, he1, hch1,
        fun y hy => hmono1 y (List.mem_cons_of_mem _ hy),
        seen_of_mem (hmono1 _ (List.mem_cons_self _ _)), ?_⟩
      intro y hy hny
      by_cases hy0 : y ∈ bot.m_sandbox.m_board :: bot.m_endgameVisited
      · rcases List.mem_cons.mp hy0 with rfl | h
        · refine ⟨px, Derives.root, by simp, ?_⟩
          rcases hroot1 with h | h
          · exact Or.inl h
          · exact Or.inr fun ms hms => by have := h ms hms; simpa using this
        · exact absurd h hny
      · exact hfresh1 y hy hy0

/-- A search from an empty visited set returns a plan that no chain of moves
of the piece exceeds. -/
theorem SearchPost.optimal {w : Bool} {b : Board} {p : Int × Int} {plan : List Move}
    {V1 : List Board} (hin : inBoard p.1 p.2) (hown : b p.1 p.2 = ownCell w)
    (h : SearchPost w b p [] plan V1) :
    ∀ ms, pieceChain w b p ms → ms.length ≤ plan.length := by
  have key : ∀ (ms : List Move) (y : Board) (q : Int × Int), Derives w b p y q → seen V1 y →
      pieceChain w y q ms →
      (countCells b Cell.Empty : Int) - countCells y Cell.Empty + ms.length ≤ plan.length := by
    intro ms
    induction ms with
    | nil =>
      intro y q hd hs _
      unfold seen at hs
      rw [List.any_eq_true] at hs
      obtain ⟨z, hz, he⟩ := hs
      obtain ⟨q1, hd1, hdep, -⟩ := h.fresh z hz (List.not_mem_nil _)
      have hyz := Derives.board_eq hin hown hd hd1 he
      subst hyz
      simpa using hdep
    | cons m ms ih =>
      intro y q hd hs hch
      have hs0 := hs
      unfold seen at hs
      rw [List.any_eq_true] at hs
      obtain ⟨z, hz, he⟩ := hs
      obtain ⟨q1, hd1, hdep, hcl⟩ := h.fresh z hz (List.not_mem_nil _)
      have hyz := Derives.board_eq hin hown hd hd1 he
      subst hyz
      have hq := Derives.unique hin hown hd hd1
      subst hq
      rcases hcl with hcl | hcl
      · obtain ⟨hstart, hownq, hleg, hrest⟩ := hch
        have hm : m ∈ pieceMovesAt y w q :=
          (mem_pieceMovesAt _ _ _ _).mpr ⟨hleg, by rw [hstart]; exact hownq, hstart⟩
        have := ih (applyMove y m) m.targetPos (Derives.step hd hm) (hcl m hm) hrest
        have hc := countCells_applyMove y m hleg
        simp only [List.length_cons]
        push_cast
        omega
      · exact hcl (m :: ms) hch
  intro ms hms
  have := key ms b p Derives.root h.seenRoot hms
  simpa using this

/-- The first call of `getEndgameMoves()` when the first mobile piece of the
mover has a `territoryArea` of at most 12: it returns a longest chain of moves
of that piece. -/
theorem getEndgameMoves_init_near (fuel : Nat) (bot : Bot) (p : Int × Int)
    (hend : bot.m_endgame = true)
    (hlen : (piecesOf bot.m_chessboard.m_board bot.m_isWhite).length ≤ 4)
    (hfirst : firstMobilePiece bot.m_chessboard.m_board bot.m_isWhite = some p)
    (harea : (getMoveRange bot.m_chessboard.m_board p.1 p.2).territoryArea ≤ 12)
    (hfuel : countCells bot.m_chessboard.m_board Cell.Empty + 1 < fuel) :
    ∃ plan bot1, getEndgameMoves fuel bot (-1, -1) = some (plan, bot1)
      ∧ pieceChain bot.m_isWhite bot.m_chessboard.m_board p plan
      ∧ ∀ ms, pieceChain bot.m_isWhite bot.m_chessboard.m_board p ms →
          ms.length ≤ plan.length := by
  obtain ⟨hin, hown, hmob⟩ := firstMobilePiece_some _ _ _ hfirst
  obtain ⟨a, ha, hm4, hm, hp⟩ := getAllMovesForSide_spec bot.m_endgame
    bot.m_chessboard.m_board bot.m_isWhite hlen
  obtain ⟨idx, hidx, hfound, hrange⟩ := (firstMobile_spec a
    (fun p => getMoveRange bot.m_chessboard.m_board p.1 p.2)
    (piecesOf bot.m_chessboard.m_board bot.m_isWhite) (-1, -1) hlen hm hp).1 p hfirst
  obtain ⟨fuel1, rfl⟩ : ∃ k, fuel = k + 1 := ⟨fuel - 1, by omega⟩
  rw [getEndgameMoves_succ, if_pos rfl, ha]
  simp only
  rw [hfound]
  simp only
  have hget : a.moves.get? idx = some (getMoveRange bot.m_chessboard.m_board p.1 p.2) := by
    rw [List.get?_eq_get (by rw [hm4]; exact hidx)]
    congr 1
    rw [← hrange, List.getD_eq_getElem?_getD, List.getElem?_eq_getElem (by rw [hm4]; exact hidx)]
    rfl
  rw [hget]
  simp only
  rw [if_neg (by omega)]
  obtain ⟨plan, bot1, h1, -, -, -, hpost⟩ := getEndgameMoves_spec bot.m_isWhite fuel1
    (resetSandbox { bot with m_endgameMoves := [], m_endgameVisited := [] }) p rfl hend hin hown
    (by show countCells bot.m_chessboard.m_board Cell.Empty < fuel1; omega)
  exact ⟨plan, bot1, h1, hpost.chain, SearchPost.optimal hin hown hpost⟩

/-- C17: in endgame mode, with at most four pieces of the mover, when the first
mobile piece of the mover has a territoryArea of at most 12 (in particular
0 ≤ A ≤ 12), `getEndgameMoves()` with more fuel than Empty cells plus one
returns a plan that is a sequence of consecutive legal moves of that one piece
from the current board, and no such sequence is longer: the visited set and
the early exit never make the plan shorter than the maximum. -/
theorem getEndgameMoves_optimal (fuel : Nat) (bot : Bot) (p : Int × Int)
    (hend : bot.m_endgame = true)
    (hlen : (piecesOf bot.m_chessboard.m_board bot.m_isWhite).length ≤ 4)
    (hfirst : firstMobilePiece bot.m_chessboard.m_board bot.m_isWhite = some p)
    (harea : (getMoveRange bot.m_chessboard.m_board p.1 p.2).territoryArea ≤ 12)
    (hfuel : countCells bot.m_chessboard.m_board Cell.Empty + 1 < fuel) :
    ∃ plan bot1, getEndgameMoves fuel bot (-1, -1) = some (plan, bot1)
      ∧ pieceChain bot.m_isWhite bot.m_chessboard.m_board p plan
      ∧ ∀ ms, pieceChain bot.m_isWhite bot.m_chessboard.m_board p ms →
          ms.length ≤ plan.length :=
  getEndgameMoves_init_near fuel bot p hend hlen hfirst harea hfuel

theorem getEndgameMoves_optimal_witness :
    (getMoveRange pocketBoard 0 0).territoryArea = 3
      ∧ (∃ plan bot1, getEndgameMoves 66 (endgameBot pocketBoard true) (-1, -1)
          = some (plan, bot1)
        ∧ pieceChain true pocketBoard (0, 0) plan
        ∧ ∀ ms, pieceChain true pocketBoard (0, 0) ms → ms.length ≤ plan.length)
      ∧ (getEndgameMoves 66 (endgameBot pocketBoard true) (-1, -1)).map
          (fun r => r.1.length) = some 3 :=
  ⟨by decide, getEndgameMoves_optimal 66 (endgameBot pocketBoard true) (0, 0) rfl (by decide)
    (by decide) (by decide)
    (Nat.lt_succ_of_le (Nat.succ_le_succ (countCells_le _ _))), by decide⟩

theorem adjacent_kingStep (r c i j : Int) (h : adjacent r c i j) :
    ∃ d ∈ kingSteps, i = r + d.1 ∧ j = c + d.2 := by
  unfold adjacent lineDist at h
  have h1 : i - r = -1 ∨ i - r = 0 ∨ i - r = 1 := by omega
  have h2 : j - c = -1 ∨ j - c = 0 ∨ j - c = 1 := by omega
  have h3 : i - r ≠ 0 ∨ j - c ≠ 0 := by omega
  refine ⟨(i - r, j - c), ?_, by simp, by simp⟩
  rcases h1 with e1 | e1 | e1 <;> rcases h2 with e2 | e2 | e2 <;> rw [e1, e2] <;>
    first
      | decide
      | (exfalso; omega)

/-- The move of a piece to an adjacent Empty cell with the shot back at its
start square is legal. -/
theorem legalOn_adjacent (b : Board) (c0 c1 : Int × Int) (hin : inBoard c0.1 c0.2)
    (hp : b c0.1 c0.2 = Cell.White ∨ b c0.1 c0.2 = Cell.Black) (hin1 : inBoard c1.1 c1.2)
    (hadj : adjacent c0.1 c0.2 c1.1 c1.2) (he : b c1.1 c1.2 = Cell.Empty) :
    legalOn b { startPos := c0, targetPos := c1, shootPos := c0 } := by
  unfold adjacent lineDist at hadj
  refine ⟨hin, hp, ⟨hin, hin1, he, ?_, ?_⟩, ⟨hin1, hin, setCell_same _ _ _ _, ?_, ?_⟩⟩
  · unfold sameLine; simp only; omega
  · intro j h1 h2
    exfalso
    simp only [lineDist] at h2
    omega
  · unfold sameLine; simp only; omega
  · intro j h1 h2
    exfalso
    simp only [lineDist] at h2
    omega

theorem chained_reach {b : Board} {w : Bool} {s : Int × Int} :
    ∀ (cs : List (Int × Int)) (c0 : Int × Int), Reach b w s.1 s.2 c0.1 c0.2 → chained c0 cs →
      (∀ c ∈ cs, passable b w c.1 c.2) → ∀ x ∈ cs, Reach b w s.1 s.2 x.1 x.2 := by
  intro cs
  induction cs with
  | nil => intro _ _ _ _ x hx; cases hx
  | cons d rest ih =>
    intro c0 hr hch hpass x hx
    have hd : Reach b w s.1 s.2 d.1 d.2 :=
      Reach.step hr hch.1 (hpass d (List.mem_cons_self _ _))
    rcases List.mem_cons.mp hx with rfl | hx
    · exact hd
    · exact ih d hd hch.2 (fun c hc => hpass c (List.mem_cons_of_mem _ hc)) x hx

/-- The component of the piece of a corridor is the corridor. -/
theorem Corridor.reach_iff {w : Bool} {b : Board} {c0 : Int × Int} {cs : List (Int × Int)}
    (h : Corridor w b c0 cs) (i j : Int) :
    Reach b w c0.1 c0.2 i j ↔ (i, j) ∈ c0 :: cs := by
  obtain ⟨hin, hown, hcells, -, hch, hclosed⟩ := h
  have hp0 : passable b w c0.1 c0.2 := ⟨hin, Or.inr hown⟩
  constructor
  · intro hr
    induction hr with
    | start _ => exact List.mem_cons_self _ _
    | @step r1 c1 r2 c2 _ hadj hp ih =>
      obtain ⟨d, hd, e1, e2⟩ := adjacent_kingStep _ _ _ _ hadj
      have := hclosed (r1, c1) ih d hd (by simp only; rw [← e1, ← e2]; exact hp.1)
      simp only at this
      rw [← e1, ← e2] at this
      rcases this with h1 | h1
      · exact h1
      · exact absurd h1 (passable_ne b w _ _ hp).1
  · intro hmem
    rcases List.mem_cons.mp hmem with e | hx
    · subst e; exact Reach.start hp0
    · exact chained_reach cs c0 (Reach.start hp0) hch
        (fun c hc => ⟨(hcells c hc).1, Or.inl (hcells c hc).2⟩) (i, j) hx

theorem Corridor.no_abort {w : Bool} {b : Board} {c0 : Int × Int} {cs : List (Int × Int)}
    (h : Corridor w b c0 cs) : ¬ FillAbort b w c0.1 c0.2 := by
  have hr := h.reach_iff
  obtain ⟨hin, hown, hcells, -, hch, hclosed⟩ := h
  have hcell : ∀ x ∈ c0 :: cs, b x.1 x.2 ≠ enemyCell w := by
    intro x hx
    rcases List.mem_cons.mp hx with rfl | hx
    · rw [hown]; exact ownCell_ne_enemyCell w
    · rw [(hcells x hx).2]; exact fun e => (enemyCell_ne w).1 e.symm
  rintro (he | ⟨i, j, i1, j1, hreach, hadj, hin1, he⟩)
  · exact hcell c0 (List.mem_cons_self _ _) he
  · obtain ⟨d, hd, e1, e2⟩ := adjacent_kingStep _ _ _ _ hadj
    have := hclosed (i, j) ((hr i j).mp hreach) d hd (by simp only; rw [← e1, ← e2]; exact hin1)
    simp only at this
    rw [← e1, ← e2] at this
    rcases this with h1 | h1
    · exact hcell _ h1 he
    · rw [h1] at he
      exact (enemyCell_ne w).2 he.symm

/-- The `territoryArea` of the piece of a corridor is the number of cells of
the corridor. -/
theorem Corridor.area {w : Bool} {b : Board} {c0 : Int × Int} {cs : List (Int × Int)}
    (h : Corridor w b c0 cs) : (getMoveRange b c0.1 c0.2).territoryArea = cs.length := by
  have hr := h.reach_iff
  have hna := h.no_abort
  obtain ⟨hin, hown, hcells, hnd, -, -⟩ := h
  rw [getMoveRange_territoryArea b c0.1 c0.2 hin]
  have hw : decide (b c0.1 c0.2 = Cell.White) = w := by
    rw [hown]; cases w <;> decide
  rw [hw]
  rcases getTerritoryArea_cases b c0.1 c0.2 w hin with ⟨-, hab⟩ | ⟨b1, hok⟩
  · exact absurd hab hna
  · obtain ⟨S, hS, ha⟩ := hok.empty_cells
    rw [ha]
    have hSeq : S = cs.toFinset := by
      ext ⟨i, j⟩
      rw [hS, List.mem_toFinset, hr]
      constructor
      · rintro ⟨hmem, he⟩
        rcases List.mem_cons.mp hmem with e | hx
        · rw [Prod.mk.injEq] at e
          rw [e.1, e.2, hown] at he
          exact absurd he (ownCell_ne w).1
        · exact hx
      · intro hx
        exact ⟨List.mem_cons_of_mem _ hx, (hcells _ hx).2⟩
    rw [hSeq, List.toFinset_card_of_nodup hnd]

/-- The piece of a corridor can make as many consecutive moves as the corridor
has cells: each time one cell on, with the shot back at the cell it left. -/
theorem exists_chain_of_chained (w : Bool) :
    ∀ (cs : List (Int × Int)) (b : Board) (c0 : Int × Int), inBoard c0.1 c0.2 →
      b c0.1 c0.2 = ownCell w → (∀ c ∈ cs, inBoard c.1 c.2 ∧ b c.1 c.2 = Cell.Empty) →
      (c0 :: cs).Nodup → chained c0 cs →
      ∃ ms, pieceChain w b c0 ms ∧ ms.length = cs.length := by
  intro cs
  induction cs with
  | nil => intro _ _ _ _ _ _ _; exact ⟨[], trivial, rfl⟩
  | cons c1 rest ih =>
    intro b c0 hin hown hcells hnd hch
    have h1 := hcells c1 (List.mem_cons_self _ _)
    have hleg : legalOn b { startPos := c0, targetPos := c1, shootPos := c0 } :=
      legalOn_adjacent b c0 c1 hin (by rw [hown]; exact ownCell_piece w) h1.1 hch.1 h1.2
    obtain ⟨k1, k2, -, k4⟩ := applyMove_cells b _ hleg
    simp only at k1 k2 k4
    have hnd' := List.nodup_cons.mp hnd
    have hnd1 := List.nodup_cons.mp hnd'.2
    obtain ⟨ms, hms, hlen⟩ := ih (applyMove b { startPos := c0, targetPos := c1, shootPos := c0 })
      c1 h1.1 (by rw [k1]; exact hown)
      (by
        intro c hc
        have hc' := hcells c (List.mem_cons_of_mem _ hc)
        refine ⟨hc'.1, ?_⟩
        have n1 : c ≠ c1 := fun e => hnd1.1 (e ▸ hc)
        have n0 : c ≠ c0 := fun e => hnd'.1 (e ▸ List.mem_cons_of_mem _ hc)
        have n1' : c.1 ≠ c1.1 ∨ c.2 ≠ c1.2 := by
          by_contra hcon; apply n1; ext <;> omega
        have n0' : c.1 ≠ c0.1 ∨ c.2 ≠ c0.2 := by
          by_contra hcon; apply n0; ext <;> omega
        rw [k4 c.1 c.2 n1' n0' n0']
        exact hc'.2)
      hnd'.2 hch.2
    exact ⟨{ startPos := c0, targetPos := c1, shootPos := c0 } :: ms,
      ⟨rfl, hown, hleg, hms⟩, by simp only [List.length_cons, hlen]⟩

/-- The plan of `getEndgameMoves()` for a piece confined to a corridor. -/
theorem getEndgameMoves_corridor_plan (fuel : Nat) (bot : Bot) (c0 : Int × Int)
    (cs : List (Int × Int)) (hend : bot.m_endgame = true)
    (hlen : (piecesOf bot.m_chessboard.m_board bot.m_isWhite).length ≤ 4)
    (hfirst : firstMobilePiece bot.m_chessboard.m_board bot.m_isWhite = some c0)
    (hcor : Corridor bot.m_isWhite bot.m_chessboard.m_board c0 cs)
    (hfuel : countCells bot.m_chessboard.m_board Cell.Empty + 1 < fuel) :
    ∃ plan bot1, getEndgameMoves fuel bot (-1, -1) = some (plan, bot1)
      ∧ plan.length = if cs.length ≤ 12 then cs.length else 1 := by
  have harea := hcor.area
  by_cases hN : cs.length ≤ 12
  · rw [if_pos hN]
    obtain ⟨plan, bot1, h1, hch, hopt⟩ := getEndgameMoves_init_near fuel bot c0 hend hlen hfirst
      (by rw [harea]; exact_mod_cast hN) hfuel
    refine ⟨plan, bot1, h1, le_antisymm ?_ ?_⟩
    · have := pieceChain_length_le_area bot.m_isWhite bot.m_chessboard.m_board c0 plan
        hcor.1 hcor.2.1 (by rw [harea]; exact Int.natCast_nonneg _) hch
      rw [harea] at this
      exact_mod_cast this
    · obtain ⟨hin, hown, hcells, hnd, hchain, -⟩ := hcor
      have hnd0 : (c0 :: cs).Nodup := by
        refine List.nodup_cons.mpr ⟨fun hmem => ?_, hnd⟩
        have := (hcells c0 hmem).2
        rw [hown] at this
        exact (ownCell_ne bot.m_isWhite).1 this
      obtain ⟨ms, hms, hl⟩ := exists_chain_of_chained bot.m_isWhite cs
        bot.m_chessboard.m_board c0 hin hown hcells hnd0 hchain
      rw [← hl]
      exact hopt ms hms
  · rw [if_neg hN]
    obtain ⟨fuel1, rfl⟩ : ∃ k, fuel = k + 1 := ⟨fuel - 1, by omega⟩
    obtain ⟨move, bot1, h1, -⟩ := getEndgameMoves_init_far fuel1 bot c0 hend hlen hfirst
      (by rw [harea]; push_neg at hN; exact_mod_cast hN)
    exact ⟨[move], bot1, h1, rfl⟩

/-- C18, counterexample: on `corridorBoard` the White piece on (0,0) is
confined to a non-branching corridor of 13 Empty cells, it is the first mobile
piece of White, its territoryArea is 13, and in endgame mode
`getEndgameMoves()` returns a plan of one move, not 13. -/
theorem getEndgameMoves_long_corridor :
    Corridor true corridorBoard (0, 0) corridorCells ∧ nonBranching ((0, 0) :: corridorCells)
      ∧ corridorCells.length = 13
      ∧ firstMobilePiece corridorBoard true = some (0, 0)
      ∧ (getMoveRange corridorBoard 0 0).territoryArea = 13
      ∧ (getEndgameMoves 66 (endgameBot corridorBoard true) (-1, -1)).map (fun r => r.1.length)
          = some 1 := by
  refine ⟨by decide, by decide, by decide, by decide, by decide, by decide⟩

/-- C18, amended: in endgame mode, with at most four pieces of the mover, when
the first mobile piece of the mover is confined to an enclosed region that is a
corridor of N Empty cells (the piece at one end), `getEndgameMoves()` returns
a plan of exactly N moves if N ≤ 12, and a plan of exactly one move if
N > 12. -/
theorem getEndgameMoves_corridor (fuel : Nat) (bot : Bot) (c0 : Int × Int)
    (cs : List (Int × Int)) (hend : bot.m_endgame = true)
    (hlen : (piecesOf bot.m_chessboard.m_board bot.m_isWhite).length ≤ 4)
    (hfirst : firstMobilePiece bot.m_chessboard.m_board bot.m_isWhite = some c0)
    (hcor : Corridor bot.m_isWhite bot.m_chessboard.m_board c0 cs)
    (hfuel : countCells bot.m_chessboard.m_board Cell.Empty + 1 < fuel) :
    ∃ plan bot1, getEndgameMoves fuel bot (-1, -1) = some (plan, bot1)
      ∧ (cs.length ≤ 12 → plan.length = cs.length)
      ∧ (12 < cs.length → plan.length = 1) := by
  obtain ⟨plan, bot1, h1, h2⟩ :=
    getEndgameMoves_corridor_plan fuel bot c0 cs hend hlen hfirst hcor hfuel
  refine ⟨plan, bot1, h1, fun h => ?_, fun h => ?_⟩
  · rw [h2, if_pos h]
  · rw [h2, if_neg (by omega)]

theorem getEndgameMoves_corridor_witness :
    (∃ plan bot1, getEndgameMoves 66 (endgameBot laneBoard true) (-1, -1) = some (plan, bot1)
      ∧ ([((0 : Int), (1 : Int)), (0, 2), (0, 3)].length ≤ 12
          → plan.length = [((0 : Int), (1 : Int)), (0, 2), (0, 3)].length)
      ∧ (12 < [((0 : Int), (1 : Int)), (0, 2), (0, 3)].length → plan.length = 1))
      ∧ nonBranching [(0, 0), (0, 1), (0, 2), (0, 3)]
      ∧ (getEndgameMoves 66 (endgameBot laneBoard true) (-1, -1)).map (fun r => r.1.length)
          = some 3 :=
  ⟨getEndgameMoves_corridor 66 (endgameBot laneBoard true) (0, 0) [(0, 1), (0, 2), (0, 3)] rfl
    (by decide) (by decide) (by decide)
    (Nat.lt_succ_of_le (Nat.succ_le_succ (countCells_le _ _))), by decide, by decide⟩

/-! ## The opening scenario -/

theorem applyOp_history (s s1 : Chessboard) (op : Op) (h : applyOp s op = some s1) :
    (s1.m_history = s.m_history
        ∧ (ownPiece s1.m_turnState s1.m_board 5 3 → ownPiece s.m_turnState s.m_board 5 3))
      ∨ s.m_history.length < s1.m_history.length := by
  have hshoot : ∀ t b, ownPiece (nextPhase t) b 5 3 → (t = TurnState.WhiteMove ∨ t = TurnState.BlackMove)
      → False := by
    intro t b ho ht
    rcases ht with rfl | rfl <;> rcases ho with ⟨h1, -⟩ | ⟨h1, -⟩ <;> cases h1
  cases op with
  | tryToSelect row col =>
    simp only [applyOp, Option.some.injEq] at h
    subst h
    unfold tryToSelect
    split_ifs <;> exact Or.inl ⟨rfl, fun h => h⟩
  | tryToClearSelected =>
    simp only [applyOp, Option.some.injEq] at h
    subst h
    unfold tryToClearSelected
    split_ifs <;> exact Or.inl ⟨rfl, fun h => h⟩
  | moveSelectedTo row col =>
    simp only [applyOp, Option.map_eq_some', Prod.exists, exists_eq_right] at h
    obtain ⟨ok, h⟩ := h
    rcases moveSelectedTo_cases s row col ok s1 h with ⟨-, rfl⟩ | ⟨-, hown, -, rfl⟩
    · exact Or.inl ⟨rfl, fun h => h⟩
    · refine Or.inl ⟨rfl, fun ho => (hshoot _ _ ho ?_).elim⟩
      rcases hown with ⟨ht, -⟩ | ⟨ht, -⟩
      · exact Or.inl ht
      · exact Or.inr ht
  | shootAt row col =>
    simp only [applyOp, Option.map_eq_some', Prod.exists, exists_eq_right] at h
    obtain ⟨ok, h⟩ := h
    rcases shootAt_cases s row col ok s1 h with ⟨-, rfl⟩ | ⟨-, -, -, -, -, -, -, hh, -⟩
    · exact Or.inl ⟨rfl, fun h => h⟩
    · right
      rw [hh]
      simp
  | makeMove move =>
    simp only [applyOp, Option.map_eq_some', Prod.exists, exists_eq_right] at h
    obtain ⟨ok, h⟩ := h
    by_cases hin : inBoard move.startPos.1 move.startPos.2
    · rcases makeMove_cases s move hin with ⟨-, h2⟩ | ⟨-, -, h3⟩ | ⟨hown, -, -, h4⟩
          | ⟨-, -, -, s2, h4, -, -, -, h5⟩
      · rw [h2] at h
        simp only [Option.some.injEq, Prod.mk.injEq] at h
        rw [← h.2]
        exact Or.inl ⟨rfl, fun h => h⟩
      · rw [h3] at h
        simp only [Option.some.injEq, Prod.mk.injEq] at h
        rw [← h.2]
        exact Or.inl ⟨rfl, fun h => h⟩
      · rw [h4] at h
        simp only [Option.some.injEq, Prod.mk.injEq] at h
        rw [← h.2]
        refine Or.inl ⟨rfl, fun ho => (hshoot _ _ ho ?_).elim⟩
        rcases hown with ⟨ht, -⟩ | ⟨ht, -⟩
        · exact Or.inl ht
        · exact Or.inr ht
      · rw [h4] at h
        simp only [Option.some.injEq, Prod.mk.injEq] at h
        rw [← h.2, h5]
        right
        simp
    · rw [makeMove_none s move hin] at h
      cases h

/-- While the history has not grown, a square that did not hold a piece of
the side to move does not come to hold one. -/
theorem runOps_history (ops : List Op) :
    ∀ s s1 : Chessboard, runOps s ops = some s1 →
      s.m_history.length ≤ s1.m_history.length
        ∧ (s1.m_history.length = s.m_history.length →
            ownPiece s1.m_turnState s1.m_board 5 3 → ownPiece s.m_turnState s.m_board 5 3) := by
  induction ops with
  | nil =>
    intro s s1 h
    simp only [runOps, Option.some.injEq] at h
    subst h
    exact ⟨le_refl _, fun _ h => h⟩
  | cons op ops ih =>
    intro s s1 h
    simp only [runOps, Option.bind_eq_some] at h
    obtain ⟨s2, h2, h3⟩ := h
    obtain ⟨i1, i2⟩ := ih s2 s1 h3
    rcases applyOp_history s s2 op h2 with ⟨e, ho⟩ | hlt
    · rw [e] at i1 i2
      exact ⟨i1, fun hl h => ho (i2 hl h)⟩
    · exact ⟨by omega, fun hl _ => by omega⟩

/-- C21: from the starting position (phase WhiteMove), `makeMove` with start
(5,0), target (5,3), shoot (2,3) returns true; afterwards (5,0) is Empty, (5,3)
is White, (2,3) is Block and the phase is BlackMove; and after any further
calls of the mutators that have not added a move to the history (Black has
not completed a move), `tryToSelect(5,3)` returns false and every `makeMove`
that starts at (5,3) returns false and changes nothing. -/
theorem opening_scenario (autoCheckGameOver : Bool) :
    ∃ s1, makeMove (newChessboard autoCheckGameOver) openingMove = some (true, s1)
      ∧ s1.m_board 5 0 = Cell.Empty ∧ s1.m_board 5 3 = Cell.White
      ∧ s1.m_board 2 3 = Cell.Block ∧ s1.m_turnState = TurnState.BlackMove
      ∧ ∀ (ops : List Op) (s : Chessboard), runOps s1 ops = some s →
          s.m_history = s1.m_history →
          tryToSelect s 5 3 = (false, s)
            ∧ ∀ m : Move, m.startPos = (5, 3) → makeMove s m = some (false, s) := by
  have hmk : ∃ s1, makeMove (newChessboard autoCheckGameOver) openingMove = some (true, s1)
      ∧ s1.m_board = applyMove (newChessboard autoCheckGameOver).m_board openingMove
      ∧ s1.m_turnState
          = nextPhase (nextPhase (newChessboard autoCheckGameOver).m_turnState) := by
    rcases makeMove_cases (newChessboard autoCheckGameOver) openingMove (by decide) with
      ⟨h1, -⟩ | ⟨-, h2, -⟩ | ⟨-, -, h3, -⟩ | ⟨-, -, -, s1, h4, h5, -, h6, -⟩
    · exact absurd (by cases autoCheckGameOver <;> decide) h1
    · exact absurd (by cases autoCheckGameOver <;> decide) h2
    · exact absurd (by cases autoCheckGameOver <;> decide) h3
    · exact ⟨s1, h4, h5, h6⟩
  obtain ⟨s1, h1, hb, ht⟩ := hmk
  have hb53 : s1.m_board 5 3 = Cell.White := by rw [hb]; cases autoCheckGameOver <;> decide
  have hturn : s1.m_turnState = TurnState.BlackMove := by
    rw [ht]; cases autoCheckGameOver <;> rfl
  refine ⟨s1, h1, by rw [hb]; cases autoCheckGameOver <;> decide, hb53,
    by rw [hb]; cases autoCheckGameOver <;> decide, hturn, ?_⟩
  intro ops s hrun hhist
  have hno : ¬ ownPiece s.m_turnState s.m_board 5 3 := by
    intro ho
    have := (runOps_history ops s1 s hrun).2 (by rw [hhist]) ho
    rw [hturn] at this
    rcases this with ⟨h, -⟩ | ⟨-, h⟩
    · cases h
    · rw [hb53] at h
      cases h
  refine ⟨?_, ?_⟩
  · unfold tryToSelect
    rw [if_neg (by omega)]
    exact if_neg hno
  · intro m hm
    have hin : inBoard m.startPos.1 m.startPos.2 := by rw [hm]; decide
    rcases makeMove_cases s m hin with ⟨-, h2⟩ | ⟨h1, -⟩ | ⟨h1, -⟩ | ⟨h1, -⟩
    · exact h2
    · rw [hm] at h1; exact absurd h1 hno
    · rw [hm] at h1; exact absurd h1 hno
    · rw [hm] at h1; exact absurd h1 hno

/-! ## Failure of the single-phase mutators; the sandbox round trip -/

/-- C25: the two single-phase mutators are atomic on failure.  Whenever
`moveSelectedTo` or `shootAt` returns false the whole state (grid, phase,
selection, history) is the state before the call; and each of the listed
conditions (nothing selected, wrong phase, selected cell not the piece of the
mover, invalid path) makes the call return false with the state unchanged. -/
theorem single_phase_atomic (s : Chessboard) (row col : Int) :
    (∀ s1, moveSelectedTo s row col = some (false, s1) → s1 = s)
      ∧ (∀ s1, shootAt s row col = some (false, s1) → s1 = s)
      ∧ ((s.m_selected.1 = -1
            ∨ (s.m_turnState ≠ TurnState.WhiteMove ∧ s.m_turnState ≠ TurnState.BlackMove)
            ∨ (inBoard s.m_selected.1 s.m_selected.2
                ∧ (¬ ownPiece s.m_turnState s.m_board s.m_selected.1 s.m_selected.2
                  ∨ ¬ clearLine s.m_board s.m_selected.1 s.m_selected.2 row col)))
          → moveSelectedTo s row col = some (false, s))
      ∧ ((s.m_selected.1 = -1
            ∨ (s.m_turnState ≠ TurnState.WhiteShoot ∧ s.m_turnState ≠ TurnState.BlackShoot)
            ∨ (inBoard s.m_selected.1 s.m_selected.2
                ∧ (¬ ownShooter s.m_turnState s.m_board s.m_selected.1 s.m_selected.2
                  ∨ ¬ clearLine s.m_board s.m_selected.1 s.m_selected.2 row col)))
          → shootAt s row col = some (false, s)) := by
  refine ⟨?_, ?_, ?_, ?_⟩
  · intro s1 h
    rcases moveSelectedTo_cases s row col false s1 h with ⟨-, e⟩ | ⟨e, -⟩
    · exact e
    · cases e
  · intro s1 h
    rcases shootAt_cases s row col false s1 h with ⟨-, e⟩ | ⟨e, -⟩
    · exact e
    · cases e
  · intro h
    unfold moveSelectedTo
    by_cases h1 : s.m_selected.1 = -1
    · rw [if_pos h1]
    rw [if_neg h1]
    by_cases h2 : s.m_turnState ≠ TurnState.WhiteMove ∧ s.m_turnState ≠ TurnState.BlackMove
    · rw [if_pos h2]
    rw [if_neg h2]
    rcases h with h | h | ⟨hin, h⟩
    · exact absurd h h1
    · exact absurd h h2
    · simp only [readCell, hin, if_true, Option.bind_eq_bind, Option.some_bind, pathValid_eq]
      rcases h with h | h
      · unfold ownPiece at h
        split_ifs <;> first | rfl | (exfalso; tauto)
      · split_ifs <;> first | rfl | (exfalso; simp_all)
  · intro h
    unfold shootAt
    by_cases h1 : s.m_selected.1 = -1
    · rw [if_pos h1]
    rw [if_neg h1]
    by_cases h2 : s.m_turnState ≠ TurnState.WhiteShoot ∧ s.m_turnState ≠ TurnState.BlackShoot
    · rw [if_pos h2]
    rw [if_neg h2]
    rcases h with h | h | ⟨hin, h⟩
    · exact absurd h h1
    · exact absurd h h2
    · simp only [readCell, hin, if_true, Option.bind_eq_bind, Option.some_bind, pathValid_eq]
      rcases h with h | h
      · unfold ownShooter at h
        by_cases a1 : s.m_turnState = TurnState.WhiteShoot
            ∧ s.m_board s.m_selected.1 s.m_selected.2 ≠ Cell.White
        · rw [if_pos a1]
        rw [if_neg a1]
        by_cases a2 : s.m_turnState = TurnState.BlackShoot
            ∧ s.m_board s.m_selected.1 s.m_selected.2 ≠ Cell.Black
        · rw [if_pos a2]
        exfalso; tauto
      · by_cases a1 : s.m_turnState = TurnState.WhiteShoot
            ∧ s.m_board s.m_selected.1 s.m_selected.2 ≠ Cell.White
        · rw [if_pos a1]
        rw [if_neg a1]
        by_cases a2 : s.m_turnState = TurnState.BlackShoot
            ∧ s.m_board s.m_selected.1 s.m_selected.2 ≠ Cell.Black
        · rw [if_pos a2]
        rw [if_neg a2]
        simp [h]

theorem single_phase_atomic_witness :
    ¬ clearLine (tryToSelect (newChessboard true) 7 2).2.m_board 7 2 0 0
      ∧ moveSelectedTo (tryToSelect (newChessboard true) 7 2).2 0 0
          = some (false, (tryToSelect (newChessboard true) 7 2).2)
      ∧ shootAt (tryToSelect (newChessboard true) 7 2).2 6 2
          = some (false, (tryToSelect (newChessboard true) 7 2).2) :=
  ⟨by decide,
    (single_phase_atomic (tryToSelect (newChessboard true) 7 2).2 0 0).2.2.1
      (Or.inr (Or.inr ⟨by decide, Or.inr (by decide)⟩)),
    (single_phase_atomic (tryToSelect (newChessboard true) 7 2).2 6 2).2.2.2
      (Or.inr (Or.inl (by decide)))⟩

/-- A move that `makeMoveInSandbox(move, true, true)` accepts is legal on the
sandbox board, and the board afterwards is the board with the move applied. -/
theorem makeMoveInSandbox_true (w : Bool) (sb sb1 : Chessboard) (m : Move)
    (h : makeMoveInSandbox w sb m true true = some (true, sb1)) :
    legalOn sb.m_board m ∧ sb1.m_board = applyMove sb.m_board m := by
  unfold makeMoveInSandbox at h
  by_cases hin : inBoard m.startPos.1 m.startPos.2
  · have hread : readCell sb.m_board m.startPos.1 m.startPos.2
        = some (sb.m_board m.startPos.1 m.startPos.2) := by
      unfold readCell; rw [if_pos hin]
    simp only [if_true, hread, Option.map_some', Option.bind_eq_bind, Option.some_bind] at h
    rcases makeMove_cases { sb with m_turnState :=
        (if (sb.m_board m.startPos.1 m.startPos.2 = Cell.White) then TurnState.WhiteMove
        else TurnState.BlackMove) } m hin with ⟨-, h2⟩ | ⟨-, -, h2⟩ | ⟨-, -, -, h2⟩
          | ⟨hown, hcl, hsh, s1, h4, h5, -⟩
    · rw [h2] at h; simp at h
    · rw [h2] at h; simp at h
    · rw [h2] at h; simp at h
    · rw [h4] at h
      simp only [Option.some_bind, if_true, Option.some.injEq, Prod.mk.injEq, true_and] at h
      refine ⟨⟨hin, ?_, hcl, (clearLine_ignoring_iff sb.m_board _ _ _ _ _ _
        (sb.m_board m.startPos.1 m.startPos.2)).mpr hsh⟩, ?_⟩
      · rcases hown with ⟨-, e⟩ | ⟨-, e⟩
        · exact Or.inl e
        · exact Or.inr e
      · rw [← h]
        exact h5
  · have hread : readCell sb.m_board m.startPos.1 m.startPos.2 = none := by
      unfold readCell; rw [if_neg hin]
    simp [hread] at h

/-- C26: sandbox apply/revert round trip.  Whenever
`makeMoveInSandbox(move, true, true)` returns true on a sandbox, the following
`reverseMoveInSandbox(move)` returns true and the sandbox board afterwards is
the board before the move was applied. -/
theorem sandbox_round_trip (w : Bool) (sb sb1 : Chessboard) (m : Move)
    (h : makeMoveInSandbox w sb m true true = some (true, sb1)) :
    ∃ sb2, reverseMoveInSandbox sb1 m = some (true, sb2) ∧ sb2.m_board = sb.m_board := by
  obtain ⟨hl, hb⟩ := makeMoveInSandbox_true w sb sb1 m h
  exact reverseMoveInSandbox_applyMove sb1 sb.m_board m hl hb

theorem sandbox_round_trip_witness :
    stepShootBack.shootPos = stepShootBack.startPos
      ∧ ∃ sb1, makeMoveInSandbox true (sandboxOf narrowBoard TurnState.WhiteMove)
            stepShootBack true true = some (true, sb1)
        ∧ ∃ sb2, reverseMoveInSandbox sb1 stepShootBack = some (true, sb2)
          ∧ sb2.m_board = narrowBoard := by
  obtain ⟨sb1, h1, -⟩ := makeMoveInSandbox_legal true (sandboxOf narrowBoard TurnState.WhiteMove)
    stepShootBack (by decide)
  exact ⟨rfl, sb1, h1, sandbox_round_trip true _ sb1 stepShootBack h1⟩

/-! ## A start square off the board; the frame of the search -/

/-- C23: a move whose start square is off the board makes `Chessboard::makeMove`
and `Bot::makeMove` read `m_board` outside the 8×8 grid before any test: in the
model both calls fault (`none`) instead of returning false. -/
theorem makeMove_off_board_start (s : Chessboard) (bot : Bot) (m : Move)
    (h : ¬ inBoard m.startPos.1 m.startPos.2) :
    makeMove s m = none ∧ Bot.makeMove bot m = none := by
  refine ⟨?_, ?_⟩
  · unfold makeMove readCell
    rw [if_neg h]
    rfl
  · unfold Bot.makeMove readCell
    rw [if_neg h]
    rfl

theorem makeMove_off_board_start_witness :
    ({} : Move).startPos = (-1, -1)
      ∧ makeMove (newChessboard true) {} = none
      ∧ Bot.makeMove (endgameBot initialBoard true) {} = none :=
  ⟨rfl, makeMove_off_board_start (newChessboard true) (endgameBot initialBoard true) {}
    (by decide)⟩

/-- C27: search frame.  `Bot::getBestMove` returns for every sandbox and
depth, and `Bot::alphaBeta` returns whenever the fuel exceeds the number of
Empty cells of the sandbox; when either returns, the sandbox board is the
sandbox board at entry and the real `Chessboard` (grid, phase, history and
the rest) is the one at entry, as are the other fields of the bot. -/
theorem search_frame (evalSandbox : Board → ℚ) (bot : Bot) (depth : Int) :
    (∃ mv bot1, Bot.getBestMove evalSandbox bot depth = some (mv, bot1)
        ∧ bot1.m_sandbox.m_board = bot.m_sandbox.m_board
        ∧ bot1.m_chessboard = bot.m_chessboard
        ∧ bot1 = { bot with m_sandbox := bot1.m_sandbox })
      ∧ ∀ (fuel : Nat) (alpha beta : ℚ) (maximizingPlayer : Bool),
          countCells bot.m_sandbox.m_board Cell.Empty < fuel →
          ∃ v bot1, Bot.alphaBeta evalSandbox bot fuel depth alpha beta maximizingPlayer
              = some (v, bot1)
            ∧ bot1.m_sandbox.m_board = bot.m_sandbox.m_board
            ∧ bot1.m_chessboard = bot.m_chessboard
            ∧ bot1 = { bot with m_sandbox := bot1.m_sandbox } := by
  refine ⟨?_, ?_⟩
  · obtain ⟨mv, sb1, h, hb, -⟩ :=
      getBestMove_cases evalSandbox bot.m_isWhite bot.m_endgame depth bot.m_sandbox
    refine ⟨mv, { bot with m_sandbox := sb1 }, ?_, hb, rfl, rfl⟩
    unfold Bot.getBestMove
    rw [h]
    rfl
  · intro fuel alpha beta mx hfuel
    obtain ⟨v, sb1, h, hb, -⟩ := alphaBeta_spec evalSandbox bot.m_isWhite bot.m_endgame fuel depth
      alpha beta mx bot.m_sandbox hfuel
    refine ⟨v, { bot with m_sandbox := sb1 }, ?_, hb, rfl, rfl⟩
    unfold Bot.alphaBeta
    rw [h]
    rfl

theorem search_frame_witness :
    ∃ v bot1, Bot.alphaBeta smallEval
        { endgameBot narrowBoard true with m_sandbox := (sandboxOf narrowBoard TurnState.WhiteMove) }
        3 2 (-5) 5 true = some (v, bot1)
      ∧ bot1.m_sandbox.m_board = narrowBoard
      ∧ bot1.m_chessboard = (endgameBot narrowBoard true).m_chessboard
      ∧ bot1 = { endgameBot narrowBoard true with m_sandbox := bot1.m_sandbox } :=
  (search_frame smallEval
    { endgameBot narrowBoard true with m_sandbox := (sandboxOf narrowBoard TurnState.WhiteMove) }
    2).2 3 (-5) 5 true (by decide)

/-! ## The grid of a save file -/

/-- C24: a persisted grid whose second row has seven cells is not turned
into the empty board.  `jsonArrayToBoard` returns the local board with the
first row filled from the input (a White piece on (0,0)) and the other rows
as the uninitialised local held them, and `loadSave` installs that grid in
the live board; a grid with no rows at all gives back the uninitialised
local as it is. -/
theorem jsonArrayToBoard_short_row (junk : Board) (s : Chessboard) :
    (shortRowArray.map fun row => row.toArray.length) = [8, 7, 8, 8, 8, 8, 8, 8]
      ∧ (∃ board, jsonArrayToBoard junk shortRowArray = some board
          ∧ board 0 0 = Cell.White
          ∧ (∀ c, c ≠ 0 → inBoard 0 c → board 0 c = Cell.Empty)
          ∧ (∀ r c, r ≠ 0 → board r c = junk r c)
          ∧ loadSaveBoard junk shortRowSave s = some (true, { s with m_board := board }))
      ∧ jsonArrayToBoard junk [] = some junk := by
  refine ⟨rfl, ⟨_, rfl, ?_, ?_, ?_, rfl⟩, rfl⟩
  · rfl
  · intro c hc hin
    unfold inBoard at hin
    have : c = 1 ∨ c = 2 ∨ c = 3 ∨ c = 4 ∨ c = 5 ∨ c = 6 ∨ c = 7 := by omega
    rcases this with rfl | rfl | rfl | rfl | rfl | rfl | rfl <;> rfl
  · intro r c hr
    simp [setCell, hr]

/-! ## The queries leave the state as they found it -/

theorem setCell_restore (b : Board) (r c : Int) (v : Cell) :
    setCell (setCell b r c v) r c (b r c) = b := by
  funext i j
  unfold setCell
  by_cases h : i = r ∧ j = c
  · rw [if_pos h, h.1, h.2]
  · rw [if_neg h, if_neg h]

theorem Chessboard.getMoveRangeIgnoring_pure (s : Chessboard) (row col ir ic : Int) :
    Chessboard.getMoveRangeIgnoring s row col ir ic
      = ((Amazons.getMoveRangeIgnoring s.m_board row col ir ic).1, s) := by
  unfold Chessboard.getMoveRangeIgnoring Amazons.getMoveRangeIgnoring
  simp only [setCell_restore]

/-- A loop that appends to a list and leaves the state as it found it. -/
theorem foldl_append_frame {α β σ : Type} (step : List β × σ → α → List β × σ) (f : α → List β)
    (s : σ) (h : ∀ l x, step (l, s) x = (l ++ f x, s)) :
    ∀ (xs : List α) (l : List β), xs.foldl step (l, s) = (l ++ xs.flatMap f, s) := by
  intro xs
  induction xs with
  | nil => intro l; simp
  | cons x xs ih =>
    intro l
    rw [List.foldl_cons, h, ih, List.flatMap_cons, List.append_assoc]

theorem Bot.targetStep_pure (r c : Int) (dir : Nat) (l : List Move) (cb : Chessboard) (s : Int) :
    Bot.targetStep r c dir (l, cb) s
      = (l ++ shootMoves cb.m_board r c (dirSquare dir r c s).1 (dirSquare dir r c s).2, cb) := by
  unfold Bot.targetStep
  simp only [Chessboard.getMoveRangeIgnoring_pure]
  rfl

theorem Bot.squareStep_pure (e w : Bool) (r : Int) (l : List Move) (cb : Chessboard) (c : Int) :
    Bot.squareStep e w r (l, cb) c = (l ++ pieceMoves e cb.m_board w r c, cb) := by
  unfold Bot.squareStep pieceMoves
  simp only
  by_cases hown : (w = true ∧ cb.m_board r c = Cell.White)
      ∨ (w = false ∧ cb.m_board r c = Cell.Black)
  · rw [if_pos hown, if_pos hown]
    by_cases h1 : (!e && (getMoveRange cb.m_board r c).inClosedRegion) = true
    · rw [if_pos h1, if_pos h1, List.append_nil]
    rw [if_neg h1, if_neg h1]
    by_cases h2 : (!(getMoveRange cb.m_board r c).canMove) = true
    · rw [if_pos h2, if_pos h2, List.append_nil]
    rw [if_neg h2, if_neg h2]
    exact foldl_append_frame _ _ cb
      (fun l1 dir => foldl_append_frame _ _ cb
        (fun l2 s => Bot.targetStep_pure r c dir l2 cb s) _ l1) _ l
  · rw [if_neg hown, if_neg hown, List.append_nil]

theorem Bot.withChosen_chosen (bot : Bot) (inSandbox : Bool) :
    bot.withChosen inSandbox (bot.chosen inSandbox) = bot := by
  cases inSandbox <;> rfl

theorem Bot.scan_pure (e w : Bool) (cb : Chessboard) (rs cs : List Int) (l : List Move) :
    rs.foldl (fun acc r => cs.foldl (Bot.squareStep e w r) acc) (l, cb)
      = (l ++ rs.flatMap fun r => cs.flatMap fun c => pieceMoves e cb.m_board w r c, cb) :=
  foldl_append_frame _ _ cb
    (fun l1 r => foldl_append_frame _ _ cb
      (fun l2 c => Bot.squareStep_pure e w r l2 cb c) cs l1) rs l

theorem Bot.generateLegalMoves_pure (bot : Bot) (w inSandbox : Bool) :
    Bot.generateLegalMoves bot w inSandbox
      = (Amazons.generateLegalMoves bot.m_endgame (bot.chosen inSandbox).m_board w, bot) := by
  unfold Bot.generateLegalMoves Amazons.generateLegalMoves
  rw [Bot.scan_pure]
  simp only [Prod.map, List.nil_append, Bot.withChosen_chosen, id]

theorem Bot.optStep_pure (r c : Int) (dir : Nat) (am : AllMoves) (cb : Chessboard) (step : Int) :
    Bot.optStep r c dir (am, cb) step
      = ({ am with
          shootOpts := (am.shootOpts ++ [(Amazons.getMoveRangeIgnoring cb.m_board
            (dirSquare dir r c step).1 (dirSquare dir r c step).2 r c).1.getTotalMoves])
          actionCount := (am.actionCount + (Amazons.getMoveRangeIgnoring cb.m_board
            (dirSquare dir r c step).1 (dirSquare dir r c step).2 r c).1.getTotalMoves) }, cb) := by
  unfold Bot.optStep
  simp only [Chessboard.getMoveRangeIgnoring_pure]

theorem Bot.optStep_fold (r c : Int) (dir : Nat) (cb : Chessboard) :
    ∀ (xs : List Int) (am : AllMoves),
      xs.foldl (Bot.optStep r c dir) (am, cb)
        = ({ am with
            shootOpts := (am.shootOpts ++ xs.map fun step =>
              (Amazons.getMoveRangeIgnoring cb.m_board (dirSquare dir r c step).1
                (dirSquare dir r c step).2 r c).1.getTotalMoves)
            actionCount := (am.actionCount + (xs.map fun step =>
              (Amazons.getMoveRangeIgnoring cb.m_board (dirSquare dir r c step).1
                (dirSquare dir r c step).2 r c).1.getTotalMoves).sum) }, cb) := by
  intro xs
  induction xs with
  | nil => intro am; simp
  | cons x xs ih =>
    intro am
    rw [List.foldl_cons, Bot.optStep_pure, ih]
    simp only [List.map_cons, List.sum_cons, List.append_assoc, List.singleton_append,
      add_assoc]

theorem Bot.optDir_fold (r c : Int) (range : MoveRange) (cb : Chessboard) :
    ∀ (ds : List Nat) (am : AllMoves),
      ds.foldl (fun acc1 dir => (stepsUpTo (dirSteps range dir)).foldl (Bot.optStep r c dir) acc1)
          (am, cb)
        = ({ am with
            shootOpts := (am.shootOpts ++ ds.flatMap fun dir =>
              (stepsUpTo (dirSteps range dir)).map fun step =>
                (Amazons.getMoveRangeIgnoring cb.m_board (dirSquare dir r c step).1
                  (dirSquare dir r c step).2 r c).1.getTotalMoves)
            actionCount := (am.actionCount + (ds.flatMap fun dir =>
              (stepsUpTo (dirSteps range dir)).map fun step =>
                (Amazons.getMoveRangeIgnoring cb.m_board (dirSquare dir r c step).1
                  (dirSquare dir r c step).2 r c).1.getTotalMoves).sum) }, cb) := by
  intro ds
  induction ds with
  | nil => intro am; simp
  | cons d ds ih =>
    intro am
    rw [List.foldl_cons, Bot.optStep_fold, ih]
    simp only [List.flatMap_cons, List.sum_append, List.append_assoc, add_assoc]

theorem Bot.recordPiece_pure (e : Bool) (r c : Int) (index : Nat) (am : AllMoves)
    (cb : Chessboard) :
    Bot.recordPiece e r c index (am, cb)
      = (Amazons.recordPiece e cb.m_board r c index am).map fun x => (x.1, x.2, cb) := by
  unfold Bot.recordPiece Amazons.recordPiece
  by_cases hi : index < 4
  · rw [if_pos hi, if_pos hi]
    simp only
    by_cases h1 : (!e && (getMoveRange cb.m_board r c).inClosedRegion) = true
    · rw [if_pos h1, if_pos h1]
      rfl
    · rw [if_neg h1, if_neg h1, Bot.optDir_fold]
      rfl
  · rw [if_neg hi, if_neg hi]
    rfl

theorem Bot.scanPieces_pure (e w : Bool) (cb : Chessboard) :
    ∀ (ps : List (Int × Int)) (index : Nat) (am : AllMoves),
      Bot.scanPieces e w ps index (am, cb)
        = (Amazons.scanPieces e cb.m_board w ps index am).map fun x => (x.1, x.2, cb) := by
  intro ps
  induction ps with
  | nil => intro index am; rfl
  | cons p ps ih =>
    intro index am
    unfold Bot.scanPieces Amazons.scanPieces
    simp only
    by_cases hown : (w = true ∧ cb.m_board p.1 p.2 = Cell.White)
        ∨ (w = false ∧ cb.m_board p.1 p.2 = Cell.Black)
    · rw [if_pos hown, if_pos hown, Bot.recordPiece_pure]
      cases hrec : Amazons.recordPiece e cb.m_board p.1 p.2 index am with
      | none => rfl
      | some x =>
        obtain ⟨i1, am1⟩ := x
        simp only [Option.map_some']
        exact ih i1 am1
    · rw [if_neg hown, if_neg hown]
      exact ih index am

theorem Bot.getAllMovesForSide_pure (bot : Bot) (w inSandbox : Bool) :
    Bot.getAllMovesForSide bot w inSandbox
      = (Amazons.getAllMovesForSide bot.m_endgame (bot.chosen inSandbox).m_board w).map
          fun am => (am, bot) := by
  unfold Bot.getAllMovesForSide Amazons.getAllMovesForSide
  rw [Bot.scanPieces_pure]
  cases Amazons.scanPieces bot.m_endgame (bot.chosen inSandbox).m_board w squares 0 {} with
  | none => rfl
  | some x => simp only [Option.map_some', Bot.withChosen_chosen]

/-- C28: read-only queries.  `Chessboard::getMoveRangeIgnoring` leaves the
whole `Chessboard` as it found it; `Bot::generateLegalMoves` returns and leaves
the bot, with its two boards (grid, phase, selection, history), as it found it;
and whenever `Bot::getAllMovesForSide` returns it has left the bot as it found
it.  The results are those of the functions of the board alone. -/
theorem queries_read_only :
    (∀ (s : Chessboard) (row col ignoreRow ignoreCol : Int),
        (Chessboard.getMoveRangeIgnoring s row col ignoreRow ignoreCol).2 = s
          ∧ (Chessboard.getMoveRangeIgnoring s row col ignoreRow ignoreCol).1
              = (getMoveRangeIgnoring s.m_board row col ignoreRow ignoreCol).1)
      ∧ (∀ (bot : Bot) (isWhite inSandbox : Bool),
          (Bot.generateLegalMoves bot isWhite inSandbox).2 = bot
            ∧ (Bot.generateLegalMoves bot isWhite inSandbox).1
                = generateLegalMoves bot.m_endgame (bot.chosen inSandbox).m_board isWhite)
      ∧ ∀ (bot : Bot) (isWhite inSandbox : Bool) (allMoves : AllMoves) (bot1 : Bot),
          Bot.getAllMovesForSide bot isWhite inSandbox = some (allMoves, bot1) →
            bot1 = bot
              ∧ getAllMovesForSide bot.m_endgame (bot.chosen inSandbox).m_board isWhite
                  = some allMoves := by
  refine ⟨?_, ?_, ?_⟩
  · intro s row col ir ic
    rw [Chessboard.getMoveRangeIgnoring_pure]
    exact ⟨rfl, rfl⟩
  · intro bot w i
    rw [Bot.generateLegalMoves_pure]
    exact ⟨rfl, rfl⟩
  · intro bot w i am bot1 h
    rw [Bot.getAllMovesForSide_pure] at h
    cases hp : Amazons.getAllMovesForSide bot.m_endgame (bot.chosen i).m_board w with
    | none => rw [hp] at h; cases h
    | some am1 =>
      rw [hp] at h
      simp only [Option.map_some', Option.some.injEq, Prod.mk.injEq] at h
      exact ⟨h.2.symm, by rw [h.1]⟩

/-! ## Rotation of the board by 180 degrees -/

theorem countWhile_congr (f g : Int → Bool) :
    ∀ (fuel : Nat) (k : Int), 0 ≤ k → (∀ j : Int, 0 ≤ j → f j = g j) →
      countWhile f fuel k = countWhile g fuel k := by
  intro fuel
  induction fuel with
  | zero => intro k _ _; rfl
  | succ n ih =>
    intro k hk h
    unfold countWhile
    rw [h k hk, ih (k + 1) (by omega) h]

theorem adjacent_rotate {i j i1 j1 : Int} (h : adjacent i j i1 j1) :
    adjacent (7 - i) (7 - j) (7 - i1) (7 - j1) := by
  unfold adjacent lineDist at *
  omega

theorem inBoard_rotate {i j : Int} (h : inBoard i j) : inBoard (7 - i) (7 - j) := by
  unfold inBoard at *
  omega

theorem Reach.reach_rotate {b1 b2 : Board} {w : Bool}
    (hrot : ∀ i j : Int, inBoard i j → b2 (7 - i) (7 - j) = b1 i j) {r c i j : Int}
    (h : Reach b1 w r c i j) : Reach b2 w (7 - r) (7 - c) (7 - i) (7 - j) := by
  have hp : ∀ i j : Int, passable b1 w i j → passable b2 w (7 - i) (7 - j) := by
    intro i j hp
    refine ⟨inBoard_rotate hp.1, ?_⟩
    rw [hrot i j hp.1]
    exact hp.2
  induction h with
  | start h0 => exact Reach.start (hp _ _ h0)
  | step _ hadj hpass ih => exact Reach.step ih (adjacent_rotate hadj) (hp _ _ hpass)

theorem rotate_symm {b1 b2 : Board}
    (hrot : ∀ i j : Int, inBoard i j → b2 (7 - i) (7 - j) = b1 i j) :
    ∀ i j : Int, inBoard i j → b1 (7 - i) (7 - j) = b2 i j := by
  intro i j hin
  have h := hrot (7 - i) (7 - j) (inBoard_rotate hin)
  rw [sub_sub_cancel, sub_sub_cancel] at h
  exact h.symm

theorem Reach.rotate_iff {b1 b2 : Board} {w : Bool}
    (hrot : ∀ i j : Int, inBoard i j → b2 (7 - i) (7 - j) = b1 i j) (r c i j : Int) :
    Reach b1 w r c i j ↔ Reach b2 w (7 - r) (7 - c) (7 - i) (7 - j) := by
  refine ⟨Reach.reach_rotate hrot, fun h => ?_⟩
  have h1 := Reach.reach_rotate (rotate_symm hrot) h
  simp only [sub_sub_cancel] at h1
  exact h1

theorem FillAbort.abort_rotate {b1 b2 : Board} {w : Bool}
    (hrot : ∀ i j : Int, inBoard i j → b2 (7 - i) (7 - j) = b1 i j) {r c : Int}
    (hin : inBoard r c) (h : FillAbort b1 w r c) : FillAbort b2 w (7 - r) (7 - c) := by
  rcases h with h | ⟨i, j, i1, j1, hr, hadj, hin1, he⟩
  · left
    rw [hrot r c hin]
    exact h
  · right
    refine ⟨7 - i, 7 - j, 7 - i1, 7 - j1, Reach.reach_rotate hrot hr, adjacent_rotate hadj,
      inBoard_rotate hin1, ?_⟩
    rw [hrot i1 j1 hin1]
    exact he

/-- The value of `getTerritoryArea` is fixed by the component of the start
square: two fills whose components correspond under an involution of the
squares, and of which one meets an opposing piece exactly when the other does,
return the same value. -/
theorem getTerritoryArea_transfer (b b1 : Board) (w : Bool) (r c r1 c1 : Int)
    (f : Int × Int → Int × Int) (hf : ∀ p, f (f p) = p)
    (hin : inBoard r c) (hin1 : inBoard r1 c1)
    (habort : FillAbort b w r c ↔ FillAbort b1 w r1 c1)
    (hcells : ∀ i j : Int, (Reach b w r c i j ∧ b i j = Cell.Empty)
      ↔ (Reach b1 w r1 c1 (f (i, j)).1 (f (i, j)).2
          ∧ b1 (f (i, j)).1 (f (i, j)).2 = Cell.Empty)) :
    getTerritoryArea b r c w = getTerritoryArea b1 r1 c1 w := by
  rcases getTerritoryArea_cases b r c w hin with ⟨e, ha⟩ | ⟨b2, hok⟩
  · rcases getTerritoryArea_cases b1 r1 c1 w hin1 with ⟨e1, -⟩ | ⟨b3, hok1⟩
    · rw [e, e1]
    · exact absurd (habort.mp ha) hok1.not_abort
  · rcases getTerritoryArea_cases b1 r1 c1 w hin1 with ⟨-, ha1⟩ | ⟨b3, hok1⟩
    · exact absurd (habort.mpr ha1) hok.not_abort
    · obtain ⟨S, hS, hcard⟩ := hok.empty_cells
      obtain ⟨S1, hS1, hcard1⟩ := hok1.empty_cells
      have hinj : Function.Injective f := by
        intro p q hpq
        rw [← hf p, ← hf q, hpq]
      have himg : S1 = S.image f := by
        ext ⟨i, j⟩
        rw [Finset.mem_image, hS1]
        constructor
        · intro h
          refine ⟨f (i, j), ?_, hf _⟩
          rcases hfq : f (i, j) with ⟨i0, j0⟩
          apply (hS i0 j0).mpr
          apply (hcells i0 j0).mpr
          rw [← hfq, hf]
          exact h
        · rintro ⟨⟨i0, j0⟩, hmem, hfe⟩
          have := (hcells i0 j0).mp ((hS i0 j0).mp hmem)
          rw [hfe] at this
          exact this
      rw [hcard, hcard1, himg, Finset.card_image_of_injective _ hinj]

theorem getTerritoryArea_rotate (b1 b2 : Board) (w : Bool) (r c : Int) (hin : inBoard r c)
    (hrot : ∀ i j : Int, inBoard i j → b2 (7 - i) (7 - j) = b1 i j) :
    getTerritoryArea b2 (7 - r) (7 - c) w = getTerritoryArea b1 r c w := by
  symm
  refine getTerritoryArea_transfer b1 b2 w r c (7 - r) (7 - c) (fun p => (7 - p.1, 7 - p.2))
    (fun p => by simp) hin (inBoard_rotate hin) ⟨FillAbort.abort_rotate hrot hin, fun h => ?_⟩ ?_
  · have h1 := FillAbort.abort_rotate (rotate_symm hrot) (inBoard_rotate hin) h
    simp only [sub_sub_cancel] at h1
    exact h1
  · intro i j
    simp only
    constructor
    · rintro ⟨hr, he⟩
      refine ⟨Reach.reach_rotate hrot hr, ?_⟩
      rw [hrot i j hr.cell_passable.1]
      exact he
    · rintro ⟨hr, he⟩
      have hr1 := (Reach.rotate_iff hrot r c i j).mpr hr
      refine ⟨hr1, ?_⟩
      rw [← hrot i j hr1.cell_passable.1]
      exact he

theorem getMoveRange_rotate (b1 b2 : Board) (r c : Int) (hin : inBoard r c)
    (hrot : ∀ i j : Int, inBoard i j → b2 (7 - i) (7 - j) = b1 i j) :
    getMoveRange b2 (7 - r) (7 - c) = (getMoveRange b1 r c).rotated := by
  have hin2 := inBoard_rotate hin
  have h1 : ¬ (r < 0 ∨ r ≥ 8 ∨ c < 0 ∨ c ≥ 8) := by unfold inBoard at hin; omega
  have h2 : ¬ (7 - r < 0 ∨ 7 - r ≥ 8 ∨ 7 - c < 0 ∨ 7 - c ≥ 8) := by unfold inBoard at hin; omega
  have hcell : ∀ i j : Int, inBoard i j → b2 i j = b1 (7 - i) (7 - j) := by
    intro i j h
    exact (rotate_symm hrot i j h).symm
  unfold inBoard at hin
  unfold getMoveRange MoveRange.rotated
  rw [if_neg h1, if_neg h2]
  simp only [MoveRange.mk.injEq]
  refine ⟨?_, ?_, ?_, ?_, ?_, ?_, ?_, ?_, ?_⟩
  · apply countWhile_congr _ _ 8 0 (le_refl _)
    intro k hk
    by_cases hg : r + k + 1 < 8
    · have e1 : 7 - (7 - r - k - 1) = r + k + 1 := by ring
      have e2 : 7 - (7 - c) = c := by ring
      rw [hcell (7 - r - k - 1) (7 - c) (by unfold inBoard; omega), e1, e2]
      have q0 : 7 - r - k - 1 ≥ 0 := by omega
      have p0 : r + k + 1 < 8 := by omega
      simp only [q0, p0, decide_True, Bool.true_and]
    · have q0 : ¬ (7 - r - k - 1 ≥ 0) := by omega
      simp only [hg, q0, decide_False, Bool.false_and]
  · apply countWhile_congr _ _ 8 0 (le_refl _)
    intro k hk
    by_cases hg : r - k - 1 ≥ 0
    · have e1 : 7 - (7 - r + k + 1) = r - k - 1 := by ring
      have e2 : 7 - (7 - c) = c := by ring
      rw [hcell (7 - r + k + 1) (7 - c) (by unfold inBoard; omega), e1, e2]
      have q0 : 7 - r + k + 1 < 8 := by omega
      have p0 : r - k - 1 ≥ 0 := by omega
      simp only [q0, p0, decide_True, Bool.true_and]
    · have q0 : ¬ (7 - r + k + 1 < 8) := by omega
      simp only [hg, q0, decide_False, Bool.false_and]
  · apply countWhile_congr _ _ 8 0 (le_refl _)
    intro k hk
    by_cases hg : c + k + 1 < 8
    · have e1 : 7 - (7 - r) = r := by ring
      have e2 : 7 - (7 - c - k - 1) = c + k + 1 := by ring
      rw [hcell (7 - r) (7 - c - k - 1) (by unfold inBoard; omega), e1, e2]
      have q0 : 7 - c - k - 1 ≥ 0 := by omega
      have p0 : c + k + 1 < 8 := by omega
      simp only [q0, p0, decide_True, Bool.true_and]
    · have q0 : ¬ (7 - c - k - 1 ≥ 0) := by omega
      simp only [hg, q0, decide_False, Bool.false_and]
  · apply countWhile_congr _ _ 8 0 (le_refl _)
    intro k hk
    by_cases hg : c - k - 1 ≥ 0
    · have e1 : 7 - (7 - r) = r := by ring
      have e2 : 7 - (7 - c + k + 1) = c - k - 1 := by ring
      rw [hcell (7 - r) (7 - c + k + 1) (by unfold inBoard; omega), e1, e2]
      have q0 : 7 - c + k + 1 < 8 := by omega
      have p0 : c - k - 1 ≥ 0 := by omega
      simp only [q0, p0, decide_True, Bool.true_and]
    · have q0 : ¬ (7 - c + k + 1 < 8) := by omega
      simp only [hg, q0, decide_False, Bool.false_and]
  · apply countWhile_congr _ _ 8 0 (le_refl _)
    intro k hk
    by_cases hg : r + k + 1 < 8 ∧ c + k + 1 < 8
    · have e1 : 7 - (7 - r - k - 1) = r + k + 1 := by ring
      have e2 : 7 - (7 - c - k - 1) = c + k + 1 := by ring
      rw [hcell (7 - r - k - 1) (7 - c - k - 1) (by unfold inBoard; omega), e1, e2]
      have q0 : 7 - r - k - 1 ≥ 0 := by omega
      have q1 : 7 - c - k - 1 ≥ 0 := by omega
      have p0 : r + k + 1 < 8 := by omega
      have p1 : c + k + 1 < 8 := by omega
      simp only [q0, q1, p0, p1, decide_True, Bool.true_and]
    · have q0 : (decide (7 - r - k - 1 ≥ 0) && decide (7 - c - k - 1 ≥ 0)) = false := by
        rw [← Bool.decide_and]
        exact decide_eq_false (by omega)
      have p0 := decide_eq_false hg
      rw [Bool.decide_and] at p0
      rw [q0, p0]
      rfl
  · apply countWhile_congr _ _ 8 0 (le_refl _)
    intro k hk
    by_cases hg : r + k + 1 < 8 ∧ c - k - 1 ≥ 0
    · have e1 : 7 - (7 - r - k - 1) = r + k + 1 := by ring
      have e2 : 7 - (7 - c + k + 1) = c - k - 1 := by ring
      rw [hcell (7 - r - k - 1) (7 - c + k + 1) (by unfold inBoard; omega), e1, e2]
      have q0 : 7 - r - k - 1 ≥ 0 := by omega
      have q1 : 7 - c + k + 1 < 8 := by omega
      have p0 : r + k + 1 < 8 := by omega
      have p1 : c - k - 1 ≥ 0 := by omega
      simp only [q0, q1, p0, p1, decide_True, Bool.true_and]
    · have q0 : (decide (7 - r - k - 1 ≥ 0) && decide (7 - c + k + 1 < 8)) = false := by
        rw [← Bool.decide_and]
        exact decide_eq_false (by omega)
      have p0 := decide_eq_false hg
      rw [Bool.decide_and] at p0
      rw [q0, p0]
      rfl
  · apply countWhile_congr _ _ 8 0 (le_refl _)
    intro k hk
    by_cases hg : r - k - 1 ≥ 0 ∧ c + k + 1 < 8
    · have e1 : 7 - (7 - r + k + 1) = r - k - 1 := by ring
      have e2 : 7 - (7 - c - k - 1) = c + k + 1 := by ring
      rw [hcell (7 - r + k + 1) (7 - c - k - 1) (by unfold inBoard; omega), e1, e2]
      have q0 : 7 - r + k + 1 < 8 := by omega
      have q1 : 7 - c - k - 1 ≥ 0 := by omega
      have p0 : r - k - 1 ≥ 0 := by omega
      have p1 : c + k + 1 < 8 := by omega
      simp only [q0, q1, p0, p1, decide_True, Bool.true_and]
    · have q0 : (decide (7 - r + k + 1 < 8) && decide (7 - c - k - 1 ≥ 0)) = false := by
        rw [← Bool.decide_and]
        exact decide_eq_false (by omega)
      have p0 := decide_eq_false hg
      rw [Bool.decide_and] at p0
      rw [q0, p0]
      rfl
  · apply countWhile_congr _ _ 8 0 (le_refl _)
    intro k hk
    by_cases hg : r - k - 1 ≥ 0 ∧ c - k - 1 ≥ 0
    · have e1 : 7 - (7 - r + k + 1) = r - k - 1 := by ring
      have e2 : 7 - (7 - c + k + 1) = c - k - 1 := by ring
      rw [hcell (7 - r + k + 1) (7 - c + k + 1) (by unfold inBoard; omega), e1, e2]
      have q0 : 7 - r + k + 1 < 8 := by omega
      have q1 : 7 - c + k + 1 < 8 := by omega
      have p0 : r - k - 1 ≥ 0 := by omega
      have p1 : c - k - 1 ≥ 0 := by omega
      simp only [q0, q1, p0, p1, decide_True, Bool.true_and]
    · have q0 : (decide (7 - r + k + 1 < 8) && decide (7 - c + k + 1 < 8)) = false := by
        rw [← Bool.decide_and]
        exact decide_eq_false (by omega)
      have p0 := decide_eq_false hg
      rw [Bool.decide_and] at p0
      rw [q0, p0]
      rfl
  · have e : b2 (7 - r) (7 - c) = b1 r c := hrot r c (by unfold inBoard; omega)
    rw [e]
    exact getTerritoryArea_rotate b1 b2 _ r c (by unfold inBoard; omega) hrot

/-- C22: rotation symmetry of ranges.  For every board and on-board square
`(r, c)`, `getMoveRange` on the board rotated by 180 degrees at `(7-r, 7-c)` is
`getMoveRange` on the board at `(r, c)` with up/down, left/right,
upLeft/downRight and upRight/downLeft exchanged (and the same territoryArea);
and on a board whose 8×8 grid equals its own rotation, opposite squares have
mirrored ranges and equal total move counts. -/
theorem getMoveRange_rotation_symmetry :
    (∀ (b : Board) (r c : Int), inBoard r c →
        getMoveRange (rotate180 b) (7 - r) (7 - c) = (getMoveRange b r c).rotated)
      ∧ ∀ b : Board, (∀ i j : Int, inBoard i j → b (7 - i) (7 - j) = b i j) →
          ∀ r c : Int, inBoard r c →
            getMoveRange b (7 - r) (7 - c) = (getMoveRange b r c).rotated
              ∧ (getMoveRange b (7 - r) (7 - c)).getTotalMoves
                  = (getMoveRange b r c).getTotalMoves := by
  refine ⟨?_, ?_⟩
  · intro b r c hin
    refine getMoveRange_rotate b (rotate180 b) r c hin ?_
    intro i j _
    unfold rotate180
    rw [sub_sub_cancel, sub_sub_cancel]
  · intro b hsym r c hin
    have h := getMoveRange_rotate b b r c hin hsym
    refine ⟨h, ?_⟩
    rw [h]
    unfold MoveRange.rotated MoveRange.getTotalMoves
    simp only
    ring

theorem getMoveRange_rotation_symmetry_witness :
    getMoveRange (fun _ _ => Cell.Empty) (7 - 0) (7 - 2)
        = (getMoveRange (fun _ _ => Cell.Empty) 0 2).rotated
      ∧ (getMoveRange (fun _ _ => Cell.Empty) (7 - 0) (7 - 2)).getTotalMoves
          = (getMoveRange (fun _ _ => Cell.Empty) 0 2).getTotalMoves :=
  getMoveRange_rotation_symmetry.2 (fun _ _ => Cell.Empty) (fun _ _ _ => rfl) 0 2 (by decide)

/-! ## An enclosed region and the moves of the opponent -/

theorem adjacent_symm {i j i1 j1 : Int} (h : adjacent i j i1 j1) : adjacent i1 j1 i j := by
  unfold adjacent lineDist at *
  omega

theorem Reach.reach_symm {b : Board} {w : Bool} {r c i j : Int} (h : Reach b w r c i j) :
    Reach b w i j r c := by
  induction h with
  | start h0 => exact Reach.start h0
  | step h1 hadj hpass ih =>
    exact Reach.reach_trans (Reach.step (Reach.start hpass) (adjacent_symm hadj) h1.cell_passable) ih

theorem ownCell_not (w : Bool) : ownCell (!w) = enemyCell w := by
  cases w <;> rfl

/-- A path of the other side out of a passable cell either is a path of the
side, or leaves the component of the side next to an opposing piece. -/
theorem Reach.of_other_side {b : Board} {w : Bool} {r c i j : Int}
    (h : Reach b (!w) r c i j) (hp : passable b w r c) :
    Reach b w r c i j
      ∨ ∃ i1 j1 i2 j2 : Int, Reach b w r c i1 j1 ∧ adjacent i1 j1 i2 j2 ∧ inBoard i2 j2
          ∧ b i2 j2 = enemyCell w := by
  induction h with
  | start _ => exact Or.inl (Reach.start hp)
  | step _ hadj hpass ih =>
    rcases ih with ih | ih
    · rcases hpass with ⟨hin, he | ho⟩
      · exact Or.inl (Reach.step ih hadj ⟨hin, Or.inl he⟩)
      · rw [ownCell_not] at ho
        exact Or.inr ⟨_, _, _, _, ih, hadj, hin, ho⟩
    · exact Or.inr ih

/-- A move that `makeMove` accepts is legal for the side to move, and the
board afterwards is the board with the move applied. -/
theorem makeMove_accepted (s s1 : Chessboard) (m : Move)
    (h : makeMove s m = some (true, s1)) :
    ownPiece s.m_turnState s.m_board m.startPos.1 m.startPos.2 ∧ legalOn s.m_board m
      ∧ s1.m_board = applyMove s.m_board m := by
  by_cases hin : inBoard m.startPos.1 m.startPos.2
  · rcases makeMove_cases s m hin with ⟨-, h2⟩ | ⟨-, -, h2⟩ | ⟨-, -, -, h2⟩
        | ⟨hown, hcl, hsh, s2, h4, h5, -⟩
    · rw [h2] at h; simp at h
    · rw [h2] at h; simp at h
    · rw [h2] at h; simp at h
    · rw [h4] at h
      simp only [Option.some.injEq, Prod.mk.injEq, true_and] at h
      refine ⟨hown, ⟨hin, ?_, hcl, (clearLine_ignoring_iff s.m_board _ _ _ _ _ _
        (s.m_board m.startPos.1 m.startPos.2)).mpr hsh⟩, ?_⟩
      · rcases hown with ⟨-, e⟩ | ⟨-, e⟩
        · exact Or.inl e
        · exact Or.inr e
      · rw [← h]
        exact h5
  · rw [makeMove_none s m hin] at h
    cases h

/-- A move of the opposing side on a board where the component of `(r, c)`
meets no opposing piece: the three squares of the move lie outside the
component, the component is the same set of cells afterwards, and no cell of
it is next to an opposing piece afterwards. -/
theorem opponent_move_outside (b : Board) (w : Bool) (r c : Int) (m : Move)
    (hfree : ¬ FillAbort b w r c) (hl : legalOn b m)
    (hopp : b m.startPos.1 m.startPos.2 = enemyCell w) :
    (∀ i j : Int, Reach b w r c i j → applyMove b m i j = b i j)
      ∧ (∀ i j : Int, Reach (applyMove b m) w r c i j ↔ Reach b w r c i j)
      ∧ ¬ FillAbort (applyMove b m) w r c := by
  obtain ⟨htin, hsin, hts, hst, hte, hse⟩ := hl.squares
  have hsinb : inBoard m.startPos.1 m.startPos.2 := hl.1
  have hopp1 : b m.startPos.1 m.startPos.2 = ownCell (!w) := by rw [ownCell_not]; exact hopp
  obtain ⟨hrt, hrs⟩ := reach_of_legal b (!w) m hl hopp1
  have hnotouch : ∀ i j i1 j1 : Int, Reach b w r c i j → adjacent i j i1 j1 → inBoard i1 j1
      → b i1 j1 = enemyCell w → False :=
    fun i j i1 j1 h1 h2 h3 h4 => hfree (Or.inr ⟨i, j, i1, j1, h1, h2, h3, h4⟩)
  have hstart : ¬ Reach b w r c m.startPos.1 m.startPos.2 := by
    intro h
    rcases h.cell_passable.2 with e | e
    · rw [hopp] at e; exact (enemyCell_ne w).1 e
    · rw [hopp] at e; exact ownCell_ne_enemyCell w e.symm
  -- an Empty cell that the opposing piece reaches is outside the component
  have hout : ∀ i j : Int, Reach b (!w) m.startPos.1 m.startPos.2 i j → b i j = Cell.Empty
      → ¬ Reach b w r c i j := by
    intro i j hr he hk
    have hp : passable b w i j := hk.cell_passable
    rcases Reach.of_other_side hr.reach_symm hp with h | ⟨i1, j1, i2, j2, h1, h2, h3, h4⟩
    · exact hstart (hk.reach_trans h)
    · exact hnotouch i1 j1 i2 j2 (hk.reach_trans h1) h2 h3 h4
  have htarget : ¬ Reach b w r c m.targetPos.1 m.targetPos.2 := hout _ _ hrt hte
  have hshoot : ¬ Reach b w r c m.shootPos.1 m.shootPos.2 := by
    rcases hse with ⟨e1, e2⟩ | he
    · rw [e1, e2]; exact hstart
    · exact hout _ _ hrs he
  have hsame : ∀ i j : Int, Reach b w r c i j → applyMove b m i j = b i j := by
    intro i j h
    refine (applyMove_cells b m hl).2.2.2 i j ?_ ?_ ?_
    · by_contra hc
      have : i = m.targetPos.1 ∧ j = m.targetPos.2 := by omega
      rw [this.1, this.2] at h
      exact htarget h
    · by_contra hc
      have : i = m.startPos.1 ∧ j = m.startPos.2 := by omega
      rw [this.1, this.2] at h
      exact hstart h
    · by_contra hc
      have : i = m.shootPos.1 ∧ j = m.shootPos.2 := by omega
      rw [this.1, this.2] at h
      exact hshoot h
  -- the cells of the new board
  have hcellT : applyMove b m m.targetPos.1 m.targetPos.2 = enemyCell w := by
    rw [(applyMove_cells b m hl).1, hopp]
  have hcellS : applyMove b m m.shootPos.1 m.shootPos.2 = Cell.Block :=
    (applyMove_cells b m hl).2.1
  have hpass : ∀ i j : Int, passable (applyMove b m) w i j →
      passable b w i j ∨ (i = m.startPos.1 ∧ j = m.startPos.2) := by
    intro i j hp
    by_cases e1 : i = m.startPos.1 ∧ j = m.startPos.2
    · exact Or.inr e1
    left
    by_cases e2 : i = m.targetPos.1 ∧ j = m.targetPos.2
    · exfalso
      rw [e2.1, e2.2] at hp
      rcases hp.2 with e | e
      · rw [hcellT] at e; exact (enemyCell_ne w).1 e
      · rw [hcellT] at e; exact ownCell_ne_enemyCell w e.symm
    by_cases e3 : i = m.shootPos.1 ∧ j = m.shootPos.2
    · exfalso
      rw [e3.1, e3.2] at hp
      rcases hp.2 with e | e
      · rw [hcellS] at e; cases e
      · rw [hcellS] at e; exact (ownCell_ne w).2.1 e.symm
    have e := (applyMove_cells b m hl).2.2.2 i j (by omega) (by omega) (by omega)
    refine ⟨hp.1, ?_⟩
    rw [← e]
    exact hp.2
  have hstart_rc : ¬ (r = m.startPos.1 ∧ c = m.startPos.2) := by
    rintro ⟨e1, e2⟩
    apply hfree
    left
    rw [e1, e2]
    exact hopp
  have hiff : ∀ i j : Int, Reach (applyMove b m) w r c i j ↔ Reach b w r c i j := by
    intro i j
    constructor
    · intro h
      induction h with
      | start h0 =>
        rcases hpass _ _ h0 with h1 | h1
        · exact Reach.start h1
        · exact absurd h1 hstart_rc
      | step _ hadj hp ih =>
        rcases hpass _ _ hp with h1 | ⟨e1, e2⟩
        · exact Reach.step ih hadj h1
        · exfalso
          rw [e1, e2] at hadj
          exact hnotouch _ _ _ _ ih hadj hsinb hopp
    · intro h
      induction h with
      | start h0 =>
        refine Reach.start ⟨h0.1, ?_⟩
        rw [hsame _ _ (Reach.start h0)]
        exact h0.2
      | step h1 hadj hp ih =>
        refine Reach.step ih hadj ⟨hp.1, ?_⟩
        rw [hsame _ _ (Reach.step h1 hadj hp)]
        exact hp.2
  refine ⟨hsame, hiff, ?_⟩
  -- no opposing piece next to the component afterwards
  have henemy : ∀ i j : Int, applyMove b m i j = enemyCell w →
      b i j = enemyCell w ∨ (i = m.targetPos.1 ∧ j = m.targetPos.2) := by
    intro i j he
    by_cases e2 : i = m.targetPos.1 ∧ j = m.targetPos.2
    · exact Or.inr e2
    left
    by_cases e3 : i = m.shootPos.1 ∧ j = m.shootPos.2
    · exfalso
      rw [e3.1, e3.2, hcellS] at he
      exact (enemyCell_ne w).2 he.symm
    by_cases e1 : i = m.startPos.1 ∧ j = m.startPos.2
    · rw [e1.1, e1.2]
      exact hopp
    rw [← (applyMove_cells b m hl).2.2.2 i j (by omega) (by omega) (by omega)]
    exact he
  rintro (h | ⟨i, j, i1, j1, h1, h2, h3, h4⟩)
  · rcases henemy r c h with e | ⟨e1, e2⟩
    · exact hfree (Or.inl e)
    · -- the start square of the fill would be the Empty target square
      have hp : passable b w r c := by
        refine ⟨?_, Or.inl ?_⟩
        · rw [e1, e2]; exact htin
        · rw [e1, e2]; exact hte
      apply htarget
      rw [← e1, ← e2]
      exact Reach.start hp
  · have hk := (hiff i j).mp h1
    rcases henemy i1 j1 h4 with e | ⟨e1, e2⟩
    · exact hnotouch i j i1 j1 hk h2 h3 e
    · apply htarget
      rw [← e1, ← e2]
      exact Reach.step hk h2 ⟨h3, Or.inl (by rw [e1, e2]; exact hte)⟩

theorem getTerritoryArea_opponent_move (b : Board) (w : Bool) (r c : Int) (m : Move)
    (hin : inBoard r c) (harea : 0 ≤ getTerritoryArea b r c w) (hl : legalOn b m)
    (hopp : b m.startPos.1 m.startPos.2 = enemyCell w) :
    (∀ i j : Int, Reach b w r c i j → applyMove b m i j = b i j)
      ∧ (∀ i j : Int, Reach (applyMove b m) w r c i j ↔ Reach b w r c i j)
      ∧ getTerritoryArea (applyMove b m) r c w = getTerritoryArea b r c w := by
  have hfree : ¬ FillAbort b w r c := by
    rcases getTerritoryArea_cases b r c w hin with ⟨e, -⟩ | ⟨b1, hok⟩
    · rw [e] at harea; omega
    · exact hok.not_abort
  obtain ⟨hsame, hiff, hfree1⟩ := opponent_move_outside b w r c m hfree hl hopp
  refine ⟨hsame, hiff, ?_⟩
  refine getTerritoryArea_transfer _ _ w r c r c id (fun _ => rfl) hin hin
    ⟨fun h => absurd h hfree1, fun h => absurd h hfree⟩ ?_
  intro i j
  simp only [id]
  constructor
  · rintro ⟨h, he⟩
    have h0 := (hiff i j).mp h
    exact ⟨h0, by rw [← hsame i j h0]; exact he⟩
  · rintro ⟨h, he⟩
    exact ⟨(hiff i j).mpr h, by rw [hsame i j h]; exact he⟩

/-- C30: an enclosed region is independent of the opponent.  On a board
where `getTerritoryArea(square, side)` is `A ≥ 0`, after any move that
`makeMove` accepts in the Move phase of the opposing side, no cell of the
connected region of the square has changed, the region is the same set of
cells, and `getTerritoryArea(square, side)` is still `A`. -/
theorem region_independent_of_opponent (s s1 : Chessboard) (w : Bool) (r c : Int) (m : Move)
    (hin : inBoard r c) (harea : 0 ≤ getTerritoryArea s.m_board r c w)
    (hturn : s.m_turnState = if w then TurnState.BlackMove else TurnState.WhiteMove)
    (hmove : makeMove s m = some (true, s1)) :
    (∀ i j : Int, Reach s.m_board w r c i j → s1.m_board i j = s.m_board i j)
      ∧ (∀ i j : Int, Reach s1.m_board w r c i j ↔ Reach s.m_board w r c i j)
      ∧ getTerritoryArea s1.m_board r c w = getTerritoryArea s.m_board r c w := by
  obtain ⟨hown, hl, hb⟩ := makeMove_accepted s s1 m hmove
  have hopp : s.m_board m.startPos.1 m.startPos.2 = enemyCell w := by
    rw [hturn] at hown
    cases w
    · rcases hown with ⟨-, e⟩ | ⟨h, -⟩
      · exact e
      · cases h
    · rcases hown with ⟨h, -⟩ | ⟨-, e⟩
      · cases h
      · exact e
  rw [hb]
  exact getTerritoryArea_opponent_move s.m_board w r c m hin harea hl hopp

/-! ## The territory area bounds the play inside a region -/

theorem countCells_mono (b1 b2 : Board) (v : Cell)
    (h : ∀ i j : Int, inBoard i j → b1 i j = v → b2 i j = v) :
    countCells b1 v ≤ countCells b2 v := by
  unfold countCells
  apply Finset.sum_le_sum
  intro p _
  by_cases h1 : b1 ((p.1 : Nat) : Int) ((p.2 : Nat) : Int) = v
  · have hin : inBoard ((p.1 : Nat) : Int) ((p.2 : Nat) : Int) := by
      unfold inBoard
      have := p.1.isLt
      have := p.2.isLt
      omega
    rw [if_pos h1, if_pos (h _ _ hin h1)]
  · rw [if_neg h1]
    split_ifs <;> omega

/-- Along a chain of moves of pieces inside the component of `(r, c)` on the
board `b0`, every move takes one Empty cell, and the cells outside the
component stay as they are. -/
theorem regionChain_count (w : Bool) (b0 : Board) (r c : Int) :
    ∀ (ms : List Move) (b : Board), regionChain w (Reach b0 w r c) b ms →
      (∀ i j : Int, passable b w i j → passable b0 w i j) →
      (∀ i j : Int, ¬ Reach b0 w r c i j → b i j = b0 i j) →
      ∃ bn : Board, countCells bn Cell.Empty + ms.length = countCells b Cell.Empty
        ∧ ∀ i j : Int, ¬ Reach b0 w r c i j → bn i j = b0 i j := by
  intro ms
  induction ms with
  | nil =>
    intro b _ _ hout
    exact ⟨b, by rw [List.length_nil, Nat.add_zero], hout⟩
  | cons m ms ih =>
    intro b hch hpass hout
    obtain ⟨hown, hreg, hl, hrest⟩ := hch
    obtain ⟨hrt, hrs⟩ := reach_of_legal b w m hl hown
    have hrt0 : Reach b0 w r c m.targetPos.1 m.targetPos.2 :=
      hreg.reach_trans (Reach.mono_passable hpass hrt)
    have hrs0 : Reach b0 w r c m.shootPos.1 m.shootPos.2 :=
      hreg.reach_trans (Reach.mono_passable hpass hrs)
    have hpass1 : ∀ i j : Int, passable (applyMove b m) w i j → passable b0 w i j :=
      fun i j hp => hpass i j (passable_applyMove b w m hl hown i j hp)
    have hout1 : ∀ i j : Int, ¬ Reach b0 w r c i j → applyMove b m i j = b0 i j := by
      intro i j hn
      rw [← hout i j hn]
      refine (applyMove_cells b m hl).2.2.2 i j ?_ ?_ ?_
      · by_contra hc
        have : i = m.targetPos.1 ∧ j = m.targetPos.2 := by omega
        rw [this.1, this.2] at hn
        exact hn hrt0
      · by_contra hc
        have : i = m.startPos.1 ∧ j = m.startPos.2 := by omega
        rw [this.1, this.2] at hn
        exact hn hreg
      · by_contra hc
        have : i = m.shootPos.1 ∧ j = m.shootPos.2 := by omega
        rw [this.1, this.2] at hn
        exact hn hrs0
    obtain ⟨bn, hcount, hbn⟩ := ih (applyMove b m) hrest hpass1 hout1
    refine ⟨bn, ?_, hbn⟩
    have := countCells_applyMove b m hl
    rw [List.length_cons]
    omega

theorem regionChain_length_le (w : Bool) (b b1 : Board) (r c : Int) (a : Int) (ms : List Move)
    (hok : FillOk b w r c a b1) (hch : regionChain w (Reach b w r c) b ms) :
    (ms.length : Int) ≤ a := by
  obtain ⟨bn, hcount, hbn⟩ := regionChain_count w b r c ms b hch (fun _ _ h => h)
    (fun _ _ _ => rfl)
  have hle : countCells b1 Cell.Empty ≤ countCells bn Cell.Empty := by
    apply countCells_mono
    intro i j _ he
    have hn : ¬ Reach b w r c i j := by
      intro hr
      rw [(hok.reach_blocked hr).1] at he
      cases he
    rw [hbn i j hn]
    rcases hok.frame i j with e | ⟨e, -⟩
    · rw [← e]; exact he
    · rw [e] at he; cases he
  have := hok.count
  omega

/-- A chain of moves of the one piece on `p` is a chain of moves of pieces
inside the component of `p`. -/
theorem pieceChain_regionChain (w : Bool) (b0 : Board) (r c : Int) :
    ∀ (ms : List Move) (b : Board) (p : Int × Int), pieceChain w b p ms →
      Reach b0 w r c p.1 p.2 → (∀ i j : Int, passable b w i j → passable b0 w i j) →
      regionChain w (Reach b0 w r c) b ms := by
  intro ms
  induction ms with
  | nil => intro _ _ _ _ _; trivial
  | cons m ms ih =>
    intro b p hch hreg hpass
    obtain ⟨hstart, hown, hl, hrest⟩ := hch
    rw [← hstart] at hown hreg
    refine ⟨hown, hreg, hl, ih (applyMove b m) m.targetPos hrest ?_ ?_⟩
    · exact hreg.reach_trans (Reach.mono_passable hpass (reach_of_legal b w m hl hown).1)
    · exact fun i j hp => hpass i j (passable_applyMove b w m hl hown i j hp)

theorem region_independent_of_opponent_witness :
    ∃ s1, makeMove (chessboardOf roomBoard TurnState.BlackMove)
          { startPos := (7, 7), targetPos := (7, 6), shootPos := (7, 5) } = some (true, s1)
      ∧ s1.m_board 7 6 = Cell.Black
      ∧ getTerritoryArea roomBoard 0 0 true = 15
      ∧ getTerritoryArea s1.m_board 0 0 true = 15 := by
  obtain ⟨s1, h1, hb⟩ := makeMove_legal (chessboardOf roomBoard TurnState.BlackMove)
    { startPos := (7, 7), targetPos := (7, 6), shootPos := (7, 5) } (by decide) (by decide)
  have harea : getTerritoryArea roomBoard 0 0 true = 15 := by decide
  have h := region_independent_of_opponent (chessboardOf roomBoard TurnState.BlackMove) s1 true
    0 0 { startPos := (7, 7), targetPos := (7, 6), shootPos := (7, 5) } (by decide)
    (by rw [show (chessboardOf roomBoard TurnState.BlackMove).m_board = roomBoard from rfl, harea]
        decide) rfl h1
  refine ⟨s1, h1, ?_, harea, ?_⟩
  · rw [hb]; decide
  · rw [h.2.2]; exact harea

/-- C29: territoryArea is an upper bound on play inside a closed region.
For a piece of the side on `p` with `getTerritoryArea` value `A ≥ 0`: every
sequence of consecutive legal moves made by pieces of the side that stand
inside the component of `p` has length at most `A`; so has every sequence of
moves of that piece alone; and the plan that the endgame solver returns for
that piece has at most `A` moves, and if it has `A` moves no sequence of moves
of the piece is longer. -/
theorem territoryArea_bounds_play (b : Board) (w : Bool) (p : Int × Int)
    (hin : inBoard p.1 p.2) (hown : b p.1 p.2 = ownCell w)
    (harea : 0 ≤ getTerritoryArea b p.1 p.2 w) :
    (∀ ms, regionChain w (Reach b w p.1 p.2) b ms →
        (ms.length : Int) ≤ getTerritoryArea b p.1 p.2 w)
      ∧ (∀ ms, pieceChain w b p ms → (ms.length : Int) ≤ getTerritoryArea b p.1 p.2 w)
      ∧ ∀ (fuel : Nat) (bot : Bot), bot.m_endgame = true → bot.m_isWhite = w →
          bot.m_chessboard.m_board = b → (piecesOf b w).length ≤ 4 →
          firstMobilePiece b w = some p → countCells b Cell.Empty + 1 < fuel →
          ∃ plan bot1, getEndgameMoves fuel bot (-1, -1) = some (plan, bot1)
            ∧ (plan.length : Int) ≤ getTerritoryArea b p.1 p.2 w
            ∧ ((plan.length : Int) = getTerritoryArea b p.1 p.2 w →
                ∀ ms, pieceChain w b p ms → ms.length ≤ plan.length) := by
  have hok : ∃ b1, FillOk b w p.1 p.2 (getTerritoryArea b p.1 p.2 w) b1 := by
    rcases getTerritoryArea_cases b p.1 p.2 w hin with ⟨e, -⟩ | h
    · rw [e] at harea; omega
    · exact h
  obtain ⟨b1, hok⟩ := hok
  have hp : passable b w p.1 p.2 := ⟨hin, Or.inr hown⟩
  have h1 : ∀ ms, regionChain w (Reach b w p.1 p.2) b ms →
      (ms.length : Int) ≤ getTerritoryArea b p.1 p.2 w :=
    fun ms hch => regionChain_length_le w b b1 p.1 p.2 _ ms hok hch
  have h2 : ∀ ms, pieceChain w b p ms → (ms.length : Int) ≤ getTerritoryArea b p.1 p.2 w :=
    fun ms hch => h1 ms (pieceChain_regionChain w b p.1 p.2 ms b p hch (Reach.start hp)
      (fun _ _ h => h))
  refine ⟨h1, h2, ?_⟩
  intro fuel bot hend hw hb hlen hfirst hfuel
  subst hw
  subst hb
  have hdec : decide (bot.m_chessboard.m_board p.1 p.2 = Cell.White) = bot.m_isWhite := by
    rw [hown]
    cases bot.m_isWhite <;> rfl
  have hrange : (getMoveRange bot.m_chessboard.m_board p.1 p.2).territoryArea
      = getTerritoryArea bot.m_chessboard.m_board p.1 p.2 bot.m_isWhite := by
    rw [getMoveRange_territoryArea _ _ _ hin, hdec]
  by_cases hnear : getTerritoryArea bot.m_chessboard.m_board p.1 p.2 bot.m_isWhite ≤ 12
  · obtain ⟨plan, bot1, hres, hchain, -⟩ := getEndgameMoves_init_near fuel bot p hend hlen hfirst
      (by rw [hrange]; exact hnear) hfuel
    refine ⟨plan, bot1, hres, h2 plan hchain, ?_⟩
    intro he ms hch
    have := h2 ms hch
    omega
  · obtain ⟨fuel1, rfl⟩ : ∃ fuel1, fuel = fuel1 + 1 := ⟨fuel - 1, by omega⟩
    obtain ⟨move, bot1, hres, -⟩ := getEndgameMoves_init_far fuel1 bot p hend hlen hfirst
      (by rw [hrange]; omega)
    refine ⟨[move], bot1, hres, ?_, ?_⟩
    · simp only [List.length_singleton]
      omega
    · intro he ms hch
      have := h2 ms hch
      omega

theorem territoryArea_bounds_play_witness :
    getTerritoryArea pocketBoard 0 0 true = 3
      ∧ (∀ ms, regionChain true (Reach pocketBoard true 0 0) pocketBoard ms →
          (ms.length : Int) ≤ 3)
      ∧ ∃ plan bot1, getEndgameMoves 7 (endgameBot pocketBoard true) (-1, -1)
            = some (plan, bot1)
          ∧ (plan.length : Int) ≤ 3 := by
  have harea : getTerritoryArea pocketBoard 0 0 true = 3 := by decide
  have h := territoryArea_bounds_play pocketBoard true (0, 0) (by decide) (by decide)
    (by rw [harea]; decide)
  simp only [harea] at h
  refine ⟨harea, h.1, ?_⟩
  obtain ⟨plan, bot1, hres, hle, -⟩ := h.2.2 7 (endgameBot pocketBoard true) rfl rfl rfl
    (by decide) (by decide) (by decide)
  exact ⟨plan, bot1, hres, hle⟩

/-! ## The starting layout -/

theorem initialBoard_cases (r c : Int) :
    initialBoard r c
      = if (r, c) ∈ [((0 : Int), (2 : Int)), (0, 5), (2, 0), (2, 7)] then Cell.Black
        else if (r, c) ∈ [((7 : Int), (2 : Int)), (7, 5), (5, 0), (5, 7)] then Cell.White
        else Cell.Empty := by
  simp only [initialBoard, setCell, List.mem_cons, Prod.mk.injEq, List.mem_singleton,
    List.not_mem_nil, or_false]
  split_ifs <;> first | rfl | omega

/-- C32: the starting layout.  After `reset()` Black stands exactly on (0,2),
(0,5), (2,0), (2,7), White exactly on (7,2), (7,5), (5,0), (5,7), every other
cell is Empty (no Block), nothing is selected and the phase is WhiteMove; the
layout is unchanged by the left-right mirror and is mapped onto itself with
the colours exchanged by the top-bottom mirror. -/
theorem reset_layout (s : Chessboard) :
    (∀ r c : Int, (reset s).m_board r c
        = if (r, c) ∈ [((0 : Int), (2 : Int)), (0, 5), (2, 0), (2, 7)] then Cell.Black
          else if (r, c) ∈ [((7 : Int), (2 : Int)), (7, 5), (5, 0), (5, 7)] then Cell.White
          else Cell.Empty)
      ∧ (∀ r c : Int, (reset s).m_board r c ≠ Cell.Block)
      ∧ (reset s).m_selected = (-1, -1)
      ∧ (reset s).m_turnState = TurnState.WhiteMove
      ∧ (reset s).m_history = s.m_history
      ∧ (∀ r c : Int, (reset s).m_board r (7 - c) = (reset s).m_board r c)
      ∧ ∀ r c : Int, (reset s).m_board (7 - r) c = swapColour ((reset s).m_board r c) := by
  have hb : (reset s).m_board = initialBoard := rfl
  rw [hb]
  refine ⟨initialBoard_cases, ?_, rfl, rfl, rfl, ?_, ?_⟩
  · intro r c
    rw [initialBoard_cases]
    split_ifs <;> decide
  · intro r c
    have h1 : (r, 7 - c) ∈ [((0 : Int), (2 : Int)), (0, 5), (2, 0), (2, 7)]
        ↔ (r, c) ∈ [((0 : Int), (2 : Int)), (0, 5), (2, 0), (2, 7)] := by
      simp only [List.mem_cons, Prod.mk.injEq, List.mem_singleton, List.not_mem_nil, or_false]
      omega
    have h2 : (r, 7 - c) ∈ [((7 : Int), (2 : Int)), (7, 5), (5, 0), (5, 7)]
        ↔ (r, c) ∈ [((7 : Int), (2 : Int)), (7, 5), (5, 0), (5, 7)] := by
      simp only [List.mem_cons, Prod.mk.injEq, List.mem_singleton, List.not_mem_nil, or_false]
      omega
    rw [initialBoard_cases, initialBoard_cases]
    simp only [h1, h2]
  · intro r c
    have h1 : (7 - r, c) ∈ [((0 : Int), (2 : Int)), (0, 5), (2, 0), (2, 7)]
        ↔ (r, c) ∈ [((7 : Int), (2 : Int)), (7, 5), (5, 0), (5, 7)] := by
      simp only [List.mem_cons, Prod.mk.injEq, List.mem_singleton, List.not_mem_nil, or_false]
      omega
    have h2 : (7 - r, c) ∈ [((7 : Int), (2 : Int)), (7, 5), (5, 0), (5, 7)]
        ↔ (r, c) ∈ [((0 : Int), (2 : Int)), (0, 5), (2, 0), (2, 7)] := by
      simp only [List.mem_cons, Prod.mk.injEq, List.mem_singleton, List.not_mem_nil, or_false]
      omega
    have h3 : (r, c) ∈ [((0 : Int), (2 : Int)), (0, 5), (2, 0), (2, 7)] →
        (r, c) ∈ [((7 : Int), (2 : Int)), (7, 5), (5, 0), (5, 7)] → False := by
      simp only [List.mem_cons, Prod.mk.injEq, List.mem_singleton, List.not_mem_nil, or_false]
      omega
    rw [initialBoard_cases, initialBoard_cases]
    simp only [h1, h2]
    by_cases hB : (r, c) ∈ [((0 : Int), (2 : Int)), (0, 5), (2, 0), (2, 7)]
    · have hW : (r, c) ∉ [((7 : Int), (2 : Int)), (7, 5), (5, 0), (5, 7)] := fun h => h3 hB h
      rw [if_neg hW, if_pos hB, if_pos hB]
      rfl
    · by_cases hW : (r, c) ∈ [((7 : Int), (2 : Int)), (7, 5), (5, 0), (5, 7)]
      · rw [if_pos hW, if_neg hB, if_pos hW]
        rfl
      · rw [if_neg hW, if_neg hB, if_neg hB, if_neg hW]
        rfl

/-! ## Path validation, the mobility check and the range engine -/

theorem dir_cases_iff (b : Board) (r c tr tc : Int) :
    (∃ dir, dir < 8 ∧ ∃ s : Int, 1 ≤ s ∧ s ≤ dirSteps (getMoveRange b r c) dir
        ∧ dirSquare dir r c s = (tr, tc))
      ↔ ∃ d : Int, 1 ≤ d ∧
          ((d ≤ (getMoveRange b r c).up ∧ tr = r - d ∧ tc = c)
            ∨ (d ≤ (getMoveRange b r c).down ∧ tr = r + d ∧ tc = c)
            ∨ (d ≤ (getMoveRange b r c).left ∧ tr = r ∧ tc = c - d)
            ∨ (d ≤ (getMoveRange b r c).right ∧ tr = r ∧ tc = c + d)
            ∨ (d ≤ (getMoveRange b r c).upLeft ∧ tr = r - d ∧ tc = c - d)
            ∨ (d ≤ (getMoveRange b r c).upRight ∧ tr = r - d ∧ tc = c + d)
            ∨ (d ≤ (getMoveRange b r c).downLeft ∧ tr = r + d ∧ tc = c - d)
            ∨ (d ≤ (getMoveRange b r c).downRight ∧ tr = r + d ∧ tc = c + d)) := by
  constructor
  · rintro ⟨dir, hdir, s, hs, hle, hsq⟩
    refine ⟨s, hs, ?_⟩
    interval_cases dir <;> simp only [dirSteps, dirSquare, Prod.mk.injEq] at hle hsq <;>
      obtain ⟨e1, e2⟩ := hsq <;> subst e1 <;> subst e2
    · exact Or.inl ⟨hle, rfl, rfl⟩
    · exact Or.inr (Or.inr (Or.inr (Or.inr (Or.inr (Or.inl ⟨hle, rfl, rfl⟩)))))
    · exact Or.inr (Or.inr (Or.inr (Or.inl ⟨hle, rfl, rfl⟩)))
    · exact Or.inr (Or.inr (Or.inr (Or.inr (Or.inr (Or.inr (Or.inr ⟨hle, rfl, rfl⟩))))))
    · exact Or.inr (Or.inl ⟨hle, rfl, rfl⟩)
    · exact Or.inr (Or.inr (Or.inr (Or.inr (Or.inr (Or.inr (Or.inl ⟨hle, rfl, rfl⟩))))))
    · exact Or.inr (Or.inr (Or.inl ⟨hle, rfl, rfl⟩))
    · exact Or.inr (Or.inr (Or.inr (Or.inr (Or.inl ⟨hle, rfl, rfl⟩))))
  · rintro ⟨d, hd, h⟩
    rcases h with ⟨h, rfl, rfl⟩ | ⟨h, rfl, rfl⟩ | ⟨h, rfl, rfl⟩ | ⟨h, rfl, rfl⟩ | ⟨h, rfl, rfl⟩
      | ⟨h, rfl, rfl⟩ | ⟨h, rfl, rfl⟩ | ⟨h, rfl, rfl⟩
    · exact ⟨0, by omega, d, hd, h, rfl⟩
    · exact ⟨4, by omega, d, hd, h, rfl⟩
    · exact ⟨6, by omega, d, hd, h, rfl⟩
    · exact ⟨2, by omega, d, hd, h, rfl⟩
    · exact ⟨7, by omega, d, hd, h, rfl⟩
    · exact ⟨1, by omega, d, hd, h, rfl⟩
    · exact ⟨5, by omega, d, hd, h, rfl⟩
    · exact ⟨3, by omega, d, hd, h, rfl⟩

/-- C37: path validation agrees with the range engine.  For every board and
on-board square `(r, c)`, `pathValid` from `(r, c)` to `(tr, tc)` returns, and
returns true if and only if `(tr, tc)` lies in one of the eight directions
from `(r, c)` at a distance `d` with `1 ≤ d ≤` the field of `getMoveRange(r, c)`
for that direction. -/
theorem pathValid_iff_range (b : Board) (r c tr tc : Int) (hin : inBoard r c) :
    (∃ v, pathValid b r c tr tc = some v)
      ∧ (pathValid b r c tr tc = some true ↔
          ∃ d : Int, 1 ≤ d ∧
            ((d ≤ (getMoveRange b r c).up ∧ tr = r - d ∧ tc = c)
              ∨ (d ≤ (getMoveRange b r c).down ∧ tr = r + d ∧ tc = c)
              ∨ (d ≤ (getMoveRange b r c).left ∧ tr = r ∧ tc = c - d)
              ∨ (d ≤ (getMoveRange b r c).right ∧ tr = r ∧ tc = c + d)
              ∨ (d ≤ (getMoveRange b r c).upLeft ∧ tr = r - d ∧ tc = c - d)
              ∨ (d ≤ (getMoveRange b r c).upRight ∧ tr = r - d ∧ tc = c + d)
              ∨ (d ≤ (getMoveRange b r c).downLeft ∧ tr = r + d ∧ tc = c - d)
              ∨ (d ≤ (getMoveRange b r c).downRight ∧ tr = r + d ∧ tc = c + d))) := by
  refine ⟨⟨_, pathValid_eq b r c tr tc⟩, ?_⟩
  rw [pathValid_eq, ← dir_cases_iff, ← clearLine_iff_range b r c tr tc hin]
  simp

theorem pathValid_iff_range_witness :
    pathValid rangeScenarioBoard 3 3 3 4 = some true
      ∧ pathValid rangeScenarioBoard 3 3 3 5 = some false
      ∧ (getMoveRange rangeScenarioBoard 3 3).right = 1 := by
  refine ⟨?_, ?_, by decide⟩
  · exact (pathValid_iff_range rangeScenarioBoard 3 3 3 4 (by decide)).2.mpr
      ⟨1, by decide, Or.inr (Or.inr (Or.inr (Or.inl ⟨by decide, rfl, rfl⟩)))⟩
  · rw [pathValid_eq]
    decide

theorem hasEmptyNeighbour_iff_range (b : Board) (r c : Int) (hin : inBoard r c) :
    hasEmptyNeighbour b r c ↔ (getMoveRange b r c).canMove = true := by
  constructor
  · rintro ⟨dr, hdr, dc, hdc, hne, hin2, hcell⟩
    have hdr1 : dr = -1 ∨ dr = 0 ∨ dr = 1 := by simpa using hdr
    have hdc1 : dc = -1 ∨ dc = 0 ∨ dc = 1 := by simpa using hdc
    have hcl := (ray_iff_clearLine b r c dr dc 1 hin (le_refl _) hdr1 hdc1 hne).mp (by
      intro j h1 h2
      have : j = 1 := by omega
      subst this
      simpa using ⟨hin2, hcell⟩)
    exact canMove_of_clearLine b r c _ _ hcl
  · intro h
    have htot : (getMoveRange b r c).getTotalMoves > 0 := by
      unfold MoveRange.canMove at h
      simpa using h
    have hdirs := getMoveRange_reach b r c hin
    have hex : ∃ dir, dir < 8 ∧ 1 ≤ dirSteps (getMoveRange b r c) dir := by
      unfold MoveRange.getTotalMoves at htot
      obtain ⟨⟨h0, -⟩, ⟨h1, -⟩, ⟨h2, -⟩, ⟨h3, -⟩, ⟨h4, -⟩, ⟨h5, -⟩, ⟨h6, -⟩, ⟨h7, -⟩⟩ := hdirs
      by_contra hno
      have hz : ∀ dir, dir < 8 → dirSteps (getMoveRange b r c) dir ≤ 0 := by
        intro dir hd
        by_contra hc
        exact hno ⟨dir, hd, by omega⟩
      have z0 := hz 0 (by omega)
      have z1 := hz 1 (by omega)
      have z2 := hz 2 (by omega)
      have z3 := hz 3 (by omega)
      have z4 := hz 4 (by omega)
      have z5 := hz 5 (by omega)
      have z6 := hz 6 (by omega)
      have z7 := hz 7 (by omega)
      simp only [dirSteps] at z0 z1 z2 z3 z4 z5 z6 z7
      omega
    obtain ⟨dir, hd, hs⟩ := hex
    have hcl := (clearLine_iff_range b r c (dirSquare dir r c 1).1 (dirSquare dir r c 1).2
      hin).mpr ⟨dir, hd, 1, le_refl _, hs, rfl⟩
    exact neighbour_of_clearLine b r c _ _ hcl

/-- C38: the cheap mobility check agrees with the full range computation.
For every board and every square, on the board or off it,
`Chessboard::canMove(r, c)` equals `getMoveRange(r, c).canMove()`; for
off-board squares both are false. -/
theorem canMove_iff_range (b : Board) (r c : Int) :
    canMove b r c = (getMoveRange b r c).canMove
      ∧ (¬ inBoard r c → canMove b r c = false ∧ (getMoveRange b r c).canMove = false) := by
  by_cases hin : inBoard r c
  · refine ⟨?_, fun h => absurd hin h⟩
    rw [Bool.eq_iff_iff, canMove_iff, ← hasEmptyNeighbour_iff_range b r c hin]
    exact ⟨fun h => h.2, fun h => ⟨hin, h⟩⟩
  · have h1 : canMove b r c = false := by
      rw [← Bool.not_eq_true, canMove_iff]
      exact fun h => hin h.1
    have h2 : (getMoveRange b r c).canMove = false := by
      have hb : r < 0 ∨ r ≥ 8 ∨ c < 0 ∨ c ≥ 8 := by unfold inBoard at hin; omega
      unfold getMoveRange
      rw [if_pos hb]
      rfl
    exact ⟨by rw [h1, h2], fun _ => ⟨h1, h2⟩⟩

/-! ## Termination of the search -/

/-- C35: the search terminates for every depth.  `getBestMove` returns for
every sandbox and every integer depth, also 0 and below, and `alphaBeta`
returns for every integer depth, window and side, with a recursion no deeper
than the number of Empty cells of the sandbox plus one: every level below a
move works on a board with one Empty cell fewer. -/
theorem search_terminates (evalSandbox : Board → ℚ) (m_isWhite m_endgame : Bool) (depth : Int)
    (sb : Chessboard) :
    (∃ mv sb1, getBestMove evalSandbox m_isWhite m_endgame depth sb = some (mv, sb1))
      ∧ (∀ (alpha beta : ℚ) (maximizingPlayer : Bool),
          ∃ v sb1, alphaBeta evalSandbox m_isWhite m_endgame
            (countCells sb.m_board Cell.Empty + 1) depth alpha beta maximizingPlayer sb
              = some (v, sb1))
      ∧ ∀ (m : Move) (sb1 : Chessboard),
          makeMoveInSandbox m_isWhite sb m true true = some (true, sb1) →
            countCells sb1.m_board Cell.Empty + 1 = countCells sb.m_board Cell.Empty := by
  refine ⟨?_, ?_, ?_⟩
  · obtain ⟨mv, sb1, h, -⟩ := getBestMove_cases evalSandbox m_isWhite m_endgame depth sb
    exact ⟨mv, sb1, h⟩
  · intro alpha beta mx
    obtain ⟨v, sb1, h, -⟩ := alphaBeta_spec evalSandbox m_isWhite m_endgame
      (countCells sb.m_board Cell.Empty + 1) depth alpha beta mx sb (Nat.lt_succ_self _)
    exact ⟨v, sb1, h⟩
  · intro m sb1 h
    obtain ⟨hl, hb⟩ := makeMoveInSandbox_true m_isWhite sb sb1 m h
    rw [hb]
    exact countCells_applyMove sb.m_board m hl

/-! ## The move generator and the mobility scan -/

/-- Every destination of a piece has the shot back at the vacated start
square. -/
theorem clearLine_back (b : Board) (r c tr tc : Int) (h : clearLine b r c tr tc) :
    clearLine (setCell b r c Cell.Empty) tr tc r c := by
  obtain ⟨hin, hin2, -, hl, -⟩ := id h
  obtain ⟨hn, htr, htc, hnz⟩ := steps_of_line r c tr tc hl
  have hdr : Int.sign (tr - r) = -1 ∨ Int.sign (tr - r) = 0 ∨ Int.sign (tr - r) = 1 := by
    rcases sign_cases (tr - r) with ⟨-, e⟩ | ⟨-, e⟩ | ⟨-, e⟩ <;> simp [e]
  have hdc : Int.sign (tc - c) = -1 ∨ Int.sign (tc - c) = 0 ∨ Int.sign (tc - c) = 1 := by
    rcases sign_cases (tc - c) with ⟨-, e⟩ | ⟨-, e⟩ | ⟨-, e⟩ <;> simp [e]
  generalize Int.sign (tr - r) = dr at htr hnz hdr
  generalize Int.sign (tc - c) = dc at htc hnz hdc
  generalize (lineDist r c tr tc : Int) = n at hn htr htc
  have hray := (ray_iff_clearLine b r c dr dc n hin hn hdr hdc hnz).mpr (by rw [← htr, ← htc]; exact h)
  have hdr1 : -dr = -1 ∨ -dr = 0 ∨ -dr = 1 := by omega
  have hdc1 : -dc = -1 ∨ -dc = 0 ∨ -dc = 1 := by omega
  have hback := (ray_iff_clearLine (setCell b r c Cell.Empty) tr tc (-dr) (-dc) n hin2 hn hdr1 hdc1
    (by omega)).mp (by
      intro j h1 h2
      have e1 : tr + j * -dr = r + (n - j) * dr := by rw [htr]; ring
      have e2 : tc + j * -dc = c + (n - j) * dc := by rw [htc]; ring
      rw [e1, e2]
      by_cases hj : j = n
      · subst hj
        simp only [sub_self, zero_mul, add_zero]
        exact ⟨hin, setCell_same _ _ _ _⟩
      · obtain ⟨hi, he⟩ := hray (n - j) (by omega) (by omega)
        refine ⟨hi, ?_⟩
        unfold setCell
        split_ifs
        · rfl
        · exact he)
  have e1 : tr + n * -dr = r := by rw [htr]; ring
  have e2 : tc + n * -dc = c := by rw [htc]; ring
  rw [e1, e2] at hback
  exact hback

theorem generateLegalMoves_eq_nil (e w : Bool) (b : Board) :
    generateLegalMoves e b w = [] ↔
      ∀ r c : Int, inBoard r c → b r c = ownCell w →
        (e = false ∧ 0 ≤ (getMoveRange b r c).territoryArea) ∨ ¬ hasEmptyNeighbour b r c := by
  constructor
  · intro hnil r c hin hown
    by_contra hc
    have hc1 : ¬ (e = false ∧ 0 ≤ (getMoveRange b r c).territoryArea) := fun h => hc (Or.inl h)
    have hne : hasEmptyNeighbour b r c := by
      by_contra h
      exact hc (Or.inr h)
    obtain ⟨dr, hdr, dc, hdc, hnz, hin2, hcell⟩ := hne
    have hdr1 : dr = -1 ∨ dr = 0 ∨ dr = 1 := by simpa using hdr
    have hdc1 : dc = -1 ∨ dc = 0 ∨ dc = 1 := by simpa using hdc
    have hcl : clearLine b r c (r + 1 * dr) (c + 1 * dc) :=
      (ray_iff_clearLine b r c dr dc 1 hin (le_refl _) hdr1 hdc1 hnz).mp (by
        intro j h1 h2
        have : j = 1 := by omega
        subst this
        simpa using ⟨hin2, hcell⟩)
    have hmem : ({ startPos := (r, c), targetPos := (r + 1 * dr, c + 1 * dc), shootPos := (r, c) }
        : Move) ∈ generateLegalMoves e b w := by
      rw [mem_generateLegalMoves]
      refine ⟨hin, (own_iff b w r c).mpr hown, ?_, hcl, clearLine_back b r c _ _ hcl⟩
      cases e
      · right
        simp only [MoveRange.inClosedRegion, decide_eq_false_iff_not, ge_iff_le]
        exact fun h => hc1 ⟨rfl, h⟩
      · exact Or.inl rfl
    rw [hnil] at hmem
    cases hmem
  · intro h
    apply List.eq_nil_iff_forall_not_mem.mpr
    intro m hm
    rw [mem_generateLegalMoves] at hm
    obtain ⟨hin, hown, hskip, hcl, -⟩ := hm
    rcases h _ _ hin ((own_iff b w _ _).mp hown) with ⟨he, harea⟩ | hno
    · rcases hskip with h1 | h1
      · rw [he] at h1; cases h1
      · simp only [MoveRange.inClosedRegion, decide_eq_false_iff_not, ge_iff_le] at h1
        exact h1 harea
    · exact hno (neighbour_of_clearLine b _ _ _ _ hcl)

theorem generateLegalMoves_endgame_nil (b : Board) (w : Bool) :
    generateLegalMoves true b w = [] ↔ ¬ hasMobilePiece b (ownCell w) := by
  rw [generateLegalMoves_eq_nil]
  constructor
  · rintro h ⟨r, hr, c, hc, hown, hne⟩
    have hin : inBoard r c := by
      rw [mem_indices] at hr hc
      unfold inBoard
      omega
    rcases h r c hin hown with ⟨h1, -⟩ | h1
    · cases h1
    · exact h1 hne
  · intro h r c hin hown
    right
    intro hne
    apply h
    unfold inBoard at hin
    exact ⟨r, (mem_indices r).mpr (by omega), c, (mem_indices c).mpr (by omega), hown, hne⟩

/-- C34: game-over detection agrees with the move generator.  The list of
`generateLegalMoves(side)` is empty if and only if every piece of the side is
skipped as enclosed (territoryArea ≥ 0 while the bot is not in endgame mode) or
has no Empty adjacent cell; in endgame mode it is empty exactly when the
mobility scan of `checkGameOver` leaves the flag of the side false; and every
destination of a piece has the shot at the vacated start square. -/
theorem generateLegalMoves_empty_iff (m_endgame isWhite : Bool) (b : Board) :
    (generateLegalMoves m_endgame b isWhite = [] ↔
        ∀ r c : Int, inBoard r c → b r c = ownCell isWhite →
          (m_endgame = false ∧ 0 ≤ (getMoveRange b r c).territoryArea)
            ∨ ¬ hasEmptyNeighbour b r c)
      ∧ (generateLegalMoves true b true = [] ↔ (scanRows b indices (false, false)).1 = false)
      ∧ (generateLegalMoves true b false = [] ↔ (scanRows b indices (false, false)).2 = false)
      ∧ ∀ r c tr tc : Int, clearLine b r c tr tc →
          clearLine (setCell b r c Cell.Empty) tr tc r c := by
  refine ⟨generateLegalMoves_eq_nil m_endgame isWhite b, ?_, ?_, clearLine_back b⟩
  · rw [generateLegalMoves_endgame_nil, hasMobilePiece_iff, ← Bool.not_eq_true,
      (scanRows_spec b indices false false).1]
    simp [ownCell]
  · rw [generateLegalMoves_endgame_nil, hasMobilePiece_iff, ← Bool.not_eq_true,
      (scanRows_spec b indices false false).2]
    simp [ownCell]

/-! ## The endgame plan is an executable chain -/

theorem pieceChain_linked (w : Bool) :
    ∀ (ms : List Move) (b : Board) (p : Int × Int), pieceChain w b p ms →
      linked ms ∧ ∀ m, ms.head? = some m → m.startPos = p := by
  intro ms
  induction ms with
  | nil => intro b p _; exact ⟨trivial, fun m h => by cases h⟩
  | cons m ms ih =>
    intro b p h
    obtain ⟨hstart, -, -, hrest⟩ := h
    obtain ⟨hl, hh⟩ := ih _ _ hrest
    refine ⟨?_, ?_⟩
    · cases ms with
      | nil => trivial
      | cons m2 ms2 => exact ⟨hh m2 rfl, hl⟩
    · intro m0 h0
      simp only [List.head?_cons, Option.some.injEq] at h0
      rw [← h0]
      exact hstart

theorem playPlan_of_pieceChain (w : Bool) :
    ∀ (ms : List Move) (s : Chessboard) (p : Int × Int), pieceChain w s.m_board p ms →
      ∃ s1, playPlan w s ms = some s1 := by
  intro ms
  induction ms with
  | nil => intro s p _; exact ⟨s, rfl⟩
  | cons m ms ih =>
    intro s p h
    obtain ⟨hstart, hown, hl, hrest⟩ := h
    rw [← hstart] at hown
    have hown1 : ownPiece (if w then TurnState.WhiteMove else TurnState.BlackMove) s.m_board
        m.startPos.1 m.startPos.2 := by
      cases w
      · exact Or.inr ⟨rfl, hown⟩
      · exact Or.inl ⟨rfl, hown⟩
    obtain ⟨s1, h1, hb⟩ := makeMove_legal
      { s with m_turnState := (if w then TurnState.WhiteMove else TurnState.BlackMove) } m hl hown1
    have hrest1 : pieceChain w s1.m_board m.targetPos ms := by
      rw [hb]
      exact hrest
    obtain ⟨s2, h2⟩ := ih s1 m.targetPos hrest1
    refine ⟨s2, ?_⟩
    unfold playPlan
    rw [h1]
    exact h2

/-- The plan of `getEndgameMoves` for the first mobile piece is a chain of
legal moves of that piece from the real board. -/
theorem getEndgameMoves_chain (fuel : Nat) (bot : Bot) (p : Int × Int)
    (hend : bot.m_endgame = true)
    (hlen : (piecesOf bot.m_chessboard.m_board bot.m_isWhite).length ≤ 4)
    (hfirst : firstMobilePiece bot.m_chessboard.m_board bot.m_isWhite = some p)
    (hfuel : countCells bot.m_chessboard.m_board Cell.Empty + 1 < fuel) :
    ∃ plan bot1, getEndgameMoves fuel bot (-1, -1) = some (plan, bot1)
      ∧ pieceChain bot.m_isWhite bot.m_chessboard.m_board p plan := by
  by_cases hnear : (getMoveRange bot.m_chessboard.m_board p.1 p.2).territoryArea ≤ 12
  · obtain ⟨plan, bot1, hres, hchain, -⟩ :=
      getEndgameMoves_init_near fuel bot p hend hlen hfirst hnear hfuel
    exact ⟨plan, bot1, hres, hchain⟩
  · obtain ⟨fuel1, rfl⟩ : ∃ fuel1, fuel = fuel1 + 1 := ⟨fuel - 1, by omega⟩
    obtain ⟨move, bot1, hres, hstart, hl, hown⟩ :=
      getEndgameMoves_init_far fuel1 bot p hend hlen hfirst (by omega)
    refine ⟨[move], bot1, hres, hstart, ?_, hl, trivial⟩
    rw [← hstart]
    exact hown

/-- Without a piece of the side that has a destination the first call of
`getEndgameMoves()` does not return. -/
theorem getEndgameMoves_none_of_stuck (fuel : Nat) (bot : Bot)
    (hlen : (piecesOf bot.m_chessboard.m_board bot.m_isWhite).length ≤ 4)
    (hnone : firstMobilePiece bot.m_chessboard.m_board bot.m_isWhite = none) :
    getEndgameMoves fuel bot (-1, -1) = none := by
  cases fuel with
  | zero => rfl
  | succ fuel =>
    rw [getEndgameMoves_succ, if_pos rfl]
    obtain ⟨a, ha, hm4, hm, hp⟩ := getAllMovesForSide_spec bot.m_endgame
      bot.m_chessboard.m_board bot.m_isWhite hlen
    rw [ha]
    simp only
    have hfound := (firstMobile_spec a (fun p => getMoveRange bot.m_chessboard.m_board p.1 p.2)
      (piecesOf bot.m_chessboard.m_board bot.m_isWhite) (-1, -1) hlen hm hp).2 hnone
    rw [hfound]
    simp only
    rw [List.get?_eq_none.mpr (by rw [hm4])]

/-- C33: the endgame plan is an executable chain.  Every plan that
`getEndgameMoves()` returns in endgame mode (with at most four pieces of the
side) is a plan for the first piece of the side with a destination, `p`: its
first move starts on `p`, each later move starts on the target square of the
move before it, and playing the moves in order from the real board, with the
Move phase of the side restored before each, makes `makeMove` return true
every time. -/
theorem getEndgameMoves_executable (fuel : Nat) (bot bot1 : Bot) (plan : List Move)
    (hend : bot.m_endgame = true)
    (hlen : (piecesOf bot.m_chessboard.m_board bot.m_isWhite).length ≤ 4)
    (hfuel : countCells bot.m_chessboard.m_board Cell.Empty + 1 < fuel)
    (hplan : getEndgameMoves fuel bot (-1, -1) = some (plan, bot1)) :
    ∃ p, firstMobilePiece bot.m_chessboard.m_board bot.m_isWhite = some p
      ∧ (∀ m, plan.head? = some m → m.startPos = p) ∧ linked plan
      ∧ pieceChain bot.m_isWhite bot.m_chessboard.m_board p plan
      ∧ ∃ s1, playPlan bot.m_isWhite bot.m_chessboard plan = some s1 := by
  cases hfirst : firstMobilePiece bot.m_chessboard.m_board bot.m_isWhite with
  | none =>
    rw [getEndgameMoves_none_of_stuck fuel bot hlen hfirst] at hplan
    cases hplan
  | some p =>
    obtain ⟨plan1, bot2, hres, hchain⟩ := getEndgameMoves_chain fuel bot p hend hlen hfirst hfuel
    rw [hres] at hplan
    simp only [Option.some.injEq, Prod.mk.injEq] at hplan
    rw [← hplan.1]
    obtain ⟨hl, hh⟩ := pieceChain_linked bot.m_isWhite plan1 _ p hchain
    exact ⟨p, rfl, hh, hl, hchain,
      playPlan_of_pieceChain bot.m_isWhite plan1 bot.m_chessboard p hchain⟩

theorem getEndgameMoves_executable_witness :
    ∃ plan bot1, getEndgameMoves 7 (endgameBot pocketBoard true) (-1, -1) = some (plan, bot1)
      ∧ plan.length = 3 ∧ linked plan
      ∧ ∃ s1, playPlan true (endgameBot pocketBoard true).m_chessboard plan = some s1 := by
  have hlen : ((getEndgameMoves 7 (endgameBot pocketBoard true) (-1, -1)).map
      fun r => r.1.length) = some 3 := by decide
  obtain ⟨⟨plan, bot1⟩, hres, hl⟩ := Option.map_eq_some'.mp hlen
  obtain ⟨p, -, -, h2, -, h4⟩ := getEndgameMoves_executable 7 (endgameBot pocketBoard true) bot1
    plan rfl (by decide) (by decide) hres
  exact ⟨plan, bot1, hres, hl, h2, h4⟩

/-! ## The history replays to the same position -/

theorem playMoves_append (m : Move) :
    ∀ (ms : List Move) (s r r1 : Chessboard), playMoves s ms = some r →
      makeMove r m = some (true, r1) → playMoves s (ms ++ [m]) = some r1 := by
  intro ms
  induction ms with
  | nil =>
    intro s r r1 h hm
    simp only [playMoves, Option.some.injEq] at h
    subst h
    simp only [List.nil_append, playMoves, hm]
  | cons m0 ms ih =>
    intro s r r1 h hm
    unfold playMoves at h
    rw [List.cons_append]
    unfold playMoves
    cases hmk : makeMove s m0 with
    | none => rw [hmk] at h; cases h
    | some x =>
      obtain ⟨ok, s1⟩ := x
      cases ok
      · rw [hmk] at h; cases h
      · rw [hmk] at h
        exact ih s1 r r1 h hm

/-- One accepted move on the replayed position. -/
theorem replay_step (r : Chessboard) (m : Move)
    (hown : ownPiece r.m_turnState r.m_board m.startPos.1 m.startPos.2)
    (hcl : clearLine r.m_board m.startPos.1 m.startPos.2 m.targetPos.1 m.targetPos.2)
    (hsh : clearLine (setCell (setCell r.m_board m.targetPos.1 m.targetPos.2
        (r.m_board m.startPos.1 m.startPos.2)) m.startPos.1 m.startPos.2 Cell.Empty)
      m.targetPos.1 m.targetPos.2 m.shootPos.1 m.shootPos.2) :
    ∃ r1, makeMove r m = some (true, r1)
      ∧ r1.m_board = setCell (setCell (setCell r.m_board m.targetPos.1 m.targetPos.2
          (r.m_board m.startPos.1 m.startPos.2)) m.startPos.1 m.startPos.2 Cell.Empty)
          m.shootPos.1 m.shootPos.2 Cell.Block
      ∧ r1.m_turnState = nextPhase (nextPhase r.m_turnState)
      ∧ countCells r1.m_board Cell.Block = countCells r.m_board Cell.Block + 1 := by
  rcases makeMove_cases r m hcl.1 with ⟨h1, -⟩ | ⟨-, h2, -⟩ | ⟨-, -, h3, -⟩
      | ⟨-, -, -, r1, h4, h5, -, h6, -⟩
  · exact absurd hown h1
  · exact absurd hcl h2
  · exact absurd hsh h3
  · refine ⟨r1, h4, h5, h6, ?_⟩
    rw [h5]
    have hrel := countCells_relocate r.m_board m.startPos.1 m.startPos.2 m.targetPos.1
      m.targetPos.2 Cell.Block hcl.1 hcl.2.1
      (by have := hcl.2.2.2.1.1; omega) hcl.2.2.1 (ownPiece_ne_empty _ _ _ _ hown).1
    have hshoot := countCells_shoot (setCell (setCell r.m_board m.targetPos.1 m.targetPos.2
        (r.m_board m.startPos.1 m.startPos.2)) m.startPos.1 m.startPos.2 Cell.Empty)
      m.shootPos.1 m.shootPos.2 Cell.Block hsh.2.1 hsh.2.2.1
    simp only [if_true, if_neg (show Cell.Block ≠ Cell.Empty by decide), add_zero] at hshoot
    rw [hshoot, hrel]

theorem nextPhase_move_ne (t : TurnState)
    (h : t = TurnState.WhiteMove ∨ t = TurnState.BlackMove) :
    nextPhase t ≠ TurnState.WhiteMove ∧ nextPhase t ≠ TurnState.BlackMove
      ∧ (nextPhase (nextPhase t) = TurnState.WhiteMove
          ∨ nextPhase (nextPhase t) = TurnState.BlackMove) := by
  rcases h with rfl | rfl <;> simp [nextPhase]

theorem ownPiece_phase {t : TurnState} {b : Board} {r c : Int} (h : ownPiece t b r c) :
    t = TurnState.WhiteMove ∨ t = TurnState.BlackMove := by
  rcases h with ⟨h, -⟩ | ⟨h, -⟩
  · exact Or.inl h
  · exact Or.inr h

theorem ownShooter_phase {t : TurnState} {b : Board} {r c : Int} (h : ownShooter t b r c) :
    t = TurnState.WhiteShoot ∨ t = TurnState.BlackShoot := by
  rcases h with ⟨h, -⟩ | ⟨h, -⟩
  · exact Or.inl h
  · exact Or.inr h

/-- A state that agrees with `s` in the fields that `Replayed` reads. -/
theorem Replayed.congr_fields {a : Bool} {s s1 : Chessboard} (h : Replayed a s)
    (hb : s1.m_board = s.m_board) (ht : s1.m_turnState = s.m_turnState)
    (hh : s1.m_history = s.m_history) (hc : s1.m_currentMove = s.m_currentMove)
    (hs : s1.m_selected = s.m_selected
      ∨ (s.m_turnState = TurnState.WhiteMove ∨ s.m_turnState = TurnState.BlackMove)) :
    Replayed a s1 := by
  obtain ⟨r, hplay, hcount, hcase⟩ := h
  refine ⟨r, by rw [hh]; exact hplay, by rw [hh]; exact hcount, ?_⟩
  rcases hcase with ⟨e1, e2, e3⟩ | ⟨hown, hcl, e1, e2, e3⟩
  · exact Or.inl ⟨by rw [hb]; exact e1, by rw [ht]; exact e2, e3⟩
  · rcases hs with hs | hs
    · right
      rw [hc, hb, ht, hs]
      exact ⟨hown, hcl, e1, e2, e3⟩
    · exfalso
      have := nextPhase_move_ne _ (ownPiece_phase hown)
      rw [e2] at hs
      rcases hs with hs | hs
      · exact this.1 hs
      · exact this.2.1 hs

theorem Replayed.step_op {a : Bool} {s s1 : Chessboard} (op : Op) (h : Replayed a s)
    (hop : applyOp s op = some s1) : Replayed a s1 := by
  obtain ⟨r, hplay, hcount, hcase⟩ := id h
  cases op with
  | tryToSelect row col =>
    simp only [Amazons.applyOp, Option.some.injEq] at hop
    subst hop
    unfold tryToSelect
    split_ifs with h1 h2
    · exact h
    · refine h.congr_fields rfl rfl rfl rfl (Or.inr ?_)
      rcases h2 with ⟨e, -⟩ | ⟨e, -⟩
      · exact Or.inl e
      · exact Or.inr e
    · exact h
  | tryToClearSelected =>
    simp only [Amazons.applyOp, Option.some.injEq] at hop
    subst hop
    unfold tryToClearSelected
    split_ifs with h1
    · exact h.congr_fields rfl rfl rfl rfl (Or.inr h1)
    · exact h
  | moveSelectedTo row col =>
    simp only [Amazons.applyOp, Option.map_eq_some', Prod.exists, exists_eq_right] at hop
    obtain ⟨ok, hop⟩ := hop
    rcases moveSelectedTo_cases s row col ok s1 hop with ⟨-, rfl⟩ | ⟨-, hown, hcl, rfl⟩
    · exact h
    · rcases hcase with ⟨e1, e2, e3⟩ | ⟨hown1, -, -, e2, -⟩
      · refine ⟨r, hplay, hcount, Or.inr ?_⟩
        simp only
        rw [e1, e2] at hown
        rw [e1] at hcl
        exact ⟨hown, hcl, by rw [e1], by rw [e2], trivial⟩
      · exfalso
        have := nextPhase_move_ne _ (ownPiece_phase hown1)
        rw [e2] at hown
        rcases ownPiece_phase hown with hs | hs
        · exact this.1 hs
        · exact this.2.1 hs
  | shootAt row col =>
    simp only [Amazons.applyOp, Option.map_eq_some', Prod.exists, exists_eq_right] at hop
    obtain ⟨ok, hop⟩ := hop
    rcases shootAt_cases s row col ok s1 hop with ⟨-, rfl⟩
      | ⟨-, hshooter, hcl, -, hb, -, ht, hh, -⟩
    · exact h
    · rcases hcase with ⟨e1, e2, e3⟩ | ⟨hown1, hcl1, e1, e2, e3⟩
      · exfalso
        rw [e2] at hshooter
        rcases ownShooter_phase hshooter with hs | hs <;> rcases e3 with e3 | e3 <;>
          rw [e3] at hs <;> cases hs
      · rw [e3] at hcl
        simp only at hcl
        obtain ⟨r1, hmk, hb1, ht1, hc1⟩ := replay_step r
          { s.m_currentMove with shootPos := (row, col) } hown1 hcl1 (by rw [← e1]; exact hcl)
        refine ⟨r1, ?_, ?_, Or.inl ⟨?_, ?_, ?_⟩⟩
        · rw [hh]
          exact playMoves_append _ _ _ r r1 hplay hmk
        · rw [hh, hc1, hcount, List.length_append, List.length_singleton]
        · rw [hb, hb1, e1]
        · rw [ht, ht1, e2]
        · rw [ht1]
          exact (nextPhase_move_ne _ (ownPiece_phase hown1)).2.2
  | makeMove move =>
    simp only [Amazons.applyOp, Option.map_eq_some', Prod.exists, exists_eq_right] at hop
    obtain ⟨ok, hop⟩ := hop
    by_cases hin : inBoard move.startPos.1 move.startPos.2
    · rcases hcase with ⟨e1, e2, e3⟩ | ⟨hown1, -, -, e2, -⟩
      · rcases makeMove_cases s move hin with ⟨-, h2⟩ | ⟨hown, -, h2⟩ | ⟨hown, hcl, -, h2⟩
            | ⟨hown, hcl, hsh, s2, h4, h5, -, h6, h7⟩
        · rw [h2] at hop
          simp only [Option.some.injEq, Prod.mk.injEq] at hop
          rw [← hop.2]
          exact h
        · rw [h2] at hop
          simp only [Option.some.injEq, Prod.mk.injEq] at hop
          rw [← hop.2]
          exact h.congr_fields rfl rfl rfl rfl (Or.inr (ownPiece_phase hown))
        · rw [h2] at hop
          simp only [Option.some.injEq, Prod.mk.injEq] at hop
          rw [← hop.2]
          refine ⟨r, hplay, hcount, Or.inr ?_⟩
          simp only
          rw [e1, e2] at hown
          rw [e1] at hcl
          exact ⟨hown, hcl, by rw [e1], by rw [e2], trivial⟩
        · rw [h4] at hop
          simp only [Option.some.injEq, Prod.mk.injEq] at hop
          rw [← hop.2]
          rw [e1, e2] at hown
          rw [e1] at hcl hsh
          obtain ⟨r1, hmk, hb1, ht1, hc1⟩ := replay_step r move hown hcl hsh
          refine ⟨r1, ?_, ?_, Or.inl ⟨?_, ?_, ?_⟩⟩
          · rw [h7]
            exact playMoves_append _ _ _ r r1 hplay hmk
          · rw [h7, hc1, hcount, List.length_append, List.length_singleton]
          · rw [h5, hb1, e1]
          · rw [h6, ht1, e2]
          · rw [ht1]
            exact (nextPhase_move_ne _ (ownPiece_phase hown)).2.2
      · have hno : ¬ ownPiece s.m_turnState s.m_board move.startPos.1 move.startPos.2 := by
          intro hown
          have := nextPhase_move_ne _ (ownPiece_phase hown1)
          rw [e2] at hown
          rcases ownPiece_phase hown with hs | hs
          · exact this.1 hs
          · exact this.2.1 hs
        rcases makeMove_cases s move hin with ⟨-, h2⟩ | ⟨hown, -⟩ | ⟨hown, -⟩ | ⟨hown, -⟩
        · rw [h2] at hop
          simp only [Option.some.injEq, Prod.mk.injEq] at hop
          rw [← hop.2]
          exact h
        · exact absurd hown hno
        · exact absurd hown hno
        · exact absurd hown hno
    · rw [makeMove_none s move hin] at hop
      cases hop

theorem Replayed.run_ops {a : Bool} (ops : List Op) :
    ∀ s s1 : Chessboard, Replayed a s → runOps s ops = some s1 → Replayed a s1 := by
  induction ops with
  | nil =>
    intro s s1 h hrun
    simp only [Amazons.runOps, Option.some.injEq] at hrun
    subst hrun
    exact h
  | cons op ops ih =>
    intro s s1 h hrun
    simp only [Amazons.runOps, Option.bind_eq_some] at hrun
    obtain ⟨s2, h2, h3⟩ := hrun
    exact ih s2 s1 (h.step_op op h2) h3

theorem Replayed.fresh_board (a a1 : Bool) : Replayed a1 (newChessboard a) := by
  refine ⟨newChessboard a1, rfl, ?_, Or.inl ⟨rfl, rfl, Or.inl rfl⟩⟩
  cases a <;> cases a1 <;> decide

/-- C36: the history replays to the same position.  For every state reached
from a freshly constructed board by calls of `tryToSelect`,
`tryToClearSelected`, `moveSelectedTo`, `shootAt` and `makeMove` that is in a
Move phase, playing the recorded history in order with `makeMove` from a fresh
board succeeds on every move and gives the same grid and the same phase, and
the number of Block cells is the length of the history. -/
theorem history_replay (a a1 : Bool) (ops : List Op) (s : Chessboard)
    (hrun : runOps (newChessboard a) ops = some s)
    (hphase : s.m_turnState = TurnState.WhiteMove ∨ s.m_turnState = TurnState.BlackMove) :
    ∃ r, playMoves (newChessboard a1) s.m_history = some r
      ∧ r.m_board = s.m_board ∧ r.m_turnState = s.m_turnState
      ∧ countCells s.m_board Cell.Block = s.m_history.length := by
  obtain ⟨r, hplay, hcount, hcase⟩ :=
    Replayed.run_ops ops (newChessboard a) s (Replayed.fresh_board a a1) hrun
  rcases hcase with ⟨e1, e2, -⟩ | ⟨hown, -, -, e2, -⟩
  · exact ⟨r, hplay, e1.symm, e2.symm, by rw [e1]; exact hcount⟩
  · exfalso
    have := nextPhase_move_ne _ (ownPiece_phase hown)
    rw [e2] at hphase
    rcases hphase with hs | hs
    · exact this.1 hs
    · exact this.2.1 hs

theorem history_replay_witness :
    ∃ s, runOps (newChessboard true)
          [Op.tryToSelect 5 0, Op.moveSelectedTo 5 3, Op.shootAt 2 3] = some s
      ∧ s.m_turnState = TurnState.BlackMove
      ∧ s.m_history = [openingMove]
      ∧ ∃ r, playMoves (newChessboard false) s.m_history = some r
          ∧ r.m_board = s.m_board ∧ r.m_turnState = s.m_turnState
          ∧ countCells s.m_board Cell.Block = s.m_history.length := by
  have h : ((runOps (newChessboard true)
      [Op.tryToSelect 5 0, Op.moveSelectedTo 5 3, Op.shootAt 2 3]).map
        fun s => (s.m_turnState, s.m_history)) = some (TurnState.BlackMove, [openingMove]) := by
    decide
  obtain ⟨s, hrun, hs⟩ := Option.map_eq_some'.mp h
  simp only [Prod.mk.injEq] at hs
  exact ⟨s, hrun, hs.1, hs.2,
    history_replay true false _ s hrun (Or.inr hs.1)⟩

/-! ## The counts of `getAllMovesForSide` and the move generator -/

theorem dirSteps_nonneg (b : Board) (r c : Int) (dir : Nat) :
    0 ≤ dirSteps (getMoveRange b r c) dir := by
  by_cases hin : inBoard r c
  · by_cases hd : dir < 8
    · exact (isReach_dir b r c hin dir hd).1
    · have : 8 ≤ dir := by omega
      unfold dirSteps
      split <;> omega
  · have hb : r < 0 ∨ r ≥ 8 ∨ c < 0 ∨ c ≥ 8 := by unfold inBoard at hin; omega
    unfold getMoveRange
    rw [if_pos hb]
    unfold dirSteps
    split <;> exact le_refl _

theorem getTotalMoves_eq (range : MoveRange) :
    range.getTotalMoves
      = dirSteps range 0 + dirSteps range 1 + dirSteps range 2 + dirSteps range 3
        + dirSteps range 4 + dirSteps range 5 + dirSteps range 6 + dirSteps range 7 := by
  simp only [MoveRange.getTotalMoves, dirSteps]
  ring

theorem length_stepsUpTo (n : Int) (h : 0 ≤ n) : ((stepsUpTo n).length : Int) = n := by
  unfold stepsUpTo
  rw [List.length_map, List.length_range']
  omega

theorem range_eight : List.range 8 = [0, 1, 2, 3, 4, 5, 6, 7] := by decide

theorem shootOptsFor_length (b : Board) (r c : Int) (b1 : Board) (r1 c1 : Int) :
    ((shootOptsFor b r c (getMoveRange b1 r1 c1)).length : Int)
      = (getMoveRange b1 r1 c1).getTotalMoves := by
  unfold shootOptsFor
  rw [range_eight, getTotalMoves_eq]
  simp only [List.flatMap_cons, List.flatMap_nil, List.length_append, List.length_map,
    List.length_nil, Nat.cast_add, Nat.cast_zero, add_zero]
  rw [length_stepsUpTo _ (dirSteps_nonneg b1 r1 c1 0), length_stepsUpTo _ (dirSteps_nonneg b1 r1 c1 1),
    length_stepsUpTo _ (dirSteps_nonneg b1 r1 c1 2), length_stepsUpTo _ (dirSteps_nonneg b1 r1 c1 3),
    length_stepsUpTo _ (dirSteps_nonneg b1 r1 c1 4), length_stepsUpTo _ (dirSteps_nonneg b1 r1 c1 5),
    length_stepsUpTo _ (dirSteps_nonneg b1 r1 c1 6), length_stepsUpTo _ (dirSteps_nonneg b1 r1 c1 7)]
  ring

theorem shootMoves_length (b : Board) (r c tr tc : Int) :
    ((shootMoves b r c tr tc).length : Int)
      = (getMoveRangeIgnoring b tr tc r c).1.getTotalMoves := by
  unfold shootMoves getMoveRangeIgnoring
  simp only
  rw [range_eight, getTotalMoves_eq]
  simp only [List.flatMap_cons, List.flatMap_nil, List.length_append, List.length_map,
    List.length_nil, Nat.cast_add, Nat.cast_zero, add_zero]
  rw [length_stepsUpTo _ (dirSteps_nonneg _ tr tc 0), length_stepsUpTo _ (dirSteps_nonneg _ tr tc 1),
    length_stepsUpTo _ (dirSteps_nonneg _ tr tc 2), length_stepsUpTo _ (dirSteps_nonneg _ tr tc 3),
    length_stepsUpTo _ (dirSteps_nonneg _ tr tc 4), length_stepsUpTo _ (dirSteps_nonneg _ tr tc 5),
    length_stepsUpTo _ (dirSteps_nonneg _ tr tc 6), length_stepsUpTo _ (dirSteps_nonneg _ tr tc 7)]
  ring

/-- The length of a doubly nested list of lists against the sum of their
lengths. -/
theorem length_flatMap_flatMap {α : Type} (steps : Nat → List Int) (F : Nat → Int → List α)
    (v : Nat → Int → Int) (h : ∀ d s, ((F d s).length : Int) = v d s) :
    ∀ ds : List Nat,
      (((ds.flatMap fun d => (steps d).flatMap fun s => F d s).length : Nat) : Int)
        = (ds.flatMap fun d => (steps d).map fun s => v d s).sum := by
  have inner : ∀ (d : Nat) (ss : List Int),
      (((ss.flatMap fun s => F d s).length : Nat) : Int) = (ss.map fun s => v d s).sum := by
    intro d ss
    induction ss with
    | nil => rfl
    | cons s ss ih =>
      rw [List.flatMap_cons, List.length_append, Nat.cast_add, ih, h, List.map_cons,
        List.sum_cons]
  intro ds
  induction ds with
  | nil => rfl
  | cons d ds ih =>
    rw [List.flatMap_cons, List.length_append, Nat.cast_add, ih, inner, List.flatMap_cons,
      List.sum_append]

theorem pieceMoves_length (e : Bool) (b : Board) (w : Bool) (p : Int × Int) :
    ((pieceMoves e b w p.1 p.2).length : Int)
      = if counted e b w p = true then (shootOptsFor b p.1 p.2 (getMoveRange b p.1 p.2)).sum
        else 0 := by
  unfold pieceMoves counted
  by_cases hown : b p.1 p.2 = ownCell w
  · rw [if_pos ((own_iff b w p.1 p.2).mpr hown)]
    simp only [hown, decide_True, Bool.true_and]
    by_cases hskip : (!e && (getMoveRange b p.1 p.2).inClosedRegion) = true
    · rw [if_pos hskip, hskip]
      rfl
    · rw [if_neg hskip]
      have hs : (!e && (getMoveRange b p.1 p.2).inClosedRegion) = false := by
        simpa using hskip
      rw [hs]
      simp only [Bool.not_false, if_true]
      by_cases hcan : (!(getMoveRange b p.1 p.2).canMove) = true
      · rw [if_pos hcan]
        have hlen := shootOptsFor_length b p.1 p.2 b p.1 p.2
        have htot : (getMoveRange b p.1 p.2).getTotalMoves ≤ 0 := by
          simpa [MoveRange.canMove] using hcan
        have hnil : shootOptsFor b p.1 p.2 (getMoveRange b p.1 p.2) = [] := by
          apply List.eq_nil_of_length_eq_zero
          omega
        rw [hnil]
        rfl
      · rw [if_neg hcan]
        unfold shootOptsFor
        exact length_flatMap_flatMap _ _ _ (fun d s => shootMoves_length b p.1 p.2 _ _) _
  · rw [if_neg (fun h => hown ((own_iff b w p.1 p.2).mp h))]
    simp [hown]

theorem scanPieces_counts (e : Bool) (b : Board) (w : Bool) :
    ∀ (rest : List (Int × Int)) (index : Nat) (a : AllMoves) (index1 : Nat) (a1 : AllMoves),
      scanPieces e b w rest index a = some (index1, a1) →
      a1.moveOpts = a.moveOpts + (rest.map fun p =>
          if counted e b w p = true then (getMoveRange b p.1 p.2).getTotalMoves else 0).sum
        ∧ a1.shootOpts = a.shootOpts ++ rest.flatMap (fun p =>
            if counted e b w p = true then shootOptsFor b p.1 p.2 (getMoveRange b p.1 p.2)
            else [])
        ∧ a1.actionCount = a.actionCount + (rest.map fun p =>
            if counted e b w p = true then (shootOptsFor b p.1 p.2 (getMoveRange b p.1 p.2)).sum
            else 0).sum := by
  intro rest
  induction rest with
  | nil =>
    intro index a index1 a1 h
    simp only [scanPieces, Option.some.injEq, Prod.mk.injEq] at h
    rw [← h.2]
    simp
  | cons p rest ih =>
    intro index a index1 a1 h
    unfold scanPieces at h
    by_cases hown : b p.1 p.2 = ownCell w
    · rw [if_pos ((own_iff b w p.1 p.2).mpr hown)] at h
      unfold recordPiece at h
      by_cases hi : index < 4
      · rw [if_pos hi] at h
        simp only at h
        by_cases hskip : (!e && (getMoveRange b p.1 p.2).inClosedRegion) = true
        · rw [if_pos hskip] at h
          have hc : counted e b w p = false := by
            unfold counted
            rw [hskip]
            simp
          obtain ⟨h1, h2, h3⟩ := ih _ _ _ _ h
          simp only [List.map_cons, List.sum_cons, List.flatMap_cons, hc, Bool.false_eq_true,
            if_false, zero_add, List.nil_append]
          exact ⟨h1, h2, h3⟩
        · rw [if_neg hskip] at h
          have hc : counted e b w p = true := by
            unfold counted
            have hs : (!e && (getMoveRange b p.1 p.2).inClosedRegion) = false := by
              simpa using hskip
            rw [hs]
            simp [hown]
          obtain ⟨h1, h2, h3⟩ := ih _ _ _ _ h
          simp only [List.map_cons, List.sum_cons, List.flatMap_cons, hc, if_true]
          simp only at h1 h2 h3
          refine ⟨?_, ?_, ?_⟩
          · rw [h1]; ring
          · rw [h2, List.append_assoc]
          · rw [h3]; ring
      · rw [if_neg hi] at h
        cases h
    · rw [if_neg (fun h => hown ((own_iff b w p.1 p.2).mp h))] at h
      have hc : counted e b w p = false := by
        unfold counted
        simp [hown]
      obtain ⟨h1, h2, h3⟩ := ih _ _ _ _ h
      simp only [List.map_cons, List.sum_cons, List.flatMap_cons, hc, Bool.false_eq_true,
        if_false, zero_add, List.nil_append]
      exact ⟨h1, h2, h3⟩

theorem flatMap_pairs {α : Type} (f : Int × Int → List α) (cs : List Int) :
    ∀ rs : List Int,
      (rs.flatMap fun r => cs.map fun c => (r, c)).flatMap f
        = rs.flatMap fun r => cs.flatMap fun c => f (r, c) := by
  have inner : ∀ (r : Int) (l : List Int),
      (l.map fun c => (r, c)).flatMap f = l.flatMap fun c => f (r, c) := by
    intro r l
    induction l with
    | nil => rfl
    | cons c l ih => rw [List.map_cons, List.flatMap_cons, List.flatMap_cons, ih]
  intro rs
  induction rs with
  | nil => rfl
  | cons r rs ih =>
    rw [List.flatMap_cons, List.flatMap_append, ih, List.flatMap_cons, inner]

theorem generateLegalMoves_squares (e : Bool) (b : Board) (w : Bool) :
    generateLegalMoves e b w = squares.flatMap fun p => pieceMoves e b w p.1 p.2 := by
  unfold generateLegalMoves squares
  rw [flatMap_pairs]

theorem length_flatMap_cast {α β : Type} (f : α → List β) :
    ∀ l : List α, ((l.flatMap f).length : Int) = (l.map fun x => ((f x).length : Int)).sum := by
  intro l
  induction l with
  | nil => rfl
  | cons x l ih =>
    rw [List.flatMap_cons, List.length_append, Nat.cast_add, ih, List.map_cons, List.sum_cons]

theorem sum_flatMap_int {α : Type} (f : α → List Int) :
    ∀ l : List α, (l.flatMap f).sum = (l.map fun x => (f x).sum).sum := by
  intro l
  induction l with
  | nil => rfl
  | cons x l ih =>
    rw [List.flatMap_cons, List.sum_append, ih, List.map_cons, List.sum_cons]

theorem sum_map_ite_filter {α : Type} (p : α → Bool) (f : α → Int) :
    ∀ l : List α, (l.map fun x => if p x = true then f x else 0).sum
      = ((l.filter p).map f).sum := by
  intro l
  induction l with
  | nil => rfl
  | cons x l ih =>
    rw [List.map_cons, List.sum_cons, ih]
    by_cases h : p x = true
    · rw [if_pos h, List.filter_cons_of_pos h, List.map_cons, List.sum_cons]
    · rw [if_neg h, List.filter_cons_of_neg h, zero_add]

theorem getAllMovesForSide_sums (e : Bool) (b : Board) (w : Bool) (a : AllMoves)
    (h : getAllMovesForSide e b w = some a) :
    a.actionCount = (generateLegalMoves e b w).length
      ∧ (a.shootOpts.length : Int) = a.moveOpts
      ∧ a.shootOpts.sum = a.actionCount
      ∧ a.moveOpts = (((piecesOf b w).filter fun p =>
            !(!e && (getMoveRange b p.1 p.2).inClosedRegion)).map fun p =>
          (getMoveRange b p.1 p.2).getTotalMoves).sum := by
  unfold getAllMovesForSide at h
  obtain ⟨⟨index1, a1⟩, hscan, ha⟩ := Option.map_eq_some'.mp h
  simp only at ha
  subst ha
  obtain ⟨h1, h2, h3⟩ := scanPieces_counts e b w squares 0 {} index1 a1 hscan
  have hm0 : ({} : AllMoves).moveOpts = 0 := rfl
  have hs0 : ({} : AllMoves).shootOpts = [] := rfl
  have ha0 : ({} : AllMoves).actionCount = 0 := rfl
  rw [hm0, zero_add] at h1
  rw [hs0, List.nil_append] at h2
  rw [ha0, zero_add] at h3
  refine ⟨?_, ?_, ?_, ?_⟩
  · rw [h3, generateLegalMoves_squares, length_flatMap_cast]
    congr 1
    apply List.map_congr_left
    intro p _
    rw [pieceMoves_length]
  · rw [h2, h1, length_flatMap_cast]
    congr 1
    apply List.map_congr_left
    intro p _
    by_cases hc : counted e b w p = true
    · rw [if_pos hc, if_pos hc, shootOptsFor_length]
    · rw [if_neg hc, if_neg hc]
      rfl
  · rw [h2, h3, sum_flatMap_int]
    congr 1
    apply List.map_congr_left
    intro p _
    by_cases hc : counted e b w p = true
    · rw [if_pos hc, if_pos hc]
    · rw [if_neg hc, if_neg hc]
      rfl
  · rw [h1, sum_map_ite_filter]
    unfold piecesOf
    rw [List.filter_filter]
    congr 2
    apply List.filter_congr
    intro p _
    unfold counted
    rw [Bool.and_comm]

/-- C39: the evaluator's counts agree with the generator.  On a board with at
most four pieces of the side, `getAllMovesForSide(side)` returns, its
`actionCount` is the number of moves of `generateLegalMoves(side)` (with the
same endgame flag), `shootOpts` has exactly `moveOpts` entries and their sum is
`actionCount`, and `moveOpts` is the sum of `getTotalMoves()` over the pieces of
the side that are not skipped as enclosed. -/
theorem getAllMovesForSide_counts (m_endgame isWhite : Bool) (b : Board)
    (hlen : (piecesOf b isWhite).length ≤ 4) :
    ∃ allMoves, getAllMovesForSide m_endgame b isWhite = some allMoves
      ∧ allMoves.actionCount = (generateLegalMoves m_endgame b isWhite).length
      ∧ (allMoves.shootOpts.length : Int) = allMoves.moveOpts
      ∧ allMoves.shootOpts.sum = allMoves.actionCount
      ∧ allMoves.moveOpts = (((piecesOf b isWhite).filter fun p =>
            !(!m_endgame && (getMoveRange b p.1 p.2).inClosedRegion)).map fun p =>
          (getMoveRange b p.1 p.2).getTotalMoves).sum := by
  obtain ⟨a, ha, -⟩ := getAllMovesForSide_spec m_endgame b isWhite hlen
  exact ⟨a, ha, getAllMovesForSide_sums m_endgame b isWhite a ha⟩

theorem getAllMovesForSide_counts_witness :
    (piecesOf initialBoard true).length = 4
      ∧ ∃ allMoves, getAllMovesForSide false initialBoard true = some allMoves
        ∧ allMoves.actionCount = (generateLegalMoves false initialBoard true).length
        ∧ (allMoves.shootOpts.length : Int) = allMoves.moveOpts
        ∧ allMoves.shootOpts.sum = allMoves.actionCount := by
  have hlen : (piecesOf initialBoard true).length = 4 := by decide
  obtain ⟨a, h1, h2, h3, h4, -⟩ :=
    getAllMovesForSide_counts false true initialBoard (by rw [hlen])
  exact ⟨hlen, a, h1, h2, h3, h4⟩

/-! ## The range of the evaluation -/

theorem countWhile_le_eight (cond : Int → Bool) : countWhile cond 8 0 ≤ 8 := by
  have := (countWhile_spec cond 8 0).2.1
  omega

theorem dirSteps_le (b : Board) (r c : Int) (dir : Nat) :
    dirSteps (getMoveRange b r c) dir ≤ 8 := by
  unfold getMoveRange
  split_ifs
  · unfold dirSteps
    split <;> decide
  · unfold dirSteps
    split <;> first | (dsimp only; exact countWhile_le_eight _) | decide

theorem getTotalMoves_range (b : Board) (r c : Int) :
    0 ≤ (getMoveRange b r c).getTotalMoves ∧ (getMoveRange b r c).getTotalMoves ≤ 64 := by
  rw [getTotalMoves_eq]
  have l0 := dirSteps_le b r c 0
  have l1 := dirSteps_le b r c 1
  have l2 := dirSteps_le b r c 2
  have l3 := dirSteps_le b r c 3
  have l4 := dirSteps_le b r c 4
  have l5 := dirSteps_le b r c 5
  have l6 := dirSteps_le b r c 6
  have l7 := dirSteps_le b r c 7
  have n0 := dirSteps_nonneg b r c 0
  have n1 := dirSteps_nonneg b r c 1
  have n2 := dirSteps_nonneg b r c 2
  have n3 := dirSteps_nonneg b r c 3
  have n4 := dirSteps_nonneg b r c 4
  have n5 := dirSteps_nonneg b r c 5
  have n6 := dirSteps_nonneg b r c 6
  have n7 := dirSteps_nonneg b r c 7
  omega

theorem territoryArea_range (b : Board) (r c : Int) :
    -1 ≤ (getMoveRange b r c).territoryArea ∧ (getMoveRange b r c).territoryArea ≤ 64 := by
  by_cases hin : inBoard r c
  · rw [getMoveRange_territoryArea b r c hin]
    rcases getTerritoryArea_cases b r c (decide (b r c = Cell.White)) hin with ⟨e, -⟩ | ⟨b1, hok⟩
    · rw [e]; omega
    · have h1 := hok.count
      have h2 := hok.nonneg
      have h3 := countCells_le b Cell.Empty
      omega
  · have hb : r < 0 ∨ r ≥ 8 ∨ c < 0 ∨ c ≥ 8 := by unfold inBoard at hin; omega
    unfold getMoveRange
    rw [if_pos hb]
    decide

theorem sum_range_le (M : Int) :
    ∀ l : List Int, (∀ x ∈ l, 0 ≤ x ∧ x ≤ M) → 0 ≤ l.sum ∧ l.sum ≤ M * l.length := by
  intro l
  induction l with
  | nil => intro _; simp
  | cons x l ih =>
    intro h
    obtain ⟨h1, h2⟩ := ih (fun y hy => h y (List.mem_cons_of_mem _ hy))
    obtain ⟨h3, h4⟩ := h x (List.mem_cons_self _ _)
    rw [List.sum_cons, List.length_cons]
    push_cast
    constructor
    · omega
    · nlinarith

theorem mem_shootOptsFor (b : Board) (r c : Int) (range : MoveRange) (x : Int)
    (h : x ∈ shootOptsFor b r c range) : 0 ≤ x ∧ x ≤ 64 := by
  unfold shootOptsFor at h
  simp only [List.mem_flatMap, List.mem_map] at h
  obtain ⟨dir, -, step, -, rfl⟩ := h
  unfold getMoveRangeIgnoring
  exact getTotalMoves_range _ _ _

/-- The ranges of the counts that `getAllMovesForSide` returns for a side with
at most four pieces. -/
theorem getAllMovesForSide_range (e : Bool) (b : Board) (w : Bool) (a : AllMoves)
    (hlen : (piecesOf b w).length ≤ 4) (h : getAllMovesForSide e b w = some a) :
    0 ≤ a.moveOpts ∧ a.moveOpts ≤ 256 ∧ 0 ≤ a.shootOpts.sum ∧ a.shootOpts.sum ≤ 16384
      ∧ ∀ j, -1 ≤ (a.moves.getD j {}).territoryArea ∧ (a.moves.getD j {}).territoryArea ≤ 64 := by
  obtain ⟨-, h2, -, h4⟩ := getAllMovesForSide_sums e b w a h
  have hm : 0 ≤ a.moveOpts ∧ a.moveOpts ≤ 256 := by
    rw [h4]
    have hs := sum_range_le 64 (((piecesOf b w).filter fun p =>
        !(!e && (getMoveRange b p.1 p.2).inClosedRegion)).map fun p =>
          (getMoveRange b p.1 p.2).getTotalMoves) (by
      intro x hx
      simp only [List.mem_map] at hx
      obtain ⟨p, -, rfl⟩ := hx
      exact getTotalMoves_range _ _ _)
    have hl : ((piecesOf b w).filter fun p =>
        !(!e && (getMoveRange b p.1 p.2).inClosedRegion)).length ≤ 4 :=
      le_trans (List.length_filter_le _ _) hlen
    rw [List.length_map] at hs
    constructor
    · exact hs.1
    · have := hs.2
      have hl1 : ((((piecesOf b w).filter fun p =>
        !(!e && (getMoveRange b p.1 p.2).inClosedRegion)).length : Nat) : Int) ≤ 4 := by
        exact_mod_cast hl
      omega
  have hentries : ∀ x ∈ a.shootOpts, 0 ≤ x ∧ x ≤ 64 := by
    unfold getAllMovesForSide at h
    obtain ⟨⟨index1, a1⟩, hscan, ha⟩ := Option.map_eq_some'.mp h
    simp only at ha
    subst ha
    obtain ⟨-, hs, -⟩ := scanPieces_counts e b w squares 0 {} index1 a1 hscan
    have hs0 : ({} : AllMoves).shootOpts = [] := rfl
    rw [hs0, List.nil_append] at hs
    intro x hx
    rw [hs] at hx
    simp only [List.mem_flatMap] at hx
    obtain ⟨p, -, hxp⟩ := hx
    split_ifs at hxp
    · exact mem_shootOptsFor _ _ _ _ _ hxp
    · cases hxp
  have hsum := sum_range_le 64 a.shootOpts hentries
  refine ⟨hm.1, hm.2, hsum.1, ?_, ?_⟩
  · have := hsum.2
    have := hm.2
    omega
  · intro j
    obtain ⟨a1, ha1, -, hmoves, -⟩ := getAllMovesForSide_spec e b w hlen
    rw [h] at ha1
    simp only [Option.some.injEq] at ha1
    subst ha1
    rw [hmoves j]
    by_cases hj : j < ((piecesOf b w).map fun p => getMoveRange b p.1 p.2).length
    · rw [List.getD_eq_getElem _ _ hj, List.getElem_map]
      exact territoryArea_range _ _ _
    · rw [List.getD_eq_default _ _ (by omega)]
      decide

theorem signedPow_abs (pow : ℚ → ℚ → ℚ)
    (hpow : ∀ x e : ℚ, 0 ≤ x → 0 < e → e ≤ 1 → 0 ≤ pow x e ∧ pow x e ≤ max 1 x)
    (d : Int) (e : ℚ) (he0 : 0 < e) (he1 : e ≤ 1) (D : ℚ) (hD : 1 ≤ D) (hd : |(d : ℚ)| ≤ D) :
    |signedPow pow d e| ≤ D := by
  unfold signedPow
  obtain ⟨p0, p1⟩ := hpow |(d : ℚ)| e (abs_nonneg _) he0 he1
  have hle : pow |(d : ℚ)| e ≤ D := le_trans p1 (max_le hD hd)
  split_ifs
  · rw [mul_one, abs_of_nonneg p0]
    exact hle
  · rw [mul_neg, mul_one, abs_neg, abs_of_nonneg p0]
    exact hle

theorem range_four : List.range 4 = [0, 1, 2, 3] := by decide

theorem territorySum_range (a : AllMoves)
    (h : ∀ j, -1 ≤ (a.moves.getD j {}).territoryArea ∧ (a.moves.getD j {}).territoryArea ≤ 64) :
    0 ≤ territorySum a ∧ territorySum a ≤ 256 := by
  have t : ∀ j, 0 ≤ (if (a.moves.getD j {}).inClosedRegion = true
      then (a.moves.getD j {}).territoryArea else 0)
      ∧ (if (a.moves.getD j {}).inClosedRegion = true
        then (a.moves.getD j {}).territoryArea else 0) ≤ 64 := by
    intro j
    by_cases hc : (a.moves.getD j {}).inClosedRegion = true
    · rw [if_pos hc]
      have : (a.moves.getD j {}).territoryArea ≥ 0 := by
        simpa [MoveRange.inClosedRegion] using hc
      exact ⟨this, (h j).2⟩
    · rw [if_neg hc]
      omega
  unfold territorySum
  rw [range_four]
  simp only [List.map_cons, List.map_nil, List.sum_cons, List.sum_nil, add_zero]
  have t0 := t 0
  have t1 := t 1
  have t2 := t 2
  have t3 := t 3
  omega

theorem distToCenter_range (p : Int × Int)
    (hp : 0 ≤ p.1 ∧ p.1 ≤ 7 ∧ 0 ≤ p.2 ∧ p.2 ≤ 7) :
    0 ≤ distToCenter p ∧ distToCenter p ≤ 7 := by
  obtain ⟨h1, h2, h3, h4⟩ := hp
  have c1 : (0 : ℚ) ≤ (p.1 : ℚ) := by exact_mod_cast h1
  have c2 : (p.1 : ℚ) ≤ 7 := by exact_mod_cast h2
  have c3 : (0 : ℚ) ≤ (p.2 : ℚ) := by exact_mod_cast h3
  have c4 : (p.2 : ℚ) ≤ 7 := by exact_mod_cast h4
  have a1 : |(p.1 : ℚ) - 7 / 2| ≤ 7 / 2 := abs_le.mpr ⟨by linarith, by linarith⟩
  have a2 : |(p.2 : ℚ) - 7 / 2| ≤ 7 / 2 := abs_le.mpr ⟨by linarith, by linarith⟩
  unfold distToCenter
  constructor
  · exact add_nonneg (abs_nonneg _) (abs_nonneg _)
  · linarith

theorem centerSum_abs (my opp : AllMoves)
    (hmy : ∀ j, j < 4 → 0 ≤ (my.positions.getD j (0, 0)).1 ∧ (my.positions.getD j (0, 0)).1 ≤ 7
      ∧ 0 ≤ (my.positions.getD j (0, 0)).2 ∧ (my.positions.getD j (0, 0)).2 ≤ 7)
    (hopp : ∀ j, j < 4 → 0 ≤ (opp.positions.getD j (0, 0)).1
      ∧ (opp.positions.getD j (0, 0)).1 ≤ 7
      ∧ 0 ≤ (opp.positions.getD j (0, 0)).2 ∧ (opp.positions.getD j (0, 0)).2 ≤ 7) :
    |centerSum my opp| ≤ 28 := by
  unfold centerSum
  rw [range_four]
  simp only [List.map_cons, List.map_nil, List.sum_cons, List.sum_nil, add_zero]
  have m0 := distToCenter_range _ (hmy 0 (by omega))
  have m1 := distToCenter_range _ (hmy 1 (by omega))
  have m2 := distToCenter_range _ (hmy 2 (by omega))
  have m3 := distToCenter_range _ (hmy 3 (by omega))
  have o0 := distToCenter_range _ (hopp 0 (by omega))
  have o1 := distToCenter_range _ (hopp 1 (by omega))
  have o2 := distToCenter_range _ (hopp 2 (by omega))
  have o3 := distToCenter_range _ (hopp 3 (by omega))
  exact abs_le.mpr ⟨by linarith, by linarith⟩

theorem indexPairs_eq : indexPairs = [(0, 1), (0, 2), (0, 3), (1, 2), (1, 3), (2, 3)] := by
  decide

theorem pairDistance_range (a : AllMoves)
    (h : ∀ j, j < 4 → 0 ≤ (a.positions.getD j (0, 0)).1 ∧ (a.positions.getD j (0, 0)).1 ≤ 7
      ∧ 0 ≤ (a.positions.getD j (0, 0)).2 ∧ (a.positions.getD j (0, 0)).2 ≤ 7) :
    0 ≤ pairDistance a ∧ pairDistance a ≤ 84 := by
  have d : ∀ i j, i < 4 → j < 4 →
      0 ≤ |(a.positions.getD i (0, 0)).1 - (a.positions.getD j (0, 0)).1|
          + |(a.positions.getD i (0, 0)).2 - (a.positions.getD j (0, 0)).2|
        ∧ |(a.positions.getD i (0, 0)).1 - (a.positions.getD j (0, 0)).1|
          + |(a.positions.getD i (0, 0)).2 - (a.positions.getD j (0, 0)).2| ≤ 14 := by
    intro i j hi hj
    obtain ⟨a1, a2, a3, a4⟩ := h i hi
    obtain ⟨b1, b2, b3, b4⟩ := h j hj
    have e1 : |(a.positions.getD i (0, 0)).1 - (a.positions.getD j (0, 0)).1| ≤ 7 :=
      abs_le.mpr ⟨by omega, by omega⟩
    have e2 : |(a.positions.getD i (0, 0)).2 - (a.positions.getD j (0, 0)).2| ≤ 7 :=
      abs_le.mpr ⟨by omega, by omega⟩
    have n1 := abs_nonneg ((a.positions.getD i (0, 0)).1 - (a.positions.getD j (0, 0)).1)
    have n2 := abs_nonneg ((a.positions.getD i (0, 0)).2 - (a.positions.getD j (0, 0)).2)
    omega
  unfold pairDistance
  rw [indexPairs_eq]
  simp only [List.map_cons, List.map_nil, List.sum_cons, List.sum_nil, add_zero]
  have d01 := d 0 1 (by omega) (by omega)
  have d02 := d 0 2 (by omega) (by omega)
  have d03 := d 0 3 (by omega) (by omega)
  have d12 := d 1 2 (by omega) (by omega)
  have d13 := d 1 3 (by omega) (by omega)
  have d23 := d 2 3 (by omega) (by omega)
  omega

/-- With the default weights the value of `score` before the terminal
adjustments is small. -/
theorem positionalScore_abs (pow : ℚ → ℚ → ℚ)
    (hpow : ∀ x e : ℚ, 0 ≤ x → 0 < e → e ≤ 1 → 0 ≤ pow x e ∧ pow x e ≤ max 1 x)
    (my opp : AllMoves)
    (hm1 : 0 ≤ my.moveOpts ∧ my.moveOpts ≤ 256) (hm2 : 0 ≤ opp.moveOpts ∧ opp.moveOpts ≤ 256)
    (hs1 : 0 ≤ my.shootOpts.sum ∧ my.shootOpts.sum ≤ 16384)
    (hs2 : 0 ≤ opp.shootOpts.sum ∧ opp.shootOpts.sum ≤ 16384)
    (ht1 : 0 ≤ territorySum my ∧ territorySum my ≤ 256)
    (ht2 : 0 ≤ territorySum opp ∧ territorySum opp ≤ 256)
    (hc : |centerSum my opp| ≤ 28)
    (hd1 : 0 ≤ pairDistance my ∧ pairDistance my ≤ 84)
    (hd2 : 0 ≤ pairDistance opp ∧ pairDistance opp ≤ 84) :
    |positionalScore pow defaultWeights my opp| ≤ 17 := by
  have hmob : |signedPow pow (my.moveOpts - opp.moveOpts) (1 / 2)| ≤ 256 := by
    apply signedPow_abs pow hpow _ _ (by norm_num) (by norm_num) 256 (by norm_num)
    have c1 : ((my.moveOpts - opp.moveOpts : Int) : ℚ) ≤ 256 := by
      exact_mod_cast (show my.moveOpts - opp.moveOpts ≤ 256 by omega)
    have c2 : (-256 : ℚ) ≤ ((my.moveOpts - opp.moveOpts : Int) : ℚ) := by
      exact_mod_cast (show -256 ≤ my.moveOpts - opp.moveOpts by omega)
    exact abs_le.mpr ⟨c2, c1⟩
  have hsh : |signedPow pow (my.shootOpts.sum - opp.shootOpts.sum) (2 / 5)| ≤ 16384 := by
    apply signedPow_abs pow hpow _ _ (by norm_num) (by norm_num) 16384 (by norm_num)
    have c1 : ((my.shootOpts.sum - opp.shootOpts.sum : Int) : ℚ) ≤ 16384 := by
      exact_mod_cast (show my.shootOpts.sum - opp.shootOpts.sum ≤ 16384 by omega)
    have c2 : (-16384 : ℚ) ≤ ((my.shootOpts.sum - opp.shootOpts.sum : Int) : ℚ) := by
      exact_mod_cast (show -16384 ≤ my.shootOpts.sum - opp.shootOpts.sum by omega)
    exact abs_le.mpr ⟨c2, c1⟩
  have hter1 : ((territorySum my - territorySum opp : Int) : ℚ) ≤ 256 := by
    exact_mod_cast (show territorySum my - territorySum opp ≤ 256 by omega)
  have hter2 : (-256 : ℚ) ≤ ((territorySum my - territorySum opp : Int) : ℚ) := by
    exact_mod_cast (show -256 ≤ territorySum my - territorySum opp by omega)
  have hp1 : (0 : ℚ) ≤ (pairDistance my : ℚ) := by exact_mod_cast hd1.1
  have hp2 : (pairDistance my : ℚ) ≤ 84 := by exact_mod_cast hd1.2
  have hp3 : (0 : ℚ) ≤ (pairDistance opp : ℚ) := by exact_mod_cast hd2.1
  have hp4 : (pairDistance opp : ℚ) ≤ 84 := by exact_mod_cast hd2.2
  obtain ⟨m1, m2⟩ := abs_le.mp hmob
  obtain ⟨s1, s2⟩ := abs_le.mp hsh
  obtain ⟨c1, c2⟩ := abs_le.mp hc
  unfold positionalScore
  simp only [defaultWeights]
  split_ifs
  · exact abs_le.mpr ⟨by linarith, by linarith⟩
  · exact abs_le.mpr ⟨by linarith, by linarith⟩

theorem getAllMovesForSide_positions (e : Bool) (b : Board) (w : Bool) (a : AllMoves)
    (hlen : (piecesOf b w).length = 4) (h : getAllMovesForSide e b w = some a) :
    ∀ j, j < 4 → 0 ≤ (a.positions.getD j (0, 0)).1 ∧ (a.positions.getD j (0, 0)).1 ≤ 7
      ∧ 0 ≤ (a.positions.getD j (0, 0)).2 ∧ (a.positions.getD j (0, 0)).2 ≤ 7 := by
  intro j hj
  obtain ⟨a1, ha1, -, -, hpos⟩ := getAllMovesForSide_spec e b w (le_of_eq hlen)
  rw [h] at ha1
  simp only [Option.some.injEq] at ha1
  subst ha1
  rw [hpos j (by omega), List.getD_eq_getElem _ _ (by omega)]
  have hmem : (piecesOf b w)[j] ∈ piecesOf b w := List.getElem_mem _
  have hin := ((mem_piecesOf b w _).mp hmem).1
  unfold inBoard at hin
  omega

theorem evalSandbox_eq (pow : ℚ → ℚ → ℚ) (weights : Weights) (w e : Bool) (b : Board)
    (my opp : AllMoves) (h1 : getAllMovesForSide e b w = some my)
    (h2 : getAllMovesForSide e b (!w) = some opp) :
    evalSandbox pow weights w e b
      = some ((if my.moveOpts = 0 then
            (if opp.moveOpts = 0 then positionalScore pow weights my opp + 1000000000
              else positionalScore pow weights my opp) - 1000000000
          else (if opp.moveOpts = 0 then positionalScore pow weights my opp + 1000000000
              else positionalScore pow weights my opp))) := by
  unfold evalSandbox
  rw [h1, h2]
  rfl

/-- The evaluation on a board with four pieces per side, in terms of the
two results of `getAllMovesForSide`. -/
theorem evalSandbox_cases (pow : ℚ → ℚ → ℚ)
    (hpow : ∀ x e : ℚ, 0 ≤ x → 0 < e → e ≤ 1 → 0 ≤ pow x e ∧ pow x e ≤ max 1 x)
    (w e : Bool) (b : Board) (h4 : fourPieces b) :
    ∃ my opp, getAllMovesForSide e b w = some my ∧ getAllMovesForSide e b (!w) = some opp
      ∧ 0 ≤ my.moveOpts ∧ 0 ≤ opp.moveOpts
      ∧ |positionalScore pow defaultWeights my opp| ≤ 17
      ∧ evalSandbox pow defaultWeights w e b
          = some ((if my.moveOpts = 0 then
                (if opp.moveOpts = 0 then positionalScore pow defaultWeights my opp + 1000000000
                  else positionalScore pow defaultWeights my opp) - 1000000000
              else (if opp.moveOpts = 0 then
                  positionalScore pow defaultWeights my opp + 1000000000
                else positionalScore pow defaultWeights my opp))) := by
  have hw : (piecesOf b w).length = 4 := by
    cases w
    · exact h4.2
    · exact h4.1
  have hnw : (piecesOf b (!w)).length = 4 := by
    cases w
    · exact h4.1
    · exact h4.2
  obtain ⟨my, h1, -⟩ := getAllMovesForSide_spec e b w (le_of_eq hw)
  obtain ⟨opp, h2, -⟩ := getAllMovesForSide_spec e b (!w) (le_of_eq hnw)
  obtain ⟨a1, a2, a3, a4, a5⟩ := getAllMovesForSide_range e b w my (le_of_eq hw) h1
  obtain ⟨b1, b2, b3, b4, b5⟩ := getAllMovesForSide_range e b (!w) opp (le_of_eq hnw) h2
  have p1 := getAllMovesForSide_positions e b w my hw h1
  have p2 := getAllMovesForSide_positions e b (!w) opp hnw h2
  refine ⟨my, opp, h1, h2, a1, b1, ?_, evalSandbox_eq pow defaultWeights w e b my opp h1 h2⟩
  exact positionalScore_abs pow hpow my opp ⟨a1, a2⟩ ⟨b1, b2⟩ ⟨a3, a4⟩ ⟨b3, b4⟩
    (territorySum_range my a5) (territorySum_range opp b5) (centerSum_abs my opp p1 p2)
    (pairDistance_range my p1) (pairDistance_range opp p2)

/-- C31: terminal bonus dominance.  With the default weights, on every
board with four pieces per side `evalSandbox` returns; the sum of its
non-terminal terms has absolute value below 1e9 (at most 17); every evaluation
lies strictly between -1e10 and 1e10; and a position in which the opponent has
zero counted destinations and the mover at least one is scored strictly above
every position in which the opponent has at least one.  The function `pow`
stands for `std::pow`; all that is used of it is `0 ≤ pow x e ≤ max 1 x` for
`x ≥ 0` and `0 < e ≤ 1`. -/
theorem evalSandbox_range (pow : ℚ → ℚ → ℚ)
    (hpow : ∀ x e : ℚ, 0 ≤ x → 0 < e → e ≤ 1 → 0 ≤ pow x e ∧ pow x e ≤ max 1 x)
    (m_isWhite m_endgame : Bool) :
    (∀ b : Board, fourPieces b →
        ∃ my opp v, getAllMovesForSide m_endgame b m_isWhite = some my
          ∧ getAllMovesForSide m_endgame b (!m_isWhite) = some opp
          ∧ |positionalScore pow defaultWeights my opp| < 1000000000
          ∧ evalSandbox pow defaultWeights m_isWhite m_endgame b = some v
          ∧ -10000000000 < v ∧ v < 10000000000)
      ∧ ∀ (b1 b2 : Board) (my1 opp1 opp2 : AllMoves) (v1 v2 : ℚ),
          fourPieces b1 → fourPieces b2 →
          getAllMovesForSide m_endgame b1 m_isWhite = some my1 →
          getAllMovesForSide m_endgame b1 (!m_isWhite) = some opp1 →
          getAllMovesForSide m_endgame b2 (!m_isWhite) = some opp2 →
          opp1.moveOpts = 0 → 1 ≤ my1.moveOpts → 1 ≤ opp2.moveOpts →
          evalSandbox pow defaultWeights m_isWhite m_endgame b1 = some v1 →
          evalSandbox pow defaultWeights m_isWhite m_endgame b2 = some v2 →
          v2 < v1 := by
  refine ⟨?_, ?_⟩
  · intro b h4
    obtain ⟨my, opp, h1, h2, -, -, habs, hev⟩ :=
      evalSandbox_cases pow hpow m_isWhite m_endgame b h4
    obtain ⟨l, u⟩ := abs_le.mp habs
    refine ⟨my, opp, _, h1, h2, lt_of_le_of_lt habs (by norm_num), hev, ?_, ?_⟩
    · split_ifs <;> linarith
    · split_ifs <;> linarith
  · intro b1 b2 my1 opp1 opp2 v1 v2 h41 h42 hmy1 hopp1 hopp2 hz hm ho hv1 hv2
    obtain ⟨my1a, opp1a, e1, e2, -, -, habs1, hev1⟩ :=
      evalSandbox_cases pow hpow m_isWhite m_endgame b1 h41
    obtain ⟨my2a, opp2a, -, e4, -, -, habs2, hev2⟩ :=
      evalSandbox_cases pow hpow m_isWhite m_endgame b2 h42
    rw [hmy1] at e1
    rw [hopp1] at e2
    rw [hopp2] at e4
    simp only [Option.some.injEq] at e1 e2 e4
    subst e1
    subst e2
    subst e4
    rw [hv1] at hev1
    rw [hv2] at hev2
    simp only [Option.some.injEq] at hev1 hev2
    obtain ⟨l1, u1⟩ := abs_le.mp habs1
    obtain ⟨l2, u2⟩ := abs_le.mp habs2
    rw [if_neg (by omega), if_pos hz] at hev1
    rw [hev1, hev2, if_neg (show ¬ opp2.moveOpts = 0 by omega)]
    split_ifs <;> linarith

theorem evalSandbox_range_witness :
    fourPieces initialBoard
      ∧ ∃ v, evalSandbox (fun _ _ => 1) defaultWeights true false initialBoard = some v
        ∧ -10000000000 < v ∧ v < 10000000000 := by
  have h4 : fourPieces initialBoard := by decide
  obtain ⟨my, opp, v, -, -, -, hv, h1, h2⟩ :=
    (evalSandbox_range (fun _ _ => 1)
      (fun x e _ _ _ => ⟨by norm_num, le_max_left _ _⟩) true false).1 initialBoard h4
  exact ⟨h4, v, hv, h1, h2⟩

/-! ## The guard of `makeNextMove` before the endgame solver -/

theorem length_filter_sum {α : Type} (p : α → Bool) (l : List α) :
    (l.filter p).length = (l.map fun x => if p x = true then 1 else 0).sum := by
  induction l with
  | nil => rfl
  | cons x xs ih =>
    by_cases h : p x = true
    · rw [List.filter_cons_of_pos h, List.length_cons, ih, List.map_cons, List.sum_cons,
        if_pos h, Nat.add_comm]
    · rw [List.filter_cons_of_neg h, ih, List.map_cons, List.sum_cons, if_neg h, Nat.zero_add]

theorem sum_map_flatMap {α β : Type} (f : α → List β) (g : β → Nat) (l : List α) :
    ((l.flatMap f).map g).sum = (l.map fun x => ((f x).map g).sum).sum := by
  induction l with
  | nil => rfl
  | cons x xs ih =>
    rw [List.flatMap_cons, List.map_append, List.sum_append, ih, List.map_cons, List.sum_cons]

theorem sum_indices (h : Int → Nat) :
    (indices.map h).sum = ∑ i : Fin 8, h ((i : Nat) : Int) := by
  rw [Fin.sum_univ_eight]
  simp only [indices, List.map_cons, List.map_nil, List.sum_cons, List.sum_nil, Nat.add_zero]
  simp only [← Nat.add_assoc]
  rfl

/-- The number of pieces of a side is the number of cells of its colour. -/
theorem length_piecesOf (b : Board) (w : Bool) :
    (piecesOf b w).length = countCells b (ownCell w) := by
  unfold piecesOf countCells squares
  rw [length_filter_sum, Fintype.sum_prod_type, sum_map_flatMap, sum_indices]
  apply Finset.sum_congr rfl
  intro i _
  rw [List.map_map, sum_indices]
  apply Finset.sum_congr rfl
  intro j _
  simp

/-- A side with a piece that has an `Empty` adjacent cell has a first piece
with a destination. -/
theorem firstMobilePiece_of_mobile (b : Board) (w : Bool)
    (h : hasMobilePiece b (ownCell w)) : ∃ p, firstMobilePiece b w = some p := by
  obtain ⟨r, hr, c, hc, hv, hn⟩ := h
  rw [mem_indices] at hr hc
  have hin : inBoard r c := by unfold inBoard; omega
  cases hf : firstMobilePiece b w with
  | some p => exact ⟨p, rfl⟩
  | none =>
    exfalso
    unfold firstMobilePiece at hf
    rw [List.find?_eq_none] at hf
    have hmem : (r, c) ∈ piecesOf b w := (mem_piecesOf b w (r, c)).mpr ⟨hin, hv⟩
    have hcan := (hasEmptyNeighbour_iff_range b r c hin).mp hn
    unfold MoveRange.canMove at hcan
    exact hf (r, c) hmem hcan

/-- What `checkGameOver` does to the state: the flag goes up together with a
`gameOver` signal, and it stays down only when both colours have a piece with
an `Empty` adjacent cell. -/
theorem checkGameOver_effect (s : Chessboard) :
    (checkGameOver s).2.m_board = s.m_board
      ∧ (checkGameOver s).2.m_turnState = s.m_turnState
      ∧ (checkGameOver s).2.m_autoCheckGameOver = s.m_autoCheckGameOver
      ∧ (∃ extra, (checkGameOver s).2.signals = s.signals ++ extra
          ∧ (checkGameOver s).2.m_gameOver = (s.m_gameOver || extra.any Signal.isGameOver))
      ∧ ((checkGameOver s).2.m_gameOver = false →
          hasMobilePiece s.m_board Cell.White ∧ hasMobilePiece s.m_board Cell.Black) := by
  cases hgo : s.m_gameOver with
  | true =>
    have e : checkGameOver s = (true, s) := by simp [checkGameOver, hgo]
    rw [e]
    refine ⟨rfl, rfl, rfl, ⟨[], by simp, by simp [hgo]⟩, ?_⟩
    intro h
    rw [hgo] at h
    cases h
  | false =>
    have hscan := scanRows_spec s.m_board indices false false
    simp only [Bool.false_eq_true, false_or, ← hasMobilePiece_iff] at hscan
    obtain ⟨hw, hb⟩ := hscan
    have e : checkGameOver s
        = (!((scanRows s.m_board indices (false, false)).1
              && (scanRows s.m_board indices (false, false)).2),
            if (!(scanRows s.m_board indices (false, false)).1
                && !(scanRows s.m_board indices (false, false)).2) = true then
              onGameOver s Winner.Tie
            else if (!(scanRows s.m_board indices (false, false)).1) = true then
              onGameOver s Winner.Black
            else if (!(scanRows s.m_board indices (false, false)).2) = true then
              onGameOver s Winner.White
            else s) := by
      simp only [checkGameOver, hgo, Bool.false_eq_true, if_false]
    rw [e]
    cases h1 : (scanRows s.m_board indices (false, false)).1 <;>
      cases h2 : (scanRows s.m_board indices (false, false)).2
    · refine ⟨rfl, rfl, rfl, ⟨[Signal.gameOver Winner.Tie], rfl, by simp [onGameOver, Signal.isGameOver]⟩, ?_⟩
      intro h; simp [onGameOver] at h
    · refine ⟨rfl, rfl, rfl, ⟨[Signal.gameOver Winner.Black], rfl, by simp [onGameOver, Signal.isGameOver]⟩, ?_⟩
      intro h; simp [onGameOver] at h
    · refine ⟨rfl, rfl, rfl, ⟨[Signal.gameOver Winner.White], rfl, by simp [onGameOver, Signal.isGameOver]⟩, ?_⟩
      intro h; simp [onGameOver] at h
    · refine ⟨rfl, rfl, rfl, ⟨[], by simp, by simp [hgo]⟩, ?_⟩
      intro _
      exact ⟨hw.mp h1, hb.mp h2⟩

/-- The shape of the state after `shootAt`: unchanged, or the state with the
shot made, a Move phase, one more signal `moveMade` and then, when
`m_autoCheckGameOver` is set, the effect of `checkGameOver`. -/
theorem shootAt_shape (s : Chessboard) (row col : Int) (ok : Bool) (s1 : Chessboard)
    (h : shootAt s row col = some (ok, s1)) :
    s1 = s ∨ ∃ s2 : Chessboard,
      s1 = (if s.m_autoCheckGameOver then (checkGameOver s2).2 else s2)
        ∧ s2.m_autoCheckGameOver = s.m_autoCheckGameOver
        ∧ s2.m_gameOver = s.m_gameOver
        ∧ movePhase s2.m_turnState
        ∧ ∃ move isWhite, s2.signals = s.signals ++ [Signal.moveMade move isWhite] := by
  unfold shootAt at h
  by_cases h1 : s.m_selected.1 = -1
  · simp [h1] at h; exact Or.inl h.2.symm
  by_cases hin : inBoard s.m_selected.1 s.m_selected.2
  · by_cases hcl : clearLine s.m_board s.m_selected.1 s.m_selected.2 row col
    · by_cases hcur : inBoard s.m_currentMove.targetPos.1 s.m_currentMove.targetPos.2
      · cases ht : s.m_turnState <;> cases hp : s.m_board s.m_selected.1 s.m_selected.2 <;>
          simp [h1, hin, ht, hp, hcl, hcur, readCell, pathValid_eq] at h <;>
          first
          | exact Or.inl h.2.symm
          | exact Or.inr ⟨_, h.2.symm, rfl, rfl, Or.inl rfl, _, _, rfl⟩
          | exact Or.inr ⟨_, h.2.symm, rfl, rfl, Or.inr rfl, _, _, rfl⟩
      · cases ht : s.m_turnState <;> cases hp : s.m_board s.m_selected.1 s.m_selected.2 <;>
          simp [h1, hin, ht, hp, hcl, hcur, readCell, pathValid_eq] at h <;>
          exact Or.inl h.2.symm
    · cases ht : s.m_turnState <;> cases hp : s.m_board s.m_selected.1 s.m_selected.2 <;>
        simp [h1, hin, ht, hp, hcl, readCell, pathValid_eq] at h <;>
        exact Or.inl h.2.symm
  · cases ht : s.m_turnState <;>
      simp [h1, hin, ht, readCell] at h <;> exact Or.inl h.2.symm

theorem callEffect_refl (s : Chessboard) : callEffect s s :=
  ⟨rfl, ⟨[], by simp, by simp⟩, rfl, rfl, fun h => h⟩

theorem callEffect_trans (s s1 s2 : Chessboard) (h1 : callEffect s s1) (h2 : callEffect s1 s2) :
    callEffect s s2 := by
  obtain ⟨a1, ⟨x1, e1, g1⟩, w1, b1, f1⟩ := h1
  obtain ⟨a2, ⟨x2, e2, g2⟩, w2, b2, f2⟩ := h2
  refine ⟨a2.trans a1, ⟨x1 ++ x2, ?_, ?_⟩, w2.trans w1, b2.trans b1, fun h => f2 (f1 h)⟩
  · rw [e2, e1, List.append_assoc]
  · rw [g2, g1, List.any_append, Bool.or_assoc]

theorem tryToSelect_effect (s : Chessboard) (row col : Int) :
    callEffect s (tryToSelect s row col).2 := by
  unfold tryToSelect
  split_ifs
  · exact callEffect_refl s
  · exact ⟨rfl, ⟨[], by simp, by simp⟩, rfl, rfl, fun h => h⟩
  · exact callEffect_refl s

theorem tryToClearSelected_effect (s : Chessboard) : callEffect s (tryToClearSelected s).2 := by
  unfold tryToClearSelected
  split_ifs
  · exact ⟨rfl, ⟨[], by simp, by simp⟩, rfl, rfl, fun h => h⟩
  · exact callEffect_refl s

theorem moveSelectedTo_effect (s : Chessboard) (row col : Int) (ok : Bool) (s1 : Chessboard)
    (h : moveSelectedTo s row col = some (ok, s1)) : callEffect s s1 := by
  have hop : applyOp s (Op.moveSelectedTo row col) = some s1 := by
    simp only [applyOp, h, Option.map_some']
  rcases moveSelectedTo_cases s row col ok s1 h with ⟨-, rfl⟩ | ⟨-, hown, -, hs1⟩
  · exact callEffect_refl _
  · refine ⟨by rw [hs1], ⟨[], by rw [hs1]; simp, by rw [hs1]; simp⟩,
      applyOp_count s s1 _ _ (Or.inl rfl) hop, applyOp_count s s1 _ _ (Or.inr rfl) hop, ?_⟩
    rintro ⟨ha, -⟩
    refine ⟨by rw [hs1]; exact ha, ?_⟩
    intro hph
    exfalso
    rw [hs1] at hph
    rcases hown with ⟨ht, -⟩ | ⟨ht, -⟩ <;> rw [ht] at hph <;>
      rcases hph with hph | hph <;> cases hph

theorem shootAt_effect (s : Chessboard) (row col : Int) (ok : Bool) (s1 : Chessboard)
    (h : shootAt s row col = some (ok, s1)) : callEffect s s1 := by
  have hop : applyOp s (Op.shootAt row col) = some s1 := by
    simp only [applyOp, h, Option.map_some']
  rcases shootAt_shape s row col ok s1 h with rfl | ⟨s2, hs1, ha, hg, hph, move, isWhite, hsig⟩
  · exact callEffect_refl _
  · refine ⟨?_, ?_, applyOp_count s s1 _ _ (Or.inl rfl) hop,
      applyOp_count s s1 _ _ (Or.inr rfl) hop, ?_⟩
    · rw [hs1]
      split_ifs
      · rw [(checkGameOver_effect s2).2.2.1, ha]
      · exact ha
    · cases hauto : s.m_autoCheckGameOver with
      | true =>
        rw [hauto] at hs1
        simp only [if_true] at hs1
        obtain ⟨extra, e, g⟩ := (checkGameOver_effect s2).2.2.2.1
        refine ⟨Signal.moveMade move isWhite :: extra, ?_, ?_⟩
        · rw [hs1, e, hsig, List.append_assoc]; rfl
        · rw [hs1, g, hg]; simp [Signal.isGameOver]
      | false =>
        rw [hauto] at hs1
        simp only [Bool.false_eq_true, if_false] at hs1
        refine ⟨[Signal.moveMade move isWhite], ?_, ?_⟩
        · rw [hs1, hsig]
        · rw [hs1, hg]; simp [Signal.isGameOver]
    · rintro ⟨hauto, -⟩
      rw [hauto] at hs1
      simp only [if_true] at hs1
      obtain ⟨hb, ht, ha2, -, hmob⟩ := checkGameOver_effect s2
      refine ⟨?_, ?_⟩
      · rw [hs1, ha2, ha, hauto]
      · intro _ hgo
        rw [hs1] at hgo ⊢
        rw [hb]
        exact hmob hgo

theorem makeMove_steps (s : Chessboard) (m : Move) :
    makeMove s m
      = (readCell s.m_board m.startPos.1 m.startPos.2).bind fun cell =>
          if (cell = Cell.White ∧ s.m_turnState = TurnState.WhiteMove)
              ∨ (cell = Cell.Black ∧ s.m_turnState = TurnState.BlackMove) then
            if (!(tryToSelect s m.startPos.1 m.startPos.2).1) = true then
              some (false, (tryToSelect s m.startPos.1 m.startPos.2).2)
            else
              (moveSelectedTo (tryToSelect s m.startPos.1 m.startPos.2).2
                  m.targetPos.1 m.targetPos.2).bind fun r2 =>
                if (!r2.1) = true then some (false, r2.2)
                else
                  (shootAt r2.2 m.shootPos.1 m.shootPos.2).bind fun r3 =>
                    if (!r3.1) = true then some (false, r3.2)
                    else some (true, (tryToClearSelected r3.2).2)
          else some (false, s) :=
  rfl

theorem makeMove_effect (s : Chessboard) (m : Move) (ok : Bool) (s1 : Chessboard)
    (h : makeMove s m = some (ok, s1)) : callEffect s s1 := by
  rw [makeMove_steps] at h
  cases hread : readCell s.m_board m.startPos.1 m.startPos.2 with
  | none => rw [hread] at h; cases h
  | some cell =>
    rw [hread, Option.some_bind] at h
    by_cases hc : (cell = Cell.White ∧ s.m_turnState = TurnState.WhiteMove)
        ∨ (cell = Cell.Black ∧ s.m_turnState = TurnState.BlackMove)
    · rw [if_pos hc] at h
      have e1 := tryToSelect_effect s m.startPos.1 m.startPos.2
      generalize tryToSelect s m.startPos.1 m.startPos.2 = rA at h e1
      by_cases hA : (!rA.1) = true
      · rw [if_pos hA] at h
        simp only [Option.some.injEq, Prod.mk.injEq] at h
        rw [← h.2]; exact e1
      · rw [if_neg hA] at h
        rcases hmv : moveSelectedTo rA.2 m.targetPos.1 m.targetPos.2 with _ | ⟨moved, sB⟩
        · rw [hmv] at h; cases h
        · rw [hmv, Option.some_bind] at h
          have e2 := callEffect_trans _ _ _ e1 (moveSelectedTo_effect _ _ _ _ _ hmv)
          by_cases hB : (!moved) = true
          · rw [if_pos hB] at h
            simp only [Option.some.injEq, Prod.mk.injEq] at h
            rw [← h.2]; exact e2
          · rw [if_neg hB] at h
            rcases hsh : shootAt sB m.shootPos.1 m.shootPos.2 with _ | ⟨shot, sC⟩
            · rw [hsh] at h; cases h
            · rw [hsh, Option.some_bind] at h
              have e3 := callEffect_trans _ _ _ e2 (shootAt_effect _ _ _ _ _ hsh)
              by_cases hC : (!shot) = true
              · rw [if_pos hC] at h
                simp only [Option.some.injEq, Prod.mk.injEq] at h
                rw [← h.2]; exact e3
              · rw [if_neg hC] at h
                simp only [Option.some.injEq, Prod.mk.injEq] at h
                rw [← h.2]
                exact callEffect_trans _ _ _ e3 (tryToClearSelected_effect sC)
    · rw [if_neg hc] at h
      simp only [Option.some.injEq, Prod.mk.injEq] at h
      rw [← h.2]; exact callEffect_refl s

/-- Every call of a mutator of the board keeps the game-over flag in step
with the signals and up to date. -/
theorem applyOp_effect (s s1 : Chessboard) (op : Op) (h : applyOp s op = some s1) :
    callEffect s s1 := by
  cases op with
  | tryToSelect row col =>
    simp only [applyOp, Option.some.injEq] at h
    rw [← h]; exact tryToSelect_effect s row col
  | tryToClearSelected =>
    simp only [applyOp, Option.some.injEq] at h
    rw [← h]; exact tryToClearSelected_effect s
  | moveSelectedTo row col =>
    simp only [applyOp, Option.map_eq_some'] at h
    obtain ⟨⟨ok, s2⟩, h, rfl⟩ := h
    exact moveSelectedTo_effect s row col ok s2 h
  | shootAt row col =>
    simp only [applyOp, Option.map_eq_some'] at h
    obtain ⟨⟨ok, s2⟩, h, rfl⟩ := h
    exact shootAt_effect s row col ok s2 h
  | makeMove m =>
    simp only [applyOp, Option.map_eq_some'] at h
    obtain ⟨⟨ok, s2⟩, h, rfl⟩ := h
    exact makeMove_effect s m ok s2 h

theorem searchLoop_frame (search : Bot → Int × Int → Option (List Move × Bot)) (area : Int)
    (hs : ∀ b px pl b1, search b px = some (pl, b1) →
      b1.m_chessboard = b.m_chessboard ∧ b1.m_gameOver = b.m_gameOver
        ∧ b1.m_isWhite = b.m_isWhite) :
    ∀ (moves best : List Move) (bot : Bot) (plan : List Move) (bot1 : Bot),
      searchLoop search area moves best bot = some (plan, bot1) →
      bot1.m_chessboard = bot.m_chessboard ∧ bot1.m_gameOver = bot.m_gameOver
        ∧ bot1.m_isWhite = bot.m_isWhite := by
  intro moves
  induction moves with
  | nil =>
    intro best bot plan bot1 h
    simp only [searchLoop, Option.some.injEq, Prod.mk.injEq] at h
    rw [← h.2]
    exact ⟨rfl, rfl, rfl⟩
  | cons move rest ih =>
    intro best bot plan bot1 h
    unfold searchLoop at h
    rcases hmk : makeMoveInSandbox bot.m_isWhite bot.m_sandbox move true true
      with _ | ⟨_ | _, sb1⟩
    · rw [hmk] at h; cases h
    · rw [hmk] at h
      simp only at h
      split_ifs at h
      · simp only [Option.some.injEq, Prod.mk.injEq] at h
        rw [← h.2]
        exact ⟨rfl, rfl, rfl⟩
      · have f := ih _ _ _ _ h
        exact f
    · rw [hmk] at h
      simp only at h
      rcases hse : search { bot with m_sandbox := sb1 } move.targetPos with _ | ⟨following, bot2⟩
      · rw [hse] at h; cases h
      · rw [hse] at h
        simp only at h
        have f2 := hs _ _ _ _ hse
        rcases hrev : reverseMoveInSandbox bot2.m_sandbox move with _ | ⟨okr, sb3⟩
        · rw [hrev] at h; cases h
        · rw [hrev] at h
          simp only at h
          split_ifs at h
          all_goals first
            | (simp only [Option.some.injEq, Prod.mk.injEq] at h
               rw [← h.2]
               exact f2)
            | (have f3 := ih _ _ _ _ h
               exact ⟨f3.1.trans f2.1, f3.2.1.trans f2.2.1, f3.2.2.trans f2.2.2⟩)

/-- The endgame solver leaves the real board, the flag `m_gameOver` and the
colour of the bot as they are. -/
theorem getEndgameMoves_frame :
    ∀ (fuel : Nat) (bot : Bot) (px : Int × Int) (plan : List Move) (bot1 : Bot),
      getEndgameMoves fuel bot px = some (plan, bot1) →
      bot1.m_chessboard = bot.m_chessboard ∧ bot1.m_gameOver = bot.m_gameOver
        ∧ bot1.m_isWhite = bot.m_isWhite := by
  intro fuel
  induction fuel with
  | zero => intro bot px plan bot1 h; cases h
  | succ fuel ih =>
    intro bot px plan bot1 h
    unfold getEndgameMoves at h
    by_cases hpx : px.1 = -1
    · rw [if_pos hpx] at h
      rcases hall : getAllMovesForSide bot.m_endgame bot.m_chessboard.m_board bot.m_isWhite
        with _ | allMoves
      · rw [hall] at h; cases h
      · rw [hall] at h
        simp only at h
        rcases hget : allMoves.moves.get? (firstMobile allMoves [0, 1, 2, 3] px).1 with _ | cur
        · rw [hget] at h; cases h
        · rw [hget] at h
          simp only at h
          split_ifs at h
          · split at h
            · simp only [Option.some.injEq, Prod.mk.injEq] at h
              rw [← h.2]
              exact ⟨rfl, rfl, rfl⟩
            · simp only [Option.some.injEq, Prod.mk.injEq] at h
              rw [← h.2]
              exact ⟨rfl, rfl, rfl⟩
          · have f := ih _ _ _ _ h
            exact f
    · rw [if_neg hpx] at h
      simp only at h
      split_ifs at h
      · simp only [Option.some.injEq, Prod.mk.injEq] at h
        rw [← h.2]
        exact ⟨rfl, rfl, rfl⟩
      · have f := searchLoop_frame _ _ ih _ _ _ _ _ h
        exact f

theorem Bot.deliver_spec (bot : Bot) (s1 : Chessboard) :
    (Bot.deliver bot s1).m_chessboard = s1
      ∧ (Bot.deliver bot s1).m_isWhite = bot.m_isWhite
      ∧ (Bot.deliver bot s1).m_gameOver
          = (bot.m_gameOver
              || (s1.signals.drop bot.m_chessboard.signals.length).any Signal.isGameOver) := by
  unfold Bot.deliver
  cases h : (s1.signals.drop bot.m_chessboard.signals.length).any Signal.isGameOver
  · simp
  · simp [Bot.gameOverSlot, Bot.reset]

/-- A bot in step with its board is in step with the board after a call, once
the signals of the call have been delivered. -/
theorem inStep_of_effect (bot bot1 : Bot) (hin : Bot.inStep bot)
    (he : callEffect bot.m_chessboard bot1.m_chessboard)
    (hg : bot1.m_gameOver
      = (bot.m_gameOver
          || (bot1.m_chessboard.signals.drop bot.m_chessboard.signals.length).any
              Signal.isGameOver)) :
    Bot.inStep bot1 := by
  obtain ⟨hflag, hcur⟩ := hin
  obtain ⟨-, ⟨extra, e, g⟩, -, -, f⟩ := he
  refine ⟨?_, f hcur⟩
  rw [hg, g, e, List.drop_left, hflag]

/-- What a call of the real board by the bot, or by another party, does to
the bot: the colour stays, the board has gone through calls of its mutators,
and the flag `m_gameOver` has gone up exactly when a `gameOver` was emitted. -/
theorem Bot.deliver_effect (bot0 bot : Bot) (s1 : Chessboard)
    (hb : bot.m_chessboard = bot0.m_chessboard) (hgo : bot.m_gameOver = bot0.m_gameOver)
    (hw : bot.m_isWhite = bot0.m_isWhite) (he : callEffect bot0.m_chessboard s1) :
    (Bot.deliver bot s1).m_isWhite = bot0.m_isWhite
      ∧ callEffect bot0.m_chessboard (Bot.deliver bot s1).m_chessboard
      ∧ (Bot.deliver bot s1).m_gameOver
          = (bot0.m_gameOver
              || ((Bot.deliver bot s1).m_chessboard.signals.drop
                    bot0.m_chessboard.signals.length).any Signal.isGameOver) := by
  obtain ⟨h1, h2, h3⟩ := Bot.deliver_spec bot s1
  rw [h1, h2, h3, hb, hgo, hw]
  exact ⟨rfl, he, rfl⟩

theorem effect_unchanged (bot0 bot : Bot)
    (hb : bot.m_chessboard = bot0.m_chessboard) (hgo : bot.m_gameOver = bot0.m_gameOver)
    (hw : bot.m_isWhite = bot0.m_isWhite) :
    bot.m_isWhite = bot0.m_isWhite
      ∧ callEffect bot0.m_chessboard bot.m_chessboard
      ∧ bot.m_gameOver
          = (bot0.m_gameOver
              || (bot.m_chessboard.signals.drop bot0.m_chessboard.signals.length).any
                  Signal.isGameOver) := by
  rw [hb, hgo, hw]
  exact ⟨rfl, callEffect_refl _, by simp⟩

theorem makeMoveInEndgame_effect (bot : Bot) (ok : Bool) (bot1 : Bot)
    (h : makeMoveInEndgame bot = some (ok, bot1)) :
    bot1.m_isWhite = bot.m_isWhite
      ∧ callEffect bot.m_chessboard bot1.m_chessboard
      ∧ bot1.m_gameOver
          = (bot.m_gameOver
              || (bot1.m_chessboard.signals.drop bot.m_chessboard.signals.length).any
                  Signal.isGameOver) := by
  have key : ∀ botx : Bot, botx.m_chessboard = bot.m_chessboard →
      botx.m_gameOver = bot.m_gameOver → botx.m_isWhite = bot.m_isWhite →
      (match botx.m_endgameMoves with
        | move :: rest =>
          (makeMove botx.m_chessboard move).map fun r =>
            (r.1, Bot.deliver { botx with m_endgameMoves := rest } r.2)
        | [] => some (false, botx)) = some (ok, bot1) →
      bot1.m_isWhite = bot.m_isWhite
        ∧ callEffect bot.m_chessboard bot1.m_chessboard
        ∧ bot1.m_gameOver
            = (bot.m_gameOver
                || (bot1.m_chessboard.signals.drop bot.m_chessboard.signals.length).any
                    Signal.isGameOver) := by
    intro botx hb hgo hw hx
    rcases hpl : botx.m_endgameMoves with _ | ⟨move, rest⟩
    · rw [hpl] at hx
      simp only [Option.some.injEq, Prod.mk.injEq] at hx
      rw [← hx.2]
      exact effect_unchanged bot botx hb hgo hw
    · rw [hpl] at hx
      simp only [Option.map_eq_some'] at hx
      obtain ⟨⟨okm, s1⟩, hmk, hx⟩ := hx
      simp only [Prod.mk.injEq] at hx
      rw [← hx.2]
      rw [hb] at hmk
      exact Bot.deliver_effect bot _ s1 hb hgo hw (makeMove_effect _ _ _ _ hmk)
  unfold makeMoveInEndgame at h
  by_cases hlen : bot.m_endgameMoves.length = 0
  · rw [if_pos hlen] at h
    rcases hget : getEndgameMoves 66 bot (-1, -1) with _ | ⟨plan, botg⟩
    · rw [hget] at h; cases h
    · rw [hget] at h
      obtain ⟨f1, f2, f3⟩ := getEndgameMoves_frame _ _ _ _ _ hget
      exact key { botg with m_endgameMoves := plan } f1 f2 f3 h
  · rw [if_neg hlen] at h
    exact key bot rfl rfl rfl h

theorem botMakeMove_effect (bot : Bot) (move : Move) (ok : Bool) (bot1 : Bot)
    (h : Bot.makeMove bot move = some (ok, bot1)) :
    bot1.m_isWhite = bot.m_isWhite
      ∧ callEffect bot.m_chessboard bot1.m_chessboard
      ∧ bot1.m_gameOver
          = (bot.m_gameOver
              || (bot1.m_chessboard.signals.drop bot.m_chessboard.signals.length).any
                  Signal.isGameOver) := by
  unfold Bot.makeMove at h
  rcases hread : readCell bot.m_chessboard.m_board move.startPos.1 move.startPos.2 with _ | cell
  · rw [hread] at h; cases h
  · rw [hread] at h
    simp only [Option.bind_eq_bind, Option.some_bind] at h
    split_ifs at h
    · simp only [Option.map_eq_some'] at h
      obtain ⟨⟨okm, s1⟩, hmk, hx⟩ := h
      simp only [Prod.mk.injEq] at hx
      rw [← hx.2]
      exact Bot.deliver_effect bot bot s1 rfl rfl rfl (makeMove_effect _ _ _ _ hmk)
    · simp only [Option.some.injEq, Prod.mk.injEq] at h
      rw [← h.2]
      exact effect_unchanged bot bot rfl rfl rfl

/-- What `makeNextMove` does to the bot: the colour stays, the board has
gone through calls of its mutators, and the flag `m_gameOver` has gone up
exactly when a `gameOver` was emitted. -/
theorem makeNextMove_effect (evalSandbox : Board → ℚ) (bot : Bot) (ok : Bool) (bot1 : Bot)
    (h : Bot.makeNextMove evalSandbox bot = some (ok, bot1)) :
    bot1.m_isWhite = bot.m_isWhite
      ∧ callEffect bot.m_chessboard bot1.m_chessboard
      ∧ bot1.m_gameOver
          = (bot.m_gameOver
              || (bot1.m_chessboard.signals.drop bot.m_chessboard.signals.length).any
                  Signal.isGameOver) := by
  unfold Bot.makeNextMove at h
  by_cases hgo : bot.m_gameOver = true
  · rw [if_pos hgo] at h
    simp only [Option.some.injEq, Prod.mk.injEq] at h
    rw [← h.2]
    exact effect_unchanged bot bot rfl rfl rfl
  rw [if_neg hgo] at h
  by_cases hend : bot.m_endgame = true
  · rw [if_pos hend] at h
    exact makeMoveInEndgame_effect bot ok bot1 h
  rw [if_neg hend] at h
  rcases hall : getAllMovesForSide bot.m_endgame bot.m_chessboard.m_board bot.m_isWhite
    with _ | allMoves
  · rw [hall] at h; cases h
  rw [hall] at h
  simp only at h
  by_cases hie : allMoves.isEndgame = true
  · rw [if_pos hie] at h
    have f := makeMoveInEndgame_effect _ ok bot1 h
    exact f
  rw [if_neg hie] at h
  generalize (if (resetSandbox bot).m_chessboard.m_history.length < 6 then (1 : Int)
    else if (resetSandbox bot).m_chessboard.m_history.length < 24 then 2
    else if (resetSandbox bot).m_chessboard.m_history.length < 48 then 3 else 4) = depth at h
  rcases hbest : Bot.getBestMove evalSandbox (resetSandbox bot) depth with _ | ⟨move, bot2⟩
  · rw [hbest] at h; cases h
  rw [hbest] at h
  simp only at h
  unfold Bot.getBestMove at hbest
  simp only [Option.map_eq_some'] at hbest
  obtain ⟨r, -, hr⟩ := hbest
  simp only [Prod.mk.injEq] at hr
  have f := botMakeMove_effect bot2 move ok bot1 h
  rw [← hr.2] at f
  exact f

theorem step_effect (evalSandbox : Board → ℚ) (bot : Bot) (e : Event) (bot1 : Bot)
    (h : Bot.step evalSandbox bot e = some bot1) :
    bot1.m_isWhite = bot.m_isWhite
      ∧ callEffect bot.m_chessboard bot1.m_chessboard
      ∧ bot1.m_gameOver
          = (bot.m_gameOver
              || (bot1.m_chessboard.signals.drop bot.m_chessboard.signals.length).any
                  Signal.isGameOver) := by
  cases e with
  | call op =>
    simp only [Bot.step, Option.map_eq_some'] at h
    obtain ⟨s1, hop, rfl⟩ := h
    exact Bot.deliver_effect bot bot s1 rfl rfl rfl (applyOp_effect _ _ _ hop)
  | timer =>
    simp only [Bot.step, Option.map_eq_some'] at h
    obtain ⟨⟨ok, b⟩, hnext, rfl⟩ := h
    exact makeNextMove_effect evalSandbox bot ok b hnext

/-- Through every sequence of events the bot stays in step with its board,
keeps its colour, and the board keeps its numbers of White and Black cells. -/
theorem run_inStep (evalSandbox : Board → ℚ) (events : List Event) :
    ∀ bot bot1 : Bot, Bot.run evalSandbox bot events = some bot1 → Bot.inStep bot →
      Bot.inStep bot1 ∧ bot1.m_isWhite = bot.m_isWhite
        ∧ countCells bot1.m_chessboard.m_board Cell.White
            = countCells bot.m_chessboard.m_board Cell.White
        ∧ countCells bot1.m_chessboard.m_board Cell.Black
            = countCells bot.m_chessboard.m_board Cell.Black := by
  induction events with
  | nil =>
    intro bot bot1 h hin
    simp only [Bot.run, Option.some.injEq] at h
    rw [← h]
    exact ⟨hin, rfl, rfl, rfl⟩
  | cons e es ih =>
    intro bot bot1 h hin
    simp only [Bot.run, Option.bind_eq_some] at h
    obtain ⟨bot2, h2, h3⟩ := h
    obtain ⟨hw, he, hg⟩ := step_effect evalSandbox bot e bot2 h2
    obtain ⟨i1, i2, i3, i4⟩ := ih bot2 bot1 h3 (inStep_of_effect bot bot2 hin he hg)
    exact ⟨i1, i2.trans hw, i3.trans he.2.2.1, i4.trans he.2.2.2.1⟩

theorem checkGameOver_false (s : Chessboard) (h : (checkGameOver s).1 = false) :
    s.m_gameOver = false
      ∧ hasMobilePiece s.m_board Cell.White ∧ hasMobilePiece s.m_board Cell.Black := by
  cases hgo : s.m_gameOver with
  | true =>
    have e : checkGameOver s = (true, s) := by simp [checkGameOver, hgo]
    rw [e] at h
    cases h
  | false =>
    refine ⟨rfl, ?_⟩
    have hscan := scanRows_spec s.m_board indices false false
    simp only [Bool.false_eq_true, false_or, ← hasMobilePiece_iff] at hscan
    have e : (checkGameOver s).1 = !((scanRows s.m_board indices (false, false)).1
        && (scanRows s.m_board indices (false, false)).2) := by
      simp [checkGameOver, hgo]
    rw [e] at h
    simp only [Bool.not_eq_false', Bool.and_eq_true] at h
    exact ⟨hscan.1.mp h.1, hscan.2.mp h.2⟩

end Amazons
